import Mathlib

/-! DNS / mDNS wire-format codec of `DnsProtokol` (Tomenz/mDns)

A shallow embedding of `src/DnsProtokol.cpp` / `src/DnsProtokol.h`.

Conventions of the embedding
* A `std::string` and a datagram are lists of octets (`List Nat`, every element below 256).
* A position in the datagram is the index `p - pBuffer`; the declared length `nBytInBuf`
  is the length of the list.  A dereference of an index that is not below the length is
  recorded as `Halt.outOfBounds` (the source performs the read, which is undefined behaviour
  when the datagram fills its allocation).  `decodeMem` takes the octets that can be read
  behind the datagram as a second list; there the tests compare with `nBytInBuf` and the
  reads go to both lists.
* The encoder stores table indices in objects of its caller.  `BuildAnswer` is the function on
  items that hold their own objects; `BuildAnswerRef` is the function on a heap of objects
  that items can share.
* `char` is a signed 8-bit type and the host is little-endian (the x86 targets the source
  is written for); bit-fields are allocated from the least significant bit.
* Recursion that the source performs without a bound carries a `fuel` argument; running
  out of it is recorded as `Halt.noFuel`.
-/

namespace DnsProtokol

/-! ## Data model (DnsProtokol.h) -/

/-- The octets of a string literal. -/
def str (s : String) : List Nat := s.toList.map Char.toNat

/-- Header `DNSHEADER` after the constructor has byte-swapped ID and the four counts. -/
structure DNSHEADER where
  ID : Nat
  QR : Nat
  Opcode : Nat
  AA : Nat
  TC : Nat
  RD : Nat
  RA : Nat
  Z : Nat
  RCODE : Nat
  QDCOUNT : Nat
  ANCOUNT : Nat
  NSCOUNT : Nat
  ARCOUNT : Nat
deriving DecidableEq, Repr

/-- Decoded question `QUESTTION`. -/
structure QUESTTION where
  LABEL : List Nat
  QTYPE : Nat
  QCLASS : Nat
deriving DecidableEq, Repr

/-- Decoded resource record `RRECORDS`. -/
structure RRECORDS where
  LABEL : List Nat
  TYPE : Nat
  CLASS : Nat
  TTL : Nat
  RDLENGTH : Nat
  RDATA : List Nat
deriving DecidableEq, Repr

/-- `LABELENTRY = pair<size_t, string>`: suffix-pointer code (0 = none) and label octets. -/
abbrev LABELENTRY := Nat × List Nat
/-- `LABELLIST = vector<LABELENTRY>`. -/
abbrev LABELLIST := List LABELENTRY
/-- `OFFSETLABELLIST = pair<size_t, LABELLIST>`: buffer offset and tokens of one name. -/
abbrev OFFSETLABELLIST := Nat × LABELLIST
/-- `OFFSETLIST = vector<OFFSETLABELLIST>`: the label-reference table. -/
abbrev OFFSETLIST := List OFFSETLABELLIST

/-- `IDxSTRING = pair<size_t, string>`: table index (1-based, 0 before interning) and name. -/
abbrev IDxSTRING := Nat × List Nat

/-- Payload `SRVDATA`. -/
structure SRVDATA where
  Priority : Nat
  Weight : Nat
  Port : Nat
  strHost : IDxSTRING
deriving DecidableEq, Repr

/-- The union `RDATA`, by the member that the caller has set. -/
inductive RDATA where
  | pVoid (octets : List Nat)
  | ptrData (p : IDxSTRING)
  | txtData (strings : List (List Nat))
  | svData (s : SRVDATA)
deriving DecidableEq, Repr

/-- Record to encode, `ANSWERITEM`. -/
structure ANSWERITEM where
  strLabel : IDxSTRING
  rData : RDATA
  usType : Nat
  usClass : Nat
  iTtl : Int
deriving DecidableEq, Repr

/-! ## Decoder -/

/-- Why a piece of decoding stops before its normal return. -/
inductive Halt where
  /-- `throw DnsProtoException(what)`. -/
  | dnsProto (what : String)
  /-- `std::length_error` thrown by `string(ptr, count)` for a negative `char` count. -/
  | lengthError
  /-- The code dereferences the buffer at `idx`, which is not below `nBytInBuf`. -/
  | outOfBounds (idx : Nat)
  /-- The budget of the model is used up: the source is still recursing. -/
  | noFuel
deriving DecidableEq, Repr

/-- Result of a decoding step: the output object as the step left it (`s`), and either the
value returned or the reason why it did not return. -/
inductive Res (σ α : Type) where
  | ok (s : σ) (a : α)
  | halt (s : σ) (h : Halt)
deriving DecidableEq, Repr

/-- Read one octet of the buffer. -/
def rd8 (buf : List Nat) (i : Nat) : Except Nat Nat :=
  match buf[i]? with
  | some b => .ok b
  | none => .error i

/-- Read a big-endian 16-bit value, `ntohs(*(unsigned short*)p)`. -/
def rd16 (buf : List Nat) (i : Nat) : Except Nat Nat :=
  match buf[i]?, buf[i + 1]? with
  | some hi, some lo => .ok (hi * 256 + lo)
  | none, _ => .error i
  | some _, none => .error (i + 1)

/-- Read a big-endian 32-bit value, `ntohl(*(unsigned int*)p)`. -/
def rd32 (buf : List Nat) (i : Nat) : Except Nat Nat :=
  match rd16 buf i, rd16 buf (i + 2) with
  | .ok hi, .ok lo => .ok (hi * 65536 + lo)
  | .error e, _ => .error e
  | .ok _, .error e => .error e

/-- The loop of `ExtractLabels`, from the read `iTokenLen = *pLabel++` at index `pLabel`.
Returns the index at which `pLabel` stands when the function returns. -/
def ExtractLabels.walk : (fuel : Nat) → (buf : List Nat) → (pLabel : Nat) →
    (strLabel : List Nat) → Res (List Nat) Nat
  | 0, _, _, strLabel => .halt strLabel .noFuel
  | fuel + 1, buf, pLabel, strLabel =>
    match buf[pLabel]? with
    | none => .halt strLabel (.outOfBounds pLabel)
    | some iTokenLen =>
      if iTokenLen = 0 then .ok strLabel (pLabel + 1)
      else if iTokenLen &&& 0xc0 = 0xc0 then
        match buf[pLabel + 1]? with
        | none => .halt strLabel (.outOfBounds (pLabel + 1))
        | some lo =>
          let nOffset := (iTokenLen * 256 + lo) &&& 0x3fff
          if nOffset > pLabel then .halt strLabel (.dnsProto "Error extraction label")
          else
            match ExtractLabels.walk fuel buf nOffset strLabel with
            | .ok s _ => .ok s (pLabel + 2)
            | .halt s h => .halt s h
      else if 128 ≤ iTokenLen then
        -- signed char: the count is negative, passes both tests, and the string
        -- constructor throws after the separator has been appended
        .halt (if strLabel = [] then strLabel else strLabel ++ [46]) .lengthError
      else if iTokenLen > 64 then .halt strLabel (.dnsProto "Error extraction label")
      else if pLabel + 1 + iTokenLen > buf.length then
        .halt strLabel (.dnsProto "Invalid buffer content")
      else
        let s1 := if strLabel = [] then strLabel else strLabel ++ [46]
        ExtractLabels.walk fuel buf (pLabel + 1 + iTokenLen)
          (s1 ++ (buf.drop (pLabel + 1)).take iTokenLen)

/-- `ExtractLabels(pLabel, pBuffer, nBytInBuf, strLabel)`: appends the name to `strLabel`
and returns `pLabel - pStart`, the octets consumed at the call site. -/
def ExtractLabels (fuel : Nat) (buf : List Nat) (pLabel : Nat) (strLabel : List Nat) :
    Res (List Nat) Nat :=
  match ExtractLabels.walk fuel buf pLabel strLabel with
  | .ok s e => .ok s (e - pLabel)
  | .halt s h => .halt s h

/-- `ExtractQuestion`: the entries of `pQuestion` that the loop has assigned, in order, and
the octets consumed.  `nNoQuestion` is at most 150 at the only call site, so the
conversion to `short` keeps its value. -/
def ExtractQuestion (fuel : Nat) (buf : List Nat) :
    (nNoQuestion : Nat) → (pCurPointer : Nat) → Res (List QUESTTION) Nat
  | 0, _ => .ok [] 0
  | k + 1, pCurPointer =>
    match ExtractLabels fuel buf pCurPointer [] with
    | .halt s h => .halt [⟨s, 0, 0⟩] h
    | .ok s used =>
      let cur := pCurPointer + used
      match rd16 buf cur with
      | .error i => .halt [⟨s, 0, 0⟩] (.outOfBounds i)
      | .ok qtype =>
        match rd16 buf (cur + 2) with
        | .error i => .halt [⟨s, qtype, 0⟩] (.outOfBounds i)
        | .ok qclass =>
          if cur + 4 > buf.length then
            .halt [⟨s, qtype, qclass⟩] (.dnsProto "Invalid buffer content")
          else
            match ExtractQuestion fuel buf k (cur + 4) with
            | .ok qs n => .ok (⟨s, qtype, qclass⟩ :: qs) (used + 4 + n)
            | .halt qs h => .halt (⟨s, qtype, qclass⟩ :: qs) h

/-- Unsigned decimal as printed by `operator<<`. -/
def decOctets (n : Nat) : List Nat := (Nat.toDigits 10 n).map Char.toNat

/-- A `short` printed by `operator<<`: signed decimal of the 16-bit pattern. -/
def decShort (v : Nat) : List Nat :=
  if v % 65536 < 32768 then decOctets (v % 65536) else 45 :: decOctets (65536 - v % 65536)

/-- One lowercase hexadecimal digit. -/
def hexDigit (d : Nat) : Nat := if d < 10 then 48 + d else 87 + d

/-- An octet under `setfill('0') << hex << setw(2)`. -/
def hex2 (b : Nat) : List Nat := [hexDigit (b / 16 % 16), hexDigit (b % 16)]

/-- RDATA of type 1: `a.b.c.d`; the four octets are read without a look at RDLENGTH. -/
def rdataA (buf : List Nat) (cur : Nat) : Except Nat (List Nat) :=
  match rd8 buf cur, rd8 buf (cur + 1), rd8 buf (cur + 2), rd8 buf (cur + 3) with
  | .ok a, .ok b, .ok c, .ok d =>
    .ok (decOctets a ++ [46] ++ decOctets b ++ [46] ++ decOctets c ++ [46] ++ decOctets d)
  | .error i, _, _, _ => .error i
  | _, .error i, _, _ => .error i
  | _, _, .error i, _ => .error i
  | _, _, _, .error i => .error i

/-- RDATA of type 16: the `while (nTxtOff < RDLENGTH)` loop.  Every pass advances
`nTxtOff`, so `fuel = RDLENGTH` passes are enough. -/
def rdataTxt (buf : List Nat) (cur rdlength : Nat) :
    (fuel : Nat) → (nTxtOff : Nat) → (rdata : List Nat) → Res (List Nat) Unit
  | 0, nTxtOff, rdata => if nTxtOff < rdlength then .halt rdata .noFuel else .ok rdata ()
  | fuel + 1, nTxtOff, rdata =>
    if nTxtOff < rdlength then
      match buf[cur + nTxtOff]? with
      | none => .halt rdata (.outOfBounds (cur + nTxtOff))
      | some nTxtLen =>
        if nTxtLen > 0 then
          let r1 := if nTxtOff ≠ 0 then rdata ++ [44] else rdata
          if cur + nTxtOff + 1 + nTxtLen > buf.length then
            .halt r1 (.outOfBounds buf.length)
          else
            rdataTxt buf cur rdlength fuel (nTxtOff + nTxtLen + 1)
              (r1 ++ [34] ++ (buf.drop (cur + nTxtOff + 1)).take nTxtLen ++ [34])
        else rdataTxt buf cur rdlength fuel (nTxtOff + nTxtLen + 1) rdata
    else .ok rdata ()

/-- RDATA of type 28: every octet of the record in two hex digits, `:` before every
even index but the first. -/
def rdataAAAA (octets : List Nat) : List Nat :=
  (octets.enum.map fun (i, b) => (if i > 0 ∧ i % 2 = 0 then [58] else []) ++ hex2 b).flatten

/-- RDATA of type 41 after `OptCode: `: the option code and length as the source computes
them (`ntohs(*(unsigned short*)p + 2)` adds 2 to the host-order value before the swap). -/
def rdataOpt (b0 b1 : Nat) (payload : List Nat) : List Nat :=
  let raw := b0 + 256 * b1
  let sOptionCode := b0 * 256 + b1
  let raw2 := (raw + 2) % 65536
  let sOptionLen := (raw2 % 256) * 256 + raw2 / 256
  str "OptCode: " ++ decShort sOptionCode ++ str ", OptLen: " ++ decShort sOptionLen ++
    str " -> " ++
    (payload.enum.map fun (i, b) => (if i > 0 then [32] else []) ++ str "0x" ++ hex2 b).flatten

/-- RDATA of type 47 after the name: the remaining octets in hex, joined by `|`. -/
def rdataNsecBits (octets : List Nat) : List Nat :=
  (octets.enum.map fun (i, b) => (if i > 0 then [124] else []) ++ hex2 b).flatten

/-- The `switch (pRRecord[n].TYPE)` of `ExtractRRecords`: renders RDATA of the record that
starts at `cur`, after the test `cur + RDLENGTH <= nBytInBuf` has passed. -/
def renderRData (fuel : Nat) (buf : List Nat) (type cur rdlength : Nat) :
    Res (List Nat) Unit :=
  match type with
  | 1 =>
    match rdataA buf cur with
    | .ok r => .ok r ()
    | .error i => .halt [] (.outOfBounds i)
  | 12 =>
    match ExtractLabels fuel buf cur [] with
    | .ok s _ => .ok s ()
    | .halt s h => .halt s h
  | 16 => rdataTxt buf cur rdlength rdlength 0 []
  | 28 => .ok (rdataAAAA ((buf.drop cur).take rdlength)) ()
  | 33 =>
    match rd16 buf cur, rd16 buf (cur + 2), rd16 buf (cur + 4) with
    | .ok prio, .ok weight, .ok port =>
      let head := decOctets prio ++ [32] ++ decOctets weight ++ [32] ++ decOctets port ++ [32]
      if rdlength > 6 then
        match ExtractLabels fuel buf (cur + 6) [] with
        | .ok s _ => .ok (head ++ s) ()
        | .halt _ h => .halt [] h
      else .ok head ()
    | .error i, _, _ => .halt [] (.outOfBounds i)
    | .ok _, .error i, _ => .halt [] (.outOfBounds i)
    | .ok _, .ok _, .error i => .halt [] (.outOfBounds i)
  | 41 =>
    match rd8 buf cur, rd8 buf (cur + 1) with
    | .ok b0, .ok b1 => .ok (rdataOpt b0 b1 ((buf.drop (cur + 4)).take (rdlength - 4))) ()
    | .error i, _ => .halt [] (.outOfBounds i)
    | .ok _, .error i => .halt [] (.outOfBounds i)
  | 47 =>
    match ExtractLabels fuel buf cur [] with
    | .halt s h => .halt s h
    | .ok s iLabelSize =>
      if rdlength > iLabelSize then
        .ok (s ++ str ", " ++
          rdataNsecBits ((buf.drop (cur + iLabelSize)).take (rdlength - iLabelSize))) ()
      else .ok s ()
  | _ => .ok [] ()

/-- `ExtractRRecords`: the entries of `pRRecord` that the loop has assigned, in order, and
the octets consumed. -/
def ExtractRRecords (fuel : Nat) (buf : List Nat) :
    (nNoRecords : Nat) → (pCurPointer : Nat) → Res (List RRECORDS) Nat
  | 0, _ => .ok [] 0
  | k + 1, pCurPointer =>
    match ExtractLabels fuel buf pCurPointer [] with
    | .halt s h => .halt [⟨s, 0, 0, 0, 0, []⟩] h
    | .ok s used =>
      let cur := pCurPointer + used
      if cur + 10 > buf.length then
        .halt [⟨s, 0, 0, 0, 0, []⟩] (.dnsProto "Invalid buffer content")
      else
        match rd16 buf cur, rd16 buf (cur + 2), rd32 buf (cur + 4), rd16 buf (cur + 8) with
        | .ok type, .ok cls, .ok ttl, .ok rdlength =>
          let cur1 := cur + 10
          if cur1 + rdlength > buf.length then
            .halt [⟨s, type, cls, ttl, rdlength, []⟩] (.dnsProto "Invalid buffer content")
          else
            match renderRData fuel buf type cur1 rdlength with
            | .halt r h => .halt [⟨s, type, cls, ttl, rdlength, r⟩] h
            | .ok r _ =>
              match ExtractRRecords fuel buf k (cur1 + rdlength) with
              | .ok rs n => .ok (⟨s, type, cls, ttl, rdlength, r⟩ :: rs) (used + 10 + rdlength + n)
              | .halt rs h => .halt (⟨s, type, cls, ttl, rdlength, r⟩ :: rs) h
        | _, _, _, _ => .halt [⟨s, 0, 0, 0, 0, []⟩] (.outOfBounds buf.length)

/-- How the constructor call ends. -/
inductive Outcome where
  /-- The constructor returns to its caller. -/
  | returned
  /-- A `DnsProtoException` leaves the constructor: no handler of it matches. -/
  | uncaught (what : String)
  /-- The constructor reads the buffer at an index that is not below `nBytInBuf`. -/
  | outOfBounds (idx : Nat)
  /-- The constructor is still recursing when the budget of the model is used up. -/
  | noFuel
deriving DecidableEq, Repr

/-- The members of a `DnsProtokol` object as the constructor leaves them, and how the
constructor call ended.  Each record array is given by the entries that the extraction loop
has assigned (the entries after them are value-initialised, and an array of a section whose
turn never came is not allocated).  `m_nBytesDecodet` is `none` while it is unassigned. -/
structure Decoded where
  m_DnsHeader : DNSHEADER
  m_pQuestions : List QUESTTION
  m_pAnswers : List RRECORDS
  m_pNameServ : List RRECORDS
  m_pExtraRec : List RRECORDS
  m_strLastErrMsg : String
  m_nBytesDecodet : Option Nat
  outcome : Outcome
deriving DecidableEq, Repr

/-- `what()` of the `std::length_error` that the string constructor throws (libstdc++). -/
def lengthErrorWhat : String := "basic_string::_M_create"

/-- The first twelve octets copied into `m_DnsHeader`, with ID and the counts passed through
`ntohs`.  The flag bit-fields share the 16-bit unit at octets 2 and 3 and are allocated from
its least significant bit, so `QR` is bit 0 of octet 2. -/
def readHeader (buf : List Nat) : DNSHEADER :=
  let b := fun i => buf.getD i 0
  { ID := b 0 * 256 + b 1
    QR := b 2 % 2
    Opcode := b 2 / 2 % 16
    AA := b 2 / 32 % 2
    TC := b 2 / 64 % 2
    RD := b 2 / 128 % 2
    RA := b 3 % 2
    Z := b 3 / 2 % 8
    RCODE := b 3 / 16 % 16
    QDCOUNT := b 4 * 256 + b 5
    ANCOUNT := b 6 * 256 + b 7
    NSCOUNT := b 8 * 256 + b 9
    ARCOUNT := b 10 * 256 + b 11 }

/-- The end of the `try` block when a step halts.  `catch (exception& ex)` is the only
handler.  `DnsProtoException` is declared `class DnsProtoException : exception`, so
`std::exception` is a private base of it and the handler is no match for it (a handler of
type `T&` matches a class type only if `T` is the type itself or an unambiguous public base):
the exception leaves the constructor and `m_strLastErrMsg` is never assigned.  A
`std::length_error` is derived publicly from `std::exception` and is caught. -/
def endTry (d : Decoded) (h : Halt) : Decoded :=
  match h with
  | .dnsProto what => { d with outcome := .uncaught what }
  | .lengthError => { d with m_strLastErrMsg := lengthErrorWhat, outcome := .returned }
  | .outOfBounds i => { d with outcome := .outOfBounds i }
  | .noFuel => { d with outcome := .noFuel }

/-- The constructor `DnsProtokol(szBuffer, nBytInBuf)`, where `buf` is the `nBytInBuf`
octets at `szBuffer` and nothing can be read behind them (the datagram fills its allocation).
The header copy reads twelve octets whatever `nBytInBuf` is: on a shorter datagram that read
leaves the allocation.  `decodeMem` is the constructor with octets behind the datagram, and
`decodeMem fuel buf []` is `decode fuel buf` (`decodeMem_nil`). -/
def decode (fuel : Nat) (buf : List Nat) : Decoded :=
  let h := readHeader buf
  let d0 : Decoded := ⟨h, [], [], [], [], "", none, .returned⟩
  if buf.length < 12 then { d0 with outcome := .outOfBounds buf.length }
  else if h.QDCOUNT + h.ANCOUNT + h.NSCOUNT + h.ARCOUNT > 150 then
    endTry d0 (.dnsProto "Invalid buffer content")
  else
    match (if h.QDCOUNT > 0 then ExtractQuestion fuel buf h.QDCOUNT 12 else .ok [] 0) with
    | .halt qs e => endTry { d0 with m_pQuestions := qs } e
    | .ok qs nq =>
      let d1 := { d0 with m_pQuestions := qs }
      match (if h.ANCOUNT > 0 then ExtractRRecords fuel buf h.ANCOUNT (12 + nq)
             else .ok [] 0) with
      | .halt rs e => endTry { d1 with m_pAnswers := rs } e
      | .ok an na =>
        let d2 := { d1 with m_pAnswers := an }
        match (if h.NSCOUNT > 0 then ExtractRRecords fuel buf h.NSCOUNT (12 + nq + na)
               else .ok [] 0) with
        | .halt rs e => endTry { d2 with m_pNameServ := rs } e
        | .ok ns nn =>
          let d3 := { d2 with m_pNameServ := ns }
          match (if h.ARCOUNT > 0 then ExtractRRecords fuel buf h.ARCOUNT (12 + nq + na + nn)
                 else .ok [] 0) with
          | .halt rs e => endTry { d3 with m_pExtraRec := rs } e
          | .ok ar nr =>
            { d3 with m_pExtraRec := ar, m_nBytesDecodet := some (12 + nq + na + nn + nr) }

/-! ## Encoder -/

/-- The tokens of `sregex_token_iterator(begin, end, regex("\\."), -1)`: the fields between
the dots; an empty field after the last dot is not delivered. -/
def tokenize (strLabel : List Nat) : List (List Nat) :=
  let fs := strLabel.splitOn 46
  if 1 < fs.length ∧ fs.getLast? = some [] then fs.dropLast else fs

/-- The test of the search loop: `std::equal` of the tails `a[m..]` and `b[i..]` under the
predicate that compares the label strings (equal lengths and equal strings). -/
def tailsEqual (a : LABELLIST) (m : Nat) (b : LABELLIST) (i : Nat) : Bool :=
  decide ((a.drop m).map Prod.snd = (b.drop i).map Prod.snd)

/-- `mFound.emplace(key, value)` of `std::map`: no effect when the key is present. -/
def emplace (mFound : List (Nat × Nat)) (key value : Nat) : List (Nat × Nat) :=
  if mFound.any (fun kv => kv.1 = key) then mFound else mFound ++ [(key, value)]

/-- `mFound.rbegin()`: the element with the greatest key, if the map is not empty. -/
def rbegin : List (Nat × Nat) → Option (Nat × Nat)
  | [] => none
  | kv :: rest =>
    match rbegin rest with
    | none => some kv
    | some b => if kv.1 < b.1 then some b else some kv

/-- The three nested search loops of `BuildLabelReferenc` (entry `n`, start `i` in the new
tokens, position `m` in the entry), which fill `mFound`. -/
def searchSuffix (OffListe : OFFSETLIST) (vLabelTokens : LABELLIST) : List (Nat × Nat) :=
  (List.range OffListe.length).foldl (fun mFound n =>
    (List.range vLabelTokens.length).foldl (fun mFound i =>
      (List.range (OffListe.getD n default).2.length).foldl (fun mFound m =>
        if tailsEqual (OffListe.getD n default).2 m vLabelTokens i then
          emplace mFound (vLabelTokens.length - i) (((n + 1) <<< 16) ||| m)
        else mFound) mFound) mFound) []

/-- The assignment `tokens[k].first = v`. -/
def setFirst : LABELLIST → Nat → Nat → LABELLIST
  | [], _, _ => []
  | e :: rest, 0, v => (v, e.2) :: rest
  | e :: rest, k + 1, v => e :: setFirst rest k v

/-- `BuildLabelReferenc(strLabel, OffListe)`: the returned index and the table after it. -/
def BuildLabelReferenc (strLabel : List Nat) (OffListe : OFFSETLIST) : Nat × OFFSETLIST :=
  let vLabelTokens : LABELLIST := (tokenize strLabel).map fun t => (0, t)
  let mFound := searchSuffix OffListe vLabelTokens
  let tokens := match rbegin mFound with
    | none => vLabelTokens
    | some (key, value) => setFirst vLabelTokens (vLabelTokens.length - key) value
  (OffListe.length + 1, OffListe ++ [(0, tokens)])

/-- The buffer after `vs` has been written from index `pos` on. -/
def store (buf : List Nat) (pos : Nat) (vs : List Nat) : List Nat :=
  buf.take pos ++ vs ++ buf.drop (pos + vs.length)

/-- A write through a pointer: `none` is `nullptr` (no writer reaches a write with it). -/
def poke (buf : List Nat) (p : Option Nat) (vs : List Nat) : List Nat :=
  match p with
  | none => buf
  | some a => store buf a vs

/-- The two octets of `htons(v)` for a 16-bit `v`. -/
def be16 (v : Nat) : List Nat := [v / 256 % 256, v % 256]

/-- The four octets of `htonl(v)` for a 32-bit `v`. -/
def be32 (v : Nat) : List Nat := [v / 16777216 % 256, v / 65536 % 256, v / 256 % 256, v % 256]

/-- What the writers share: the table, the caller's buffer, the cursor `pBufPointer` as an
offset from `pBufStart` (`none` = `nullptr`), and `nBufLen`. -/
structure Writer where
  OffListe : OFFSETLIST
  buf : List Nat
  pBufPointer : Option Nat
  nBufLen : Nat
deriving DecidableEq, Repr

/-- The first loop of `BuildLabels`: `(nLen, nLenOffset)`. -/
def labelsLen : LABELLIST → Nat × Nat
  | [] => (0, 1)
  | tok :: rest =>
    if tok.1 ≠ 0 then (2, 0)
    else ((labelsLen rest).1 + (tok.2.length + 1), (labelsLen rest).2)

/-- The offset that the second loop of `BuildLabels` computes for a suffix-pointer code. -/
def targetOffset (OffListe : OFFSETLIST) (first : Nat) : Nat :=
  let index := ((first >>> 16) &&& 0xffff) - 1
  let e := OffListe.getD index default
  e.1 + (((List.range (first &&& 0xffff)).map fun n =>
    (e.2.getD n default).2.length + 1).sum)

/-- The octets that the second loop of `BuildLabels` writes for the tokens. -/
def labelsOctets (OffListe : OFFSETLIST) : LABELLIST → List Nat
  | [] => [0]
  | tok :: rest =>
    if tok.1 ≠ 0 then be16 (0xc000 ||| (targetOffset OffListe tok.1 % 65536))
    else (tok.2.length % 256) :: tok.2 ++ labelsOctets OffListe rest

/-- The assignment `OffListe[k].first = v`. -/
def setOffset : OFFSETLIST → Nat → Nat → OFFSETLIST
  | [], _, _ => []
  | e :: rest, 0, v => (v, e.2) :: rest
  | e :: rest, k + 1, v => e :: setOffset rest k v

/-- `BuildLabels(OffListe, index, pBufPointer, nBufLen, nBufOffset)`. -/
def BuildLabels (w : Writer) (index nBufOffset : Nat) : Writer :=
  if index = 0 then w
  else
    let tokens := (w.OffListe.getD (index - 1) default).2
    let need := (labelsLen tokens).1 + (labelsLen tokens).2
    if need > w.nBufLen then { w with nBufLen := need }
    else
      let off := setOffset w.OffListe (index - 1) nBufOffset
      let octets := labelsOctets off tokens
      { OffListe := off
        buf := poke w.buf w.pBufPointer octets
        pBufPointer := w.pBufPointer.map (· + octets.length)
        nBufLen := w.nBufLen - need }

/-- The difference `pBufPointer - pBufStart` (0 when both are null). -/
def Writer.offset (w : Writer) : Nat := w.pBufPointer.getD 0

/-- `BuildQuestion(lstOffsetListe, iLabelIndex, QTYPE, QCLASS, pBufPointer, nBufLen, pBufStart)`. -/
def BuildQuestion (w : Writer) (iLabelIndex QTYPE QCLASS : Nat) : Writer :=
  let nSaveLen := w.nBufLen
  let w1 := BuildLabels w iLabelIndex w.offset
  if w1.nBufLen ≥ nSaveLen then { w1 with nBufLen := w1.nBufLen + 4 }
  else if w1.nBufLen < 4 then { w1 with nBufLen := (nSaveLen - w1.nBufLen) + 4 }
  else
    { w1 with
      buf := poke w1.buf w1.pBufPointer (be16 QTYPE ++ be16 QCLASS)
      pBufPointer := w1.pBufPointer.map (· + 4)
      nBufLen := w1.nBufLen - 4 }

/-- `BuildRRecord(OffListe, iLabelIndex, TYPE, CLASS, TTL, pBufPointer, nBufLen, pBufStart)`. -/
def BuildRRecord (w : Writer) (iLabelIndex TYPE CLASS : Nat) (TTL : Int) : Writer :=
  let nSaveLen := w.nBufLen
  let w1 := BuildLabels w iLabelIndex w.offset
  if w1.nBufLen ≥ nSaveLen then { w1 with nBufLen := w1.nBufLen + 10 }
  else if w1.nBufLen < 10 then { w1 with nBufLen := (nSaveLen - w1.nBufLen) + 10 }
  else
    { w1 with
      buf := poke w1.buf w1.pBufPointer
        (be16 TYPE ++ be16 CLASS ++ be32 (TTL % 4294967296).toNat ++ [0, 0])
      pBufPointer := w1.pBufPointer.map (· + 10)
      nBufLen := w1.nBufLen - 10 }

/-- The value `static_cast<uint16_t>(nSaveLen - nBufLen)` of `size_t` operands. -/
def diff16 (nSaveLen nBufLen : Nat) : Nat :=
  (nSaveLen + 18446744073709551616 - nBufLen) % 18446744073709551616 % 65536

/-- `BuildRData(TYPE, rData, pBufPointer, nBufLen, OffListe, pBufStart)`.  `pRdataLen` is
`pBufPointer - 2` at entry.  A `TYPE` whose union member the caller has not set makes the
source read a pointer of another type; the model writes nothing there. -/
def BuildRData (w : Writer) (TYPE : Nat) (rData : RDATA) : Writer :=
  let pRdataLen := w.pBufPointer.map (· - 2)
  let nSaveLen := w.nBufLen
  match TYPE, rData with
  | 1, .pVoid octets =>
    if w.nBufLen < 4 then { w with nBufLen := 4 }
    else
      let b1 := poke w.buf w.pBufPointer ((List.range 4).map fun i => octets.getD i 0)
      { w with
        buf := poke b1 pRdataLen (be16 4)
        pBufPointer := w.pBufPointer.map (· + 4)
        nBufLen := w.nBufLen - 4 }
  | 12, .ptrData p =>
    let w1 := BuildLabels w p.1 w.offset
    if w1.pBufPointer.isSome then
      { w1 with buf := poke w1.buf pRdataLen (be16 (diff16 nSaveLen w1.nBufLen)) }
    else w1
  | 16, .txtData strings =>
    let nLen := (strings.map fun s => s.length + 1).sum
    if w.nBufLen < nLen then { w with nBufLen := nLen }
    else
      let octets := (strings.map fun s => (s.length % 256) :: s).flatten
      let b1 := poke w.buf w.pBufPointer octets
      let p1 := w.pBufPointer.map (· + octets.length)
      let n1 := w.nBufLen - nLen
      { w with
        buf := if p1.isSome then poke b1 pRdataLen (be16 (diff16 nSaveLen n1)) else b1
        pBufPointer := p1
        nBufLen := n1 }
  | 28, .pVoid octets =>
    if w.nBufLen < 16 then { w with nBufLen := 16 }
    else
      let b1 := poke w.buf w.pBufPointer ((List.range 16).map fun i => octets.getD i 0)
      { w with
        buf := poke b1 pRdataLen (be16 16)
        pBufPointer := w.pBufPointer.map (· + 16)
        nBufLen := w.nBufLen - 16 }
  | 33, .svData s =>
    if w.nBufLen > 6 then
      let b1 := poke w.buf w.pBufPointer (be16 s.Priority ++ be16 s.Weight ++ be16 s.Port)
      let w0 : Writer :=
        { w with buf := b1, pBufPointer := w.pBufPointer.map (· + 6), nBufLen := w.nBufLen - 6 }
      let w1 := BuildLabels w0 s.strHost.1 w0.offset
      if w1.nBufLen > nSaveLen - 6 then { w1 with nBufLen := w1.nBufLen + 6 }
      else { w1 with buf := poke w1.buf pRdataLen (be16 (diff16 nSaveLen w1.nBufLen)) }
    else
      let w0 : Writer := { w with pBufPointer := w.pBufPointer.map (· + 6), nBufLen := 0 }
      let w1 := BuildLabels w0 s.strHost.1 (w.offset + 6)
      { w1 with nBufLen := w1.nBufLen + 6 }
  | _, _ => w

/-- What `BuildSearch` and `BuildAnswer` leave behind: the return value, the caller's
buffer (`none` = `nullptr`) and the in/out argument `nBuflen`. -/
structure Built where
  ret : Nat
  szBuffer : Option (List Nat)
  nBuflen : Nat
deriving DecidableEq, Repr

/-- `BuildSearch(strQuestion, szBuffer, nBuflen)`.  Only ID and QDCOUNT of the header are
written; the other eight header octets keep what the caller's buffer holds. -/
def BuildSearch (strQuestion : List Nat) (szBuffer : Option (List Nat)) (nBuflen : Nat) :
    Built :=
  let (iLabRef, lstOffsetListe) := BuildLabelReferenc strQuestion []
  let probe := BuildQuestion ⟨lstOffsetListe, [], none, 0⟩ iLabRef 12 1
  let nBufLenNeeded := probe.nBufLen + 12
  match szBuffer with
  | none => ⟨0, none, nBufLenNeeded⟩
  | some buf =>
    if nBuflen < nBufLenNeeded then ⟨0, some buf, nBufLenNeeded⟩
    else
      let b1 := store (store buf 0 (be16 0)) 4 (be16 1)
      let w := BuildQuestion ⟨probe.OffListe, b1, some 12, nBuflen - 12⟩ iLabRef 12 1
      ⟨w.offset, some w.buf, w.nBufLen⟩

/-- The body of the loop of the lambda `fnExtractLabels` for an item that shares no object
with another item (the `ANSWERITEM` holds its own copy of the object that `rData` points to):
interns the owner name of the item and the name inside a PTR or SRV payload, and stores the
indices in the item.  `internItemRef` is the loop body on the objects of the caller. -/
def internItem (off : OFFSETLIST) (item : ANSWERITEM) : OFFSETLIST × ANSWERITEM :=
  let r0 := BuildLabelReferenc item.strLabel.2 off
  let item0 := { item with strLabel := (r0.1, item.strLabel.2) }
  match item0.usType, item0.rData with
  | 12, .ptrData p =>
    let r := BuildLabelReferenc p.2 r0.2
    (r.2, { item0 with rData := .ptrData (r.1, p.2) })
  | 33, .svData s =>
    let r := BuildLabelReferenc s.strHost.2 r0.2
    (r.2, { item0 with rData := .svData { s with strHost := (r.1, s.strHost.2) } })
  | _, _ => (r0.2, item0)

/-- The lambda `fnExtractLabels` of `BuildAnswer`: the table and the items after the loop. -/
def fnExtractLabels : OFFSETLIST → List ANSWERITEM → OFFSETLIST × List ANSWERITEM
  | off, [] => (off, [])
  | off, item :: rest =>
    let r1 := internItem off item
    let r2 := fnExtractLabels r1.1 rest
    (r2.1, r1.2 :: r2.2)

/-- The lambda `fnCalcBufferSize` of `BuildAnswer`: adds the sizes that the two writers
report for a null buffer; returns the table and `nTotalSize`. -/
def fnCalcBufferSize : OFFSETLIST → List ANSWERITEM → Nat → OFFSETLIST × Nat
  | off, [], nTotalSize => (off, nTotalSize)
  | off, item :: rest, nTotalSize =>
    let w1 := BuildRRecord ⟨off, [], none, 0⟩ item.strLabel.1 item.usType item.usClass item.iTtl
    let w2 := BuildRData ⟨w1.OffListe, [], none, 0⟩ item.usType item.rData
    fnCalcBufferSize w2.OffListe rest (nTotalSize + w1.nBufLen + w2.nBufLen)

/-- The lambda `fnBuildRecords` of `BuildAnswer`. -/
def fnBuildRecords : Writer → List ANSWERITEM → Writer
  | w, [] => w
  | w, item :: rest =>
    let w1 := BuildRRecord w item.strLabel.1 item.usType item.usClass item.iTtl
    fnBuildRecords (BuildRData w1 item.usType item.rData) rest

/-- The header assignments at the end of `BuildAnswer`: ID, Opcode, QR, RD, AA and the three
record counts; TC and octet 3 keep the zero of the `fill`, QDCOUNT too. -/
def answerHeader (buf : List Nat) (an ns ar : Nat) : List Nat :=
  let b2 := buf.getD 2 0
  let b1 := store buf 0 (be16 0)
  let b2 := store b1 2 [1 + b2 / 64 % 2 * 64]
  store (store (store b2 6 (be16 (an % 65536))) 8 (be16 (ns % 65536))) 10 (be16 (ar % 65536))

/-- `BuildAnswer(AnList, NsList, ArList, szBuffer, nBuflen)` for three lists of items none of
which shares an object with another (`BuildAnswerRef` is the function on the objects of the
caller, and is this one where no object is shared). -/
def BuildAnswer (AnList NsList ArList : List ANSWERITEM) (szBuffer : Option (List Nat))
    (nBuflen : Nat) : Built :=
  let e1 := fnExtractLabels [] AnList
  let e2 := fnExtractLabels e1.1 NsList
  let e3 := fnExtractLabels e2.1 ArList
  let c1 := fnCalcBufferSize e3.1 e1.2 0
  let c2 := fnCalcBufferSize c1.1 e2.2 c1.2
  let c3 := fnCalcBufferSize c2.1 e3.2 c2.2
  let nBufLenNeeded := c3.2 + 12
  match szBuffer with
  | none => ⟨0, none, nBufLenNeeded⟩
  | some buf =>
    if nBuflen < nBufLenNeeded then ⟨0, some buf, nBufLenNeeded⟩
    else
      let b0 := store buf 0 (List.replicate 12 0)
      let w1 := fnBuildRecords ⟨c3.1, b0, some 12, nBuflen - 12⟩ e1.2
      let w2 := fnBuildRecords w1 e2.2
      let w3 := fnBuildRecords w2 e3.2
      ⟨w3.offset, some (answerHeader w3.buf AnList.length NsList.length ArList.length),
        w3.nBufLen⟩


/-! ## Notions used in the statements -/

/-- The dotted string of a list of labels. -/
def dotted (labels : List (List Nat)) : List Nat := [46].intercalate labels

/-- One or more labels, each of 1 to 63 octets and without a dot. -/
def WellFormedLabels (labels : List (List Nat)) : Prop :=
  labels ≠ [] ∧ ∀ l ∈ labels, 1 ≤ l.length ∧ l.length ≤ 63 ∧ 46 ∉ l

/-- A well-formed dotted name. -/
def WellFormedName (name : List Nat) : Prop :=
  ∃ labels, WellFormedLabels labels ∧ name = dotted labels

/-- What `ExtractLabels` makes of `strLabel` when it reads the labels one after the other. -/
def appendName (strLabel : List Nat) : List (List Nat) → List Nat
  | [] => strLabel
  | l :: ls => appendName ((if strLabel = [] then strLabel else strLabel ++ [46]) ++ l) ls

/-- Uncompressed wire form of a name: length octet and octets of every label, then 0. -/
def wireLabels : List (List Nat) → List Nat
  | [] => [0]
  | l :: ls => l.length % 256 :: l ++ wireLabels ls

/-- From `fuel = F` on, the loop of `ExtractLabels` started at index `p` returns with the
labels appended to `strLabel` and with `pLabel` at index `e`. -/
def Decodes (buf : List Nat) (p : Nat) (labels : List (List Nat)) (e F : Nat) : Prop :=
  ∀ fuel, F ≤ fuel → ∀ s, ExtractLabels.walk fuel buf p s = .ok (appendName s labels) e

/-- The octets that `BuildLabels` needs for the table entry `index` (1-based). -/
def nameLen (OffListe : OFFSETLIST) (index : Nat) : Nat :=
  (labelsLen (OffListe.getD (index - 1) default).2).1 +
    (labelsLen (OffListe.getD (index - 1) default).2).2

/-- A record of one of the five types that the encoder writes, with the union member of
that type set (four address octets for A, sixteen for AAAA). -/
def Typed (it : ANSWERITEM) : Prop :=
  (it.usType = 1 ∧ ∃ o, it.rData = .pVoid o ∧ o.length = 4) ∨
  (it.usType = 28 ∧ ∃ o, it.rData = .pVoid o ∧ o.length = 16) ∨
  (it.usType = 12 ∧ ∃ p, it.rData = .ptrData p) ∨
  (it.usType = 16 ∧ ∃ ss, it.rData = .txtData ss) ∨
  (it.usType = 33 ∧ ∃ s, it.rData = .svData s)

/-- The table indices of the record are set (not 0). -/
def Interned (it : ANSWERITEM) : Prop :=
  it.strLabel.1 ≠ 0 ∧ (∀ p, it.rData = .ptrData p → p.1 ≠ 0) ∧
    (∀ s, it.rData = .svData s → s.strHost.1 ≠ 0)

/-- The octets that `BuildRData` needs for a payload. -/
def payloadLen (T : OFFSETLIST) (TYPE : Nat) (rData : RDATA) : Nat :=
  match TYPE, rData with
  | 1, .pVoid _ => 4
  | 12, .ptrData p => nameLen T p.1
  | 16, .txtData strings => (strings.map fun s => s.length + 1).sum
  | 28, .pVoid _ => 16
  | 33, .svData s => nameLen T s.strHost.1 + 6
  | _, _ => 0

/-- The octets that `BuildRRecord` and `BuildRData` need for a record. -/
def recLen (T : OFFSETLIST) (it : ANSWERITEM) : Nat :=
  nameLen T it.strLabel.1 + 10 + payloadLen T it.usType it.rData

/-- The payload octets that `BuildRData` writes at offset `p`, and the table after it. -/
def payloadOctets (T : OFFSETLIST) (p : Nat) (TYPE : Nat) (rData : RDATA) :
    OFFSETLIST × List Nat :=
  match TYPE, rData with
  | 1, .pVoid o => (T, (List.range 4).map fun i => o.getD i 0)
  | 12, .ptrData q =>
    (setOffset T (q.1 - 1) p, labelsOctets (setOffset T (q.1 - 1) p) (T.getD (q.1 - 1) default).2)
  | 16, .txtData strings => (T, (strings.map fun s => (s.length % 256) :: s).flatten)
  | 28, .pVoid o => (T, (List.range 16).map fun i => o.getD i 0)
  | 33, .svData s =>
    (setOffset T (s.strHost.1 - 1) (p + 6),
      be16 s.Priority ++ be16 s.Weight ++ be16 s.Port ++
        labelsOctets (setOffset T (s.strHost.1 - 1) (p + 6)) (T.getD (s.strHost.1 - 1) default).2)
  | _, _ => (T, [])

/-- The owner name and the eight octets of TYPE, CLASS and TTL of a record written at
offset `p`. -/
def recordHead (T : OFFSETLIST) (p : Nat) (it : ANSWERITEM) : List Nat :=
  labelsOctets (setOffset T (it.strLabel.1 - 1) p) (T.getD (it.strLabel.1 - 1) default).2 ++
    (be16 it.usType ++ be16 it.usClass ++ be32 (it.iTtl % 4294967296).toNat)

/-- The octets of a record written at offset `p` (head, RDLENGTH, payload), and the table
after the record. -/
def recordOctets (T : OFFSETLIST) (p : Nat) (it : ANSWERITEM) : OFFSETLIST × List Nat :=
  let pl := payloadOctets (setOffset T (it.strLabel.1 - 1) p)
    (p + (recordHead T p it).length + 2) it.usType it.rData
  (pl.1, recordHead T p it ++ be16 (pl.2.length % 65536) ++ pl.2)

/-- The octets of a list of records written from offset `p` on, and the table after it. -/
def recordsOctets : OFFSETLIST → Nat → List ANSWERITEM → OFFSETLIST × List Nat
  | T, _, [] => (T, [])
  | T, p, it :: rest =>
    let r := recordOctets T p it
    let rs := recordsOctets r.1 (p + r.2.length) rest
    (rs.1, r.2 ++ rs.2)

/-- The record octets of the datagram of `BuildAnswer`: the three lists, interned in order
and written from offset 12 on. -/
def answerRecords (AnList NsList ArList : List ANSWERITEM) : List Nat :=
  let e1 := fnExtractLabels [] AnList
  let e2 := fnExtractLabels e1.1 NsList
  let e3 := fnExtractLabels e2.1 ArList
  let rA := recordsOctets e3.1 12 e1.2
  let rN := recordsOctets rA.1 (12 + rA.2.length) e2.2
  let rR := recordsOctets rN.1 (12 + rA.2.length + rN.2.length) e3.2
  rA.2 ++ rN.2 ++ rR.2

/-- The header octets that `BuildAnswer` leaves: QR bit set, the three record counts. -/
def answerHead (an ns ar : Nat) : List Nat :=
  [0, 0, 1, 0, 0, 0] ++ be16 (an % 65536) ++ be16 (ns % 65536) ++ be16 (ar % 65536)

/-- Sample answer list: a PTR record and an SRV record. -/
def sampleAn : List ANSWERITEM :=
  [⟨(0, str "_http._tcp.local"), .ptrData (0, str "A._http._tcp.local"), 12, 1, 120⟩,
   ⟨(0, str "A._http._tcp.local"), .svData ⟨10, 20, 80, (0, str "host.local")⟩, 33, 1, 120⟩]

/-- Sample authority list: a TXT record. -/
def sampleNs : List ANSWERITEM :=
  [⟨(0, str "A._http._tcp.local"), .txtData [str "k=1", str "v=2"], 16, 1, 120⟩]

/-- Sample additional list: an A record and an AAAA record. -/
def sampleAr : List ANSWERITEM :=
  [⟨(0, str "host.local"), .pVoid [192, 168, 1, 2], 1, 1, 120⟩,
   ⟨(0, str "host.local"), .pVoid [254, 128, 0, 0, 0, 0, 0, 0, 0, 0, 0, 0, 0, 0, 0, 1], 28, 1, 120⟩]

/-- The suffix-pointer code that `BuildLabelReferenc` stores for entry `n` (0-based) and
position `m`. -/
def pack (n m : Nat) : Nat := ((n + 1) <<< 16) ||| m

/-- The label strings of a token list. -/
def labelsOf (tokens : LABELLIST) : List (List Nat) := tokens.map Prod.snd

/-- The tokens of the table entry `k` (0-based). -/
def tokensAt (T : OFFSETLIST) (k : Nat) : LABELLIST := (T.getD k default).2

/-- The number of leading tokens without a suffix pointer. -/
def litLen : LABELLIST → Nat
  | [] => 0
  | tok :: rest => if tok.1 ≠ 0 then 0 else litLen rest + 1

/-- The search of `BuildLabelReferenc` tests the triple (n, i, m) with success. -/
def Hit (T : OFFSETLIST) (vTok : LABELLIST) (n i m : Nat) : Prop :=
  n < T.length ∧ i < vTok.length ∧ m < (tokensAt T n).length ∧
    tailsEqual (tokensAt T n) m vTok i = true

/-- What the search of `BuildLabelReferenc` has put into `mFound` after the triples in `V`:
every element comes from a successful test of `V` in the first entry that has one for its
start `i`, and every successful test of `V` has its key in the map. -/
def SearchInv (T : OFFSETLIST) (vTok : LABELLIST) (V : Nat → Nat → Nat → Prop)
    (mFound : List (Nat × Nat)) : Prop :=
  (∀ kv ∈ mFound, ∃ n i m, V n i m ∧ Hit T vTok n i m ∧ kv.1 = vTok.length - i ∧
      kv.2 = pack n m ∧ ∀ n1 m1, V n1 i m1 → Hit T vTok n1 i m1 → n ≤ n1) ∧
  (∀ n i m, V n i m → Hit T vTok n i m → ∃ v, (vTok.length - i, v) ∈ mFound)

/-- The first suffix pointer of the entry `k`, if there is one, names an earlier entry `n` and
a position `m` in it that is written literally, and the labels from there on are the labels
of the entry `k` from the pointer on. -/
def PtrOK (T : OFFSETLIST) (k : Nat) : Prop :=
  litLen (tokensAt T k) < (tokensAt T k).length →
    ∃ n m, ((tokensAt T k).getD (litLen (tokensAt T k)) default).1 = pack n m ∧ n < k ∧
      m < (tokensAt T n).length ∧ m ≤ litLen (tokensAt T n) ∧
      labelsOf ((tokensAt T n).drop m) = labelsOf ((tokensAt T k).drop (litLen (tokensAt T k)))

/-- Every entry of the table has a sound first suffix pointer. -/
def TableOK (T : OFFSETLIST) : Prop := ∀ k, k < T.length → PtrOK T k

/-- The buffer holds the octets `x` from index `q` on. -/
def Holds (buf : List Nat) (q : Nat) (x : List Nat) : Prop :=
  ∃ a b, buf = a ++ x ++ b ∧ a.length = q

/-- The octets of the first `m` tokens when they are written literally. -/
def preLen (tokens : LABELLIST) (m : Nat) : Nat :=
  ((tokens.take m).map fun t => t.2.length + 1).sum

/-- The entries before `k` are written in the buffer: from the offset of every token that an
entry writes literally (and from the offset of its suffix pointer), `ExtractLabels` reads the
labels of the entry from that token on. -/
def Placed (buf : List Nat) (T : OFFSETLIST) (k : Nat) : Prop :=
  k ≤ buf.length ∧ ∀ n, n < k → ∀ m, m ≤ litLen (tokensAt T n) → m < (tokensAt T n).length →
    (T.getD n default).1 + preLen (tokensAt T n) m < buf.length ∧
    ∃ e F, Decodes buf ((T.getD n default).1 + preLen (tokensAt T n) m)
      (labelsOf ((tokensAt T n).drop m)) e F

/-- The number of table entries that `fnExtractLabels` adds for an item. -/
def entryWidth (it : ANSWERITEM) : Nat :=
  match it.usType, it.rData with
  | 12, .ptrData _ => 2
  | 33, .svData _ => 2
  | _, _ => 1

/-- The item holds the indices of the entries `k` (owner) and `k + 1` (name of a PTR or SRV
payload) of the table, and these entries hold the tokens of its names. -/
def Linked (T : OFFSETLIST) (k : Nat) (it : ANSWERITEM) : Prop :=
  it.strLabel.1 = k + 1 ∧ k + entryWidth it ≤ T.length ∧
  labelsOf (tokensAt T k) = tokenize it.strLabel.2 ∧
  (∀ p, it.rData = .ptrData p → p.1 = k + 2 ∧ labelsOf (tokensAt T (k + 1)) = tokenize p.2) ∧
  (∀ s, it.rData = .svData s →
    s.strHost.1 = k + 2 ∧ labelsOf (tokensAt T (k + 1)) = tokenize s.strHost.2)

/-- The items hold the indices of consecutive entries of the table, from the entry `k` on. -/
def LinkedList : OFFSETLIST → Nat → List ANSWERITEM → Prop
  | _, _, [] => True
  | T, k, it :: rest => Linked T k it ∧ LinkedList T (k + entryWidth it) rest

/-- A record of one of the five types whose owner name, PTR target and SRV host are
well-formed names and whose TXT strings have at most 255 octets each (the bound of the data
model: the length of a string is written in one octet). -/
def WellFormedItem (it : ANSWERITEM) : Prop :=
  Typed it ∧ WellFormedName it.strLabel.2 ∧
  (∀ p, it.rData = .ptrData p → WellFormedName p.2) ∧
  (∀ s, it.rData = .svData s → WellFormedName s.strHost.2) ∧
  (∀ ss, it.rData = .txtData ss → ∀ s ∈ ss, s.length ≤ 255)

/-- The RDATA string of a decoded SRV record: priority, weight and port in decimal, and the
host name. -/
def srvText (s : SRVDATA) : List Nat :=
  decOctets (s.Priority % 65536) ++ [32] ++ decOctets (s.Weight % 65536) ++ [32] ++
    decOctets (s.Port % 65536) ++ [32] ++ s.strHost.2

/-- The decoded record repeats the names of the encoded item: the owner name as LABEL, and
as RDATA the target of a PTR item, and for an SRV item the three numbers and the host. -/
def Echo (it : ANSWERITEM) (r : RRECORDS) : Prop :=
  r.LABEL = it.strLabel.2 ∧ r.TYPE = it.usType ∧
  (∀ p, it.rData = .ptrData p → r.RDATA = p.2) ∧
  (∀ s, it.rData = .svData s → r.RDATA = srvText s)

/-- The number of table entries that `fnExtractLabels` adds for a list of items. -/
def entryCount (items : List ANSWERITEM) : Nat := (items.map entryWidth).sum

/-- A list of 151 A records with the owner name `a`. -/
def manyRecords : List ANSWERITEM :=
  List.replicate 151 ⟨(0, str "a"), .pVoid [10, 0, 0, 1], 1, 1, 120⟩

/-- An A record with the owner name `a`. -/
def PlainA (it : ANSWERITEM) : Prop :=
  it.usType = 1 ∧ it.strLabel.2 = str "a" ∧ ∃ o, it.rData = .pVoid o

/-! ## Datagrams -/

/-- A datagram of five octets. -/
def shortDatagram : List Nat := [0, 0, 0, 0, 0]

/-- A header with QDCOUNT = 1 and nothing after it. -/
def headerOnly : List Nat := [0, 0, 0, 0, 0, 1, 0, 0, 0, 0, 0, 0]

/-- One question whose name is the label `a` at offset 12 and, at offset 14, a pointer to
offset 12. -/
def loopDatagram : List Nat :=
  [0, 0, 0, 0, 0, 1, 0, 0, 0, 0, 0, 0, 1, 97, 0xc0, 12, 0, 12, 0, 1]

/-- One question whose name is the pointer `C0 0C` at offset 12. -/
def selfPointerDatagram : List Nat :=
  [0, 0, 0, 0, 0, 1, 0, 0, 0, 0, 0, 0, 0xc0, 12, 0, 12, 0, 1]

/-- One question whose name is one label of 64 octets `a`. -/
def label64Datagram : List Nat :=
  [0, 0, 0, 0, 0, 1, 0, 0, 0, 0, 0, 0, 64] ++ List.replicate 64 97 ++ [0, 0, 12, 0, 1]

/-- A header with QDCOUNT = 151 and nothing after it. -/
def count151Datagram : List Nat := [0, 0, 0, 0, 0, 151, 0, 0, 0, 0, 0, 0]

/-- One answer record of type A with the root name and RDLENGTH = 4, cut off after the ten
fixed octets. -/
def truncatedRData : List Nat :=
  [0, 0, 0, 0, 0, 0, 0, 1, 0, 0, 0, 0, 0, 0, 1, 0, 1, 0, 0, 0, 0, 0, 4]

/-- One question `a` (PTR, IN) and one answer record whose owner name starts with the length
octet 65. -/
def longLabelAfterQuestion : List Nat :=
  [0, 0, 0, 0, 0, 1, 0, 1, 0, 0, 0, 0, 1, 97, 0, 0, 12, 0, 1, 65, 0, 0, 0, 0]

/-- One answer record of type TXT with the root name whose RDATA holds an empty string and
the string `a`. -/
def txtLeadingEmpty : List Nat :=
  [0, 0, 0, 0, 0, 0, 0, 1, 0, 0, 0, 0, 0, 0, 16, 0, 1, 0, 0, 0, 0, 0, 3, 0, 1, 97]

/-- One additional record of type OPT with the root name and the RDATA
`00 01 00 02 AA BB`. -/
def optDatagram : List Nat :=
  [0, 0, 0, 0, 0, 0, 0, 0, 0, 0, 0, 1, 0, 0, 41, 0, 1, 0, 0, 0, 0, 0, 6, 0, 1, 0, 2, 170, 187]

/-- The questions are read from index `p` on, one after the other: `us` holds, for every
question, the octets that `ExtractLabels` consumes at the call site for its name. -/
def QuestionsAt (fuel : Nat) (buf : List Nat) : Nat → List QUESTTION → List Nat → Prop
  | _, [], [] => True
  | p, q :: qs, u :: us =>
    ExtractLabels fuel buf p [] = .ok q.LABEL u ∧ QuestionsAt fuel buf (p + u + 4) qs us
  | _, _, _ => False

/-- The records are read from index `p` on, one after the other: `us` holds, for every
record, the octets that `ExtractLabels` consumes at the call site for its owner name. -/
def RecordsAt (fuel : Nat) (buf : List Nat) : Nat → List RRECORDS → List Nat → Prop
  | _, [], [] => True
  | p, r :: rs, u :: us =>
    ExtractLabels fuel buf p [] = .ok r.LABEL u ∧
      RecordsAt fuel buf (p + u + 10 + r.RDLENGTH) rs us
  | _, _, _ => False

/-- The octets of a question section: name octets and 4 for every question. -/
def questionOctets (us : List Nat) : Nat := (us.map (· + 4)).sum

/-- The octets of a record section: name octets, 10 and RDLENGTH for every record. -/
def sectionOctets (rs : List RRECORDS) (us : List Nat) : Nat :=
  (List.zipWith (fun r u => u + 10 + r.RDLENGTH) rs us).sum

/-- The value of a lowercase hexadecimal digit. -/
def unhexDigit (c : Nat) : Nat := if c < 58 then c - 48 else c - 87

/-- The eight groups of an IPv6 address text: octets `2j` and `2j + 1` in two hexadecimal
digits each. -/
def hexGroups (o : List Nat) : List (List Nat) :=
  (List.range 8).map fun j => hex2 (o.getD (2 * j) 0) ++ hex2 (o.getD (2 * j + 1) 0)

/-- The sixteen octets read back from a text of eight groups of four hexadecimal digits: the
digits of octet `i` stand at the indices `2i + i/2` and `2i + i/2 + 1`. -/
def parseAAAA (s : List Nat) : List Nat :=
  (List.range 16).map fun i =>
    unhexDigit (s.getD (2 * i + i / 2) 0) * 16 + unhexDigit (s.getD (2 * i + i / 2 + 1) 0)

/-- The labels from index `i` on are the complete tail, from some position on, of a name of
the table. -/
def SharedTail (T : OFFSETLIST) (labels : List (List Nat)) (i : Nat) : Prop :=
  i < labels.length ∧ ∃ n m, n < T.length ∧ m < (tokensAt T n).length ∧
    labelsOf ((tokensAt T n).drop m) = labels.drop i

/-- Labels written literally: the length octet and the octets of every label, no root
octet. -/
def literalOctets (ls : List (List Nat)) : List Nat :=
  (ls.map fun l => (l.length % 256) :: l).flatten

/-- Two PTR records with the owner `_http._tcp.local` and the targets `A._http._tcp.local` and
`B._http._tcp.local`. -/
def twoPtrRecords : List ANSWERITEM :=
  [⟨(0, str "_http._tcp.local"), .ptrData (0, str "A._http._tcp.local"), 12, 1, 120⟩,
   ⟨(0, str "_http._tcp.local"), .ptrData (0, str "B._http._tcp.local"), 12, 1, 120⟩]

/-- A record whose type is none of the five that `BuildRData` writes a payload for. -/
def Other (it : ANSWERITEM) : Prop :=
  it.usType ≠ 1 ∧ it.usType ≠ 12 ∧ it.usType ≠ 16 ∧ it.usType ≠ 28 ∧ it.usType ≠ 33

/-- A record that `BuildAnswer` can be given: one of the five types with the union member of
its type set, or a record of another type (whose union member is not looked at). -/
def Supported (it : ANSWERITEM) : Prop := Typed it ∨ Other it

/-- A record after `fnExtractLabels`: the indices of the names that the writers look up are
set. -/
def Writable (it : ANSWERITEM) : Prop :=
  (Typed it ∧ Interned it) ∨ (Other it ∧ it.strLabel.1 ≠ 0)

/-- The table after the names have been interned one after the other, from the empty table. -/
def internAll (names : List (List Nat)) : OFFSETLIST :=
  names.foldl (fun T name => (BuildLabelReferenc name T).2) []

/-- The suffix-pointer code of the token `i` of the entry `e` (both 0-based); 0 is no
pointer. -/
def codeAt (T : OFFSETLIST) (e i : Nat) : Nat := ((tokensAt T e).getD i default).1

/-- Every suffix pointer of the entry `e` stands on the first token that is not written
literally; it names an earlier entry `n` and a token `m` that the entry `n` writes literally,
and the labels of `n` from `m` on are the labels of `e` from the pointer on. -/
def SuffixSound (T : OFFSETLIST) (e : Nat) : Prop :=
  ∀ i, i < (tokensAt T e).length → codeAt T e i ≠ 0 →
    i = litLen (tokensAt T e) ∧ ∃ n m, codeAt T e i = pack n m ∧ n < e ∧
      m < litLen (tokensAt T n) ∧
      labelsOf ((tokensAt T n).drop m) = labelsOf ((tokensAt T e).drop i)

/-- The table after `x.local` and `y.local` have been interned. -/
def twoLocal : OFFSETLIST := internAll [str "x.local", str "y.local"]

/-- The encoded size of a name of the table: the sum of (length + 1) over the tokens before
the first suffix pointer, plus 2 if there is a suffix pointer and plus 1 otherwise. -/
def encodedSize (tokens : LABELLIST) : Nat :=
  ((tokens.takeWhile fun t => t.1 = 0).map fun t => t.2.length + 1).sum +
    (if tokens.any (fun t => t.1 ≠ 0) then 2 else 1)

/-- The table with the one name `a`. -/
def tableA : OFFSETLIST := (BuildLabelReferenc (str "a") []).2

/-- The octets of the buffer from index `p` on are the literal labels `labels`: for every
label its length octet (not 0, and below 192, so not a pointer) and its octets. -/
def LiteralAt (buf : List Nat) (p : Nat) (labels : List (List Nat)) : Prop :=
  (buf.drop p).take (literalOctets labels).length = literalOctets labels ∧
    ∀ l ∈ labels, l ≠ [] ∧ l.length < 192

/-- The label `b` and the root octet at index 0, and at index 3 the label `a` and a pointer
to index 0. -/
def pointerName : List Nat := [1, 98, 0, 1, 97, 0xc0, 0]

/-- The table holds the names `names`, interned in this order from the empty table; its
recorded offsets are free. -/
def BuiltFrom (names : List (List Nat)) (T : OFFSETLIST) : Prop :=
  T.map Prod.snd = (internAll names).map Prod.snd

/-- The entries before `e` have been written into the buffer in the order of the table and
before the index `p`: every one stands at its recorded offset, the next one begins where it
ends or later, and it ends at `p` or before. -/
def WrittenBefore (buf : List Nat) (T : OFFSETLIST) (e p : Nat) : Prop :=
  ∀ n, n < e →
    (buf.drop (T.getD n default).1).take (encodedSize (tokensAt T n))
      = labelsOctets T (tokensAt T n) ∧
    (n + 1 < e → (T.getD n default).1 + encodedSize (tokensAt T n) ≤ (T.getD (n + 1) default).1) ∧
    (T.getD n default).1 + encodedSize (tokensAt T n) ≤ p

/-- The table of `x.local` and `y.local` and a buffer of 40 octets after `BuildLabels` has
written the first entry at index 12. -/
def afterFirst : Writer := BuildLabels ⟨twoLocal, List.replicate 40 0, some 12, 28⟩ 1 12

/-- The table of the names `_http._tcp.local` and `A._http._tcp.local`. -/
def ptrTable : OFFSETLIST := internAll [str "_http._tcp.local", str "A._http._tcp.local"]

/-- A PTR record with the owner `_http._tcp.local` and the target `A._http._tcp.local`, with
the indices of its names in `ptrTable`. -/
def ptrRecord : ANSWERITEM :=
  ⟨(1, str "_http._tcp.local"), .ptrData (2, str "A._http._tcp.local"), 12, 1, 120⟩

/-- An A record with the owner `a` and a record of the type 99 with the owner `b.a`. -/
def withType99 : List ANSWERITEM :=
  [⟨(0, str "a"), .pVoid [10, 0, 0, 1], 1, 1, 120⟩, ⟨(0, str "b.a"), .pVoid [], 99, 1, 120⟩]

/-- The header as the wire format lays it out (RFC 1035): ID, then the flags, which are the 16
bits at offset 2 in network byte order, from the most significant bit on QR (1 bit), Opcode
(4), AA (1), TC (1), RD (1), RA (1), Z (3) and RCODE (4), then the four counts. -/
def wireHeader (buf : List Nat) : DNSHEADER :=
  let b := fun i => buf.getD i 0
  { ID := b 0 * 256 + b 1
    QR := b 2 / 128 % 2
    Opcode := b 2 / 8 % 16
    AA := b 2 / 4 % 2
    TC := b 2 / 2 % 2
    RD := b 2 % 2
    RA := b 3 / 128 % 2
    Z := b 3 / 16 % 8
    RCODE := b 3 % 16
    QDCOUNT := b 4 * 256 + b 5
    ANCOUNT := b 6 * 256 + b 7
    NSCOUNT := b 8 * 256 + b 9
    ARCOUNT := b 10 * 256 + b 11 }

/-- A TXT record with the owner `a` (entry 1 of the table) and 256 strings of 255 octets
each: a payload of 65536 octets. -/
def bigTxt : ANSWERITEM :=
  ⟨(1, str "a"), .txtData (List.replicate 256 (List.replicate 255 97)), 16, 1, 120⟩

/-! ## Decoder with the memory behind the datagram

`szBuffer` points at the octets `mem` that can be read, of which the first `nBytInBuf` are the
datagram.  The tests of the source compare with `nBytInBuf`; the reads go to `mem`, and only a
read at an index that is not below the length of `mem` is recorded as `Halt.outOfBounds`. -/

/-- The loop of `ExtractLabels` on the memory `mem`, with the test against `nBytInBuf`. -/
def ExtractLabelsMem.walk : (fuel : Nat) → (mem : List Nat) → (nBytInBuf : Nat) →
    (pLabel : Nat) → (strLabel : List Nat) → Res (List Nat) Nat
  | 0, _, _, _, strLabel => .halt strLabel .noFuel
  | fuel + 1, mem, nBytInBuf, pLabel, strLabel =>
    match mem[pLabel]? with
    | none => .halt strLabel (.outOfBounds pLabel)
    | some iTokenLen =>
      if iTokenLen = 0 then .ok strLabel (pLabel + 1)
      else if iTokenLen &&& 0xc0 = 0xc0 then
        match mem[pLabel + 1]? with
        | none => .halt strLabel (.outOfBounds (pLabel + 1))
        | some lo =>
          let nOffset := (iTokenLen * 256 + lo) &&& 0x3fff
          if nOffset > pLabel then .halt strLabel (.dnsProto "Error extraction label")
          else
            match ExtractLabelsMem.walk fuel mem nBytInBuf nOffset strLabel with
            | .ok s _ => .ok s (pLabel + 2)
            | .halt s h => .halt s h
      else if 128 ≤ iTokenLen then
        .halt (if strLabel = [] then strLabel else strLabel ++ [46]) .lengthError
      else if iTokenLen > 64 then .halt strLabel (.dnsProto "Error extraction label")
      else if pLabel + 1 + iTokenLen > nBytInBuf then
        .halt strLabel (.dnsProto "Invalid buffer content")
      else
        let s1 := if strLabel = [] then strLabel else strLabel ++ [46]
        ExtractLabelsMem.walk fuel mem nBytInBuf (pLabel + 1 + iTokenLen)
          (s1 ++ (mem.drop (pLabel + 1)).take iTokenLen)

/-- `ExtractLabels(pLabel, pBuffer, nBytInBuf, strLabel)` on the memory `mem` at `pBuffer`. -/
def ExtractLabelsMem (fuel : Nat) (mem : List Nat) (nBytInBuf : Nat) (pLabel : Nat)
    (strLabel : List Nat) : Res (List Nat) Nat :=
  match ExtractLabelsMem.walk fuel mem nBytInBuf pLabel strLabel with
  | .ok s e => .ok s (e - pLabel)
  | .halt s h => .halt s h

/-- `ExtractQuestion` on the memory `mem` at `pBuffer`. -/
def ExtractQuestionMem (fuel : Nat) (mem : List Nat) (nBytInBuf : Nat) :
    (nNoQuestion : Nat) → (pCurPointer : Nat) → Res (List QUESTTION) Nat
  | 0, _ => .ok [] 0
  | k + 1, pCurPointer =>
    match ExtractLabelsMem fuel mem nBytInBuf pCurPointer [] with
    | .halt s h => .halt [⟨s, 0, 0⟩] h
    | .ok s used =>
      let cur := pCurPointer + used
      match rd16 mem cur with
      | .error i => .halt [⟨s, 0, 0⟩] (.outOfBounds i)
      | .ok qtype =>
        match rd16 mem (cur + 2) with
        | .error i => .halt [⟨s, qtype, 0⟩] (.outOfBounds i)
        | .ok qclass =>
          if cur + 4 > nBytInBuf then
            .halt [⟨s, qtype, qclass⟩] (.dnsProto "Invalid buffer content")
          else
            match ExtractQuestionMem fuel mem nBytInBuf k (cur + 4) with
            | .ok qs n => .ok (⟨s, qtype, qclass⟩ :: qs) (used + 4 + n)
            | .halt qs h => .halt (⟨s, qtype, qclass⟩ :: qs) h

/-- The `switch (pRRecord[n].TYPE)` of `ExtractRRecords` on the memory `mem` at `pBuffer`. -/
def renderRDataMem (fuel : Nat) (mem : List Nat) (nBytInBuf : Nat) (type cur rdlength : Nat) :
    Res (List Nat) Unit :=
  match type with
  | 1 =>
    match rdataA mem cur with
    | .ok r => .ok r ()
    | .error i => .halt [] (.outOfBounds i)
  | 12 =>
    match ExtractLabelsMem fuel mem nBytInBuf cur [] with
    | .ok s _ => .ok s ()
    | .halt s h => .halt s h
  | 16 => rdataTxt mem cur rdlength rdlength 0 []
  | 28 => .ok (rdataAAAA ((mem.drop cur).take rdlength)) ()
  | 33 =>
    match rd16 mem cur, rd16 mem (cur + 2), rd16 mem (cur + 4) with
    | .ok prio, .ok weight, .ok port =>
      let head := decOctets prio ++ [32] ++ decOctets weight ++ [32] ++ decOctets port ++ [32]
      if rdlength > 6 then
        match ExtractLabelsMem fuel mem nBytInBuf (cur + 6) [] with
        | .ok s _ => .ok (head ++ s) ()
        | .halt _ h => .halt [] h
      else .ok head ()
    | .error i, _, _ => .halt [] (.outOfBounds i)
    | .ok _, .error i, _ => .halt [] (.outOfBounds i)
    | .ok _, .ok _, .error i => .halt [] (.outOfBounds i)
  | 41 =>
    match rd8 mem cur, rd8 mem (cur + 1) with
    | .ok b0, .ok b1 => .ok (rdataOpt b0 b1 ((mem.drop (cur + 4)).take (rdlength - 4))) ()
    | .error i, _ => .halt [] (.outOfBounds i)
    | .ok _, .error i => .halt [] (.outOfBounds i)
  | 47 =>
    match ExtractLabelsMem fuel mem nBytInBuf cur [] with
    | .halt s h => .halt s h
    | .ok s iLabelSize =>
      if rdlength > iLabelSize then
        .ok (s ++ str ", " ++
          rdataNsecBits ((mem.drop (cur + iLabelSize)).take (rdlength - iLabelSize))) ()
      else .ok s ()
  | _ => .ok [] ()

/-- `ExtractRRecords` on the memory `mem` at `pBuffer`. -/
def ExtractRRecordsMem (fuel : Nat) (mem : List Nat) (nBytInBuf : Nat) :
    (nNoRecords : Nat) → (pCurPointer : Nat) → Res (List RRECORDS) Nat
  | 0, _ => .ok [] 0
  | k + 1, pCurPointer =>
    match ExtractLabelsMem fuel mem nBytInBuf pCurPointer [] with
    | .halt s h => .halt [⟨s, 0, 0, 0, 0, []⟩] h
    | .ok s used =>
      let cur := pCurPointer + used
      if cur + 10 > nBytInBuf then
        .halt [⟨s, 0, 0, 0, 0, []⟩] (.dnsProto "Invalid buffer content")
      else
        match rd16 mem cur, rd16 mem (cur + 2), rd32 mem (cur + 4), rd16 mem (cur + 8) with
        | .ok type, .ok cls, .ok ttl, .ok rdlength =>
          let cur1 := cur + 10
          if cur1 + rdlength > nBytInBuf then
            .halt [⟨s, type, cls, ttl, rdlength, []⟩] (.dnsProto "Invalid buffer content")
          else
            match renderRDataMem fuel mem nBytInBuf type cur1 rdlength with
            | .halt r h => .halt [⟨s, type, cls, ttl, rdlength, r⟩] h
            | .ok r _ =>
              match ExtractRRecordsMem fuel mem nBytInBuf k (cur1 + rdlength) with
              | .ok rs n => .ok (⟨s, type, cls, ttl, rdlength, r⟩ :: rs) (used + 10 + rdlength + n)
              | .halt rs h => .halt (⟨s, type, cls, ttl, rdlength, r⟩ :: rs) h
        | _, _, _, _ => .halt [⟨s, 0, 0, 0, 0, []⟩] (.outOfBounds mem.length)

/-- The constructor `DnsProtokol(szBuffer, nBytInBuf)`, where `buf` is the `nBytInBuf` octets
of the datagram at `szBuffer` and `behind` the octets that can be read after them (the rest of
the allocation that holds the datagram).  The header copy reads twelve octets whatever
`nBytInBuf` is, and `nBytInBuf` is not compared with twelve.  Without octets behind the
datagram this is `decode`. -/
def decodeMem (fuel : Nat) (buf behind : List Nat) : Decoded :=
  let mem := buf ++ behind
  let nBytInBuf := buf.length
  let h := readHeader mem
  let d0 : Decoded := ⟨h, [], [], [], [], "", none, .returned⟩
  if mem.length < 12 then { d0 with outcome := .outOfBounds mem.length }
  else if h.QDCOUNT + h.ANCOUNT + h.NSCOUNT + h.ARCOUNT > 150 then
    endTry d0 (.dnsProto "Invalid buffer content")
  else
    match (if h.QDCOUNT > 0 then ExtractQuestionMem fuel mem nBytInBuf h.QDCOUNT 12
           else .ok [] 0) with
    | .halt qs e => endTry { d0 with m_pQuestions := qs } e
    | .ok qs nq =>
      let d1 := { d0 with m_pQuestions := qs }
      match (if h.ANCOUNT > 0 then ExtractRRecordsMem fuel mem nBytInBuf h.ANCOUNT (12 + nq)
             else .ok [] 0) with
      | .halt rs e => endTry { d1 with m_pAnswers := rs } e
      | .ok an na =>
        let d2 := { d1 with m_pAnswers := an }
        match (if h.NSCOUNT > 0 then
                 ExtractRRecordsMem fuel mem nBytInBuf h.NSCOUNT (12 + nq + na)
               else .ok [] 0) with
        | .halt rs e => endTry { d2 with m_pNameServ := rs } e
        | .ok ns nn =>
          let d3 := { d2 with m_pNameServ := ns }
          match (if h.ARCOUNT > 0 then
                   ExtractRRecordsMem fuel mem nBytInBuf h.ARCOUNT (12 + nq + na + nn)
                 else .ok [] 0) with
          | .halt rs e => endTry { d3 with m_pExtraRec := rs } e
          | .ok ar nr =>
            { d3 with m_pExtraRec := ar, m_nBytesDecodet := some (12 + nq + na + nn + nr) }

/-! ## Encoder over the objects of the caller

`BuildAnswer` stores the table indices in objects of the caller: in `strLabel.first` of every
item and, through the pointer of the union, in `ptrData->first` and `svData->strHost.first`.
The `IDxSTRING` objects are the cells of a heap, and an item holds the addresses of its cells;
two items that hold one address share the object (an item of a vector that is passed for two
sections is the same item, with the same addresses).  An address that is not in the heap is a
dangling pointer: the model reads the default object there and writes nothing. -/

/-- The union `RDATA` as the pointer that it holds: for `ptrData` the address of the
`IDxSTRING` object, for `svData` the numbers of the `SRVDATA` object and the address of its
`strHost`. -/
inductive RDATAREF where
  | pVoid (octets : List Nat)
  | ptrData (a : Nat)
  | txtData (strings : List (List Nat))
  | svData (Priority Weight Port : Nat) (strHost : Nat)
deriving DecidableEq, Repr

/-- An `ANSWERITEM` of the caller: the address of its `strLabel`, the pointer `rData`, and
type, class and TTL. -/
structure ITEMREF where
  strLabel : Nat
  rData : RDATAREF
  usType : Nat
  usClass : Nat
  iTtl : Int
deriving DecidableEq, Repr

/-- The item as the writers read it: every address replaced by the object at it. -/
def ITEMREF.load (heap : List IDxSTRING) (it : ITEMREF) : ANSWERITEM :=
  { strLabel := heap.getD it.strLabel default
    rData := match it.rData with
      | .pVoid o => .pVoid o
      | .ptrData a => .ptrData (heap.getD a default)
      | .txtData ss => .txtData ss
      | .svData p w q a => .svData ⟨p, w, q, heap.getD a default⟩
    usType := it.usType
    usClass := it.usClass
    iTtl := it.iTtl }

/-- The assignment `x.first = v` to the object at the address `a`. -/
def assignFirst (heap : List IDxSTRING) (a v : Nat) : List IDxSTRING :=
  heap.set a (v, (heap.getD a default).2)

/-- The body of the loop of the lambda `fnExtractLabels` on the objects of the caller: the
table and the heap after it. -/
def internItemRef (off : OFFSETLIST) (heap : List IDxSTRING) (item : ITEMREF) :
    OFFSETLIST × List IDxSTRING :=
  let r0 := BuildLabelReferenc (heap.getD item.strLabel default).2 off
  let heap0 := assignFirst heap item.strLabel r0.1
  match item.usType, item.rData with
  | 12, .ptrData a =>
    let r := BuildLabelReferenc (heap0.getD a default).2 r0.2
    (r.2, assignFirst heap0 a r.1)
  | 33, .svData _ _ _ a =>
    let r := BuildLabelReferenc (heap0.getD a default).2 r0.2
    (r.2, assignFirst heap0 a r.1)
  | _, _ => (r0.2, heap0)

/-- The lambda `fnExtractLabels` of `BuildAnswer` on the objects of the caller. -/
def fnExtractLabelsRef : OFFSETLIST → List IDxSTRING → List ITEMREF →
    OFFSETLIST × List IDxSTRING
  | off, heap, [] => (off, heap)
  | off, heap, item :: rest =>
    let r1 := internItemRef off heap item
    fnExtractLabelsRef r1.1 r1.2 rest

/-- `BuildAnswer(AnList, NsList, ArList, szBuffer, nBuflen)` on the objects of the caller.
After the three calls of `fnExtractLabels` no object is written any more: `fnCalcBufferSize`
and `fnBuildRecords` read the items as the heap then holds them. -/
def BuildAnswerRef (heap : List IDxSTRING) (AnList NsList ArList : List ITEMREF)
    (szBuffer : Option (List Nat)) (nBuflen : Nat) : Built :=
  let e1 := fnExtractLabelsRef [] heap AnList
  let e2 := fnExtractLabelsRef e1.1 e1.2 NsList
  let e3 := fnExtractLabelsRef e2.1 e2.2 ArList
  let c1 := fnCalcBufferSize e3.1 (AnList.map (ITEMREF.load e3.2)) 0
  let c2 := fnCalcBufferSize c1.1 (NsList.map (ITEMREF.load e3.2)) c1.2
  let c3 := fnCalcBufferSize c2.1 (ArList.map (ITEMREF.load e3.2)) c2.2
  let nBufLenNeeded := c3.2 + 12
  match szBuffer with
  | none => ⟨0, none, nBufLenNeeded⟩
  | some buf =>
    if nBuflen < nBufLenNeeded then ⟨0, some buf, nBufLenNeeded⟩
    else
      let b0 := store buf 0 (List.replicate 12 0)
      let w1 := fnBuildRecords ⟨c3.1, b0, some 12, nBuflen - 12⟩ (AnList.map (ITEMREF.load e3.2))
      let w2 := fnBuildRecords w1 (NsList.map (ITEMREF.load e3.2))
      let w3 := fnBuildRecords w2 (ArList.map (ITEMREF.load e3.2))
      ⟨w3.offset, some (answerHeader w3.buf AnList.length NsList.length ArList.length),
        w3.nBufLen⟩

/-- The addresses that an item holds. -/
def ITEMREF.cells (it : ITEMREF) : List Nat :=
  it.strLabel :: (match it.rData with
    | .ptrData a => [a]
    | .svData _ _ _ a => [a]
    | _ => [])

/-- No object is shared: the addresses that the items of the three lists hold are objects of
the heap and differ from one another (so no item is in two lists either). -/
def NoSharing (heap : List IDxSTRING) (An Ns Ar : List ITEMREF) : Prop :=
  ((An ++ Ns ++ Ar).flatMap ITEMREF.cells).Nodup ∧
    ∀ a ∈ (An ++ Ns ++ Ar).flatMap ITEMREF.cells, a < heap.length

/-- Three objects: the names `a.local`, `b.local` and `t.local`, with no index yet. -/
def sharedHeap : List IDxSTRING := [(0, str "a.local"), (0, str "b.local"), (0, str "t.local")]

/-- Two PTR records with the owners `a.local` and `b.local` whose pointers are the address of
the one object `t.local`. -/
def sharedTarget : List ITEMREF := [⟨0, .ptrData 2, 12, 1, 120⟩, ⟨1, .ptrData 2, 12, 1, 120⟩]

/-- The objects of 151 A records: 151 times the name `a`. -/
def manyHeap : List IDxSTRING := List.replicate 151 (0, str "a")

/-- A list of 151 A records, the record `i` with its own object `i`. -/
def manyRefs : List ITEMREF := (List.range 151).map fun i => ⟨i, .pVoid [10, 0, 0, 1], 1, 1, 120⟩

/-- The objects of the sample lists. -/
def sampleHeap : List IDxSTRING :=
  [(0, str "_http._tcp.local"), (0, str "A._http._tcp.local"), (0, str "A._http._tcp.local"),
    (0, str "host.local"), (0, str "A._http._tcp.local"), (0, str "host.local"),
    (0, str "host.local")]

/-- Sample answer list over `sampleHeap`: a PTR record and an SRV record. -/
def sampleAnRef : List ITEMREF := [⟨0, .ptrData 1, 12, 1, 120⟩, ⟨2, .svData 10 20 80 3, 33, 1, 120⟩]

/-- Sample authority list over `sampleHeap`: a TXT record. -/
def sampleNsRef : List ITEMREF := [⟨4, .txtData [str "k=1", str "v=2"], 16, 1, 120⟩]

/-- Sample additional list over `sampleHeap`: an A record and an AAAA record. -/
def sampleArRef : List ITEMREF :=
  [⟨5, .pVoid [192, 168, 1, 2], 1, 1, 120⟩,
   ⟨6, .pVoid [254, 128, 0, 0, 0, 0, 0, 0, 0, 0, 0, 0, 0, 0, 0, 1], 28, 1, 120⟩]

/-! ## Buffer writes -/

theorem store_length (buf : List Nat) (pos : Nat) (vs : List Nat)
    (h : pos + vs.length ≤ buf.length) : (store buf pos vs).length = buf.length := by
  simp [store]; omega

theorem store_append (a b vs : List Nat) :
    store (a ++ b) a.length vs = a ++ vs ++ b.drop vs.length := by
  simp [store, List.drop_append]

theorem store_eq (a b vs : List Nat) (pos : Nat) (h : pos = a.length) :
    store (a ++ b) pos vs = a ++ vs ++ b.drop vs.length := by
  subst h; exact store_append a b vs

theorem split_at (buf : List Nat) (pos : Nat) (h : pos ≤ buf.length) :
    ∃ a b, buf = a ++ b ∧ a.length = pos :=
  ⟨buf.take pos, buf.drop pos, (List.take_append_drop pos buf).symm, by simp; omega⟩

/-- Two writes one after the other are one write of the concatenation. -/
theorem store_store (buf : List Nat) (pos : Nat) (x y : List Nat) (h : pos ≤ buf.length) :
    store (store buf pos x) (pos + x.length) y = store buf pos (x ++ y) := by
  obtain ⟨a, b, rfl, ha⟩ := split_at buf pos h
  rw [store_eq a b x pos ha.symm, store_eq a b (x ++ y) pos ha.symm,
    store_eq (a ++ x) _ y _ (by simp [ha])]
  simp [List.drop_drop, Nat.add_comm]

/-- Overwriting the middle part `u` of an earlier write by `z` of the same length. -/
theorem store_patch (buf : List Nat) (pos : Nat) (x u y z : List Nat) (hz : z.length = u.length)
    (h : pos ≤ buf.length) :
    store (store buf pos (x ++ u ++ y)) (pos + x.length) z = store buf pos (x ++ z ++ y) := by
  obtain ⟨a, b, rfl, ha⟩ := split_at buf pos h
  rw [store_eq a b _ pos ha.symm, store_eq a b _ pos ha.symm]
  rw [show a ++ (x ++ u ++ y) ++ List.drop (x ++ u ++ y).length b
      = (a ++ x) ++ (u ++ y ++ List.drop (x ++ u ++ y).length b) by simp]
  rw [store_eq (a ++ x) _ z _ (by simp [ha])]
  simp [List.drop_append_eq_append_drop, hz]

/-! ## Names: tokens, wire form, decoding -/

theorem appendName_cons_ne (s : List Nat) (hs : s ≠ []) (labels : List (List Nat)) :
    appendName s labels = s ++ (labels.map fun l => 46 :: l).flatten := by
  induction labels generalizing s with
  | nil => simp [appendName]
  | cons l ls ih =>
    simp only [appendName, if_neg hs]
    rw [ih _ (by simp [hs])]
    simp

theorem dotted_cons (l : List Nat) (ls : List (List Nat)) :
    dotted (l :: ls) = l ++ (ls.map fun l => 46 :: l).flatten := by
  induction ls generalizing l with
  | nil => simp [dotted, List.intercalate]
  | cons l2 ls ih =>
    have := ih l2
    simp only [dotted, List.intercalate, List.intersperse, List.flatten] at this ⊢
    simp [this]

theorem appendName_nil (labels : List (List Nat)) (h : ∀ l ∈ labels, l ≠ []) (hne : labels ≠ []) :
    appendName [] labels = dotted labels := by
  cases labels with
  | nil => exact absurd rfl hne
  | cons l ls =>
    simp only [appendName, if_pos, List.nil_append]
    rw [appendName_cons_ne _ (h l (by simp)), dotted_cons]

theorem tokenize_dotted (labels : List (List Nat)) (h : WellFormedLabels labels) :
    tokenize (dotted labels) = labels := by
  have hs : (dotted labels).splitOn 46 = labels :=
    List.splitOn_intercalate labels 46 (fun l hl => (h.2 l hl).2.2) h.1
  unfold tokenize
  simp only [hs]
  rw [if_neg]
  rintro ⟨_, hl⟩
  have hmem := List.mem_of_getLast?_eq_some hl
  have := (h.2 [] hmem).1
  simp at this

theorem and_c0_lt (n : Nat) (h : n < 64) : ¬ (n &&& 0xc0 = 0xc0) := by
  have := @Nat.and_le_left n 0xc0
  omega

theorem and_c0_ptr : ∀ h, h < 64 → (192 + h) &&& 0xc0 = 0xc0 := by decide

theorem ptr_offset (t lo : Nat) (ht : t < 64) (hlo : lo < 256) :
    ((192 + t) * 256 + lo) &&& 0x3fff = t * 256 + lo := by
  have h := Nat.and_pow_two_sub_one_eq_mod ((192 + t) * 256 + lo) 14
  norm_num at h
  rw [h]; omega

theorem decodes_root (buf : List Nat) (p : Nat) (h : buf[p]? = some 0) :
    Decodes buf p [] (p + 1) 1 := by
  intro fuel hf s
  obtain ⟨k, rfl⟩ : ∃ k, fuel = k + 1 := ⟨fuel - 1, by omega⟩
  simp [ExtractLabels.walk, h, appendName]

theorem decodes_label (buf : List Nat) (p : Nat) (l : List Nat) (ls : List (List Nat)) (e F : Nat)
    (hb : buf[p]? = some l.length) (hl1 : 1 ≤ l.length) (hl2 : l.length ≤ 63)
    (hdata : (buf.drop (p + 1)).take l.length = l) (hfit : p + 1 + l.length ≤ buf.length)
    (hrest : Decodes buf (p + 1 + l.length) ls e F) : Decodes buf p (l :: ls) e (F + 1) := by
  intro fuel hf s
  obtain ⟨k, rfl⟩ : ∃ k, fuel = k + 1 := ⟨fuel - 1, by omega⟩
  rw [ExtractLabels.walk]
  simp only [hb]
  rw [if_neg (by omega), if_neg (and_c0_lt _ (by omega)), if_neg (by omega), if_neg (by omega),
    if_neg (by omega)]
  simp only [hdata]
  rw [hrest k (by omega)]
  rfl

theorem decodes_ptr (buf : List Nat) (p t : Nat) (ls : List (List Nat)) (e F : Nat)
    (hb0 : buf[p]? = some (192 + t / 256)) (hb1 : buf[p + 1]? = some (t % 256))
    (ht : t < 16384) (htp : t ≤ p) (hrest : Decodes buf t ls e F) :
    Decodes buf p ls (p + 2) (F + 1) := by
  intro fuel hf s
  obtain ⟨k, rfl⟩ : ∃ k, fuel = k + 1 := ⟨fuel - 1, by omega⟩
  rw [ExtractLabels.walk]
  simp only [hb0, hb1]
  have h1 : ((192 + t / 256) * 256 + t % 256) &&& 0x3fff = t := by
    rw [ptr_offset _ _ (by omega) (by omega)]; omega
  rw [if_neg (by omega), if_pos (and_c0_ptr _ (by omega))]
  simp only [h1]
  rw [if_neg (by omega), hrest k (by omega)]

theorem decodes_fuel (buf : List Nat) (p : Nat) (ls : List (List Nat)) (e F G : Nat) (h : F ≤ G)
    (hd : Decodes buf p ls e F) : Decodes buf p ls e G :=
  fun fuel hf s => hd fuel (by omega) s

theorem take_drop_append (pre post : List Nat) (a b : Nat) (h : a + b ≤ pre.length) :
    ((pre ++ post).drop a).take b = (pre.drop a).take b := by
  rw [List.drop_append_of_le_length (by omega), List.take_append_of_le_length (by simp; omega)]

theorem getElem?_append_some (pre post : List Nat) (i b : Nat) (h : pre[i]? = some b) :
    (pre ++ post)[i]? = some b := by
  have hi : i < pre.length := by
    by_contra hc
    rw [List.getElem?_eq_none (by omega)] at h
    cases h
  rw [List.getElem?_append_left hi, h]

/-- A successful run of the loop of `ExtractLabels` is not changed by octets after the buffer. -/
theorem walk_append (fuel : Nat) (pre post : List Nat) (p : Nat) (s s1 : List Nat) (e : Nat)
    (h : ExtractLabels.walk fuel pre p s = .ok s1 e) :
    ExtractLabels.walk fuel (pre ++ post) p s = .ok s1 e := by
  induction fuel generalizing p s s1 e with
  | zero => simp [ExtractLabels.walk] at h
  | succ k ih =>
    rw [ExtractLabels.walk] at h ⊢
    cases hb : pre[p]? with
    | none => simp [hb] at h
    | some b =>
      rw [getElem?_append_some pre post p b hb]
      simp only [hb] at h ⊢
      by_cases h0 : b = 0
      · simpa [h0] using h
      · rw [if_neg h0] at h ⊢
        by_cases hp : b &&& 0xc0 = 0xc0
        · rw [if_pos hp] at h ⊢
          cases hb1 : pre[p + 1]? with
          | none => simp [hb1] at h
          | some lo =>
            rw [getElem?_append_some pre post (p + 1) lo hb1]
            simp only [hb1] at h ⊢
            by_cases hoff : (b * 256 + lo) &&& 0x3fff > p
            · simp [hoff] at h
            · rw [if_neg hoff] at h ⊢
              cases hr : ExtractLabels.walk k pre ((b * 256 + lo) &&& 0x3fff) s with
              | halt s2 hh => simp [hr] at h
              | ok s2 e2 =>
                rw [ih _ _ _ _ hr]
                simpa [hr] using h
        · rw [if_neg hp] at h ⊢
          by_cases h128 : 128 ≤ b
          · simp [h128] at h
          · rw [if_neg h128] at h ⊢
            by_cases h64 : b > 64
            · simp [h64] at h
            · rw [if_neg h64] at h ⊢
              by_cases hlen : p + 1 + b > pre.length
              · simp [hlen] at h
              · rw [if_neg hlen] at h
                rw [if_neg (by simp; omega)]
                rw [take_drop_append pre post (p + 1) b (by omega)]
                exact ih _ _ _ _ h

theorem decodes_append (pre post : List Nat) (p : Nat) (ls : List (List Nat)) (e F : Nat)
    (h : Decodes pre p ls e F) : Decodes (pre ++ post) p ls e F :=
  fun fuel hf s => walk_append fuel pre post p s _ e (h fuel hf s)

theorem getElem?_mid (pre rest : List Nat) (x : Nat) : (pre ++ x :: rest)[pre.length]? = some x := by
  rw [List.getElem?_append_right (le_refl _)]; simp

theorem take_drop_mid (pre l rest : List Nat) (k : Nat) (hk : k = pre.length) :
    ((pre ++ (l ++ rest)).drop k).take l.length = l := by
  subst hk
  rw [List.drop_left, List.take_left]

/-- The uncompressed wire form of labels of 1 to 63 octets decodes to the labels. -/
theorem decodes_wire (labels : List (List Nat)) (h : ∀ l ∈ labels, 1 ≤ l.length ∧ l.length ≤ 63)
    (pre post : List Nat) :
    Decodes (pre ++ wireLabels labels ++ post) pre.length labels
      (pre.length + (wireLabels labels).length) (labels.length + 1) := by
  induction labels generalizing pre with
  | nil =>
    have := decodes_root (pre ++ wireLabels [] ++ post) pre.length
      (by simpa [wireLabels] using getElem?_mid pre post 0)
    simpa [wireLabels] using this
  | cons l ls ih =>
    have hl := h l (by simp)
    have ih1 := ih (fun x hx => h x (by simp [hx])) (pre ++ (l.length :: l))
    have heq : pre ++ wireLabels (l :: ls) ++ post = pre ++ (l.length :: l) ++ wireLabels ls ++ post := by
      simp [wireLabels, Nat.mod_eq_of_lt (show l.length < 256 by omega)]
    rw [heq]
    have hlen : (pre ++ (l.length :: l)).length = pre.length + 1 + l.length := by simp; omega
    rw [hlen] at ih1
    have hwl : (wireLabels (l :: ls)).length = 1 + l.length + (wireLabels ls).length := by
      simp [wireLabels]; omega
    rw [hwl, show pre.length + (1 + l.length + (wireLabels ls).length)
      = pre.length + 1 + l.length + (wireLabels ls).length by omega]
    refine decodes_label _ _ l ls _ _ ?_ hl.1 hl.2 ?_ ?_ ih1
    · simpa using getElem?_mid pre (l ++ (wireLabels ls ++ post)) l.length
    · have := take_drop_mid (pre ++ [l.length]) l (wireLabels ls ++ post) (pre.length + 1) (by simp)
      simpa using this
    · simp; omega

/-! ## The writers -/

theorem labelsLen_pos (tokens : LABELLIST) : 0 < (labelsLen tokens).1 + (labelsLen tokens).2 := by
  induction tokens with
  | nil => simp [labelsLen]
  | cons tok rest ih =>
    rw [labelsLen]
    split <;> simp

theorem labelsOctets_length (T : OFFSETLIST) (tokens : LABELLIST) :
    (labelsOctets T tokens).length = (labelsLen tokens).1 + (labelsLen tokens).2 := by
  induction tokens with
  | nil => simp [labelsLen, labelsOctets]
  | cons tok rest ih =>
    rw [labelsLen, labelsOctets]
    split
    · simp [be16]
    · simp [ih]; omega

theorem nameLen_pos (T : OFFSETLIST) (index : Nat) : 0 < nameLen T index := labelsLen_pos _

/-- `BuildLabels` with too little room: nothing but `nBufLen` changes. -/
theorem BuildLabels_short (w : Writer) (index off : Nat) (hi : index ≠ 0)
    (h : w.nBufLen < nameLen w.OffListe index) :
    BuildLabels w index off = { w with nBufLen := nameLen w.OffListe index } := by
  unfold nameLen at h ⊢
  simp only [BuildLabels, if_neg hi, gt_iff_lt, if_pos h]

/-- `BuildLabels` with enough room. -/
theorem BuildLabels_fit (w : Writer) (index off p : Nat) (hi : index ≠ 0)
    (hp : w.pBufPointer = some p) (h : nameLen w.OffListe index ≤ w.nBufLen) :
    BuildLabels w index off =
      { OffListe := setOffset w.OffListe (index - 1) off
        buf := store w.buf p (labelsOctets (setOffset w.OffListe (index - 1) off)
          (w.OffListe.getD (index - 1) default).2)
        pBufPointer := some (p + nameLen w.OffListe index)
        nBufLen := w.nBufLen - nameLen w.OffListe index } := by
  unfold nameLen at h ⊢
  simp only [BuildLabels, if_neg hi, gt_iff_lt, if_neg (Nat.not_lt.mpr h), hp, poke, Option.map,
    labelsOctets_length]

theorem BuildQuestion_probe (T : OFFSETLIST) (index qt qc : Nat) (hi : index ≠ 0) :
    BuildQuestion ⟨T, [], none, 0⟩ index qt qc = ⟨T, [], none, nameLen T index + 4⟩ := by
  have := nameLen_pos T index
  unfold BuildQuestion
  rw [BuildLabels_short ⟨T, [], none, 0⟩ index _ hi this]
  simp

theorem BuildQuestion_fit (w : Writer) (index qt qc p : Nat) (hi : index ≠ 0)
    (hp : w.pBufPointer = some p) (h : nameLen w.OffListe index + 4 ≤ w.nBufLen)
    (hb : p ≤ w.buf.length) :
    BuildQuestion w index qt qc =
      { OffListe := setOffset w.OffListe (index - 1) p
        buf := store w.buf p (labelsOctets (setOffset w.OffListe (index - 1) p)
          (w.OffListe.getD (index - 1) default).2 ++ (be16 qt ++ be16 qc))
        pBufPointer := some (p + nameLen w.OffListe index + 4)
        nBufLen := w.nBufLen - nameLen w.OffListe index - 4 } := by
  have hpos := nameLen_pos w.OffListe index
  have ho : w.offset = p := by simp [Writer.offset, hp]
  unfold BuildQuestion
  simp only [ho]
  rw [BuildLabels_fit w index p p hi hp (by omega)]
  simp only []
  rw [if_neg (by omega), if_neg (by omega)]
  simp only [poke, Option.map]
  have hl := labelsOctets_length (setOffset w.OffListe (index - 1) p)
    (w.OffListe.getD (index - 1) default).2
  unfold nameLen
  rw [← hl, store_store _ _ _ _ hb]

theorem labelsLen_zero (ls : List (List Nat)) :
    labelsLen (ls.map fun t => (0, t)) = ((ls.map fun l => l.length + 1).sum, 1) := by
  induction ls with
  | nil => simp [labelsLen]
  | cons l ls ih => simp [labelsLen, ih]; omega

theorem labelsOctets_zero (T : OFFSETLIST) (ls : List (List Nat)) :
    labelsOctets T (ls.map fun t => (0, t)) = wireLabels ls := by
  induction ls with
  | nil => simp [labelsOctets, wireLabels]
  | cons l ls ih => simp [labelsOctets, wireLabels, ih]

theorem BuildLabelReferenc_nil (name : List Nat) :
    BuildLabelReferenc name [] = (1, [(0, (tokenize name).map fun t => (0, t))]) := by
  simp [BuildLabelReferenc, searchSuffix, rbegin]

/-- The datagram of `BuildSearch`: size reported for a null buffer, and what a buffer of that
size holds after the call. -/
theorem BuildSearch_image (name : List Nat) (hd : List Nat) (rest : List Nat)
    (hhd : hd.length = 12) (hrest : rest.length = (wireLabels (tokenize name)).length + 4) :
    (BuildSearch name none 0) = ⟨0, none, 12 + (wireLabels (tokenize name)).length + 4⟩ ∧
    BuildSearch name (some (hd ++ rest)) (12 + (wireLabels (tokenize name)).length + 4) =
      ⟨12 + (wireLabels (tokenize name)).length + 4,
       some (store (store hd 0 (be16 0)) 4 (be16 1) ++ wireLabels (tokenize name) ++
         (be16 12 ++ be16 1)), 0⟩ := by
  have hT : (([(0, (tokenize name).map fun t => (0, t))] : OFFSETLIST).getD 0 default).2
      = (tokenize name).map fun t => (0, t) := rfl
  have hn : nameLen [(0, (tokenize name).map fun t => (0, t))] 1
      = (wireLabels (tokenize name)).length := by
    rw [← labelsOctets_zero [] (tokenize name), labelsOctets_length]; rfl
  have hprobe := BuildQuestion_probe [(0, (tokenize name).map fun t => (0, t))] 1 12 1 (by omega)
  constructor
  · simp only [BuildSearch, BuildLabelReferenc_nil, hprobe, hn]
    congr 1; omega
  · simp only [BuildSearch, BuildLabelReferenc_nil, hprobe, hn]
    rw [if_neg (by omega)]
    have hb1 : store (store (hd ++ rest) 0 (be16 0)) 4 (be16 1)
        = store (store hd 0 (be16 0)) 4 (be16 1) ++ rest := by
      simp [store, be16, List.take_append_eq_append_take, List.drop_append_eq_append_drop, hhd]
    rw [hb1]
    have hl : (store (store hd 0 (be16 0)) 4 (be16 1)).length = 12 := by
      rw [store_length, store_length] <;> simp [be16, hhd, store]
    rw [BuildQuestion_fit _ 1 12 1 12 (by omega) rfl (by simp [hn]; omega) (by simp [hl])]
    simp only [hn, Writer.offset, Option.getD]
    rw [store_eq _ _ _ 12 hl.symm]
    simp [labelsOctets_zero, hhd, hrest, be16]
    omega

/-! ## Decoding a question -/

theorem rd16_mid (pre rest : List Nat) (a b : Nat) (k : Nat) (hk : k = pre.length) :
    rd16 (pre ++ a :: b :: rest) k = .ok (a * 256 + b) := by
  subst hk
  have h0 := getElem?_mid pre (b :: rest) a
  have h1 := getElem?_mid (pre ++ [a]) rest b
  simp only [List.append_assoc, List.singleton_append, List.length_append, List.length_singleton] at h1
  simp only [rd16, h0, h1]

theorem ExtractLabels_of_decodes (buf : List Nat) (p : Nat) (labels : List (List Nat)) (e F fuel : Nat)
    (h : Decodes buf p labels e F) (hf : F ≤ fuel) (s : List Nat) :
    ExtractLabels fuel buf p s = .ok (appendName s labels) (e - p) := by
  simp [ExtractLabels, h fuel hf s]

theorem ExtractQuestion_one (buf : List Nat) (p : Nat) (labels : List (List Nat)) (e F fuel : Nat)
    (qt qc : Nat) (h : Decodes buf p labels e F) (hf : F ≤ fuel) (hpe : p ≤ e)
    (h1 : rd16 buf e = .ok qt) (h2 : rd16 buf (e + 2) = .ok qc) (hlen : e + 4 ≤ buf.length) :
    ExtractQuestion fuel buf 1 p = .ok [⟨appendName [] labels, qt, qc⟩] (e - p + 4) := by
  have hpe' : p + (e - p) = e := by omega
  simp only [ExtractQuestion, ExtractLabels_of_decodes buf p labels e F fuel h hf, hpe', h1, h2]
  rw [if_neg (by omega)]

theorem length_eq_12 (l : List Nat) (h : l.length = 12) :
    ∃ a b c d e f g h i j k m, l = [a, b, c, d, e, f, g, h, i, j, k, m] := by
  match l, h with
  | [a, b, c, d, e, f, g, h, i, j, k, m], _ => exact ⟨a, b, c, d, e, f, g, h, i, j, k, m, rfl⟩

theorem readHeader_append (hd rest : List Nat) (h : hd.length = 12) :
    readHeader (hd ++ rest) = readHeader hd := by
  obtain ⟨a, b, c, d, e, f, g, h, i, j, k, m, rfl⟩ := length_eq_12 hd h
  rfl

theorem guard_question (fuel : Nat) (buf : List Nat) (n p : Nat) :
    (if n > 0 then ExtractQuestion fuel buf n p else .ok [] 0) = ExtractQuestion fuel buf n p := by
  cases n <;> simp [ExtractQuestion]

theorem guard_records (fuel : Nat) (buf : List Nat) (n p : Nat) :
    (if n > 0 then ExtractRRecords fuel buf n p else .ok [] 0) = ExtractRRecords fuel buf n p := by
  cases n <;> simp [ExtractRRecords]

/-- The constructor on a datagram whose four sections are extracted without a halt. -/
theorem decode_ok (fuel : Nat) (buf : List Nat) (h12 : 12 ≤ buf.length)
    (hsum : (readHeader buf).QDCOUNT + (readHeader buf).ANCOUNT + (readHeader buf).NSCOUNT +
      (readHeader buf).ARCOUNT ≤ 150)
    (qs : List QUESTTION) (an ns ar : List RRECORDS) (nq na nn nr : Nat)
    (hq : ExtractQuestion fuel buf (readHeader buf).QDCOUNT 12 = .ok qs nq)
    (ha : ExtractRRecords fuel buf (readHeader buf).ANCOUNT (12 + nq) = .ok an na)
    (hn : ExtractRRecords fuel buf (readHeader buf).NSCOUNT (12 + nq + na) = .ok ns nn)
    (hr : ExtractRRecords fuel buf (readHeader buf).ARCOUNT (12 + nq + na + nn) = .ok ar nr) :
    decode fuel buf =
      ⟨readHeader buf, qs, an, ns, ar, "", some (12 + nq + na + nn + nr), .returned⟩ := by
  unfold decode
  simp only [guard_question, guard_records]
  rw [if_neg (by omega), if_neg (by omega)]
  simp only [hq, ha, hn, hr]

/-- The constructor on a datagram whose header counts sum to more than 150. -/
theorem decode_sum (fuel : Nat) (buf : List Nat) (h12 : 12 ≤ buf.length)
    (hsum : 150 < (readHeader buf).QDCOUNT + (readHeader buf).ANCOUNT + (readHeader buf).NSCOUNT +
      (readHeader buf).ARCOUNT) :
    decode fuel buf =
      ⟨readHeader buf, [], [], [], [], "", none, .uncaught "Invalid buffer content"⟩ := by
  unfold decode
  rw [if_neg (by omega), if_pos (by omega)]
  rfl

/-- Decoding of a header with QDCOUNT = 1 and the other counts 0, followed by one question
with an uncompressed name. -/
theorem decode_query (hd : List Nat) (labels : List (List Nat)) (qt qc : Nat)
    (hhd : hd.length = 12) (hQ : (readHeader hd).QDCOUNT = 1) (hA : (readHeader hd).ANCOUNT = 0)
    (hN : (readHeader hd).NSCOUNT = 0) (hR : (readHeader hd).ARCOUNT = 0)
    (hwf : WellFormedLabels labels) (fuel : Nat) (hfuel : labels.length < fuel)
    (hqt : qt < 65536) (hqc : qc < 65536) :
    decode fuel (hd ++ wireLabels labels ++ (be16 qt ++ be16 qc)) =
      ⟨readHeader hd, [⟨dotted labels, qt, qc⟩], [], [], [], "",
        some (12 + (wireLabels labels).length + 4), .returned⟩ := by
  have hdec := decodes_wire labels (fun l hl => ⟨(hwf.2 l hl).1, (hwf.2 l hl).2.1⟩)
    hd (be16 qt ++ be16 qc)
  rw [hhd] at hdec
  have hq := ExtractQuestion_one _ 12 labels _ _ fuel (qt / 256 % 256 * 256 + qt % 256)
    (qc / 256 % 256 * 256 + qc % 256) hdec (by omega) (by omega)
    (by
      have := rd16_mid (hd ++ wireLabels labels)
        (be16 qc) (qt / 256 % 256) (qt % 256) (12 + (wireLabels labels).length) (by simp [hhd])
      simpa [be16] using this)
    (by
      have := rd16_mid (hd ++ wireLabels labels ++ be16 qt)
        [] (qc / 256 % 256) (qc % 256) (12 + (wireLabels labels).length + 2)
        (by simp [be16, hhd]; omega)
      simpa [be16] using this)
    (by simp [be16, hhd]; omega)
  have hname : appendName [] labels = dotted labels :=
    appendName_nil labels (fun l hl => by
      have := (hwf.2 l hl).1
      intro h; simp [h] at this) hwf.1
  have hqt' : qt / 256 % 256 * 256 + qt % 256 = qt := by omega
  have hqc' : qc / 256 % 256 * 256 + qc % 256 = qc := by omega
  rw [hname, hqt', hqc', show 12 + (wireLabels labels).length - 12 + 4
    = (wireLabels labels).length + 4 by omega] at hq
  have hh : readHeader (hd ++ wireLabels labels ++ (be16 qt ++ be16 qc)) = readHeader hd := by
    rw [List.append_assoc]; exact readHeader_append hd _ hhd
  rw [decode_ok fuel _ (by simp [hhd]) (by rw [hh, hQ, hA, hN, hR]; decide)
    [⟨dotted labels, qt, qc⟩] [] [] [] ((wireLabels labels).length + 4) 0 0 0
    (by rw [hh, hQ]; exact hq) (by rw [hh, hA]; simp [ExtractRRecords])
    (by rw [hh, hN]; simp [ExtractRRecords]) (by rw [hh, hR]; simp [ExtractRRecords])]
  rw [hh, show 12 + ((wireLabels labels).length + 4) + 0 + 0 + 0
    = 12 + (wireLabels labels).length + 4 by omega]

/-! ## Claims about `BuildSearch` -/

theorem nBuflen_search (name : List Nat) :
    (BuildSearch name none 0).nBuflen = 12 + (wireLabels (tokenize name)).length + 4 := by
  have h := (BuildSearch_image name (List.replicate 12 0)
    (List.replicate ((wireLabels (tokenize name)).length + 4) 0) (by simp) (by simp)).1
  rw [h]

/-- For a well-formed name, `BuildSearch` into a buffer of the probed size whose octets 6 to
11 are zero (a zero-filled buffer, as `SendSrvSearch` passes) writes a datagram that the
constructor decodes, without an error, to a message with QDCOUNT = 1 and the single question
(name, 12, 1). -/
theorem search_roundtrip_zeroed (labels : List (List Nat)) (buf : List Nat) (fuel : Nat)
    (hwf : WellFormedLabels labels)
    (hsize : buf.length = (BuildSearch (dotted labels) none 0).nBuflen)
    (hzero : ∀ i, 6 ≤ i → i < 12 → buf[i]? = some 0)
    (hfuel : labels.length < fuel) :
    ∃ datagram, (BuildSearch (dotted labels) (some buf) buf.length).szBuffer = some datagram ∧
      (decode fuel datagram).outcome = .returned ∧
      (decode fuel datagram).m_strLastErrMsg = "" ∧
      (decode fuel datagram).m_DnsHeader.QDCOUNT = 1 ∧
      (decode fuel datagram).m_pQuestions = [⟨dotted labels, 12, 1⟩] := by
  rw [nBuflen_search] at hsize
  obtain ⟨hd, rest, rfl, hhd⟩ := split_at buf 12 (by omega)
  obtain ⟨b0, b1, b2, b3, b4, b5, b6, b7, b8, b9, b10, b11, rfl⟩ := length_eq_12 hd hhd
  have h6 := hzero 6 (by omega) (by omega)
  have h7 := hzero 7 (by omega) (by omega)
  have h8 := hzero 8 (by omega) (by omega)
  have h9 := hzero 9 (by omega) (by omega)
  have h10 := hzero 10 (by omega) (by omega)
  have h11 := hzero 11 (by omega) (by omega)
  simp at h6 h7 h8 h9 h10 h11
  subst h6 h7 h8 h9 h10 h11
  have hrest : rest.length = (wireLabels (tokenize (dotted labels))).length + 4 := by
    simp at hsize; omega
  have himg := (BuildSearch_image (dotted labels) _ rest hhd hrest).2
  rw [show ([b0, b1, b2, b3, b4, b5, 0, 0, 0, 0, 0, 0] ++ rest).length
    = 12 + (wireLabels (tokenize (dotted labels))).length + 4 by simp [hrest]; omega]
  rw [himg, tokenize_dotted labels hwf]
  refine ⟨_, rfl, ?_⟩
  have hstore : store (store [b0, b1, b2, b3, b4, b5, 0, 0, 0, 0, 0, 0] 0 (be16 0)) 4 (be16 1)
      = [0, 0, b2, b3, 0, 1, 0, 0, 0, 0, 0, 0] := by
    simp [store, be16]
  rw [hstore, decode_query [0, 0, b2, b3, 0, 1, 0, 0, 0, 0, 0, 0] labels 12 1 rfl
    (by simp [readHeader]) (by simp [readHeader]) (by simp [readHeader]) (by simp [readHeader])
    hwf fuel hfuel (by omega) (by omega)]
  exact ⟨rfl, rfl, by simp [readHeader], rfl⟩

/-- The name `example.com` and a zero-filled buffer of 29 octets. -/
theorem search_roundtrip_sample :
    ∃ datagram, (BuildSearch (dotted [str "example", str "com"])
        (some (List.replicate 29 0)) (List.replicate 29 0).length).szBuffer = some datagram ∧
      (decode 3 datagram).outcome = .returned ∧
      (decode 3 datagram).m_strLastErrMsg = "" ∧
      (decode 3 datagram).m_DnsHeader.QDCOUNT = 1 ∧
      (decode 3 datagram).m_pQuestions = [⟨dotted [str "example", str "com"], 12, 1⟩] :=
  search_roundtrip_zeroed [str "example", str "com"] (List.replicate 29 0) 3
    ⟨by decide, by decide⟩ (by decide) (by decide) (by decide)

/-- C1 fails: `BuildSearch` writes ID and QDCOUNT only and does not clear the header, as
`BuildAnswer` does with its `fill`.  The name `a` written into a buffer of the probed size, 19
octets, that holds 255 in every octet leaves 255 in the octets of ANCOUNT, NSCOUNT and
ARCOUNT; the constructor throws on the count sum and no question is extracted. -/
theorem C1_dirty_buffer :
    WellFormedLabels [str "a"] ∧ (BuildSearch (dotted [str "a"]) none 0).nBuflen = 19 ∧
    ∃ datagram, (BuildSearch (dotted [str "a"]) (some (List.replicate 19 255)) 19).szBuffer
        = some datagram ∧
      ∀ fuel, (decode fuel datagram).outcome = .uncaught "Invalid buffer content" ∧
        (decode fuel datagram).m_pQuestions = [] :=
  ⟨⟨by decide, by decide⟩, by decide, _, rfl, fun _ => ⟨rfl, rfl⟩⟩

/-! ## Records: what the writers report and what they write -/

theorem tokens_setOffset (T : OFFSETLIST) (k v i : Nat) :
    ((setOffset T k v).getD i default).2 = (T.getD i default).2 := by
  induction T generalizing k i with
  | nil => simp [setOffset]
  | cons e rest ih =>
    cases k with
    | zero => cases i <;> simp [setOffset]
    | succ k =>
      cases i with
      | zero => simp [setOffset]
      | succ i => simpa [setOffset] using ih k i

theorem nameLen_setOffset (T : OFFSETLIST) (k v i : Nat) :
    nameLen (setOffset T k v) i = nameLen T i := by
  unfold nameLen
  rw [tokens_setOffset]

theorem payloadLen_setOffset (T : OFFSETLIST) (k v ty : Nat) (rd : RDATA) :
    payloadLen (setOffset T k v) ty rd = payloadLen T ty rd := by
  unfold payloadLen
  split <;> simp [nameLen_setOffset]

theorem BuildRRecord_probe (T : OFFSETLIST) (index ty cl : Nat) (ttl : Int) (hi : index ≠ 0) :
    BuildRRecord ⟨T, [], none, 0⟩ index ty cl ttl = ⟨T, [], none, nameLen T index + 10⟩ := by
  have := nameLen_pos T index
  unfold BuildRRecord
  rw [BuildLabels_short ⟨T, [], none, 0⟩ index _ hi this]
  simp

theorem sum_succ_eq_zero (ss : List (List Nat)) (h : ¬ 0 < (ss.map fun s => s.length + 1).sum) :
    ss = [] := by
  cases ss with
  | nil => rfl
  | cons s rest => simp at h

theorem BuildRData_probe (T : OFFSETLIST) (it : ANSWERITEM) (ht : Typed it) (hi : Interned it) :
    BuildRData ⟨T, [], none, 0⟩ it.usType it.rData
      = ⟨T, [], none, payloadLen T it.usType it.rData⟩ := by
  rcases ht with ⟨h1, o, h2, -⟩ | ⟨h1, o, h2, -⟩ | ⟨h1, p, h2⟩ | ⟨h1, ss, h2⟩ | ⟨h1, s, h2⟩
  · rw [h1, h2]; simp [BuildRData, payloadLen]
  · rw [h1, h2]; simp [BuildRData, payloadLen]
  · rw [h1, h2]
    have := nameLen_pos T p.1
    simp only [BuildRData, payloadLen]
    rw [BuildLabels_short ⟨T, [], none, 0⟩ p.1 _ (hi.2.1 p h2) this]
    simp
  · rw [h1, h2]
    simp only [BuildRData, payloadLen]
    by_cases hz : 0 < (ss.map fun s => s.length + 1).sum
    · rw [if_pos hz]
    · rw [if_neg hz]
      have := sum_succ_eq_zero ss hz
      subst this
      simp [poke]
  · rw [h1, h2]
    have := nameLen_pos T s.strHost.1
    simp only [BuildRData, payloadLen]
    rw [if_neg (by omega)]
    simp only [Option.map]
    rw [BuildLabels_short ⟨T, [], none, 0⟩ s.strHost.1 _ (hi.2.2 s h2) this]

theorem fnCalcBufferSize_eq (T : OFFSETLIST) (items : List ANSWERITEM) (n : Nat)
    (ht : ∀ it ∈ items, Typed it) (hi : ∀ it ∈ items, Interned it) :
    fnCalcBufferSize T items n = (T, n + (items.map (recLen T)).sum) := by
  induction items generalizing n with
  | nil => simp [fnCalcBufferSize]
  | cons it rest ih =>
    have h1 := BuildRRecord_probe T it.strLabel.1 it.usType it.usClass it.iTtl (hi it (by simp)).1
    have h2 := BuildRData_probe T it (ht it (by simp)) (hi it (by simp))
    simp only [fnCalcBufferSize, h1, h2]
    rw [ih _ (fun x hx => ht x (by simp [hx])) (fun x hx => hi x (by simp [hx]))]
    simp [recLen]; omega

theorem txt_length (ss : List (List Nat)) :
    ((ss.map fun s => (s.length % 256) :: s).flatten).length
      = (ss.map fun s => s.length + 1).sum := by
  induction ss with
  | nil => rfl
  | cons s rest ih =>
    simp only [List.map, List.flatten, List.sum_cons, List.length_append, List.length_cons, ih]

theorem diff16_sub (a b : Nat) (hb : b ≤ a) :
    diff16 a (a - b) = b % 65536 := by
  unfold diff16
  omega

theorem BuildRRecord_fit (w : Writer) (index ty cl p : Nat) (ttl : Int) (hi : index ≠ 0)
    (hp : w.pBufPointer = some p) (h : nameLen w.OffListe index + 10 ≤ w.nBufLen)
    (hb : p ≤ w.buf.length) :
    BuildRRecord w index ty cl ttl =
      { OffListe := setOffset w.OffListe (index - 1) p
        buf := store w.buf p (labelsOctets (setOffset w.OffListe (index - 1) p)
          (w.OffListe.getD (index - 1) default).2 ++
            (be16 ty ++ be16 cl ++ be32 (ttl % 4294967296).toNat ++ [0, 0]))
        pBufPointer := some (p + nameLen w.OffListe index + 10)
        nBufLen := w.nBufLen - nameLen w.OffListe index - 10 } := by
  have hpos := nameLen_pos w.OffListe index
  have ho : w.offset = p := by simp [Writer.offset, hp]
  unfold BuildRRecord
  simp only [ho]
  rw [BuildLabels_fit w index p p hi hp (by omega)]
  simp only []
  rw [if_neg (by omega), if_neg (by omega)]
  simp only [poke, Option.map]
  have hl := labelsOctets_length (setOffset w.OffListe (index - 1) p)
    (w.OffListe.getD (index - 1) default).2
  unfold nameLen
  rw [← hl, store_store _ _ _ _ hb]

theorem recordHead_length (T : OFFSETLIST) (p : Nat) (it : ANSWERITEM) :
    (recordHead T p it).length = nameLen T it.strLabel.1 + 8 := by
  simp [recordHead, labelsOctets_length, nameLen, be16, be32]

theorem payloadOctets_length (T : OFFSETLIST) (p : Nat) (it : ANSWERITEM) (ht : Typed it) :
    (payloadOctets T p it.usType it.rData).2.length = payloadLen T it.usType it.rData := by
  rcases ht with ⟨h1, o, h2, -⟩ | ⟨h1, o, h2, -⟩ | ⟨h1, q, h2⟩ | ⟨h1, ss, h2⟩ | ⟨h1, s, h2⟩ <;>
    rw [h1, h2] <;> simp only [payloadOctets, payloadLen]
  · simp
  · simp
  · rw [labelsOctets_length]; rfl
  · exact txt_length ss
  · simp [labelsOctets_length, nameLen, be16]

theorem recordOctets_length (T : OFFSETLIST) (p : Nat) (it : ANSWERITEM) (ht : Typed it) :
    (recordOctets T p it).2.length = recLen T it := by
  simp only [recordOctets, List.length_append, recordHead_length, payloadOctets_length _ _ it ht,
    payloadLen_setOffset, recLen, be16, List.length_cons, List.length_nil]

/-- `BuildRRecord` followed by `BuildRData` with enough room writes the octets of the record. -/
theorem record_fit (w : Writer) (it : ANSWERITEM) (p : Nat) (ht : Typed it) (hi : Interned it)
    (hp : w.pBufPointer = some p) (hb : p ≤ w.buf.length)
    (h : recLen w.OffListe it ≤ w.nBufLen) :
    BuildRData (BuildRRecord w it.strLabel.1 it.usType it.usClass it.iTtl) it.usType it.rData =
      { OffListe := (recordOctets w.OffListe p it).1
        buf := store w.buf p (recordOctets w.OffListe p it).2
        pBufPointer := some (p + recLen w.OffListe it)
        nBufLen := w.nBufLen - recLen w.OffListe it } := by
  have hlen := recordOctets_length w.OffListe p it ht
  have hhead := recordHead_length w.OffListe p it
  have hpl := payloadOctets_length (setOffset w.OffListe (it.strLabel.1 - 1) p)
    (p + (recordHead w.OffListe p it).length + 2) it ht
  rw [payloadLen_setOffset] at hpl
  unfold recLen at h hlen ⊢
  rw [BuildRRecord_fit w _ _ _ p _ hi.1 hp (by omega) hb]
  have hH : labelsOctets (setOffset w.OffListe (it.strLabel.1 - 1) p)
      (w.OffListe.getD (it.strLabel.1 - 1) default).2 ++
      (be16 it.usType ++ be16 it.usClass ++ be32 (it.iTtl % 4294967296).toNat ++ [0, 0])
      = recordHead w.OffListe p it ++ [0, 0] := by simp [recordHead]
  rw [hH]
  have hq : p + nameLen w.OffListe it.strLabel.1 + 10 - 2 = p + (recordHead w.OffListe p it).length := by
    omega
  have hq2 : p + nameLen w.OffListe it.strLabel.1 + 10 = p + (recordHead w.OffListe p it ++ [0, 0]).length := by
    simp; omega
  have hq3 : p + (recordHead w.OffListe p it).length + 2 = p + nameLen w.OffListe it.strLabel.1 + 10 := by
    omega
  rcases ht with ⟨h1, o, h2, -⟩ | ⟨h1, o, h2, -⟩ | ⟨h1, q, h2⟩ | ⟨h1, ss, h2⟩ | ⟨h1, s, h2⟩
  · rw [h1, h2] at hpl h ⊢
    simp only [payloadLen] at h hpl ⊢
    simp only [BuildRData, recordOctets, h1, h2, payloadOctets]
    rw [if_neg (by omega)]
    simp only [poke, Option.map, hq]
    rw [hq2, store_store _ _ _ _ hb, ← List.append_nil (recordHead w.OffListe p it ++ [0, 0] ++ _)]
    rw [show recordHead w.OffListe p it ++ [0, 0] ++ List.map (fun i => o.getD i 0) (List.range 4) ++ []
      = recordHead w.OffListe p it ++ [0, 0] ++ (List.map (fun i => o.getD i 0) (List.range 4) ++ []) by simp]
    rw [store_patch _ _ _ _ _ (be16 4) (by simp [be16]) hb]
    simp
    omega
  · rw [h1, h2] at hpl h ⊢
    simp only [payloadLen] at h hpl ⊢
    simp only [BuildRData, recordOctets, h1, h2, payloadOctets]
    rw [if_neg (by omega)]
    simp only [poke, Option.map, hq]
    rw [hq2, store_store _ _ _ _ hb]
    rw [show recordHead w.OffListe p it ++ [0, 0] ++ List.map (fun i => o.getD i 0) (List.range 16)
      = recordHead w.OffListe p it ++ [0, 0] ++ (List.map (fun i => o.getD i 0) (List.range 16)) by simp]
    rw [store_patch _ _ _ _ _ (be16 16) (by simp [be16]) hb]
    simp
    omega
  · rw [h1, h2] at hpl h ⊢
    simp only [payloadLen] at h hpl ⊢
    simp only [BuildRData, recordOctets, h1, h2, payloadOctets]
    simp only [Writer.offset, Option.getD]
    rw [BuildLabels_fit _ q.1 _ (p + nameLen w.OffListe it.strLabel.1 + 10) (hi.2.1 q h2) rfl
      (by simp only [nameLen_setOffset]; omega)]
    simp only [nameLen_setOffset, tokens_setOffset, Option.isSome, if_true, poke, Option.map, hq]
    rw [hq2, store_store _ _ _ _ hb, hq3]
    rw [store_patch _ _ _ _ _ (be16 (diff16 _ _)) (by simp [be16]) hb]
    rw [diff16_sub _ _ (by omega), ← hq2]
    have e1 : ∀ X, (labelsOctets X (w.OffListe.getD (q.1 - 1) default).2).length
        = nameLen w.OffListe q.1 := fun X => by rw [labelsOctets_length]; rfl
    rw [e1, show p + nameLen w.OffListe it.strLabel.1 + 10 + nameLen w.OffListe q.1
        = p + (nameLen w.OffListe it.strLabel.1 + 10 + nameLen w.OffListe q.1) by omega,
      show w.nBufLen - nameLen w.OffListe it.strLabel.1 - 10 - nameLen w.OffListe q.1
        = w.nBufLen - (nameLen w.OffListe it.strLabel.1 + 10 + nameLen w.OffListe q.1) by omega]
  · rw [h1, h2] at hpl h ⊢
    simp only [payloadLen] at h hpl ⊢
    simp only [BuildRData, recordOctets, h1, h2, payloadOctets]
    rw [if_neg (by omega)]
    simp only [poke, Option.map, Option.isSome, if_true, hq]
    rw [hq2, store_store _ _ _ _ hb]
    rw [store_patch _ _ _ _ _ (be16 (diff16 _ _)) (by simp [be16]) hb]
    rw [diff16_sub _ _ (by omega), ← hq2, txt_length]
    rw [show p + nameLen w.OffListe it.strLabel.1 + 10 + (ss.map fun s => s.length + 1).sum
        = p + (nameLen w.OffListe it.strLabel.1 + 10 + (ss.map fun s => s.length + 1).sum) by omega,
      show w.nBufLen - nameLen w.OffListe it.strLabel.1 - 10 - (ss.map fun s => s.length + 1).sum
        = w.nBufLen - (nameLen w.OffListe it.strLabel.1 + 10 + (ss.map fun s => s.length + 1).sum)
        by omega]
  · rw [h1, h2] at hpl h ⊢
    simp only [payloadLen] at h hpl ⊢
    have hn := nameLen_pos w.OffListe s.strHost.1
    simp only [BuildRData, recordOctets, h1, h2, payloadOctets]
    rw [if_pos (by omega)]
    simp only [Writer.offset, Option.getD, poke, Option.map]
    rw [BuildLabels_fit _ s.strHost.1 _ (p + nameLen w.OffListe it.strLabel.1 + 10 + 6)
      (hi.2.2 s h2) rfl (by simp only [nameLen_setOffset]; omega)]
    simp only [nameLen_setOffset, tokens_setOffset, hq]
    rw [if_neg (by omega)]
    rw [hq2, store_store _ _ _ _ hb]
    have e0 : p + (recordHead w.OffListe p it ++ [0, 0]).length + 6
        = p + (recordHead w.OffListe p it ++ [0, 0] ++
          (be16 s.Priority ++ be16 s.Weight ++ be16 s.Port)).length := by
      simp [be16]; omega
    rw [e0, store_store _ _ _ _ hb]
    rw [List.append_assoc _ (be16 s.Priority ++ be16 s.Weight ++ be16 s.Port) _]
    rw [store_patch _ _ _ _ _ (be16 (diff16 _ _)) (by simp [be16]) hb]
    have ed : diff16 (w.nBufLen - nameLen w.OffListe it.strLabel.1 - 10)
        (w.nBufLen - nameLen w.OffListe it.strLabel.1 - 10 - 6 - nameLen w.OffListe s.strHost.1)
        = (nameLen w.OffListe s.strHost.1 + 6) % 65536 := by
      unfold diff16; omega
    have e3 : ∀ X, (be16 s.Priority ++ be16 s.Weight ++ be16 s.Port ++ labelsOctets X
          (w.OffListe.getD (s.strHost.1 - 1) default).2).length
        = nameLen w.OffListe s.strHost.1 + 6 := fun X => by
      simp [labelsOctets_length, nameLen, be16]
    rw [ed, ← e0, ← hq2, hq3, e3]
    rw [show p + nameLen w.OffListe it.strLabel.1 + 10 + 6 + nameLen w.OffListe s.strHost.1
        = p + (nameLen w.OffListe it.strLabel.1 + 10 + (nameLen w.OffListe s.strHost.1 + 6)) by omega,
      show w.nBufLen - nameLen w.OffListe it.strLabel.1 - 10 - 6 - nameLen w.OffListe s.strHost.1
        = w.nBufLen - (nameLen w.OffListe it.strLabel.1 + 10 + (nameLen w.OffListe s.strHost.1 + 6))
        by omega]

theorem recordOctets_tokens (T : OFFSETLIST) (p : Nat) (it : ANSWERITEM) (i : Nat) :
    (((recordOctets T p it).1).getD i default).2 = (T.getD i default).2 := by
  simp only [recordOctets, payloadOctets]
  split <;> simp only [tokens_setOffset]

theorem nameLen_tokens (T U : OFFSETLIST) (h : ∀ i, (U.getD i default).2 = (T.getD i default).2)
    (i : Nat) : nameLen U i = nameLen T i := by
  unfold nameLen; rw [h]

theorem recLen_tokens (T U : OFFSETLIST) (h : ∀ i, (U.getD i default).2 = (T.getD i default).2)
    (it : ANSWERITEM) : recLen U it = recLen T it := by
  unfold recLen payloadLen
  rw [nameLen_tokens T U h]
  split <;> simp [nameLen_tokens T U h]

theorem recordsOctets_tokens (T : OFFSETLIST) (p : Nat) (items : List ANSWERITEM) (i : Nat) :
    (((recordsOctets T p items).1).getD i default).2 = (T.getD i default).2 := by
  induction items generalizing T p with
  | nil => rfl
  | cons it rest ih =>
    simp only [recordsOctets]
    rw [ih, recordOctets_tokens]

theorem recordsOctets_length (T : OFFSETLIST) (p : Nat) (items : List ANSWERITEM)
    (ht : ∀ it ∈ items, Typed it) :
    (recordsOctets T p items).2.length = (items.map (recLen T)).sum := by
  induction items generalizing T p with
  | nil => rfl
  | cons it rest ih =>
    simp only [recordsOctets, List.length_append, List.map_cons, List.sum_cons]
    rw [ih _ _ (fun x hx => ht x (by simp [hx])), recordOctets_length T p it (ht it (by simp))]
    congr 2
    apply List.map_congr_left
    intro x _
    exact recLen_tokens T _ (recordOctets_tokens T p it) x

theorem store_length_ge (buf : List Nat) (pos : Nat) (vs : List Nat) (h : pos ≤ buf.length) :
    pos + vs.length ≤ (store buf pos vs).length := by
  simp [store]; omega

/-- `fnBuildRecords` with enough room writes the octets of the records. -/
theorem fnBuildRecords_fit (w : Writer) (items : List ANSWERITEM) (p : Nat)
    (ht : ∀ it ∈ items, Typed it) (hi : ∀ it ∈ items, Interned it)
    (hp : w.pBufPointer = some p) (hb : p ≤ w.buf.length)
    (h : (items.map (recLen w.OffListe)).sum ≤ w.nBufLen) :
    fnBuildRecords w items =
      { OffListe := (recordsOctets w.OffListe p items).1
        buf := store w.buf p (recordsOctets w.OffListe p items).2
        pBufPointer := some (p + (items.map (recLen w.OffListe)).sum)
        nBufLen := w.nBufLen - (items.map (recLen w.OffListe)).sum } := by
  induction items generalizing w p with
  | nil =>
    simp only [fnBuildRecords, recordsOctets, List.map_nil, List.sum_nil, Nat.add_zero, Nat.sub_zero]
    have : store w.buf p [] = w.buf := by
      obtain ⟨a, b, hab, ha⟩ := split_at w.buf p hb
      rw [hab, store_eq a b [] p ha.symm]; simp
    rw [this, ← hp]
  | cons it rest ih =>
    have ht1 := ht it (by simp)
    simp only [List.map_cons, List.sum_cons] at h
    simp only [fnBuildRecords]
    rw [record_fit w it p ht1 (hi it (by simp)) hp hb (by omega)]
    have hsame : (rest.map (recLen (recordOctets w.OffListe p it).1)).sum
        = (rest.map (recLen w.OffListe)).sum := by
      congr 1
      apply List.map_congr_left
      intro x _
      exact recLen_tokens _ _ (recordOctets_tokens w.OffListe p it) x
    rw [ih _ (p + recLen w.OffListe it) (fun x hx => ht x (by simp [hx]))
      (fun x hx => hi x (by simp [hx])) rfl
      (by
        have := store_length_ge w.buf p (recordOctets w.OffListe p it).2 hb
        rw [recordOctets_length w.OffListe p it ht1] at this
        exact this)
      (by simp only [hsame]; omega)]
    simp only [hsame, recordsOctets, List.map_cons, List.sum_cons]
    rw [← recordOctets_length w.OffListe p it ht1, store_store _ _ _ _ hb]
    rw [recordOctets_length w.OffListe p it ht1]
    rw [show p + recLen w.OffListe it + (rest.map (recLen w.OffListe)).sum
        = p + (recLen w.OffListe it + (rest.map (recLen w.OffListe)).sum) by omega,
      show w.nBufLen - recLen w.OffListe it - (rest.map (recLen w.OffListe)).sum
        = w.nBufLen - (recLen w.OffListe it + (rest.map (recLen w.OffListe)).sum) by omega]

/-! ## `BuildAnswer`: interning, probe and write pass -/

theorem BuildLabelReferenc_fst (name : List Nat) (T : OFFSETLIST) :
    (BuildLabelReferenc name T).1 = T.length + 1 := rfl

theorem internItem_typed (T : OFFSETLIST) (it : ANSWERITEM) (ht : Typed it) :
    Typed (internItem T it).2 ∧ Interned (internItem T it).2 := by
  rcases ht with ⟨h1, o, h2, h3⟩ | ⟨h1, o, h2, h3⟩ | ⟨h1, p, h2⟩ | ⟨h1, ss, h2⟩ | ⟨h1, s, h2⟩
  · simp only [internItem, h1, h2]
    exact ⟨Or.inl ⟨rfl, o, rfl, h3⟩, by simp [BuildLabelReferenc_fst], by simp, by simp⟩
  · simp only [internItem, h1, h2]
    exact ⟨Or.inr (Or.inl ⟨rfl, o, rfl, h3⟩), by simp [BuildLabelReferenc_fst], by simp, by simp⟩
  · simp only [internItem, h1, h2]
    refine ⟨Or.inr (Or.inr (Or.inl ⟨rfl, _, rfl⟩)), by simp [BuildLabelReferenc_fst], ?_, by simp⟩
    intro q hq
    simp only [RDATA.ptrData.injEq] at hq
    rw [← hq]; simp [BuildLabelReferenc_fst]
  · simp only [internItem, h1, h2]
    exact ⟨Or.inr (Or.inr (Or.inr (Or.inl ⟨rfl, ss, rfl⟩))), by simp [BuildLabelReferenc_fst],
      by simp, by simp⟩
  · simp only [internItem, h1, h2]
    refine ⟨Or.inr (Or.inr (Or.inr (Or.inr ⟨rfl, _, rfl⟩))), by simp [BuildLabelReferenc_fst],
      by simp, ?_⟩
    intro q hq
    simp only [RDATA.svData.injEq] at hq
    rw [← hq]; simp [BuildLabelReferenc_fst]

theorem fnExtractLabels_typed (T : OFFSETLIST) (items : List ANSWERITEM)
    (ht : ∀ it ∈ items, Typed it) :
    (∀ it ∈ (fnExtractLabels T items).2, Typed it) ∧
    (∀ it ∈ (fnExtractLabels T items).2, Interned it) ∧
    (fnExtractLabels T items).2.length = items.length := by
  induction items generalizing T with
  | nil => simp [fnExtractLabels]
  | cons it rest ih =>
    have h1 := internItem_typed T it (ht it (by simp))
    have ih1 := ih (internItem T it).1 (fun x hx => ht x (by simp [hx]))
    simp only [fnExtractLabels]
    refine ⟨?_, ?_, by simp [ih1.2.2]⟩
    · intro x hx
      simp only [List.mem_cons] at hx
      rcases hx with rfl | hx
      · exact h1.1
      · exact ih1.1 x hx
    · intro x hx
      simp only [List.mem_cons] at hx
      rcases hx with rfl | hx
      · exact h1.2
      · exact ih1.2.1 x hx

/-- The datagram of `BuildAnswer`: the size reported for a null buffer, and what a buffer
of exactly that size holds after the call. -/
theorem BuildAnswer_image (An Ns Ar : List ANSWERITEM) (buf : List Nat) (n0 : Nat)
    (hA : ∀ it ∈ An, Typed it) (hN : ∀ it ∈ Ns, Typed it) (hR : ∀ it ∈ Ar, Typed it)
    (hbuf : buf.length = 12 + (answerRecords An Ns Ar).length) :
    BuildAnswer An Ns Ar none n0 = ⟨0, none, 12 + (answerRecords An Ns Ar).length⟩ ∧
    BuildAnswer An Ns Ar (some buf) (12 + (answerRecords An Ns Ar).length) =
      ⟨12 + (answerRecords An Ns Ar).length,
        some (answerHead An.length Ns.length Ar.length ++ answerRecords An Ns Ar), 0⟩ := by
  have tA := fnExtractLabels_typed [] An hA
  have tN := fnExtractLabels_typed (fnExtractLabels [] An).1 Ns hN
  have tR := fnExtractLabels_typed (fnExtractLabels (fnExtractLabels [] An).1 Ns).1 Ar hR
  generalize hT : (fnExtractLabels (fnExtractLabels (fnExtractLabels [] An).1 Ns).1 Ar).1 = T
  generalize hiA : (fnExtractLabels [] An).2 = iA at tA
  generalize hiN : (fnExtractLabels (fnExtractLabels [] An).1 Ns).2 = iN at tN
  generalize hiR : (fnExtractLabels (fnExtractLabels (fnExtractLabels [] An).1 Ns).1 Ar).2 = iR at tR
  have cA := fnCalcBufferSize_eq T iA 0 tA.1 tA.2.1
  have cN := fnCalcBufferSize_eq T iN (0 + (iA.map (recLen T)).sum) tN.1 tN.2.1
  have cR := fnCalcBufferSize_eq T iR (0 + (iA.map (recLen T)).sum + (iN.map (recLen T)).sum)
    tR.1 tR.2.1
  have lA : ∀ p, (recordsOctets T p iA).2.length = (iA.map (recLen T)).sum :=
    fun p => recordsOctets_length T p iA tA.1
  have lN : ∀ p q, (recordsOctets (recordsOctets T p iA).1 q iN).2.length
      = (iN.map (recLen T)).sum := fun p q => by
    rw [recordsOctets_length _ q iN tN.1]
    congr 1; apply List.map_congr_left; intro x _
    exact recLen_tokens _ _ (recordsOctets_tokens T p iA) x
  have lR : ∀ p q r, (recordsOctets (recordsOctets (recordsOctets T p iA).1 q iN).1 r iR).2.length
      = (iR.map (recLen T)).sum := fun p q r => by
    rw [recordsOctets_length _ r iR tR.1]
    congr 1; apply List.map_congr_left; intro x _
    exact recLen_tokens _ _ (fun i => by rw [recordsOctets_tokens, recordsOctets_tokens]) x
  have hlen : (answerRecords An Ns Ar).length
      = (iA.map (recLen T)).sum + (iN.map (recLen T)).sum + (iR.map (recLen T)).sum := by
    simp only [answerRecords, hT, hiA, hiN, hiR, List.length_append, lA, lN, lR]
  have hneed : (fnCalcBufferSize (fnCalcBufferSize (fnCalcBufferSize T iA 0).1 iN
      (fnCalcBufferSize T iA 0).2).1 iR (fnCalcBufferSize (fnCalcBufferSize T iA 0).1 iN
      (fnCalcBufferSize T iA 0).2).2) = (T, (answerRecords An Ns Ar).length) := by
    rw [cA]; simp only []; rw [cN]; simp only []; rw [cR, hlen]; simp
  constructor
  · simp only [BuildAnswer, hT, hiA, hiN, hiR, hneed]
    congr 1; omega
  · obtain ⟨hd, rest, rfl, hhd⟩ := split_at buf 12 (by omega)
    have hrest : rest.length = (answerRecords An Ns Ar).length := by
      simp only [List.length_append, hhd] at hbuf; omega
    have hb0 : store (hd ++ rest) 0 (List.replicate 12 0) = List.replicate 12 0 ++ rest := by
      simp [store, List.drop_append_eq_append_drop, hhd]
    set SA := (iA.map (recLen T)).sum with hSA
    set SN := (iN.map (recLen T)).sum with hSN
    set SR := (iR.map (recLen T)).sum with hSR
    have w1 := fnBuildRecords_fit ⟨T, List.replicate 12 0 ++ rest, some 12,
      12 + (answerRecords An Ns Ar).length - 12⟩ iA 12 tA.1 tA.2.1 rfl (by simp)
      (by simp only [← hSA, hlen]; omega)
    simp only [← hSA] at w1
    have sN : (iN.map (recLen (recordsOctets T 12 iA).1)).sum = SN := by
      rw [hSN]; congr 1; apply List.map_congr_left; intro x _
      exact recLen_tokens _ _ (recordsOctets_tokens T 12 iA) x
    have g1 := store_length_ge (List.replicate 12 0 ++ rest) 12 (recordsOctets T 12 iA).2 (by simp)
    rw [lA] at g1
    have w2 := fnBuildRecords_fit ⟨(recordsOctets T 12 iA).1,
      store (List.replicate 12 0 ++ rest) 12 (recordsOctets T 12 iA).2, some (12 + SA),
      12 + (answerRecords An Ns Ar).length - 12 - SA⟩ iN (12 + SA) tN.1 tN.2.1 rfl g1
      (by simp only [sN, hlen]; omega)
    simp only [sN] at w2
    have sR : (iR.map (recLen (recordsOctets (recordsOctets T 12 iA).1 (12 + SA) iN).1)).sum
        = SR := by
      rw [hSR]; congr 1; apply List.map_congr_left; intro x _
      exact recLen_tokens _ _ (fun i => by rw [recordsOctets_tokens, recordsOctets_tokens]) x
    have e12 : store (store (List.replicate 12 0 ++ rest) 12 (recordsOctets T 12 iA).2) (12 + SA)
        (recordsOctets (recordsOctets T 12 iA).1 (12 + SA) iN).2
        = store (List.replicate 12 0 ++ rest) 12 ((recordsOctets T 12 iA).2 ++
          (recordsOctets (recordsOctets T 12 iA).1 (12 + SA) iN).2) := by
      rw [← lA 12, store_store _ _ _ _ (by simp)]
    rw [e12] at w2
    have g2 := store_length_ge (List.replicate 12 0 ++ rest) 12 ((recordsOctets T 12 iA).2 ++
          (recordsOctets (recordsOctets T 12 iA).1 (12 + SA) iN).2) (by simp)
    rw [List.length_append, lA, lN] at g2
    have w3 := fnBuildRecords_fit ⟨(recordsOctets (recordsOctets T 12 iA).1 (12 + SA) iN).1,
      store (List.replicate 12 0 ++ rest) 12 ((recordsOctets T 12 iA).2 ++
          (recordsOctets (recordsOctets T 12 iA).1 (12 + SA) iN).2), some (12 + SA + SN),
      12 + (answerRecords An Ns Ar).length - 12 - SA - SN⟩ iR (12 + SA + SN) tR.1 tR.2.1 rfl
      (by
        show 12 + SA + SN ≤ (store (List.replicate 12 0 ++ rest) 12 ((recordsOctets T 12 iA).2 ++
          (recordsOctets (recordsOctets T 12 iA).1 (12 + SA) iN).2)).length
        omega)
      (by simp only [sR, hlen]; omega)
    simp only [sR] at w3
    have e23 : store (store (List.replicate 12 0 ++ rest) 12 ((recordsOctets T 12 iA).2 ++
          (recordsOctets (recordsOctets T 12 iA).1 (12 + SA) iN).2)) (12 + SA + SN)
        (recordsOctets (recordsOctets (recordsOctets T 12 iA).1 (12 + SA) iN).1 (12 + SA + SN) iR).2
        = List.replicate 12 0 ++ answerRecords An Ns Ar := by
      have hl : 12 + SA + SN = 12 + ((recordsOctets T 12 iA).2 ++
          (recordsOctets (recordsOctets T 12 iA).1 (12 + SA) iN).2).length := by
        rw [List.length_append, lA, lN]; omega
      rw [hl, store_store _ _ _ _ (by simp), ← hl]
      have hrec : (recordsOctets T 12 iA).2 ++
          (recordsOctets (recordsOctets T 12 iA).1 (12 + SA) iN).2 ++
          (recordsOctets (recordsOctets (recordsOctets T 12 iA).1 (12 + SA) iN).1
            (12 + SA + SN) iR).2 = answerRecords An Ns Ar := by
        simp only [answerRecords, hT, hiA, hiN, hiR, lA, lN]
      rw [hrec, store_eq (List.replicate 12 0) rest _ 12 (by simp)]
      rw [List.drop_eq_nil_of_le (by omega)]
      simp
    rw [e23] at w3
    simp only [BuildAnswer, hT, hiA, hiN, hiR, hneed, hb0]
    rw [if_neg (by omega), w1, w2, w3]
    simp only [Writer.offset, Option.getD]
    congr 1
    · omega
    · simp [answerHeader, answerHead, store, be16]
    · omega

theorem sampleAn_typed : ∀ it ∈ sampleAn, Typed it := by
  intro it hit
  simp only [sampleAn, List.mem_cons, List.mem_singleton, List.not_mem_nil, or_false] at hit
  rcases hit with rfl | rfl
  · exact Or.inr (Or.inr (Or.inl ⟨rfl, _, rfl⟩))
  · exact Or.inr (Or.inr (Or.inr (Or.inr ⟨rfl, _, rfl⟩)))

theorem sampleNs_typed : ∀ it ∈ sampleNs, Typed it := by
  intro it hit
  simp only [sampleNs, List.mem_singleton] at hit
  subst hit
  exact Or.inr (Or.inr (Or.inr (Or.inl ⟨rfl, _, rfl⟩)))

theorem sampleAr_typed : ∀ it ∈ sampleAr, Typed it := by
  intro it hit
  simp only [sampleAr, List.mem_cons, List.mem_singleton, List.not_mem_nil, or_false] at hit
  rcases hit with rfl | rfl
  · exact Or.inl ⟨rfl, _, rfl, rfl⟩
  · exact Or.inr (Or.inl ⟨rfl, _, rfl, rfl⟩)

/-- C3: for every name and for every three lists of records of the five types, the call
with a null buffer returns 0 and sets `nBuflen` to the size N; the call with a buffer of
exactly N octets and `nBuflen = N` returns N and leaves `nBuflen = 0`. -/
theorem C3_probe_then_write (name : List Nat) (An Ns Ar : List ANSWERITEM) (sbuf abuf : List Nat)
    (n0 : Nat) (hA : ∀ it ∈ An, Typed it) (hN : ∀ it ∈ Ns, Typed it) (hR : ∀ it ∈ Ar, Typed it)
    (hs : sbuf.length = (BuildSearch name none n0).nBuflen)
    (ha : abuf.length = (BuildAnswer An Ns Ar none n0).nBuflen) :
    ((BuildSearch name none n0).ret = 0 ∧
      (BuildSearch name (some sbuf) sbuf.length).ret = sbuf.length ∧
      (BuildSearch name (some sbuf) sbuf.length).nBuflen = 0) ∧
    ((BuildAnswer An Ns Ar none n0).ret = 0 ∧
      (BuildAnswer An Ns Ar (some abuf) abuf.length).ret = abuf.length ∧
      (BuildAnswer An Ns Ar (some abuf) abuf.length).nBuflen = 0) := by
  constructor
  · have h0 : BuildSearch name none n0 = BuildSearch name none 0 := rfl
    rw [h0, nBuflen_search] at hs
    obtain ⟨hd, rest, rfl, hhd⟩ := split_at sbuf 12 (by omega)
    have hrest : rest.length = (wireLabels (tokenize name)).length + 4 := by
      simp only [List.length_append, hhd] at hs; omega
    have him := BuildSearch_image name hd rest hhd hrest
    rw [h0, him.1, hs, him.2]
    exact ⟨rfl, rfl, rfl⟩
  · have hb : abuf.length = 12 + (answerRecords An Ns Ar).length := by
      rw [ha, (BuildAnswer_image An Ns Ar (List.replicate (12 + (answerRecords An Ns Ar).length) 0)
        n0 hA hN hR (by simp)).1]
    have him := BuildAnswer_image An Ns Ar abuf n0 hA hN hR hb
    rw [him.1, hb, him.2]
    exact ⟨rfl, rfl, rfl⟩

set_option maxRecDepth 100000 in
/-- Witness of C3: the name `example.com`, and an answer list with a PTR and an SRV record,
an authority list with a TXT record and an additional list with an A and an AAAA record. -/
theorem C3_probe_then_write_witness :
    ((BuildSearch (str "example.com") none 0).ret = 0 ∧
      (BuildSearch (str "example.com") (some (List.replicate 29 7)) (List.replicate 29 7).length).ret
        = (List.replicate 29 7).length ∧
      (BuildSearch (str "example.com") (some (List.replicate 29 7))
        (List.replicate 29 7).length).nBuflen = 0) ∧
    ((BuildAnswer sampleAn sampleNs sampleAr none 0).ret = 0 ∧
      (BuildAnswer sampleAn sampleNs sampleAr (some (List.replicate 133 7))
        (List.replicate 133 7).length).ret = (List.replicate 133 7).length ∧
      (BuildAnswer sampleAn sampleNs sampleAr (some (List.replicate 133 7))
        (List.replicate 133 7).length).nBuflen = 0) :=
  C3_probe_then_write (str "example.com") sampleAn sampleNs sampleAr (List.replicate 29 7)
    (List.replicate 133 7) 0 sampleAn_typed sampleNs_typed sampleAr_typed (by decide) (by decide)

/-! ## The search of `BuildLabelReferenc` -/

theorem foldl_range_induct {β : Type} (f : β → Nat → β) (P : Nat → β → Prop) (n : Nat) (b : β)
    (h0 : P 0 b) (hs : ∀ k c, k < n → P k c → P (k + 1) (f c k)) :
    P n ((List.range n).foldl f b) := by
  induction n with
  | zero => simpa using h0
  | succ j ih =>
    rw [List.range_succ, List.foldl_append]
    simp only [List.foldl_cons, List.foldl_nil]
    exact hs j _ (by omega) (ih (fun k c hk hp => hs k c (by omega) hp))

theorem SearchInv_congr (T : OFFSETLIST) (vTok : LABELLIST) (V W : Nat → Nat → Nat → Prop)
    (mF : List (Nat × Nat)) (h : ∀ n i m, V n i m ↔ W n i m) (hv : SearchInv T vTok V mF) :
    SearchInv T vTok W mF := by
  have : V = W := by funext n i m; exact propext (h n i m)
  rw [← this]; exact hv

theorem mem_emplace (mF : List (Nat × Nat)) (k v : Nat) (kv : Nat × Nat)
    (h : kv ∈ emplace mF k v) : kv ∈ mF ∨ (kv = (k, v) ∧ ∀ u, (k, u) ∉ mF) := by
  unfold emplace at h
  split at h
  · exact Or.inl h
  · rename_i hany
    simp only [List.mem_append, List.mem_singleton] at h
    rcases h with h | h
    · exact Or.inl h
    · refine Or.inr ⟨h, fun u hu => hany ?_⟩
      simp only [List.any_eq_true, decide_eq_true_eq]
      exact ⟨(k, u), hu, rfl⟩

theorem emplace_sub (mF : List (Nat × Nat)) (k v : Nat) (kv : Nat × Nat) (h : kv ∈ mF) :
    kv ∈ emplace mF k v := by
  unfold emplace
  split
  · exact h
  · simp [h]

theorem emplace_key (mF : List (Nat × Nat)) (k v : Nat) : ∃ u, (k, u) ∈ emplace mF k v := by
  unfold emplace
  split
  · rename_i hany
    simp only [List.any_eq_true, decide_eq_true_eq] at hany
    obtain ⟨⟨a, b⟩, hmem, hk⟩ := hany
    simp only at hk
    subst hk
    exact ⟨b, hmem⟩
  · exact ⟨v, by simp⟩

/-- One test of the search loop keeps the invariant. -/
theorem SearchInv_step (T : OFFSETLIST) (vTok : LABELLIST) (V : Nat → Nat → Nat → Prop)
    (mF : List (Nat × Nat)) (n i m : Nat) (hv : SearchInv T vTok V mF)
    (hle : ∀ n1 i1 m1, V n1 i1 m1 → n1 ≤ n) (hn : n < T.length) (hi : i < vTok.length)
    (hm : m < (tokensAt T n).length) :
    SearchInv T vTok (fun n1 i1 m1 => V n1 i1 m1 ∨ (n1 = n ∧ i1 = i ∧ m1 = m))
      (if tailsEqual (T.getD n default).2 m vTok i then
        emplace mF (vTok.length - i) (((n + 1) <<< 16) ||| m) else mF) := by
  by_cases hte : tailsEqual (T.getD n default).2 m vTok i = true
  · rw [if_pos hte]
    have hhit : Hit T vTok n i m := ⟨hn, hi, hm, hte⟩
    constructor
    · intro kv hkv
      rcases mem_emplace _ _ _ _ hkv with hold | ⟨hnew, habs⟩
      · obtain ⟨n0, i0, m0, hV, hH, hk, hval, hmin⟩ := hv.1 kv hold
        refine ⟨n0, i0, m0, Or.inl hV, hH, hk, hval, ?_⟩
        intro n1 m1 hV1 hH1
        rcases hV1 with hV1 | ⟨rfl, -, -⟩
        · exact hmin n1 m1 hV1 hH1
        · exact hle n0 i0 m0 hV
      · refine ⟨n, i, m, Or.inr ⟨rfl, rfl, rfl⟩, hhit, by rw [hnew], by rw [hnew]; rfl, ?_⟩
        intro n1 m1 hV1 hH1
        rcases hV1 with hV1 | ⟨rfl, -, -⟩
        · obtain ⟨u, hu⟩ := hv.2 n1 i m1 hV1 hH1
          exact absurd hu (habs u)
        · exact le_refl _
    · intro n1 i1 m1 hV1 hH1
      rcases hV1 with hV1 | ⟨rfl, rfl, rfl⟩
      · obtain ⟨u, hu⟩ := hv.2 n1 i1 m1 hV1 hH1
        exact ⟨u, emplace_sub _ _ _ _ hu⟩
      · exact emplace_key _ _ _
  · rw [if_neg hte]
    have hno : ¬ Hit T vTok n i m := fun h => hte h.2.2.2
    constructor
    · intro kv hkv
      obtain ⟨n0, i0, m0, hV, hH, hk, hval, hmin⟩ := hv.1 kv hkv
      refine ⟨n0, i0, m0, Or.inl hV, hH, hk, hval, ?_⟩
      intro n1 m1 hV1 hH1
      rcases hV1 with hV1 | ⟨rfl, rfl, rfl⟩
      · exact hmin n1 m1 hV1 hH1
      · exact hle n0 i0 m0 hV
    · intro n1 i1 m1 hV1 hH1
      rcases hV1 with hV1 | ⟨rfl, rfl, rfl⟩
      · exact hv.2 n1 i1 m1 hV1 hH1
      · exact absurd hH1 hno

/-- After the three loops `mFound` satisfies the invariant for all triples. -/
theorem searchSuffix_inv0 (T : OFFSETLIST) (vTok : LABELLIST) :
    SearchInv T vTok (fun n1 i1 m1 => n1 < T.length ∧ i1 < vTok.length ∧
      m1 < (tokensAt T n1).length) (searchSuffix T vTok) := by
  unfold searchSuffix
  refine foldl_range_induct _
    (fun n mF => SearchInv T vTok (fun n1 i1 m1 => n1 < n ∧ i1 < vTok.length ∧
      m1 < (tokensAt T n1).length) mF) T.length [] ?_ ?_
  · exact ⟨fun kv h => by simp at h, fun n i m h => by omega⟩
  · intro n mF hn hP
    refine SearchInv_congr T vTok _ _ _ ?_ (foldl_range_induct _
      (fun i mF => SearchInv T vTok (fun n1 i1 m1 => (n1 < n ∧ i1 < vTok.length ∧
        m1 < (tokensAt T n1).length) ∨ (n1 = n ∧ i1 < i ∧ m1 < (tokensAt T n).length)) mF)
      vTok.length mF ?_ ?_)
    · intro n1 i1 m1
      constructor
      · rintro (h | ⟨rfl, h2, h3⟩)
        · exact ⟨by omega, h.2.1, h.2.2⟩
        · exact ⟨by omega, h2, h3⟩
      · rintro ⟨h1, h2, h3⟩
        by_cases hc : n1 = n
        · subst hc; exact Or.inr ⟨rfl, h2, h3⟩
        · exact Or.inl ⟨by omega, h2, h3⟩
    · exact SearchInv_congr T vTok _ _ _ (fun n1 i1 m1 =>
        ⟨fun h => Or.inl h, fun h => h.elim id (fun h => by omega)⟩) hP
    · intro i mF2 hi hP2
      refine SearchInv_congr T vTok _ _ _ ?_ (foldl_range_induct _
        (fun m mF => SearchInv T vTok (fun n1 i1 m1 => ((n1 < n ∧ i1 < vTok.length ∧
          m1 < (tokensAt T n1).length) ∨ (n1 = n ∧ i1 < i ∧ m1 < (tokensAt T n).length)) ∨
          (n1 = n ∧ i1 = i ∧ m1 < m)) mF)
        (T.getD n default).2.length mF2 ?_ ?_)
      · intro n1 i1 m1
        constructor
        · rintro ((h | h) | ⟨rfl, rfl, h3⟩)
          · exact Or.inl h
          · exact Or.inr ⟨h.1, by omega, h.2.2⟩
          · exact Or.inr ⟨rfl, by omega, h3⟩
        · rintro (h | ⟨rfl, h2, h3⟩)
          · exact Or.inl (Or.inl h)
          · by_cases hc : i1 = i
            · subst hc; exact Or.inr ⟨rfl, rfl, h3⟩
            · exact Or.inl (Or.inr ⟨rfl, by omega, h3⟩)
      · exact SearchInv_congr T vTok _ _ _ (fun n1 i1 m1 =>
          ⟨fun h => Or.inl h, fun h => h.elim id (fun h => by omega)⟩) hP2
      · intro m mF3 hm hP3
        refine SearchInv_congr T vTok _ _ _ ?_ (SearchInv_step T vTok _ mF3 n i m hP3 ?_ hn hi hm)
        · intro n1 i1 m1
          constructor
          · rintro (h | ⟨rfl, rfl, rfl⟩)
            · rcases h with h | ⟨h1, h2, h3⟩
              · exact Or.inl h
              · exact Or.inr ⟨h1, h2, by omega⟩
            · exact Or.inr ⟨rfl, rfl, by omega⟩
          · rintro (h | ⟨rfl, rfl, h3⟩)
            · exact Or.inl (Or.inl h)
            · by_cases hc : m1 = m
              · subst hc; exact Or.inr ⟨rfl, rfl, rfl⟩
              · exact Or.inl (Or.inr ⟨rfl, rfl, by omega⟩)
        · rintro n1 i1 m1 ((h | h) | h) <;> omega

/-- What `mFound` holds after the search: every element is a successful test, in the first
entry that has one for the same start `i`. -/
theorem searchSuffix_mem (T : OFFSETLIST) (vTok : LABELLIST) (kv : Nat × Nat)
    (hkv : kv ∈ searchSuffix T vTok) :
    ∃ n i m, Hit T vTok n i m ∧ kv.1 = vTok.length - i ∧ kv.2 = pack n m ∧
      ∀ n1 m1, Hit T vTok n1 i m1 → n ≤ n1 := by
  obtain ⟨n0, i0, m0, _, hH, hk, hval, hmin⟩ := (searchSuffix_inv0 T vTok).1 kv hkv
  exact ⟨n0, i0, m0, hH, hk, hval, fun n1 m1 hH1 =>
    hmin n1 m1 ⟨hH1.1, hH1.2.1, hH1.2.2.1⟩ hH1⟩

theorem rbegin_mem (mF : List (Nat × Nat)) (kv : Nat × Nat) (h : rbegin mF = some kv) :
    kv ∈ mF := by
  induction mF generalizing kv with
  | nil => simp [rbegin] at h
  | cons x rest ih =>
    simp only [rbegin] at h
    cases hr : rbegin rest with
    | none =>
      simp only [hr, Option.some.injEq] at h
      simp [h]
    | some b =>
      simp only [hr] at h
      split at h
      · simp only [Option.some.injEq] at h
        subst h
        exact List.mem_cons_of_mem _ (ih b hr)
      · simp only [Option.some.injEq] at h
        simp [h]

/-! ## The table that `BuildLabelReferenc` builds -/

theorem tokensAt_append_left (T : OFFSETLIST) (e : OFFSETLABELLIST) (k : Nat) (h : k < T.length) :
    tokensAt (T ++ [e]) k = tokensAt T k := by
  unfold tokensAt
  rw [List.getD_append _ _ _ _ h]

theorem tokensAt_append_right (T : OFFSETLIST) (e : OFFSETLABELLIST) :
    tokensAt (T ++ [e]) T.length = e.2 := by
  unfold tokensAt
  rw [List.getD_append_right _ _ _ _ (le_refl _)]
  simp

theorem labelsOf_drop (tokens : LABELLIST) (m : Nat) :
    labelsOf (tokens.drop m) = (labelsOf tokens).drop m := by
  simp [labelsOf, List.map_drop]

theorem tailsEqual_iff (a b : LABELLIST) (m i : Nat) :
    tailsEqual a m b i = true ↔ labelsOf (a.drop m) = labelsOf (b.drop i) := by
  simp [tailsEqual, labelsOf]

theorem litLen_zero (ls : List (List Nat)) : litLen (ls.map fun t => (0, t)) = ls.length := by
  induction ls with
  | nil => rfl
  | cons l ls ih => simp [litLen, ih]

theorem labelsOf_zero (ls : List (List Nat)) : labelsOf (ls.map fun t => (0, t)) = ls := by
  induction ls with
  | nil => rfl
  | cons l ls ih =>
    simp only [labelsOf, List.map_cons, List.cons.injEq, true_and] at ih ⊢
    exact ih

theorem setFirst_length (tokens : LABELLIST) (i v : Nat) :
    (setFirst tokens i v).length = tokens.length := by
  induction tokens generalizing i with
  | nil => rfl
  | cons t rest ih => cases i <;> simp [setFirst, ih]

theorem labelsOf_setFirst (tokens : LABELLIST) (i v : Nat) :
    labelsOf (setFirst tokens i v) = labelsOf tokens := by
  induction tokens generalizing i with
  | nil => rfl
  | cons t rest ih =>
    cases i with
    | zero => simp [setFirst, labelsOf]
    | succ i =>
      have := ih i
      simp only [labelsOf] at this
      simp [setFirst, labelsOf, this]

theorem litLen_setFirst (ls : List (List Nat)) (i v : Nat) (hi : i < ls.length) (hv : v ≠ 0) :
    litLen (setFirst (ls.map fun t => (0, t)) i v) = i ∧
    ((setFirst (ls.map fun t => (0, t)) i v).getD i default).1 = v := by
  induction ls generalizing i with
  | nil => simp at hi
  | cons l ls ih =>
    cases i with
    | zero => simp [setFirst, litLen, hv]
    | succ i =>
      have := ih i (by simpa using hi)
      simp only [List.map_cons, setFirst, litLen, ne_eq, not_true_eq_false, if_false, this.1,
        List.getD_cons_succ, this.2, and_self]

theorem pack_ne_zero (n m : Nat) : pack n m ≠ 0 := by
  unfold pack
  intro h
  have h2 : (n + 1) <<< 16 ≠ 0 := by rw [Nat.shiftLeft_eq]; omega
  obtain ⟨j, hj⟩ := Nat.ne_zero_implies_bit_true h2
  have h3 := Nat.testBit_or ((n + 1) <<< 16) m j
  rw [h, hj] at h3
  simp at h3

/-- `BuildLabelReferenc` appends one entry whose labels are the tokens of the name, and keeps
the soundness of the suffix pointers. -/
theorem BuildLabelReferenc_ok (name : List Nat) (T : OFFSETLIST) (hT : TableOK T) :
    ∃ tokens, (BuildLabelReferenc name T).2 = T ++ [(0, tokens)] ∧
      labelsOf tokens = tokenize name ∧ TableOK (T ++ [(0, tokens)]) := by
  have hvl : ((tokenize name).map fun t => ((0 : Nat), t)).length = (tokenize name).length := by
    simp
  have old : ∀ tokens : LABELLIST, ∀ k, k < T.length → PtrOK (T ++ [(0, tokens)]) k := by
    intro tokens k hk
    have hk' := hT k hk
    unfold PtrOK at hk' ⊢
    rw [tokensAt_append_left T _ k hk]
    intro hlt
    obtain ⟨n, m, h1, h2, h3, h4, h5⟩ := hk' hlt
    exact ⟨n, m, h1, h2, by rwa [tokensAt_append_left T _ n (by omega)],
      by rwa [tokensAt_append_left T _ n (by omega)],
      by rwa [tokensAt_append_left T _ n (by omega)]⟩
  cases hr : rbegin (searchSuffix T ((tokenize name).map fun t => (0, t))) with
  | none =>
    refine ⟨(tokenize name).map fun t => (0, t), by simp [BuildLabelReferenc, hr],
      labelsOf_zero _, ?_⟩
    intro k hk
    by_cases hk2 : k < T.length
    · exact old _ k hk2
    · have : k = T.length := by simp at hk; omega
      subst this
      unfold PtrOK
      rw [tokensAt_append_right]
      intro hlt
      simp [litLen_zero] at hlt
  | some kv =>
    obtain ⟨n, i, m, hH, hk1, hk2, hmin⟩ := searchSuffix_mem T _ kv (rbegin_mem _ _ hr)
    obtain ⟨hn, hi, hm, hte⟩ := hH
    rw [hvl] at hi hk1
    have hidx : (tokenize name).length - kv.1 = i := by omega
    refine ⟨setFirst ((tokenize name).map fun t => (0, t)) i (pack n m), ?_, ?_, ?_⟩
    · simp only [BuildLabelReferenc, hr, hvl, hidx, hk2]
    · rw [labelsOf_setFirst, labelsOf_zero]
    · intro k hk
      by_cases hkT : k < T.length
      · exact old _ k hkT
      · have : k = T.length := by simp at hk; omega
        subst this
        unfold PtrOK
        rw [tokensAt_append_right]
        simp only []
        have hl := litLen_setFirst (tokenize name) i (pack n m) hi (pack_ne_zero n m)
        rw [hl.1]
        intro _
        refine ⟨n, m, hl.2, hn, by rwa [tokensAt_append_left T _ n hn], ?_, ?_⟩
        · rw [tokensAt_append_left T _ n hn]
          by_contra hcon
          have hj : litLen (tokensAt T n) < (tokensAt T n).length := by omega
          obtain ⟨n1, m1, -, hn1, hm1, -, hlab⟩ := hT n hn hj
          have hte' := (tailsEqual_iff _ _ _ _).mp hte
          have hchain : labelsOf ((tokensAt T n1).drop (m1 + (m - litLen (tokensAt T n))))
              = labelsOf (((tokenize name).map fun t => ((0 : Nat), t)).drop i) := by
            rw [← hte']
            show labelsOf ((tokensAt T n1).drop (m1 + (m - litLen (tokensAt T n))))
              = labelsOf ((tokensAt T n).drop m)
            rw [labelsOf_drop, labelsOf_drop, ← List.drop_drop, ← labelsOf_drop, hlab,
              labelsOf_drop, List.drop_drop]
            congr 1; omega
          have hne : ((tokensAt T n1).drop (m1 + (m - litLen (tokensAt T n)))).length ≠ 0 := by
            have h1 := congrArg List.length hchain
            simp only [labelsOf, List.length_map, List.length_drop] at h1 ⊢
            omega
          have hlt1 : m1 + (m - litLen (tokensAt T n)) < (tokensAt T n1).length := by
            simp only [List.length_drop] at hne; omega
          have := hmin n1 _ ⟨by omega, by rw [hvl]; exact hi, hlt1,
            (tailsEqual_iff _ _ _ _).mpr hchain⟩
          omega
        · rw [tokensAt_append_left T _ n hn]
          have e : labelsOf (List.drop i (setFirst ((tokenize name).map fun t => ((0 : Nat), t))
              i (pack n m))) = labelsOf (List.drop i ((tokenize name).map fun t => ((0 : Nat), t))) := by
            rw [labelsOf_drop, labelsOf_setFirst, ← labelsOf_drop]
          rw [e]
          exact (tailsEqual_iff _ _ _ _).mp hte

/-! ## Octets held by a buffer -/

theorem Holds_mid (pre x post : List Nat) : Holds (pre ++ x ++ post) pre.length x :=
  ⟨pre, post, rfl, rfl⟩

theorem Holds_append (buf : List Nat) (q : Nat) (x post : List Nat) (h : Holds buf q x) :
    Holds (buf ++ post) q x := by
  obtain ⟨a, b, rfl, ha⟩ := h
  exact ⟨a, b ++ post, by simp, ha⟩

theorem Holds_split (buf : List Nat) (q : Nat) (x y : List Nat) (h : Holds buf q (x ++ y)) :
    Holds buf q x ∧ Holds buf (q + x.length) y := by
  obtain ⟨a, b, rfl, ha⟩ := h
  exact ⟨⟨a, y ++ b, by simp, ha⟩, ⟨a ++ x, b, by simp, by simp [ha]⟩⟩

theorem Holds_cons (buf : List Nat) (q : Nat) (v : Nat) (x : List Nat) (h : Holds buf q (v :: x)) :
    buf[q]? = some v ∧ Holds buf (q + 1) x := by
  obtain ⟨a, b, rfl, ha⟩ := h
  subst ha
  refine ⟨?_, ⟨a ++ [v], b, by simp, by simp⟩⟩
  have := getElem?_mid a (x ++ b) v
  simpa using this

theorem Holds_take (buf : List Nat) (q : Nat) (x : List Nat) (h : Holds buf q x) :
    (buf.drop q).take x.length = x ∧ q + x.length ≤ buf.length := by
  obtain ⟨a, b, rfl, ha⟩ := h
  subst ha
  refine ⟨?_, by simp⟩
  rw [List.append_assoc, List.drop_left, List.take_left]

theorem Holds_rd16 (buf : List Nat) (q v w : Nat) (h : Holds buf q [v, w]) :
    rd16 buf q = .ok (v * 256 + w) := by
  obtain ⟨a, b, rfl, ha⟩ := h
  have := rd16_mid a b v w q ha.symm
  simpa using this

theorem Holds_rd8 (buf : List Nat) (q v : Nat) (h : Holds buf q [v]) : rd8 buf q = .ok v := by
  have := (Holds_cons buf q v [] h).1
  simp [rd8, this]

/-! ## TXT payloads -/

theorem rdataTxt_ok (ss : List (List Nat)) (hss : ∀ s ∈ ss, s.length ≤ 255) (buf : List Nat)
    (cur off L fuel : Nat) (acc : List Nat)
    (hh : Holds buf (cur + off) (ss.map fun s => (s.length % 256) :: s).flatten)
    (hL : L = off + ((ss.map fun s => (s.length % 256) :: s).flatten).length)
    (hfuel : ss.length ≤ fuel) :
    ∃ r, rdataTxt buf cur L fuel off acc = .ok r () := by
  induction ss generalizing off fuel acc with
  | nil =>
    simp only [List.map_nil, List.flatten_nil, List.length_nil, Nat.add_zero] at hL
    subst hL
    cases fuel <;> exact ⟨acc, by simp [rdataTxt]⟩
  | cons s rest ih =>
    obtain ⟨f, rfl⟩ : ∃ f, fuel = f + 1 := ⟨fuel - 1, by simp at hfuel; omega⟩
    have hs := hss s (by simp)
    simp only [List.map_cons, List.flatten_cons, Nat.mod_eq_of_lt (show s.length < 256 by omega)]
      at hh hL
    have h1 := Holds_split _ _ (s.length :: s) _ hh
    have h2 := Holds_cons _ _ _ _ h1.1
    have h3 := Holds_take _ _ _ h2.2
    have hrest := ih (fun x hx => hss x (by simp [hx])) (off + s.length + 1) f
    simp only [List.length_cons, List.length_append] at hL h1
    rw [rdataTxt, if_pos (by omega)]
    simp only [h2.1]
    by_cases hz : s.length > 0
    · rw [if_pos hz, if_neg (by omega)]
      exact hrest _ (by rw [show cur + (off + s.length + 1) = cur + off + (s.length + 1) by omega]
                        exact h1.2) (by omega) (by simpa using hfuel)
    · rw [if_neg hz]
      exact hrest _ (by rw [show cur + (off + s.length + 1) = cur + off + (s.length + 1) by omega]
                        exact h1.2) (by omega) (by simpa using hfuel)

/-! ## Names written by `BuildLabels` and read by `ExtractLabels` -/

theorem ptr_octets (t : Nat) (ht : t < 16384) :
    be16 (0xc000 ||| (t % 65536)) = [192 + t / 256, t % 256] := by
  have h := Nat.mul_add_lt_is_or (i := 14) (b := t) (by norm_num; exact ht) 3
  norm_num at h
  rw [Nat.mod_eq_of_lt (by omega), show (0xc000 : Nat) = 49152 by norm_num, ← h]
  simp only [be16]
  congr 1
  · omega
  · congr 1; omega

theorem unpack (n m : Nat) (hn : n + 1 < 65536) (hm : m < 65536) :
    ((pack n m >>> 16) &&& 0xffff) - 1 = n ∧ pack n m &&& 0xffff = m := by
  have h := Nat.mul_add_lt_is_or (i := 16) (b := m) (by norm_num; exact hm) (n + 1)
  have e : pack n m = 65536 * (n + 1) + m := by
    unfold pack
    rw [Nat.shiftLeft_eq]
    norm_num at h
    rw [h, Nat.mul_comm]
  have a1 := Nat.and_pow_two_sub_one_eq_mod (pack n m >>> 16) 16
  have a2 := Nat.and_pow_two_sub_one_eq_mod (pack n m) 16
  norm_num at a1 a2
  rw [show (0xffff : Nat) = 65535 by norm_num, a1, a2, Nat.shiftRight_eq_div_pow, e]
  norm_num
  constructor <;> omega

theorem preLen_succ (tokens : LABELLIST) (m : Nat) (h : m < tokens.length) :
    preLen tokens (m + 1) = preLen tokens m + ((tokens.getD m default).2.length + 1) := by
  induction tokens generalizing m with
  | nil => simp at h
  | cons t rest ih =>
    cases m with
    | zero => simp [preLen]
    | succ j =>
      have := ih j (by simpa using h)
      simp only [preLen, List.take_succ_cons, List.map_cons, List.sum_cons,
        List.getD_cons_succ] at this ⊢
      omega

theorem preLen_range (tokens : LABELLIST) (m : Nat) (h : m ≤ tokens.length) :
    ((List.range m).map fun n => (tokens.getD n default).2.length + 1).sum = preLen tokens m := by
  induction m with
  | zero => simp [preLen]
  | succ j ih =>
    rw [List.range_succ, List.map_append, List.sum_append, ih (by omega), preLen_succ _ _ (by omega)]
    simp

theorem le_preLen (tokens : LABELLIST) (m : Nat) (h : m ≤ tokens.length) : m ≤ preLen tokens m := by
  induction m with
  | zero => simp
  | succ j ih =>
    rw [preLen_succ _ _ (by omega)]
    have := ih (by omega)
    omega

theorem preLen_mono (tokens : LABELLIST) (a b : Nat) (h : a ≤ b) :
    preLen tokens a ≤ preLen tokens b := by
  induction tokens generalizing a b with
  | nil => simp [preLen]
  | cons t rest ih =>
    cases a with
    | zero => simp [preLen]
    | succ a =>
      cases b with
      | zero => omega
      | succ b =>
        have := ih a b (by omega)
        simp only [preLen, List.take_succ_cons, List.map_cons, List.sum_cons] at this ⊢
        omega

theorem preLen_cons (t : LABELENTRY) (rest : LABELLIST) (m : Nat) :
    preLen (t :: rest) (m + 1) = t.2.length + 1 + preLen rest m := by
  simp [preLen]

theorem labelsOctets_preLen (U : OFFSETLIST) (tokens : LABELLIST) :
    (labelsOctets U tokens).length
      = preLen tokens (litLen tokens) + (if litLen tokens < tokens.length then 2 else 1) := by
  induction tokens with
  | nil => simp [labelsOctets, preLen, litLen]
  | cons t rest ih =>
    by_cases h : t.1 ≠ 0
    · simp [labelsOctets, litLen, h, preLen, be16]
    · simp only [labelsOctets, litLen, if_neg h, List.length_cons, List.length_append, ih,
        preLen_cons, Nat.add_lt_add_iff_right]
      omega

theorem targetOffset_pack (U : OFFSETLIST) (n m : Nat) (hn : n + 1 < 65536) (hm : m < 65536)
    (hml : m ≤ (tokensAt U n).length) :
    targetOffset U (pack n m) = (U.getD n default).1 + preLen (tokensAt U n) m := by
  have hu := unpack n m hn hm
  have hr := preLen_range (tokensAt U n) m hml
  unfold tokensAt at hr ⊢
  simp only [targetOffset, hu.1, hu.2, hr]

/-- The octets that `BuildLabels` writes for a token list decode, from the offset of every
literal token and from the offset of the suffix pointer, to the labels from there on. -/
theorem name_decodes (U : OFFSETLIST) (buf : List Nat) (ts : LABELLIST) (q : Nat)
    (hlab : ∀ t ∈ ts, 1 ≤ t.2.length ∧ t.2.length ≤ 63)
    (hh : Holds buf q (labelsOctets U ts))
    (hptr : litLen ts < ts.length → ∃ e F,
      targetOffset U (ts.getD (litLen ts) default).1 < 16384 ∧
      targetOffset U (ts.getD (litLen ts) default).1 ≤ q + preLen ts (litLen ts) ∧
      Decodes buf (targetOffset U (ts.getD (litLen ts) default).1)
        (labelsOf (ts.drop (litLen ts))) e F) :
    ∀ m, m ≤ litLen ts → ∃ F, Decodes buf (q + preLen ts m) (labelsOf (ts.drop m))
      (q + (labelsOctets U ts).length) F := by
  induction ts generalizing q with
  | nil =>
    intro m hm
    simp only [litLen, Nat.le_zero] at hm
    subst hm
    simp only [labelsOctets] at hh ⊢
    exact ⟨1, by simpa [preLen, labelsOf] using decodes_root buf q (Holds_cons _ _ _ _ hh).1⟩
  | cons tok rest ih =>
    intro m hm
    by_cases h : tok.1 ≠ 0
    · simp only [litLen, if_pos h, Nat.le_zero] at hm
      subst hm
      have hl : litLen (tok :: rest) = 0 := by simp [litLen, h]
      rw [hl] at hptr
      obtain ⟨e, F, ht1, ht2, hd⟩ := hptr (by simp)
      simp only [List.getD_cons_zero, List.drop_zero] at ht1 ht2 hd
      simp only [labelsOctets, if_pos h, ptr_octets _ ht1] at hh ⊢
      have h0 := Holds_cons _ _ _ _ hh
      have h1 := Holds_cons _ _ _ _ h0.2
      refine ⟨F + 1, ?_⟩
      have := decodes_ptr buf q _ _ e F h0.1 h1.1 ht1 (by simpa [preLen] using ht2) hd
      simpa [preLen] using this
    · have hl : litLen (tok :: rest) = litLen rest + 1 := by simp [litLen, h]
      have htok := hlab tok (by simp)
      simp only [labelsOctets, if_neg h, Nat.mod_eq_of_lt (show tok.2.length < 256 by omega)]
        at hh ⊢
      have h0 := Holds_cons _ _ _ _ hh
      have h1 := Holds_split _ _ _ _ h0.2
      have h2 := Holds_take _ _ _ h1.1
      have hrec := ih (q + 1 + tok.2.length) (fun t ht => hlab t (by simp [ht])) h1.2 (by
        intro hlt
        obtain ⟨e, F, ht1, ht2, hd⟩ := hptr (by rw [hl]; simpa using hlt)
        rw [hl] at ht1 ht2 hd
        simp only [List.getD_cons_succ, List.drop_succ_cons, preLen_cons] at ht1 ht2 hd
        exact ⟨e, F, ht1, by omega, hd⟩)
      have hend : q + 1 + tok.2.length + (labelsOctets U rest).length
          = q + (tok.2 ++ labelsOctets U rest).length.succ := by
        simp; omega
      cases m with
      | zero =>
        obtain ⟨F, hF⟩ := hrec 0 (by omega)
        refine ⟨F + 1, ?_⟩
        have := decodes_label buf q tok.2 (labelsOf rest) _ F h0.1 htok.1 htok.2 h2.1 (by omega)
          (by simpa [preLen] using hF)
        simpa [preLen, labelsOf, hend] using this
      | succ j =>
        obtain ⟨F, hF⟩ := hrec j (by omega)
        refine ⟨F, ?_⟩
        rw [preLen_cons, List.drop_succ_cons]
        rw [show q + (tok.2.length + 1 + preLen rest j) = q + 1 + tok.2.length + preLen rest j
          by omega]
        simpa [hend] using hF

theorem setOffset_length (T : OFFSETLIST) (k v : Nat) : (setOffset T k v).length = T.length := by
  induction T generalizing k with
  | nil => rfl
  | cons e rest ih => cases k <;> simp [setOffset, ih]

theorem getD_setOffset_ne (T : OFFSETLIST) (k v n : Nat) (h : n ≠ k) :
    (setOffset T k v).getD n default = T.getD n default := by
  induction T generalizing k n with
  | nil => rfl
  | cons e rest ih =>
    cases k with
    | zero =>
      cases n with
      | zero => exact absurd rfl h
      | succ n => simp [setOffset]
    | succ k =>
      cases n with
      | zero => simp [setOffset]
      | succ n => simpa [setOffset] using ih k n (by omega)

theorem getD_setOffset_eq (T : OFFSETLIST) (k v : Nat) (h : k < T.length) :
    ((setOffset T k v).getD k default).1 = v := by
  induction T generalizing k with
  | nil => simp at h
  | cons e rest ih =>
    cases k with
    | zero => simp [setOffset]
    | succ k => simpa [setOffset] using ih k (by simpa using h)

theorem tokensAt_setOffset (T : OFFSETLIST) (k v n : Nat) :
    tokensAt (setOffset T k v) n = tokensAt T n := tokens_setOffset T k v n

theorem Placed_append (pre x : List Nat) (T : OFFSETLIST) (k : Nat) (h : Placed pre T k) :
    Placed (pre ++ x) T k := by
  refine ⟨by have := h.1; simp only [List.length_append]; omega, fun n hn m hm1 hm2 => ?_⟩
  obtain ⟨hpos, e, F, hd⟩ := h.2 n hn m hm1 hm2
  exact ⟨by simp only [List.length_append]; omega, e, F, decodes_append pre x _ _ e F hd⟩

theorem Placed_congr (pre : List Nat) (T U : OFFSETLIST) (k : Nat)
    (h : ∀ n, n < k → U.getD n default = T.getD n default) (hP : Placed pre T k) :
    Placed pre U k := by
  refine ⟨hP.1, fun n hn m hm1 hm2 => ?_⟩
  have e := h n hn
  unfold tokensAt at hm1 hm2 ⊢
  rw [e] at hm1 hm2 ⊢
  exact hP.2 n hn m hm1 hm2

/-- Writing the entry `k` after the entries before it keeps them readable and makes the entry
`k` readable: `ExtractLabels` at the offset of the entry returns its labels. -/
theorem name_placed (T : OFFSETLIST) (pre : List Nat) (k : Nat) (hT : TableOK T)
    (hk : k < T.length) (hP : Placed pre T k)
    (hlab : ∀ t ∈ tokensAt T k, 1 ≤ t.2.length ∧ t.2.length ≤ 63) (hsz : pre.length < 16384) :
    Placed (pre ++ labelsOctets (setOffset T k pre.length) (tokensAt T k))
      (setOffset T k pre.length) (k + 1) ∧
    ∃ F, Decodes (pre ++ labelsOctets (setOffset T k pre.length) (tokensAt T k)) pre.length
      (labelsOf (tokensAt T k))
      (pre.length + (labelsOctets (setOffset T k pre.length) (tokensAt T k)).length) F := by
  generalize hU : setOffset T k pre.length = U
  generalize ho : labelsOctets U (tokensAt T k) = o
  have hUn : ∀ n, n ≠ k → U.getD n default = T.getD n default := fun n hn => by
    rw [← hU]; exact getD_setOffset_ne T k _ n hn
  have hUt : ∀ n, tokensAt U n = tokensAt T n := fun n => by
    rw [← hU]; exact tokensAt_setOffset T k _ n
  have hh : Holds (pre ++ o) pre.length (labelsOctets U (tokensAt T k)) :=
    ⟨pre, [], by simp [ho], rfl⟩
  have hptr : litLen (tokensAt T k) < (tokensAt T k).length → ∃ e F,
      targetOffset U ((tokensAt T k).getD (litLen (tokensAt T k)) default).1 < 16384 ∧
      targetOffset U ((tokensAt T k).getD (litLen (tokensAt T k)) default).1
        ≤ pre.length + preLen (tokensAt T k) (litLen (tokensAt T k)) ∧
      Decodes (pre ++ o) (targetOffset U ((tokensAt T k).getD (litLen (tokensAt T k)) default).1)
        (labelsOf ((tokensAt T k).drop (litLen (tokensAt T k)))) e F := by
    intro hlt
    obtain ⟨n, m, hcode, hnk, hm, hmlit, hlab⟩ := hT k hk hlt
    obtain ⟨hpos, e, F, hd⟩ := hP.2 n hnk m hmlit hm
    have hle := le_preLen (tokensAt T n) m (by omega)
    have hk1 := hP.1
    have hto : targetOffset U (pack n m) = (T.getD n default).1 + preLen (tokensAt T n) m := by
      rw [targetOffset_pack U n m (by omega) (by omega) (by rw [hUt]; omega), hUn n (by omega),
        hUt]
    rw [hcode, hto, ← hlab]
    exact ⟨e, F, by omega, by omega, decodes_append pre o _ _ e F hd⟩
  have main := name_decodes U (pre ++ o) (tokensAt T k) pre.length hlab hh hptr
  rw [ho] at main
  have hol := labelsOctets_preLen U (tokensAt T k)
  rw [ho] at hol
  constructor
  · refine ⟨?_, fun n hn m hm1 hm2 => ?_⟩
    · have := hP.1
      simp only [List.length_append]
      split at hol <;> omega
    · rw [hUt] at hm1 hm2 ⊢
      by_cases hnk : n = k
      · subst hnk
        have hoff : (U.getD n default).1 = pre.length := by
          rw [← hU]; exact getD_setOffset_eq T n _ hk
        rw [hoff]
        have hmono := preLen_mono (tokensAt T n) m (litLen (tokensAt T n)) hm1
        obtain ⟨F, hF⟩ := main m hm1
        refine ⟨?_, _, F, hF⟩
        simp only [List.length_append]
        split at hol <;> omega
      · rw [hUn n hnk]
        obtain ⟨hpos, e, F, hd⟩ := hP.2 n (by omega) m hm1 hm2
        exact ⟨by simp only [List.length_append]; omega, e, F, decodes_append pre o _ _ e F hd⟩
  · obtain ⟨F, hF⟩ := main 0 (Nat.zero_le _)
    exact ⟨F, by simpa [preLen] using hF⟩

/-! ## Records written by `BuildAnswer` and read by `ExtractRRecords` -/

theorem TableOK_setOffset (T : OFFSETLIST) (k v : Nat) (h : TableOK T) :
    TableOK (setOffset T k v) := by
  intro n hn
  rw [setOffset_length] at hn
  have := h n hn
  unfold PtrOK at this ⊢
  simp only [tokensAt_setOffset]
  exact this

theorem Linked_setOffset (T : OFFSETLIST) (j v k : Nat) (it : ANSWERITEM) (h : Linked T k it) :
    Linked (setOffset T j v) k it := by
  unfold Linked at h ⊢
  simp only [tokensAt_setOffset, setOffset_length]
  exact h

theorem LinkedList_setOffset (T : OFFSETLIST) (j v k : Nat) (items : List ANSWERITEM)
    (h : LinkedList T k items) : LinkedList (setOffset T j v) k items := by
  induction items generalizing k with
  | nil => trivial
  | cons it rest ih => exact ⟨Linked_setOffset T j v k it h.1, ih _ h.2⟩

theorem wf_tokens (T : OFFSETLIST) (k : Nat) (name : List Nat) (hw : WellFormedName name)
    (hl : labelsOf (tokensAt T k) = tokenize name) :
    (∀ t ∈ tokensAt T k, 1 ≤ t.2.length ∧ t.2.length ≤ 63) ∧
    appendName [] (labelsOf (tokensAt T k)) = name := by
  obtain ⟨labels, hwf, rfl⟩ := hw
  rw [tokenize_dotted labels hwf] at hl
  constructor
  · intro t ht
    have : t.2 ∈ labels := by
      rw [← hl]; exact List.mem_map_of_mem _ ht
    exact ⟨(hwf.2 _ this).1, (hwf.2 _ this).2.1⟩
  · rw [hl]
    exact appendName_nil labels (fun l hl h => by
      have := (hwf.2 l hl).1
      simp [h] at this) hwf.1

/-- One pass of the loop of `ExtractRRecords` over a record whose name decodes, whose ten
fixed octets are read, and whose RDATA is rendered. -/
theorem extract_one (fuel : Nat) (buf : List Nat) (p n : Nat) (labels : List (List Nat))
    (e F ty cl ttl rdlen : Nat) (rdata : List Nat)
    (hname : Decodes buf p labels e F) (hF : F ≤ fuel) (hpe : p ≤ e)
    (hty : rd16 buf e = .ok ty) (hcl : rd16 buf (e + 2) = .ok cl)
    (httl : rd32 buf (e + 4) = .ok ttl) (hrl : rd16 buf (e + 8) = .ok rdlen)
    (hfit : e + 10 + rdlen ≤ buf.length)
    (hrender : renderRData fuel buf ty (e + 10) rdlen = .ok rdata ()) :
    ExtractRRecords fuel buf (n + 1) p =
      match ExtractRRecords fuel buf n (e + 10 + rdlen) with
      | .ok rs c => .ok (⟨appendName [] labels, ty, cl, ttl, rdlen, rdata⟩ :: rs)
          (e - p + 10 + rdlen + c)
      | .halt rs h => .halt (⟨appendName [] labels, ty, cl, ttl, rdlen, rdata⟩ :: rs) h := by
  have hpe' : p + (e - p) = e := by omega
  rw [ExtractRRecords]
  simp only [ExtractLabels_of_decodes buf p labels e F fuel hname hF, hpe', hty, hcl, httl, hrl]
  rw [if_neg (by omega), if_neg (by omega)]
  simp only [hrender]

theorem Holds_rd32 (buf : List Nat) (q : Nat) (v : Nat) (h : Holds buf q (be32 v)) :
    ∃ ttl, rd32 buf q = .ok ttl := by
  simp only [be32] at h
  have h1 := Holds_split buf q [v / 16777216 % 256, v / 65536 % 256] [v / 256 % 256, v % 256] h
  have a := Holds_rd16 _ _ _ _ h1.1
  have b : rd16 buf (q + 2) = .ok (v / 256 % 256 * 256 + v % 256) := Holds_rd16 _ _ _ _ h1.2
  exact ⟨(v / 16777216 % 256 * 256 + v / 65536 % 256) * 65536 + (v / 256 % 256 * 256 + v % 256),
    by simp only [rd32, a, b]⟩

theorem ExtractLabels_ok (buf : List Nat) (p : Nat) (labels : List (List Nat)) (e F fuel : Nat)
    (h : Decodes buf p labels e F) (hf : F ≤ fuel) :
    ExtractLabels fuel buf p [] = .ok (appendName [] labels) (e - p) :=
  ExtractLabels_of_decodes buf p labels e F fuel h hf []

theorem txt_count (ss : List (List Nat)) :
    ss.length ≤ ((ss.map fun s => (s.length % 256) :: s).flatten).length := by
  induction ss with
  | nil => simp
  | cons s rest ih => simp only [List.map_cons, List.flatten_cons, List.length_append,
      List.length_cons]; omega

theorem be16_value (v : Nat) : v / 256 % 256 * 256 + v % 256 = v % 65536 := by omega

/-- The payload of a record, written after the entries before it, is rendered by
`ExtractRRecords` without a halt; the RDATA of a PTR record is the target name and the RDATA
of an SRV record ends with the host name. -/
theorem payload_decodes (T : OFFSETLIST) (pre : List Nat) (k : Nat) (it : ANSWERITEM)
    (hT : TableOK T) (hP : Placed pre T (k + 1)) (hL : Linked T k it) (hw : WellFormedItem it)
    (hsz : pre.length + (payloadOctets T pre.length it.usType it.rData).2.length < 16384) :
    Placed (pre ++ (payloadOctets T pre.length it.usType it.rData).2)
      (payloadOctets T pre.length it.usType it.rData).1 (k + entryWidth it) ∧
    ∃ F, ∀ fuel, F ≤ fuel → ∀ post, ∃ rdata,
      renderRData fuel (pre ++ (payloadOctets T pre.length it.usType it.rData).2 ++ post)
        it.usType pre.length (payloadOctets T pre.length it.usType it.rData).2.length
        = .ok rdata () ∧
      (∀ p, it.rData = .ptrData p → rdata = p.2) ∧
      (∀ s, it.rData = .svData s → rdata = srvText s) := by
  obtain ⟨hty, hwn, hwp, hws, hwt⟩ := hw
  obtain ⟨hidx, hlen, hown, hlp, hls⟩ := hL
  rcases hty with ⟨h1, o, h2, h3⟩ | ⟨h1, o, h2, h3⟩ | ⟨h1, q, h2⟩ | ⟨h1, ss, h2⟩ | ⟨h1, s, h2⟩
  · -- A
    rw [h1, h2] at hsz ⊢
    simp only [payloadOctets, entryWidth, h1, h2] at hsz ⊢
    refine ⟨Placed_append _ _ _ _ hP, 0, fun fuel _ post => ?_⟩
    obtain ⟨a, b, c, d, rfl⟩ : ∃ a b c d, o = [a, b, c, d] := by
      match o, h3 with
      | [a, b, c, d], _ => exact ⟨a, b, c, d, rfl⟩
    have hmap : List.map (fun i => [a, b, c, d].getD i 0) (List.range 4) = [a, b, c, d] := rfl
    rw [hmap]
    have hh : Holds (pre ++ [a, b, c, d] ++ post) pre.length [a, b, c, d] := Holds_mid _ _ _
    have e0 := (Holds_cons _ _ _ _ hh)
    have e1 := (Holds_cons _ _ _ _ e0.2)
    have e2 := (Holds_cons _ _ _ _ e1.2)
    have e3 := (Holds_cons _ _ _ _ e2.2)
    refine ⟨decOctets a ++ [46] ++ decOctets b ++ [46] ++ decOctets c ++ [46] ++ decOctets d,
      ?_, by simp, by simp⟩
    simp only [renderRData, rdataA, rd8, e0.1, e1.1, e2.1, e3.1]
  · -- AAAA
    rw [h1, h2] at hsz ⊢
    simp only [payloadOctets, entryWidth, h1, h2] at hsz ⊢
    refine ⟨Placed_append _ _ _ _ hP, 0, fun fuel _ post => ?_⟩
    refine ⟨_, rfl, ?_, ?_⟩ <;> simp
  · -- PTR
    have hq := hlp q h2
    have hk1 : k + 1 < T.length := by
      simp only [entryWidth, h1, h2] at hlen; omega
    have hwf := wf_tokens T (k + 1) q.2 (hwp q h2) hq.2
    rw [h1, h2] at hsz ⊢
    simp only [payloadOctets, entryWidth, h1, h2, hq.1, Nat.add_sub_cancel] at hsz ⊢
    have hnp := name_placed T pre (k + 1) hT hk1 hP hwf.1 (by omega)
    unfold tokensAt at hnp
    rw [show k + 2 - 1 = k + 1 by omega] at hsz ⊢
    obtain ⟨hpl, F, hd⟩ := hnp
    refine ⟨hpl, F, fun fuel hf post => ?_⟩
    have hd2 := decodes_append _ post _ _ _ _ hd
    have hex := ExtractLabels_ok _ _ _ _ _ fuel hd2 hf
    have hname := hwf.2
    unfold tokensAt at hname
    rw [hname] at hex
    refine ⟨q.2, by simp only [renderRData, hex], ?_, by simp⟩
    intro p hp
    simp only [RDATA.ptrData.injEq] at hp
    rw [hp]
  · -- TXT
    rw [h1, h2] at hsz ⊢
    simp only [payloadOctets, entryWidth, h1, h2] at hsz ⊢
    refine ⟨Placed_append _ _ _ _ hP, 0, fun fuel _ post => ?_⟩
    obtain ⟨r, hr⟩ := rdataTxt_ok ss (hwt ss h2)
      (pre ++ (ss.map fun s => (s.length % 256) :: s).flatten ++ post) pre.length 0
      ((ss.map fun s => (s.length % 256) :: s).flatten).length
      ((ss.map fun s => (s.length % 256) :: s).flatten).length []
      (Holds_mid _ _ _) (by omega) (txt_count ss)
    exact ⟨r, by simp only [renderRData, hr], by simp, by simp⟩
  · -- SRV
    have hq := hls s h2
    have hk1 : k + 1 < T.length := by
      simp only [entryWidth, h1, h2] at hlen; omega
    have hwf := wf_tokens T (k + 1) s.strHost.2 (hws s h2) hq.2
    rw [h1, h2] at hsz ⊢
    simp only [payloadOctets, entryWidth, h1, h2, hq.1, Nat.add_sub_cancel] at hsz ⊢
    rw [show k + 2 - 1 = k + 1 by omega] at hsz ⊢
    have h6 : (pre ++ (be16 s.Priority ++ be16 s.Weight ++ be16 s.Port)).length
        = pre.length + 6 := by simp [be16]
    have hsz' : pre.length + 6 < 16384 := by
      simp only [List.length_append, be16, List.length_cons, List.length_nil] at hsz; omega
    have hnp := name_placed T (pre ++ (be16 s.Priority ++ be16 s.Weight ++ be16 s.Port)) (k + 1)
      hT hk1 (Placed_append _ _ _ _ hP) hwf.1 (by rw [h6]; omega)
    unfold tokensAt at hnp
    rw [h6] at hnp
    obtain ⟨hpl, F, hd⟩ := hnp
    have hassoc : ∀ x : List Nat, pre ++ (be16 s.Priority ++ be16 s.Weight ++ be16 s.Port ++ x)
        = pre ++ (be16 s.Priority ++ be16 s.Weight ++ be16 s.Port) ++ x := fun x => by simp
    rw [hassoc]
    refine ⟨hpl, F, fun fuel hf post => ?_⟩
    have hd2 := decodes_append _ post _ _ _ _ hd
    have hex := ExtractLabels_ok _ _ _ _ _ fuel hd2 hf
    have hname := hwf.2
    unfold tokensAt at hname
    rw [hname] at hex
    have hh : Holds (pre ++ (be16 s.Priority ++ be16 s.Weight ++ be16 s.Port) ++
        labelsOctets (setOffset T (k + 1) (pre.length + 6)) (T.getD (k + 1) default).2 ++ post)
        pre.length (be16 s.Priority ++ be16 s.Weight ++ be16 s.Port) :=
      ⟨pre, labelsOctets (setOffset T (k + 1) (pre.length + 6)) (T.getD (k + 1) default).2 ++ post,
        by simp only [List.append_assoc], rfl⟩
    have s1 := Holds_split _ _ _ _ hh
    have s2 := Holds_split _ _ _ _ s1.1
    have r1 := Holds_rd16 _ _ _ _ s2.1
    have r2 : rd16 _ (pre.length + 2) = _ := Holds_rd16 _ _ _ _ s2.2
    have r3 : rd16 _ (pre.length + 4) = _ := Holds_rd16 _ _ _ _ s1.2
    rw [be16_value] at r1 r2 r3
    have hlen6 : (be16 s.Priority ++ be16 s.Weight ++ be16 s.Port ++
        labelsOctets (setOffset T (k + 1) (pre.length + 6)) (T.getD (k + 1) default).2).length > 6 := by
      have := labelsLen_pos (T.getD (k + 1) default).2
      simp only [List.length_append, be16, List.length_cons, List.length_nil, labelsOctets_length]
      omega
    refine ⟨srvText s, ?_, by simp, ?_⟩
    · simp only [renderRData, r1, r2, r3, if_pos hlen6, hex, srvText]
    · intro t ht
      simp only [RDATA.svData.injEq] at ht
      rw [ht]

theorem typed_usType (it : ANSWERITEM) (h : Typed it) : it.usType % 65536 = it.usType := by
  rcases h with ⟨h1, -⟩ | ⟨h1, -⟩ | ⟨h1, -⟩ | ⟨h1, -⟩ | ⟨h1, -⟩ <;> rw [h1]

/-- One record written by `BuildRRecord` and `BuildRData` after the entries before it is
read back by one pass of the loop of `ExtractRRecords`, and repeats the names of the item. -/
theorem record_decodes (T : OFFSETLIST) (pre : List Nat) (k : Nat) (it : ANSWERITEM)
    (hT : TableOK T) (hP : Placed pre T k) (hL : Linked T k it) (hw : WellFormedItem it)
    (hsz : pre.length + (recordOctets T pre.length it).2.length < 16384) :
    Placed (pre ++ (recordOctets T pre.length it).2) (recordOctets T pre.length it).1
      (k + entryWidth it) ∧
    ∃ F, ∀ fuel, F ≤ fuel → ∀ post n, ∃ r, Echo it r ∧ ∀ rs c,
      ExtractRRecords fuel (pre ++ (recordOctets T pre.length it).2 ++ post) n
        (pre.length + (recordOctets T pre.length it).2.length) = .ok rs c →
      ExtractRRecords fuel (pre ++ (recordOctets T pre.length it).2 ++ post) (n + 1) pre.length
        = .ok (r :: rs) ((recordOctets T pre.length it).2.length + c) := by
  have hk : k < T.length := by
    have := hL.2.1
    have hw1 : 1 ≤ entryWidth it := by
      unfold entryWidth; split <;> omega
    omega
  have hwf := wf_tokens T k it.strLabel.2 hw.2.1 hL.2.2.1
  have hidx : it.strLabel.1 - 1 = k := by rw [hL.1]; omega
  have hnp := name_placed T pre k hT hk hP hwf.1 (by omega)
  obtain ⟨hpl1, F1, hd1⟩ := hnp
  generalize hT1 : setOffset T k pre.length = T1 at hpl1 hd1
  generalize hno : labelsOctets T1 (tokensAt T k) = nameO at hpl1 hd1
  generalize hfx : be16 it.usType ++ be16 it.usClass ++ be32 (it.iTtl % 4294967296).toNat = fixed
  have hfxl : fixed.length = 8 := by rw [← hfx]; simp [be16, be32]
  have hhead : recordHead T pre.length it = nameO ++ fixed := by
    simp only [recordHead, hidx, hT1, hfx]
    rw [← hno]; rfl
  have hrec : recordOctets T pre.length it
      = ((payloadOctets T1 (pre.length + (nameO ++ fixed).length + 2) it.usType it.rData).1,
         nameO ++ fixed ++ be16 ((payloadOctets T1 (pre.length + (nameO ++ fixed).length + 2)
           it.usType it.rData).2.length % 65536) ++
           (payloadOctets T1 (pre.length + (nameO ++ fixed).length + 2) it.usType it.rData).2) := by
    simp only [recordOctets, hhead, hidx, hT1]
  rw [hrec] at hsz ⊢
  simp only [] at hsz ⊢
  generalize hrl : be16 ((payloadOctets T1 (pre.length + (nameO ++ fixed).length + 2)
           it.usType it.rData).2.length % 65536) = rlo at hsz ⊢
  have hrll : rlo.length = 2 := by rw [← hrl]; simp [be16]
  have hp2 : (pre ++ nameO ++ fixed ++ rlo).length = pre.length + (nameO ++ fixed).length + 2 := by
    simp [hrll]; omega
  rw [← hp2] at hsz hrl ⊢
  have hpd := payload_decodes T1 (pre ++ nameO ++ fixed ++ rlo) k it
    (by rw [← hT1]; exact TableOK_setOffset T k _ hT)
    (by
      have := Placed_append (pre ++ nameO) (fixed ++ rlo) T1 (k + 1) hpl1
      simpa using this)
    (by rw [← hT1]; exact Linked_setOffset T k _ k it hL) hw
    (by simp only [List.length_append] at hsz ⊢; omega)
  generalize hpl : payloadOctets T1 (pre ++ nameO ++ fixed ++ rlo).length it.usType it.rData = pl
    at hpd hsz hrl ⊢
  obtain ⟨hpl2, F2, hrender⟩ := hpd
  have hbuf : ∀ post : List Nat, pre ++ (nameO ++ fixed ++ rlo ++ pl.2) ++ post
      = pre ++ nameO ++ fixed ++ rlo ++ pl.2 ++ post := fun post => by simp
  constructor
  · have : pre ++ (nameO ++ fixed ++ rlo ++ pl.2) = pre ++ nameO ++ fixed ++ rlo ++ pl.2 := by simp
    rw [this]; exact hpl2
  · refine ⟨max F1 F2, fun fuel hf post n => ?_⟩
    obtain ⟨rdata, hren, hptr, hsrv⟩ := hrender fuel (by omega) post
    rw [hbuf]
    have hH : Holds (pre ++ nameO ++ fixed ++ rlo ++ pl.2 ++ post) (pre.length + nameO.length)
        (fixed ++ rlo) := ⟨pre ++ nameO, pl.2 ++ post, by simp, by simp⟩
    rw [← hfx, ← hrl] at hH
    have s1 := Holds_split _ _ _ _ hH
    have s2 := Holds_split _ _ _ _ s1.1
    have s3 := Holds_split _ _ _ _ s2.1
    have rty := Holds_rd16 _ _ _ _ s3.1
    have rcl : rd16 _ (pre.length + nameO.length + 2) = _ := Holds_rd16 _ _ _ _ s3.2
    obtain ⟨ttl, rttl⟩ : ∃ ttl, rd32 _ (pre.length + nameO.length + 4) = .ok ttl :=
      Holds_rd32 _ _ _ s2.2
    have rrl : rd16 _ (pre.length + nameO.length + 8) = _ := Holds_rd16 _ _ _ _ s1.2
    rw [be16_value] at rty rcl rrl
    rw [typed_usType it hw.1] at rty
    have hplen : pl.2.length % 65536 % 65536 = pl.2.length := by
      simp only [List.length_append] at hsz; omega
    rw [hplen] at rrl
    rw [hfx, hrl] at rty rcl rttl rrl
    obtain ⟨cl, rcl⟩ : ∃ cl, rd16 (pre ++ nameO ++ fixed ++ rlo ++ pl.2 ++ post)
        (pre.length + nameO.length + 2) = .ok cl := ⟨_, rcl⟩
    have hd2 : Decodes (pre ++ nameO ++ fixed ++ rlo ++ pl.2 ++ post) pre.length
        (labelsOf (tokensAt T k)) (pre.length + nameO.length) F1 := by
      have := decodes_append (pre ++ nameO) (fixed ++ rlo ++ pl.2 ++ post) _ _ _ _ hd1
      simpa using this
    have hcur : pre.length + nameO.length + 10 = (pre ++ nameO ++ fixed ++ rlo).length := by
      simp [hfxl, hrll]; omega
    have hex := extract_one fuel (pre ++ nameO ++ fixed ++ rlo ++ pl.2 ++ post) pre.length n
      (labelsOf (tokensAt T k)) (pre.length + nameO.length) F1 it.usType cl ttl pl.2.length rdata
      hd2 (by omega) (by omega) rty rcl rttl rrl
      (by simp [hfxl, hrll]; omega) (by rw [hcur]; exact hren)
    rw [hwf.2] at hex
    refine ⟨⟨it.strLabel.2, it.usType, cl, ttl, pl.2.length, rdata⟩, ⟨rfl, rfl, hptr, hsrv⟩, ?_⟩
    intro rs c hrs
    have hpos : pre.length + (nameO ++ fixed ++ rlo ++ pl.2).length
        = pre.length + nameO.length + 10 + pl.2.length := by
      simp [hfxl, hrll]; omega
    rw [hpos] at hrs
    rw [hex, hrs]
    simp only [Res.ok.injEq, true_and]
    simp [hfxl, hrll]; omega

theorem recordOctets_table (T : OFFSETLIST) (p : Nat) (it : ANSWERITEM) :
    (recordOctets T p it).1.length = T.length := by
  unfold recordOctets payloadOctets
  simp only []
  split <;> simp [setOffset_length]

theorem TableOK_tokens (T U : OFFSETLIST) (hlen : U.length = T.length)
    (htok : ∀ n, tokensAt U n = tokensAt T n) (h : TableOK T) : TableOK U := by
  intro k hk
  have := h k (by omega)
  unfold PtrOK at this ⊢
  simpa only [htok] using this

theorem Linked_tokens (T U : OFFSETLIST) (hlen : U.length = T.length)
    (htok : ∀ n, tokensAt U n = tokensAt T n) (k : Nat) (it : ANSWERITEM) (h : Linked T k it) :
    Linked U k it := by
  unfold Linked at h ⊢
  simpa only [htok, hlen] using h

theorem LinkedList_tokens (T U : OFFSETLIST) (hlen : U.length = T.length)
    (htok : ∀ n, tokensAt U n = tokensAt T n) (items : List ANSWERITEM) :
    ∀ k, LinkedList T k items → LinkedList U k items := by
  induction items with
  | nil => intro k _; trivial
  | cons it rest ih =>
    intro k h
    exact ⟨Linked_tokens T U hlen htok k it h.1, ih _ h.2⟩

/-- The records written by `fnBuildRecords` after the entries before them are read back by
`ExtractRRecords`, one record for every item, each repeating the names of its item. -/
theorem records_decode (items : List ANSWERITEM) :
    ∀ (T : OFFSETLIST) (pre : List Nat) (k : Nat), TableOK T → Placed pre T k →
    LinkedList T k items → (∀ it ∈ items, WellFormedItem it) →
    pre.length + (recordsOctets T pre.length items).2.length < 16384 →
    Placed (pre ++ (recordsOctets T pre.length items).2) (recordsOctets T pre.length items).1
      (k + entryCount items) ∧
    (recordsOctets T pre.length items).1.length = T.length ∧
    (∀ n, tokensAt (recordsOctets T pre.length items).1 n = tokensAt T n) ∧
    ∃ F, ∀ fuel, F ≤ fuel → ∀ post, ∃ recs, List.Forall₂ Echo items recs ∧
      ExtractRRecords fuel (pre ++ (recordsOctets T pre.length items).2 ++ post) items.length
        pre.length = .ok recs (recordsOctets T pre.length items).2.length := by
  induction items with
  | nil =>
    intro T pre k hT hP _ _ _
    refine ⟨by simpa [recordsOctets, entryCount] using hP, rfl, fun n => rfl, 0, ?_⟩
    intro fuel _ post
    exact ⟨[], List.Forall₂.nil, by simp [recordsOctets, ExtractRRecords]⟩
  | cons it rest ih =>
    intro T pre k hT hP hL hw hsz
    have hrec : recordsOctets T pre.length (it :: rest)
        = ((recordsOctets (recordOctets T pre.length it).1
              (pre.length + (recordOctets T pre.length it).2.length) rest).1,
           (recordOctets T pre.length it).2 ++
             (recordsOctets (recordOctets T pre.length it).1
              (pre.length + (recordOctets T pre.length it).2.length) rest).2) := rfl
    rw [hrec] at hsz ⊢
    simp only [] at hsz ⊢
    have h1 := record_decodes T pre k it hT hP hL.1 (hw it (by simp))
      (by simp only [List.length_append] at hsz; omega)
    obtain ⟨hP1, F1, hd1⟩ := h1
    have htok1 : ∀ n, tokensAt (recordOctets T pre.length it).1 n = tokensAt T n :=
      fun n => recordOctets_tokens T pre.length it n
    have hlen1 := recordOctets_table T pre.length it
    generalize recordOctets T pre.length it = r at hsz hP1 hd1 htok1 hlen1 ⊢
    have hpl : (pre ++ r.2).length = pre.length + r.2.length := by simp
    rw [← hpl] at hsz ⊢
    have h2 := ih r.1 (pre ++ r.2) (k + entryWidth it) (TableOK_tokens T r.1 hlen1 htok1 hT) hP1
      (LinkedList_tokens T r.1 hlen1 htok1 rest _ hL.2)
      (fun x hx => hw x (by simp [hx]))
      (by simp only [List.length_append] at hsz ⊢; omega)
    obtain ⟨hP2, hlen2, htok2, F2, hd2⟩ := h2
    generalize recordsOctets r.1 (pre ++ r.2).length rest = rs at hsz hP2 hd2 htok2 hlen2 ⊢
    refine ⟨?_, by omega, fun n => by rw [htok2, htok1], max F1 F2, ?_⟩
    · have e : k + entryCount (it :: rest) = k + entryWidth it + entryCount rest := by
        simp [entryCount]; omega
      rw [e, ← List.append_assoc]; exact hP2
    · intro fuel hf post
      obtain ⟨recs, hall, hrest⟩ := hd2 fuel (by omega) post
      obtain ⟨r1, hecho, hone⟩ := hd1 fuel (by omega) (rs.2 ++ post) rest.length
      refine ⟨r1 :: recs, List.Forall₂.cons hecho hall, ?_⟩
      have eb : pre ++ (r.2 ++ rs.2) ++ post = pre ++ r.2 ++ (rs.2 ++ post) := by simp
      have eb2 : pre ++ r.2 ++ rs.2 ++ post = pre ++ r.2 ++ (rs.2 ++ post) := by simp
      rw [eb]
      rw [eb2, hpl] at hrest
      have := hone recs rs.2.length hrest
      simpa using this

theorem tokensAt_append (T X : OFFSETLIST) (k : Nat) (h : k < T.length) :
    tokensAt (T ++ X) k = tokensAt T k := by
  unfold tokensAt
  rw [List.getD_append _ _ _ _ h]

theorem entryWidth_pos (it : ANSWERITEM) : 1 ≤ entryWidth it := by
  unfold entryWidth; split <;> omega

theorem entryWidth_ptr (it : ANSWERITEM) (ht : Typed it) (p : IDxSTRING)
    (hp : it.rData = .ptrData p) : entryWidth it = 2 := by
  rcases ht with ⟨h1, o, h2, -⟩ | ⟨h1, o, h2, -⟩ | ⟨h1, q, h2⟩ | ⟨h1, ss, h2⟩ | ⟨h1, s, h2⟩ <;>
    simp_all [entryWidth]

theorem entryWidth_srv (it : ANSWERITEM) (ht : Typed it) (s : SRVDATA)
    (hp : it.rData = .svData s) : entryWidth it = 2 := by
  rcases ht with ⟨h1, o, h2, -⟩ | ⟨h1, o, h2, -⟩ | ⟨h1, q, h2⟩ | ⟨h1, ss, h2⟩ | ⟨h1, s, h2⟩ <;>
    simp_all [entryWidth]

theorem Linked_append (T X : OFFSETLIST) (k : Nat) (it : ANSWERITEM) (ht : Typed it)
    (h : Linked T k it) : Linked (T ++ X) k it := by
  obtain ⟨h1, h2, h3, h4, h5⟩ := h
  have hw := entryWidth_pos it
  refine ⟨h1, by simp; omega, by rw [tokensAt_append _ _ _ (by omega)]; exact h3, ?_, ?_⟩
  · intro p hp
    have := entryWidth_ptr it ht p hp
    rw [tokensAt_append _ _ _ (by omega)]
    exact h4 p hp
  · intro s hs
    have := entryWidth_srv it ht s hs
    rw [tokensAt_append _ _ _ (by omega)]
    exact h5 s hs

theorem LinkedList_append (T X : OFFSETLIST) (items : List ANSWERITEM) :
    ∀ k, (∀ it ∈ items, Typed it) → LinkedList T k items → LinkedList (T ++ X) k items := by
  induction items with
  | nil => intro k _ _; trivial
  | cons it rest ih =>
    intro k ht h
    exact ⟨Linked_append T X k it (ht it (by simp)) h.1, ih _ (fun x hx => ht x (by simp [hx])) h.2⟩

/-- What `fnExtractLabels` does with one item: it appends the entries of the names of the
item to the table and stores their indices in the item; nothing else of the item changes. -/
theorem internItem_ok (T : OFFSETLIST) (it : ANSWERITEM) (hT : TableOK T)
    (hw : WellFormedItem it) :
    ∃ X, (internItem T it).1 = T ++ X ∧ X.length = entryWidth (internItem T it).2 ∧
      TableOK (T ++ X) ∧ Linked (T ++ X) T.length (internItem T it).2 ∧
      WellFormedItem (internItem T it).2 ∧ ∀ r, Echo (internItem T it).2 r → Echo it r := by
  obtain ⟨ht, hown, hptr, hsrv, htxt⟩ := hw
  obtain ⟨t0, e0, l0, ok0⟩ := BuildLabelReferenc_ok it.strLabel.2 T hT
  have simple : ∀ jt : ANSWERITEM, internItem T it = ((BuildLabelReferenc it.strLabel.2 T).2, jt) →
      jt.strLabel = (T.length + 1, it.strLabel.2) → jt.usType = it.usType → jt.rData = it.rData →
      entryWidth it = 1 →
      ∃ X, (internItem T it).1 = T ++ X ∧ X.length = entryWidth (internItem T it).2 ∧
      TableOK (T ++ X) ∧ Linked (T ++ X) T.length (internItem T it).2 ∧
      WellFormedItem (internItem T it).2 ∧ ∀ r, Echo (internItem T it).2 r → Echo it r := by
    intro jt hj hl hty hrd hwd
    have hwj : entryWidth jt = 1 := by
      unfold entryWidth at hwd ⊢; rw [hty, hrd]; exact hwd
    have htj : Typed jt := by unfold Typed at ht ⊢; rw [hty, hrd]; exact ht
    rw [hj]
    refine ⟨[(0, t0)], e0, by simp [hwj], ok0, ?_, ?_, ?_⟩
    · refine ⟨by rw [hl], by simp [hwj], ?_, ?_, ?_⟩
      · rw [tokensAt_append_right, hl]; exact l0
      · intro p hp
        have := entryWidth_ptr jt htj p hp; omega
      · intro s hs
        have := entryWidth_srv jt htj s hs; omega
    · refine ⟨htj, by rw [hl]; exact hown, ?_, ?_, ?_⟩
      · intro p hp; exact hptr p (hrd ▸ hp)
      · intro s hs; exact hsrv s (hrd ▸ hs)
      · intro ss hs; exact htxt ss (hrd ▸ hs)
    · intro r hr
      unfold Echo at hr ⊢
      simp only [hl, hty, hrd] at hr
      exact hr
  rcases ht with ⟨h1, o, h2, h3⟩ | ⟨h1, o, h2, h3⟩ | ⟨h1, p, h2⟩ | ⟨h1, ss, h2⟩ | ⟨h1, s, h2⟩
  · exact simple { it with strLabel := (T.length + 1, it.strLabel.2) }
      (by simp only [internItem, h1, h2, BuildLabelReferenc_fst]) rfl rfl rfl
      (by simp [entryWidth, h1, h2])
  · exact simple { it with strLabel := (T.length + 1, it.strLabel.2) }
      (by simp only [internItem, h1, h2, BuildLabelReferenc_fst]) rfl rfl rfl
      (by simp [entryWidth, h1, h2])
  · obtain ⟨t1, e1, l1, ok1⟩ := BuildLabelReferenc_ok p.2 (T ++ [(0, t0)]) ok0
    have hj : internItem T it = ((T ++ [(0, t0)]) ++ [(0, t1)],
        { it with strLabel := (T.length + 1, it.strLabel.2),
                  rData := .ptrData (T.length + 2, p.2) }) := by
      simp only [internItem, h1, h2, e0, e1, BuildLabelReferenc_fst]
      simp
    rw [hj]
    refine ⟨[(0, t0), (0, t1)], by simp, by simp [entryWidth, h1], by simpa using ok1, ?_, ?_, ?_⟩
    · have ea : T ++ [(0, t0), (0, t1)] = (T ++ [(0, t0)]) ++ [(0, t1)] := by simp
      refine ⟨rfl, by simp [entryWidth, h1], ?_, ?_, ?_⟩
      · rw [ea, tokensAt_append _ _ _ (by simp), tokensAt_append_right]; exact l0
      · intro q hq
        simp only [RDATA.ptrData.injEq] at hq
        subst hq
        refine ⟨rfl, ?_⟩
        have := tokensAt_append_right (T ++ [(0, t0)]) (0, t1)
        simp only [List.length_append, List.length_singleton] at this
        rw [ea, this]; exact l1
      · intro q hq; simp at hq
    · refine ⟨Or.inr (Or.inr (Or.inl ⟨h1, _, rfl⟩)), hown, ?_, ?_, ?_⟩
      · intro q hq
        simp only [RDATA.ptrData.injEq] at hq
        subst hq
        exact hptr p h2
      · intro q hq; simp at hq
      · intro q hq; simp at hq
    · intro r hr
      unfold Echo at hr ⊢
      refine ⟨hr.1, hr.2.1, ?_, ?_⟩
      · intro q hq
        rw [h2] at hq
        simp only [RDATA.ptrData.injEq] at hq
        subst hq
        exact hr.2.2.1 (T.length + 2, p.2) rfl
      · intro q hq; rw [h2] at hq; simp at hq
  · exact simple { it with strLabel := (T.length + 1, it.strLabel.2) }
      (by simp only [internItem, h1, h2, BuildLabelReferenc_fst]) rfl rfl rfl
      (by simp [entryWidth, h1, h2])
  · obtain ⟨t1, e1, l1, ok1⟩ := BuildLabelReferenc_ok s.strHost.2 (T ++ [(0, t0)]) ok0
    have hj : internItem T it = ((T ++ [(0, t0)]) ++ [(0, t1)],
        { it with strLabel := (T.length + 1, it.strLabel.2),
                  rData := .svData { s with strHost := (T.length + 2, s.strHost.2) } }) := by
      simp only [internItem, h1, h2, e0, e1, BuildLabelReferenc_fst]
      simp
    rw [hj]
    refine ⟨[(0, t0), (0, t1)], by simp, by simp [entryWidth, h1], by simpa using ok1, ?_, ?_, ?_⟩
    · have ea : T ++ [(0, t0), (0, t1)] = (T ++ [(0, t0)]) ++ [(0, t1)] := by simp
      refine ⟨rfl, by simp [entryWidth, h1], ?_, ?_, ?_⟩
      · rw [ea, tokensAt_append _ _ _ (by simp), tokensAt_append_right]; exact l0
      · intro q hq; simp at hq
      · intro q hq
        simp only [RDATA.svData.injEq] at hq
        subst hq
        refine ⟨rfl, ?_⟩
        have := tokensAt_append_right (T ++ [(0, t0)]) (0, t1)
        simp only [List.length_append, List.length_singleton] at this
        rw [ea, this]; exact l1
    · refine ⟨Or.inr (Or.inr (Or.inr (Or.inr ⟨h1, _, rfl⟩))), hown, ?_, ?_, ?_⟩
      · intro q hq; simp at hq
      · intro q hq
        simp only [RDATA.svData.injEq] at hq
        subst hq
        exact hsrv s h2
      · intro q hq; simp at hq
    · intro r hr
      unfold Echo at hr ⊢
      refine ⟨hr.1, hr.2.1, ?_, ?_⟩
      · intro q hq; rw [h2] at hq; simp at hq
      · intro q hq
        rw [h2] at hq
        simp only [RDATA.svData.injEq] at hq
        subst hq
        exact hr.2.2.2 { s with strHost := (T.length + 2, s.strHost.2) } rfl

/-- What `fnExtractLabels` does with a list of items: the entries of all names are appended
to the table in order, the items hold their indices, and nothing else of the items changes. -/
theorem fnExtractLabels_ok (items : List ANSWERITEM) :
    ∀ T, TableOK T → (∀ it ∈ items, WellFormedItem it) →
    ∃ X, (fnExtractLabels T items).1 = T ++ X ∧
      X.length = entryCount (fnExtractLabels T items).2 ∧
      TableOK (T ++ X) ∧ LinkedList (T ++ X) T.length (fnExtractLabels T items).2 ∧
      (∀ jt ∈ (fnExtractLabels T items).2, WellFormedItem jt) ∧
      (fnExtractLabels T items).2.length = items.length ∧
      ∀ recs, List.Forall₂ Echo (fnExtractLabels T items).2 recs →
        List.Forall₂ Echo items recs := by
  induction items with
  | nil =>
    intro T hT _
    exact ⟨[], by simp [fnExtractLabels], by simp [fnExtractLabels, entryCount],
      by simpa using hT, trivial, by simp [fnExtractLabels], rfl, fun recs h => h⟩
  | cons it rest ih =>
    intro T hT hw
    obtain ⟨X1, e1, n1, ok1, l1, w1, echo1⟩ := internItem_ok T it hT (hw it (by simp))
    have hrec : fnExtractLabels T (it :: rest)
        = ((fnExtractLabels (internItem T it).1 rest).1,
            (internItem T it).2 :: (fnExtractLabels (internItem T it).1 rest).2) := rfl
    rw [hrec]
    simp only []
    generalize internItem T it = r1 at e1 n1 l1 w1 echo1 ⊢
    rw [e1]
    obtain ⟨X2, e2, n2, ok2, l2, w2, len2, echo2⟩ := ih (T ++ X1) ok1
      (fun x hx => hw x (by simp [hx]))
    generalize fnExtractLabels (T ++ X1) rest = r2 at e2 n2 l2 w2 len2 echo2 ⊢
    refine ⟨X1 ++ X2, by rw [e2, List.append_assoc], by simp [entryCount] at n2 ⊢; omega,
      by rw [← List.append_assoc]; exact ok2, ?_, ?_, by simp [len2], ?_⟩
    · rw [← List.append_assoc]
      refine ⟨Linked_append _ _ _ _ w1.1 l1, ?_⟩
      have : T.length + entryWidth r1.2 = (T ++ X1).length := by simp [n1]
      rw [this]; exact l2
    · intro jt hjt
      simp only [List.mem_cons] at hjt
      rcases hjt with rfl | hjt
      · exact w1
      · exact w2 jt hjt
    · intro recs h
      cases h with
      | cons h1 h2 => exact List.Forall₂.cons (echo1 _ h1) (echo2 _ h2)

theorem entryCount_append_len (T X : OFFSETLIST) (items : List ANSWERITEM)
    (h : X.length = entryCount items) : (T ++ X).length = T.length + entryCount items := by
  simp [h]

/-- The three record sections written from offset 12 on, after a header of 12 octets, are read
back by `ExtractRRecords` section by section. -/
theorem sections_decode (T : OFFSETLIST) (iA iN iR : List ANSWERITEM) (hd : List Nat)
    (hhd : hd.length = 12) (hT : TableOK T)
    (hLA : LinkedList T 0 iA) (hLN : LinkedList T (entryCount iA) iN)
    (hLR : LinkedList T (entryCount iA + entryCount iN) iR)
    (hwA : ∀ it ∈ iA, WellFormedItem it) (hwN : ∀ it ∈ iN, WellFormedItem it)
    (hwR : ∀ it ∈ iR, WellFormedItem it)
    (hsz : 12 + ((recordsOctets T 12 iA).2 ++
      (recordsOctets (recordsOctets T 12 iA).1 (12 + (recordsOctets T 12 iA).2.length) iN).2 ++
      (recordsOctets (recordsOctets (recordsOctets T 12 iA).1
          (12 + (recordsOctets T 12 iA).2.length) iN).1
        (12 + (recordsOctets T 12 iA).2.length +
          (recordsOctets (recordsOctets T 12 iA).1
            (12 + (recordsOctets T 12 iA).2.length) iN).2.length) iR).2).length < 16384) :
    ∃ F, ∀ fuel, F ≤ fuel → ∃ an ns ar na nn nr,
      List.Forall₂ Echo iA an ∧ List.Forall₂ Echo iN ns ∧ List.Forall₂ Echo iR ar ∧
      ExtractRRecords fuel (hd ++ ((recordsOctets T 12 iA).2 ++
      (recordsOctets (recordsOctets T 12 iA).1 (12 + (recordsOctets T 12 iA).2.length) iN).2 ++
      (recordsOctets (recordsOctets (recordsOctets T 12 iA).1
          (12 + (recordsOctets T 12 iA).2.length) iN).1
        (12 + (recordsOctets T 12 iA).2.length +
          (recordsOctets (recordsOctets T 12 iA).1
            (12 + (recordsOctets T 12 iA).2.length) iN).2.length) iR).2)) iA.length 12
        = .ok an na ∧
      ExtractRRecords fuel (hd ++ ((recordsOctets T 12 iA).2 ++
      (recordsOctets (recordsOctets T 12 iA).1 (12 + (recordsOctets T 12 iA).2.length) iN).2 ++
      (recordsOctets (recordsOctets (recordsOctets T 12 iA).1
          (12 + (recordsOctets T 12 iA).2.length) iN).1
        (12 + (recordsOctets T 12 iA).2.length +
          (recordsOctets (recordsOctets T 12 iA).1
            (12 + (recordsOctets T 12 iA).2.length) iN).2.length) iR).2)) iN.length (12 + 0 + na)
        = .ok ns nn ∧
      ExtractRRecords fuel (hd ++ ((recordsOctets T 12 iA).2 ++
      (recordsOctets (recordsOctets T 12 iA).1 (12 + (recordsOctets T 12 iA).2.length) iN).2 ++
      (recordsOctets (recordsOctets (recordsOctets T 12 iA).1
          (12 + (recordsOctets T 12 iA).2.length) iN).1
        (12 + (recordsOctets T 12 iA).2.length +
          (recordsOctets (recordsOctets T 12 iA).1
            (12 + (recordsOctets T 12 iA).2.length) iN).2.length) iR).2)) iR.length
          (12 + 0 + na + nn)
        = .ok ar nr := by
  have hP0 : Placed hd T 0 := ⟨by omega, fun n hn => by omega⟩
  rw [← hhd] at hsz ⊢
  have hA := records_decode iA T hd 0 hT hP0 hLA hwA
    (by simp only [List.length_append] at hsz ⊢; omega)
  obtain ⟨pA, lenA, tokA, FA, dA⟩ := hA
  generalize recordsOctets T hd.length iA = rA at hsz pA lenA tokA dA ⊢
  have e1 : hd.length + rA.2.length = (hd ++ rA.2).length := by simp
  rw [e1] at hsz ⊢
  have hN := records_decode iN rA.1 (hd ++ rA.2) (0 + entryCount iA)
    (TableOK_tokens T rA.1 lenA tokA hT) pA
    (by rw [Nat.zero_add]; exact LinkedList_tokens T rA.1 lenA tokA iN _ hLN) hwN
    (by simp only [List.length_append] at hsz ⊢; omega)
  obtain ⟨pN, lenN, tokN, FN, dN⟩ := hN
  generalize recordsOctets rA.1 (hd ++ rA.2).length iN = rN at hsz pN lenN tokN dN ⊢
  have e2 : (hd ++ rA.2).length + rN.2.length = (hd ++ rA.2 ++ rN.2).length := by
    simp only [List.length_append]
  rw [e2] at hsz ⊢
  have lenN' : rN.1.length = T.length := by omega
  have tokN' : ∀ n, tokensAt rN.1 n = tokensAt T n := fun n => by rw [tokN, tokA]
  have hR := records_decode iR rN.1 (hd ++ rA.2 ++ rN.2) (0 + entryCount iA + entryCount iN)
    (TableOK_tokens T rN.1 lenN' tokN' hT) pN
    (by rw [Nat.zero_add]; exact LinkedList_tokens T rN.1 lenN' tokN' iR _ hLR) hwR
    (by simp only [List.length_append] at hsz ⊢; omega)
  obtain ⟨-, -, -, FR, dR⟩ := hR
  generalize recordsOctets rN.1 (hd ++ rA.2 ++ rN.2).length iR = rR at hsz dR ⊢
  refine ⟨max FA (max FN FR), fun fuel hf => ?_⟩
  obtain ⟨an, ea, xa⟩ := dA fuel (by omega) (rN.2 ++ rR.2)
  obtain ⟨ns, en, xn⟩ := dN fuel (by omega) rR.2
  obtain ⟨ar, er, xr⟩ := dR fuel (by omega) []
  refine ⟨an, ns, ar, rA.2.length, rN.2.length, rR.2.length, ea, en, er, ?_, ?_, ?_⟩
  · rw [← xa]; congr 1; simp
  · rw [← xn]; congr 1; simp
  · rw [← xr]; congr 1; simp; omega

theorem TableOK_nil : TableOK [] := fun k hk => by simp at hk

theorem answerHead_length (a n r : Nat) : (answerHead a n r).length = 12 := by
  simp [answerHead, be16]

theorem readHeader_answerHead (a n r : Nat) (ha : a < 65536) (hn : n < 65536)
    (hr : r < 65536) :
    (readHeader (answerHead a n r)).QDCOUNT = 0 ∧ (readHeader (answerHead a n r)).ANCOUNT = a ∧
    (readHeader (answerHead a n r)).NSCOUNT = n ∧ (readHeader (answerHead a n r)).ARCOUNT = r := by
  simp only [readHeader, answerHead, be16]
  simp
  omega

/-- The record octets of the datagram of `BuildAnswer`, after any header of 12 octets, are read
back by `ExtractRRecords` section by section, item by item. -/
theorem answer_decodes (An Ns Ar : List ANSWERITEM) (hd : List Nat) (hhd : hd.length = 12)
    (hA : ∀ it ∈ An, WellFormedItem it) (hN : ∀ it ∈ Ns, WellFormedItem it)
    (hR : ∀ it ∈ Ar, WellFormedItem it)
    (hsz : 12 + (answerRecords An Ns Ar).length < 16384) :
    ∃ F, ∀ fuel, F ≤ fuel → ∃ an ns ar na nn nr,
      List.Forall₂ Echo An an ∧ List.Forall₂ Echo Ns ns ∧ List.Forall₂ Echo Ar ar ∧
      ExtractRRecords fuel (hd ++ answerRecords An Ns Ar) An.length 12 = .ok an na ∧
      ExtractRRecords fuel (hd ++ answerRecords An Ns Ar) Ns.length (12 + 0 + na) = .ok ns nn ∧
      ExtractRRecords fuel (hd ++ answerRecords An Ns Ar) Ar.length (12 + 0 + na + nn)
        = .ok ar nr := by
  obtain ⟨X1, q1, n1, ok1, l1, w1, len1, echo1⟩ := fnExtractLabels_ok An [] TableOK_nil hA
  rw [← q1] at ok1 l1
  have hl1 : (fnExtractLabels [] An).1.length = entryCount (fnExtractLabels [] An).2 := by
    rw [q1]; simp [n1]
  obtain ⟨X2, q2, n2, ok2, l2, w2, len2, echo2⟩ :=
    fnExtractLabels_ok Ns (fnExtractLabels [] An).1 ok1 hN
  rw [← q2] at ok2 l2
  have hl2 : (fnExtractLabels (fnExtractLabels [] An).1 Ns).1.length
      = entryCount (fnExtractLabels [] An).2
        + entryCount (fnExtractLabels (fnExtractLabels [] An).1 Ns).2 := by
    rw [q2]; simp [n2, hl1]
  obtain ⟨X3, q3, n3, ok3, l3, w3, len3, echo3⟩ :=
    fnExtractLabels_ok Ar (fnExtractLabels (fnExtractLabels [] An).1 Ns).1 ok2 hR
  have hsec := sections_decode
    (fnExtractLabels (fnExtractLabels (fnExtractLabels [] An).1 Ns).1 Ar).1
    (fnExtractLabels [] An).2 (fnExtractLabels (fnExtractLabels [] An).1 Ns).2
    (fnExtractLabels (fnExtractLabels (fnExtractLabels [] An).1 Ns).1 Ar).2 hd hhd
    (by rw [q3]; exact ok3)
    (by
      rw [q3, q2, List.append_assoc]
      exact LinkedList_append _ _ _ _ (fun it h => (w1 it h).1) l1)
    (by
      rw [q3, ← hl1]
      exact LinkedList_append _ _ _ _ (fun it h => (w2 it h).1) l2)
    (by rw [← hl2, q3]; exact l3)
    w1 w2 w3 hsz
  obtain ⟨F, hF⟩ := hsec
  refine ⟨F, fun fuel hf => ?_⟩
  obtain ⟨an, ns, ar, na, nn, nr, ea, en, er, xa, xn, xr⟩ := hF fuel hf
  rw [len1] at xa
  rw [len2] at xn
  rw [len3] at xr
  exact ⟨an, ns, ar, na, nn, nr, echo1 _ ea, echo2 _ en, echo3 _ er, xa, xn, xr⟩

/-- Items with their own copies of the objects: for three lists of records of the types A,
AAAA, PTR, TXT and SRV with well-formed names and TXT strings of at most 255 octets, of at most
150 records together, whose datagram is shorter than 16384 octets, the constructor on the
datagram that `BuildAnswer` writes into a buffer of the probed size returns without an error
message, and its three sections repeat, record by record and in order, the owner name of every
item, the target of every PTR item and the numbers and the host of every SRV item. -/
theorem answer_roundtrip_owned (An Ns Ar : List ANSWERITEM) (buf : List Nat)
    (hA : ∀ it ∈ An, WellFormedItem it) (hN : ∀ it ∈ Ns, WellFormedItem it)
    (hR : ∀ it ∈ Ar, WellFormedItem it)
    (hcount : An.length + Ns.length + Ar.length ≤ 150)
    (hsmall : (BuildAnswer An Ns Ar none 0).nBuflen < 16384)
    (hbuf : buf.length = (BuildAnswer An Ns Ar none 0).nBuflen) :
    ∃ datagram F, (BuildAnswer An Ns Ar (some buf) buf.length).szBuffer = some datagram ∧
      ∀ fuel, F ≤ fuel →
        (decode fuel datagram).outcome = .returned ∧
        (decode fuel datagram).m_strLastErrMsg = "" ∧
        List.Forall₂ Echo An (decode fuel datagram).m_pAnswers ∧
        List.Forall₂ Echo Ns (decode fuel datagram).m_pNameServ ∧
        List.Forall₂ Echo Ar (decode fuel datagram).m_pExtraRec := by
  have tA : ∀ it ∈ An, Typed it := fun it h => (hA it h).1
  have tN : ∀ it ∈ Ns, Typed it := fun it h => (hN it h).1
  have tR : ∀ it ∈ Ar, Typed it := fun it h => (hR it h).1
  have img0 := (BuildAnswer_image An Ns Ar (List.replicate (12 + (answerRecords An Ns Ar).length) 0)
    0 tA tN tR (by simp)).1
  rw [img0] at hsmall hbuf
  simp only [] at hsmall hbuf
  have img := (BuildAnswer_image An Ns Ar buf 0 tA tN tR hbuf).2
  rw [hbuf, img]
  have hlen := answerHead_length An.length Ns.length Ar.length
  obtain ⟨F, hF⟩ := answer_decodes An Ns Ar (answerHead An.length Ns.length Ar.length) hlen
    hA hN hR hsmall
  refine ⟨_, F, rfl, fun fuel hf => ?_⟩
  obtain ⟨an, ns, ar, na, nn, nr, ea, en, er, xa, xn, xr⟩ := hF fuel hf
  obtain ⟨cq, ca, cn, cr⟩ := readHeader_answerHead An.length Ns.length Ar.length
    (by omega) (by omega) (by omega)
  have hh := readHeader_append (answerHead An.length Ns.length Ar.length)
    (answerRecords An Ns Ar) hlen
  have hdec := decode_ok fuel (answerHead An.length Ns.length Ar.length ++ answerRecords An Ns Ar)
    (by simp [hlen]) (by rw [hh, cq, ca, cn, cr]; omega) [] an ns ar 0 na nn nr
    (by rw [hh, cq]; simp [ExtractQuestion]) (by rw [hh, ca]; exact xa)
    (by rw [hh, cn]; exact xn) (by rw [hh, cr]; exact xr)
  rw [hdec]
  exact ⟨rfl, rfl, ea, en, er⟩

theorem sampleAn_wf : ∀ it ∈ sampleAn, WellFormedItem it := by
  intro it hit
  refine ⟨sampleAn_typed it hit, ?_⟩
  simp only [sampleAn, List.mem_cons, List.mem_singleton, List.not_mem_nil, or_false] at hit
  rcases hit with rfl | rfl
  · refine ⟨⟨[str "_http", str "_tcp", str "local"], ⟨by decide, by decide⟩, by decide⟩, ?_, ?_, ?_⟩
    · intro p hp
      simp only [RDATA.ptrData.injEq] at hp
      subst hp
      exact ⟨[str "A", str "_http", str "_tcp", str "local"], ⟨by decide, by decide⟩, by decide⟩
    · intro s hs; simp at hs
    · intro ss hs; simp at hs
  · refine ⟨⟨[str "A", str "_http", str "_tcp", str "local"], ⟨by decide, by decide⟩, by decide⟩,
      ?_, ?_, ?_⟩
    · intro p hp; simp at hp
    · intro s hs
      simp only [RDATA.svData.injEq] at hs
      subst hs
      exact ⟨[str "host", str "local"], ⟨by decide, by decide⟩, by decide⟩
    · intro ss hs; simp at hs

theorem sampleNs_wf : ∀ it ∈ sampleNs, WellFormedItem it := by
  intro it hit
  refine ⟨sampleNs_typed it hit, ?_⟩
  simp only [sampleNs, List.mem_singleton] at hit
  subst hit
  refine ⟨⟨[str "A", str "_http", str "_tcp", str "local"], ⟨by decide, by decide⟩, by decide⟩,
    ?_, ?_, ?_⟩
  · intro p hp; simp at hp
  · intro s hs; simp at hs
  · intro ss hs
    simp only [RDATA.txtData.injEq] at hs
    subst hs
    decide

theorem sampleAr_wf : ∀ it ∈ sampleAr, WellFormedItem it := by
  intro it hit
  refine ⟨sampleAr_typed it hit, ?_⟩
  simp only [sampleAr, List.mem_cons, List.mem_singleton, List.not_mem_nil, or_false] at hit
  rcases hit with rfl | rfl
  · refine ⟨⟨[str "host", str "local"], ⟨by decide, by decide⟩, by decide⟩, ?_, ?_, ?_⟩
    · intro p hp; simp at hp
    · intro s hs; simp at hs
    · intro ss hs; simp at hs
  · refine ⟨⟨[str "host", str "local"], ⟨by decide, by decide⟩, by decide⟩, ?_, ?_, ?_⟩
    · intro p hp; simp at hp
    · intro s hs; simp at hs
    · intro ss hs; simp at hs

set_option maxRecDepth 100000 in
/-- An answer list with a PTR and an SRV record, an authority list with a TXT record and an
additional list with an A and an AAAA record, in a buffer of 133 octets. -/
theorem answer_roundtrip_sample :
    ∃ datagram F, (BuildAnswer sampleAn sampleNs sampleAr (some (List.replicate 133 7))
        (List.replicate 133 7).length).szBuffer = some datagram ∧
      ∀ fuel, F ≤ fuel →
        (decode fuel datagram).outcome = .returned ∧
        (decode fuel datagram).m_strLastErrMsg = "" ∧
        List.Forall₂ Echo sampleAn (decode fuel datagram).m_pAnswers ∧
        List.Forall₂ Echo sampleNs (decode fuel datagram).m_pNameServ ∧
        List.Forall₂ Echo sampleAr (decode fuel datagram).m_pExtraRec :=
  answer_roundtrip_owned sampleAn sampleNs sampleAr (List.replicate 133 7)
    sampleAn_wf sampleNs_wf sampleAr_wf (by decide) (by decide) (by decide)

theorem labelsLen_le (tokens : LABELLIST) :
    (labelsLen tokens).1 + (labelsLen tokens).2
      ≤ ((labelsOf tokens).map fun l => l.length + 1).sum + 2 := by
  induction tokens with
  | nil => simp [labelsLen, labelsOf]
  | cons tok rest ih =>
    rw [labelsLen]
    split
    · simp
    · simp only [labelsOf, List.map_cons, List.sum_cons] at ih ⊢
      omega

theorem LinkedList_mem (items : List ANSWERITEM) :
    ∀ T k, LinkedList T k items → ∀ it ∈ items, ∃ j, Linked T j it := by
  induction items with
  | nil => intro T k _ it hit; simp at hit
  | cons x rest ih =>
    intro T k h it hit
    simp only [List.mem_cons] at hit
    rcases hit with rfl | hit
    · exact ⟨k, h.1⟩
    · exact ih T _ h.2 it hit

theorem internItem_plain (T : OFFSETLIST) (it : ANSWERITEM) (h : PlainA it) :
    PlainA (internItem T it).2 := by
  obtain ⟨h1, h2, o, h3⟩ := h
  simp only [internItem, h1, h3]
  exact ⟨rfl, h2, o, rfl⟩

theorem fnExtractLabels_plain (items : List ANSWERITEM) :
    ∀ T, (∀ it ∈ items, PlainA it) → ∀ jt ∈ (fnExtractLabels T items).2, PlainA jt := by
  induction items with
  | nil => intro T _ jt hjt; simp [fnExtractLabels] at hjt
  | cons x rest ih =>
    intro T h jt hjt
    simp only [fnExtractLabels, List.mem_cons] at hjt
    rcases hjt with rfl | hjt
    · exact internItem_plain T x (h x (by simp))
    · exact ih _ (fun y hy => h y (by simp [hy])) jt hjt

theorem recLen_plain (T : OFFSETLIST) (j : Nat) (it : ANSWERITEM) (h : PlainA it)
    (hl : Linked T j it) : recLen T it ≤ 18 := by
  obtain ⟨h1, h2, o, h3⟩ := h
  have hb := labelsLen_le (tokensAt T j)
  rw [hl.2.2.1, h2] at hb
  have ht : tokenize (str "a") = [str "a"] := by decide
  rw [ht] at hb
  have hn : nameLen T it.strLabel.1 ≤ 4 := by
    unfold nameLen
    rw [hl.1]
    simpa [tokensAt, str] using hb
  simp only [recLen, payloadLen, h1, h3]
  omega

theorem manyRecords_plain : ∀ it ∈ manyRecords, PlainA it := by
  intro it hit
  rw [manyRecords, List.mem_replicate] at hit
  rw [hit.2]
  exact ⟨rfl, rfl, _, rfl⟩

theorem manyRecords_wf : ∀ it ∈ manyRecords, WellFormedItem it := by
  intro it hit
  rw [manyRecords, List.mem_replicate] at hit
  rw [hit.2]
  refine ⟨Or.inl ⟨rfl, _, rfl, rfl⟩, ⟨[str "a"], ⟨by decide, by decide⟩, by decide⟩, ?_, ?_, ?_⟩
  · intro p hp; simp at hp
  · intro s hs; simp at hs
  · intro ss hs; simp at hs

theorem answerRecords_single (An : List ANSWERITEM) :
    answerRecords An [] []
      = (recordsOctets (fnExtractLabels [] An).1 12 (fnExtractLabels [] An).2).2 := by
  simp [answerRecords, fnExtractLabels, recordsOctets]

theorem plain_size (An : List ANSWERITEM) (hw : ∀ it ∈ An, WellFormedItem it)
    (hp : ∀ it ∈ An, PlainA it) : (answerRecords An [] []).length ≤ An.length * 18 := by
  obtain ⟨X1, q1, n1, ok1, l1, w1, len1, -⟩ := fnExtractLabels_ok An [] TableOK_nil hw
  have hq := fnExtractLabels_plain An [] hp
  rw [answerRecords_single, recordsOctets_length _ _ _ (fun it h => (w1 it h).1)]
  rw [← q1] at l1
  have hb : ∀ x ∈ (fnExtractLabels [] An).2.map (recLen (fnExtractLabels [] An).1), x ≤ 18 := by
    intro x hx
    simp only [List.mem_map] at hx
    obtain ⟨it, hit, rfl⟩ := hx
    obtain ⟨j, hj⟩ := LinkedList_mem _ _ _ l1 it hit
    exact recLen_plain _ j it (hq it hit) hj
  have := List.sum_le_card_nsmul _ 18 hb
  simpa only [List.length_map, len1, smul_eq_mul] using this

/-- With more than 150 answer records, the constructor on the datagram of `BuildAnswer` throws
on the sum of the header counts. -/
theorem too_many (An : List ANSWERITEM) (hw : ∀ it ∈ An, WellFormedItem it)
    (h1 : 150 < An.length) (h2 : An.length < 65536) :
    ∃ datagram, (BuildAnswer An [] []
        (some (List.replicate (BuildAnswer An [] [] none 0).nBuflen 0))
        (BuildAnswer An [] [] none 0).nBuflen).szBuffer = some datagram ∧
      ∀ fuel, (decode fuel datagram).outcome = .uncaught "Invalid buffer content" ∧
        (decode fuel datagram).m_pAnswers = [] := by
  have tA : ∀ it ∈ An, Typed it := fun it h => (hw it h).1
  have tN : ∀ it ∈ ([] : List ANSWERITEM), Typed it := fun it h => by simp at h
  have img := BuildAnswer_image An [] []
    (List.replicate (12 + (answerRecords An [] []).length) 0) 0 tA tN tN (by simp)
  rw [img.1]
  simp only []
  rw [img.2]
  refine ⟨_, rfl, fun fuel => ?_⟩
  have hlen := answerHead_length An.length 0 0
  have hh := readHeader_append (answerHead An.length 0 0) (answerRecords An [] []) hlen
  obtain ⟨cq, ca, cn, cr⟩ := readHeader_answerHead An.length 0 0 (by omega) (by omega) (by omega)
  have hdec := decode_sum fuel (answerHead An.length 0 0 ++ answerRecords An [] [])
    (by simp [hlen]) (by rw [hh, cq, ca, cn, cr]; omega)
  exact ⟨by rw [List.length_nil, hdec], by rw [List.length_nil, hdec]⟩

theorem plain_small (An : List ANSWERITEM) (hw : ∀ it ∈ An, WellFormedItem it)
    (hp : ∀ it ∈ An, PlainA it) (hl : An.length ≤ 151) :
    (BuildAnswer An [] [] none 0).nBuflen < 16384 := by
  have tA : ∀ it ∈ An, Typed it := fun it h => (hw it h).1
  have tN : ∀ it ∈ ([] : List ANSWERITEM), Typed it := fun it h => by simp at h
  have img := BuildAnswer_image An [] []
    (List.replicate (12 + (answerRecords An [] []).length) 0) 0 tA tN tN
    (List.length_replicate _ _)
  have hs := plain_size An hw hp
  rw [img.1]
  show 12 + (answerRecords An [] []).length < 16384
  omega

/-! ## The constructor on malformed datagrams -/

/-- C4: the constructor reads octets past the end of the datagram.  On a datagram of five
octets the copy of the twelve header octets reads the indices 5 to 11; on a header with
QDCOUNT = 1 and nothing after it `ExtractLabels` reads the length octet at index 12. -/
theorem C4_reads_past_end :
    (∀ fuel, (decode fuel shortDatagram).outcome = .outOfBounds 5) ∧
    (∀ fuel, (decode (fuel + 1) headerOnly).outcome = .outOfBounds 12) := by
  constructor
  · intro fuel; rfl
  · intro fuel; rfl

theorem walk_loop (fuel : Nat) :
    (∀ s, ∃ t, ExtractLabels.walk fuel loopDatagram 12 s = .halt t .noFuel) ∧
    (∀ s, ∃ t, ExtractLabels.walk fuel loopDatagram 14 s = .halt t .noFuel) := by
  induction fuel with
  | zero => exact ⟨fun s => ⟨s, rfl⟩, fun s => ⟨s, rfl⟩⟩
  | succ n ih =>
    refine ⟨fun s => ?_, fun s => ?_⟩
    · obtain ⟨t, ht⟩ := ih.2 ((if s = [] then s else s ++ [46]) ++ [97])
      exact ⟨t, ht⟩
    · obtain ⟨t, ht⟩ := ih.1 s
      refine ⟨t, ?_⟩
      show (match ExtractLabels.walk n loopDatagram 12 s with
        | .ok s _ => Res.ok s 16
        | .halt s h => Res.halt s h) = _
      rw [ht]

/-- C5: on the name made of the label `a` at offset 12 and a pointer at offset 14 back to
offset 12, `ExtractLabels` returns for no amount of fuel: the recursion has no end, and the
constructor does not return either. -/
theorem C5_pointer_loop :
    ∀ fuel, (∃ t, ExtractLabels fuel loopDatagram 12 [] = .halt t .noFuel) ∧
      (decode fuel loopDatagram).outcome = .noFuel := by
  intro fuel
  obtain ⟨t, ht⟩ := (walk_loop fuel).1 []
  refine ⟨⟨t, by simp [ExtractLabels, ht]⟩, ?_⟩
  simp [decode, readHeader, ExtractQuestion, ExtractLabels, endTry, ht]
  simp [loopDatagram]

theorem walk_self (fuel : Nat) (s : List Nat) :
    ExtractLabels.walk fuel selfPointerDatagram 12 s = .halt s .noFuel := by
  induction fuel with
  | zero => rfl
  | succ n ih =>
    show (match ExtractLabels.walk n selfPointerDatagram 12 s with
      | .ok s _ => Res.ok s 14
      | .halt s h => Res.halt s h) = _
    rw [ih]

/-- C6: on the question name `C0 0C` at offset 12 the test `nOffset > pLabel - pBuffer` lets
the pointer to its own offset pass; the recursion has no end, the constructor does not
return and `m_strLastErrMsg` stays empty. -/
theorem C6_self_pointer (fuel : Nat) : decode fuel selfPointerDatagram =
    ⟨⟨0, 0, 0, 0, 0, 0, 0, 0, 0, 1, 0, 0, 0⟩, [⟨[], 0, 0⟩], [], [], [], "", none, .noFuel⟩ := by
  have h := walk_self fuel []
  simp [decode, readHeader, ExtractQuestion, ExtractLabels, endTry, h]
  simp [selfPointerDatagram]

/-- C7: a label with the length octet 64 is accepted (the test is `iTokenLen > 64`): the
constructor returns without an error message and the question name is the 64 octets. -/
theorem C7_label_of_64 (fuel : Nat) : decode (fuel + 2) label64Datagram =
    ⟨⟨0, 0, 0, 0, 0, 0, 0, 0, 0, 1, 0, 0, 0⟩, [⟨List.replicate 64 97, 12, 1⟩], [], [], [], "",
      some 82, .returned⟩ := by
  rfl

/-- C8: on a header whose counts sum to 151 the constructor throws `DnsProtoException`, which
the handler `catch (exception&)` does not catch: the exception leaves the constructor and
`m_strLastErrMsg` stays empty. -/
theorem C8_count_sum_151 (fuel : Nat) : decode fuel count151Datagram =
    ⟨⟨0, 0, 0, 0, 0, 0, 0, 0, 0, 151, 0, 0, 0⟩, [], [], [], [], "", none,
      .uncaught "Invalid buffer content"⟩ := by
  rfl

/-- C9: on a record whose RDLENGTH reaches past the end of the datagram `ExtractRRecords`
throws `DnsProtoException`, which the handler `catch (exception&)` does not catch: the
exception leaves the constructor and `m_strLastErrMsg` stays empty. -/
theorem C9_truncated_rdata (fuel : Nat) : decode (fuel + 1) truncatedRData =
    ⟨⟨0, 0, 0, 0, 0, 0, 0, 0, 0, 0, 1, 0, 0⟩, [], [⟨[], 1, 1, 0, 4, []⟩], [], [], "", none,
      .uncaught "Invalid buffer content"⟩ := by
  rfl

/-- C10: on a datagram of fewer than 12 octets the constructor copies twelve header octets
without a test of the length: it reads past the end of the datagram, and `m_strLastErrMsg`
is not set. -/
theorem C10_short_header (fuel : Nat) (buf : List Nat) (h : buf.length < 12) :
    (decode fuel buf).outcome = .outOfBounds buf.length ∧
    (decode fuel buf).m_strLastErrMsg = "" ∧ (decode fuel buf).m_pQuestions = [] := by
  simp [decode, h]

/-- Witness of C10: a datagram of five octets. -/
theorem C10_short_header_witness :
    (decode 1 shortDatagram).outcome = .outOfBounds shortDatagram.length ∧
    (decode 1 shortDatagram).m_strLastErrMsg = "" ∧ (decode 1 shortDatagram).m_pQuestions = [] :=
  C10_short_header 1 shortDatagram (by decide)

/-! ## Names that `ExtractLabels` returns -/

theorem appendName_append (s : List Nat) (a b : List (List Nat)) :
    appendName s (a ++ b) = appendName (appendName s a) b := by
  induction a generalizing s with
  | nil => rfl
  | cons l ls ih => simp only [List.cons_append, appendName]; exact ih _

theorem ExtractQuestion_succ (fuel : Nat) (buf : List Nat) (k p : Nat) (qs : List QUESTTION)
    (n : Nat) (h : ExtractQuestion fuel buf (k + 1) p = .ok qs n) :
    ∃ s used qt qc qs1 n1, ExtractLabels fuel buf p [] = .ok s used ∧
      p + used + 4 ≤ buf.length ∧ ExtractQuestion fuel buf k (p + used + 4) = .ok qs1 n1 ∧
      qs = ⟨s, qt, qc⟩ :: qs1 ∧ n = used + 4 + n1 := by
  rw [ExtractQuestion] at h
  split at h
  · simp at h
  · rename_i s used hl
    simp only [] at h
    split at h
    · simp at h
    · rename_i qt hqt
      split at h
      · simp at h
      · rename_i qc hqc
        split at h
        · simp at h
        · rename_i hfit
          split at h
          · rename_i qs1 n1 hrest
            simp only [Res.ok.injEq] at h
            exact ⟨s, used, qt, qc, qs1, n1, hl, by omega, hrest, h.1.symm, h.2.symm⟩
          · simp at h

theorem ExtractRRecords_succ (fuel : Nat) (buf : List Nat) (k p : Nat) (rs : List RRECORDS)
    (n : Nat) (h : ExtractRRecords fuel buf (k + 1) p = .ok rs n) :
    ∃ s used ty cl ttl rdl r rs1 n1, ExtractLabels fuel buf p [] = .ok s used ∧
      p + used + 10 + rdl ≤ buf.length ∧
      renderRData fuel buf ty (p + used + 10) rdl = .ok r () ∧
      ExtractRRecords fuel buf k (p + used + 10 + rdl) = .ok rs1 n1 ∧
      rs = ⟨s, ty, cl, ttl, rdl, r⟩ :: rs1 ∧ n = used + 10 + rdl + n1 := by
  rw [ExtractRRecords] at h
  split at h
  · simp at h
  · rename_i s used hl
    simp only [] at h
    split at h
    · simp at h
    · split at h
      · rename_i ty cl ttl rdl hty hcl httl hrdl
        split at h
        · simp at h
        · rename_i hfit
          split at h
          · simp at h
          · rename_i r u hr
            split at h
            · rename_i rs1 n1 hrest
              simp only [Res.ok.injEq] at h
              exact ⟨s, used, ty, cl, ttl, rdl, r, rs1, n1, hl, by omega, hr, hrest,
                h.1.symm, h.2.symm⟩
            · simp at h
      · simp at h

/-- The constructor returns without an error message only if the four sections are extracted
without a halt. -/
theorem decode_accepts (fuel : Nat) (buf : List Nat)
    (h1 : (decode fuel buf).outcome = .returned) (h2 : (decode fuel buf).m_strLastErrMsg = "") :
    12 ≤ buf.length ∧ ∃ qs nq an na ns nn ar nr,
      ExtractQuestion fuel buf (readHeader buf).QDCOUNT 12 = .ok qs nq ∧
      ExtractRRecords fuel buf (readHeader buf).ANCOUNT (12 + nq) = .ok an na ∧
      ExtractRRecords fuel buf (readHeader buf).NSCOUNT (12 + nq + na) = .ok ns nn ∧
      ExtractRRecords fuel buf (readHeader buf).ARCOUNT (12 + nq + na + nn) = .ok ar nr ∧
      decode fuel buf =
        ⟨readHeader buf, qs, an, ns, ar, "", some (12 + nq + na + nn + nr), .returned⟩ := by
  have key : ∀ (d : Decoded) (e : Halt), (endTry d e).outcome = .returned →
      (endTry d e).m_strLastErrMsg = "" → False := by
    intro d e ho hm
    cases e <;> simp [endTry] at ho hm
    exact absurd hm (by decide)
  unfold decode at h1 h2 ⊢
  simp only [guard_question, guard_records] at h1 h2 ⊢
  split at h1
  · simp at h1
  · rename_i h12
    split at h1
    · exact (key _ _ h1 (by simpa [*] using h2)).elim
    · rename_i hsum
      rw [if_neg h12, if_neg hsum] at h2 ⊢
      refine ⟨by omega, ?_⟩
      cases hq : ExtractQuestion fuel buf (readHeader buf).QDCOUNT 12 with
      | halt qs e => rw [hq] at h1 h2; exact (key _ _ h1 h2).elim
      | ok qs nq =>
        rw [hq] at h1 h2
        simp only [] at h1 h2
        cases ha : ExtractRRecords fuel buf (readHeader buf).ANCOUNT (12 + nq) with
        | halt rs e => rw [ha] at h1 h2; exact (key _ _ h1 h2).elim
        | ok an na =>
          rw [ha] at h1 h2
          simp only [] at h1 h2
          cases hn : ExtractRRecords fuel buf (readHeader buf).NSCOUNT (12 + nq + na) with
          | halt rs e => rw [hn] at h1 h2; exact (key _ _ h1 h2).elim
          | ok ns nn =>
            rw [hn] at h1 h2
            simp only [] at h1 h2
            cases hr : ExtractRRecords fuel buf (readHeader buf).ARCOUNT (12 + nq + na + nn) with
            | halt rs e => rw [hr] at h1 h2; exact (key _ _ h1 h2).elim
            | ok ar nr =>
              refine ⟨qs, nq, an, na, ns, nn, ar, nr, rfl, ha, hn, hr, ?_⟩
              simp only [ha, hn, hr]

theorem questions_span (fuel : Nat) (buf : List Nat) :
    ∀ (k p : Nat) (qs : List QUESTTION) (n : Nat), ExtractQuestion fuel buf k p = .ok qs n →
      ∃ us, QuestionsAt fuel buf p qs us ∧ n = questionOctets us ∧
        (0 < k → p + n ≤ buf.length) := by
  intro k
  induction k with
  | zero =>
    intro p qs n h
    simp only [ExtractQuestion, Res.ok.injEq] at h
    exact ⟨[], by rw [← h.1]; trivial, by rw [← h.2]; rfl, fun h0 => absurd h0 (by omega)⟩
  | succ k ih =>
    intro p qs n h
    obtain ⟨s, used, qt, qc, qs1, n1, hl, hfit, hrest, rfl, rfl⟩ :=
      ExtractQuestion_succ fuel buf k p qs n h
    obtain ⟨us, hq, hn, hb⟩ := ih _ _ _ hrest
    refine ⟨used :: us, ⟨hl, hq⟩, by simp [questionOctets] at hn ⊢; omega, fun _ => ?_⟩
    rcases Nat.eq_zero_or_pos k with hk | hk
    · subst hk
      simp only [ExtractQuestion, Res.ok.injEq] at hrest
      omega
    · have := hb hk
      omega

theorem records_span (fuel : Nat) (buf : List Nat) :
    ∀ (k p : Nat) (rs : List RRECORDS) (n : Nat), ExtractRRecords fuel buf k p = .ok rs n →
      ∃ us, RecordsAt fuel buf p rs us ∧ n = sectionOctets rs us ∧
        (0 < k → p + n ≤ buf.length) := by
  intro k
  induction k with
  | zero =>
    intro p rs n h
    simp only [ExtractRRecords, Res.ok.injEq] at h
    exact ⟨[], by rw [← h.1]; trivial, by rw [← h.2, ← h.1]; rfl, fun h0 => absurd h0 (by omega)⟩
  | succ k ih =>
    intro p rs n h
    obtain ⟨s, used, ty, cl, ttl, rdl, r, rs1, n1, hl, hfit, hr, hrest, rfl, rfl⟩ :=
      ExtractRRecords_succ fuel buf k p rs n h
    obtain ⟨us, hq, hn, hb⟩ := ih _ _ _ hrest
    refine ⟨used :: us, ⟨hl, hq⟩, by simp [sectionOctets] at hn ⊢; omega, fun _ => ?_⟩
    rcases Nat.eq_zero_or_pos k with hk | hk
    · subst hk
      simp only [ExtractRRecords, Res.ok.injEq] at hrest
      omega
    · have := hb hk
      omega

theorem span_le (len p n k : Nat) (hp : p ≤ len) (h : 0 < k → p + n ≤ len) (h0 : k = 0 → n = 0) :
    p + n ≤ len := by
  rcases Nat.eq_zero_or_pos k with hk | hk
  · rw [h0 hk]; omega
  · exact h hk

theorem ExtractQuestion_zero (fuel : Nat) (buf : List Nat) (p : Nat) (qs : List QUESTTION)
    (n : Nat) (h : ExtractQuestion fuel buf 0 p = .ok qs n) : n = 0 := by
  simp only [ExtractQuestion, Res.ok.injEq] at h; exact h.2.symm

theorem ExtractRRecords_zero (fuel : Nat) (buf : List Nat) (p : Nat) (rs : List RRECORDS)
    (n : Nat) (h : ExtractRRecords fuel buf 0 p = .ok rs n) : n = 0 := by
  simp only [ExtractRRecords, Res.ok.injEq] at h; exact h.2.symm

/-- With nothing to read behind the datagram (`decode`): when the constructor returns without
an error message, the datagram has twelve octets or more, and `m_nBytesDecodet` is at most the
length of the datagram and is 12 plus, for every question, the octets consumed for its name at
the call site and 4, plus, for every record of the three sections, the octets consumed for its
owner name at the call site, 10 and RDLENGTH. -/
theorem bytes_decoded_sum (fuel : Nat) (buf : List Nat)
    (h1 : (decode fuel buf).outcome = .returned) (h2 : (decode fuel buf).m_strLastErrMsg = "") :
    ∃ N uq ua un ur,
      (decode fuel buf).m_nBytesDecodet = some N ∧ N ≤ buf.length ∧
      QuestionsAt fuel buf 12 (decode fuel buf).m_pQuestions uq ∧
      RecordsAt fuel buf (12 + questionOctets uq) (decode fuel buf).m_pAnswers ua ∧
      RecordsAt fuel buf (12 + questionOctets uq + sectionOctets (decode fuel buf).m_pAnswers ua)
        (decode fuel buf).m_pNameServ un ∧
      RecordsAt fuel buf (12 + questionOctets uq + sectionOctets (decode fuel buf).m_pAnswers ua +
        sectionOctets (decode fuel buf).m_pNameServ un) (decode fuel buf).m_pExtraRec ur ∧
      N = 12 + questionOctets uq + sectionOctets (decode fuel buf).m_pAnswers ua +
        sectionOctets (decode fuel buf).m_pNameServ un +
        sectionOctets (decode fuel buf).m_pExtraRec ur := by
  obtain ⟨h12, qs, nq, an, na, ns, nn, ar, nr, hq, ha, hn, hr, hd⟩ := decode_accepts fuel buf h1 h2
  rw [hd]
  obtain ⟨uq, sq, eq, bq⟩ := questions_span fuel buf _ _ _ _ hq
  obtain ⟨ua, sa, ea, ba⟩ := records_span fuel buf _ _ _ _ ha
  obtain ⟨un, sn, en, bn⟩ := records_span fuel buf _ _ _ _ hn
  obtain ⟨ur, sr, er, br⟩ := records_span fuel buf _ _ _ _ hr
  have lq := span_le buf.length 12 nq _ h12 bq
    (fun hk => ExtractQuestion_zero fuel buf 12 qs nq (hk ▸ hq))
  have la := span_le buf.length (12 + nq) na _ lq ba
    (fun hk => ExtractRRecords_zero fuel buf _ an na (hk ▸ ha))
  have ln := span_le buf.length (12 + nq + na) nn _ la bn
    (fun hk => ExtractRRecords_zero fuel buf _ ns nn (hk ▸ hn))
  have lr := span_le buf.length (12 + nq + na + nn) nr _ ln br
    (fun hk => ExtractRRecords_zero fuel buf _ ar nr (hk ▸ hr))
  subst eq ea en er
  exact ⟨_, uq, ua, un, ur, rfl, lr, sq, sa, sn, sr, rfl⟩

/-- The datagram with one question whose name is one label of 64 octets. -/
theorem bytes_decoded_sample :
    ∃ N uq ua un ur,
      (decode 2 label64Datagram).m_nBytesDecodet = some N ∧ N ≤ label64Datagram.length ∧
      QuestionsAt 2 label64Datagram 12 (decode 2 label64Datagram).m_pQuestions uq ∧
      RecordsAt 2 label64Datagram (12 + questionOctets uq)
        (decode 2 label64Datagram).m_pAnswers ua ∧
      RecordsAt 2 label64Datagram
        (12 + questionOctets uq + sectionOctets (decode 2 label64Datagram).m_pAnswers ua)
        (decode 2 label64Datagram).m_pNameServ un ∧
      RecordsAt 2 label64Datagram
        (12 + questionOctets uq + sectionOctets (decode 2 label64Datagram).m_pAnswers ua +
          sectionOctets (decode 2 label64Datagram).m_pNameServ un)
        (decode 2 label64Datagram).m_pExtraRec ur ∧
      N = 12 + questionOctets uq + sectionOctets (decode 2 label64Datagram).m_pAnswers ua +
        sectionOctets (decode 2 label64Datagram).m_pNameServ un +
        sectionOctets (decode 2 label64Datagram).m_pExtraRec ur :=
  bytes_decoded_sum 2 label64Datagram (by decide) (by decide)

theorem length_eq_16 (l : List Nat) (h : l.length = 16) :
    ∃ a b c d e f g h i j k m n o p q, l = [a, b, c, d, e, f, g, h, i, j, k, m, n, o, p, q] := by
  match l, h with
  | [a, b, c, d, e, f, g, h, i, j, k, m, n, o, p, q], _ =>
    exact ⟨a, b, c, d, e, f, g, h, i, j, k, m, n, o, p, q, rfl⟩

theorem unhex_hexDigit : ∀ d, d < 16 → unhexDigit (hexDigit d) = d := by decide

theorem unhex_hex2 (b : Nat) (h : b < 256) :
    unhexDigit (hexDigit (b / 16 % 16)) * 16 + unhexDigit (hexDigit (b % 16)) = b := by
  rw [unhex_hexDigit _ (by omega), unhex_hexDigit _ (by omega)]
  omega

theorem hexDigit_range (d : Nat) (h : d < 16) :
    (48 ≤ hexDigit d ∧ hexDigit d ≤ 57) ∨ (97 ≤ hexDigit d ∧ hexDigit d ≤ 102) := by
  unfold hexDigit
  split <;> omega

theorem rdataAAAA_16 (a b c d e f g h i j k m n o p q : Nat) :
    rdataAAAA [a, b, c, d, e, f, g, h, i, j, k, m, n, o, p, q] =
      hex2 a ++ hex2 b ++ [58] ++ hex2 c ++ hex2 d ++ [58] ++ hex2 e ++ hex2 f ++ [58] ++
      hex2 g ++ hex2 h ++ [58] ++ hex2 i ++ hex2 j ++ [58] ++ hex2 k ++ hex2 m ++ [58] ++
      hex2 n ++ hex2 o ++ [58] ++ hex2 p ++ hex2 q := by
  simp [rdataAAAA, List.enum, List.enumFrom, hex2]

/-- C18: the RDATA text of an AAAA record of 16 octets has 39 characters: eight groups of
four lowercase hexadecimal digits (two digits for each of the octets `2j` and `2j + 1`),
separated by `:`; the 16 octets are read back from the text octet for octet. -/
theorem C18_aaaa_text (fuel : Nat) (buf : List Nat) (cur : Nat) (hfit : cur + 16 ≤ buf.length)
    (hb : ∀ b ∈ buf, b < 256) :
    ∃ s, renderRData fuel buf 28 cur 16 = .ok s () ∧ s.length = 39 ∧
      s = [58].intercalate (hexGroups ((buf.drop cur).take 16)) ∧
      (∀ c ∈ s, c = 58 ∨ (48 ≤ c ∧ c ≤ 57) ∨ (97 ≤ c ∧ c ≤ 102)) ∧
      parseAAAA s = (buf.drop cur).take 16 := by
  have hlen : ((buf.drop cur).take 16).length = 16 := by
    simp only [List.length_take, List.length_drop]; omega
  have hlt : ∀ x ∈ (buf.drop cur).take 16, x < 256 := fun x hx =>
    hb x (List.mem_of_mem_drop (List.mem_of_mem_take hx))
  refine ⟨rdataAAAA ((buf.drop cur).take 16), rfl, ?_⟩
  generalize (buf.drop cur).take 16 = o at hlen hlt
  obtain ⟨a, b, c, d, e, f, g, h, i, j, k, m, n, o, p, q, rfl⟩ := length_eq_16 o hlen
  simp only [List.mem_cons, List.mem_singleton, List.not_mem_nil, or_false, forall_eq_or_imp,
    forall_eq] at hlt
  obtain ⟨ha, hb, hc, hd, he, hf, hg, hh, hi, hj, hk, hm, hn, ho, hp, hq⟩ := hlt
  rw [rdataAAAA_16]
  refine ⟨by simp [hex2], ?_, ?_, ?_⟩
  · simp [hexGroups, List.intercalate, List.range, List.range.loop, List.intersperse, hex2]
  · have r : ∀ x, x < 256 → ∀ c ∈ hex2 x, c = 58 ∨ (48 ≤ c ∧ c ≤ 57) ∨ (97 ≤ c ∧ c ≤ 102) := by
      intro x hx c hc
      simp only [hex2, List.mem_cons, List.mem_singleton, List.not_mem_nil, or_false] at hc
      rcases hc with rfl | rfl
      · exact Or.inr (hexDigit_range _ (by omega))
      · exact Or.inr (hexDigit_range _ (by omega))
    simp only [List.forall_mem_append]
    and_intros
    all_goals first
      | exact r _ (by assumption)
      | (intro x hx; exact Or.inl (List.mem_singleton.mp hx))
  · simp only [parseAAAA, hex2]
    simp [List.range, List.range.loop, unhex_hex2, *]

/-! ## Round trips of single records -/

/-- The constructor on the datagram of `BuildAnswer`, for lists that fulfil the conditions of
the round trip: the three sections repeat the items. -/
theorem roundtrip_sections (An Ns Ar : List ANSWERITEM) (buf : List Nat)
    (hA : ∀ it ∈ An, WellFormedItem it) (hN : ∀ it ∈ Ns, WellFormedItem it)
    (hR : ∀ it ∈ Ar, WellFormedItem it)
    (hcount : An.length + Ns.length + Ar.length ≤ 150)
    (hsmall : 12 + (answerRecords An Ns Ar).length < 16384)
    (hbuf : buf.length = (BuildAnswer An Ns Ar none 0).nBuflen) :
    ∃ datagram F, (BuildAnswer An Ns Ar (some buf) buf.length).szBuffer = some datagram ∧
      ∀ fuel, F ≤ fuel →
        (decode fuel datagram).outcome = .returned ∧
        (decode fuel datagram).m_strLastErrMsg = "" ∧
        List.Forall₂ Echo An (decode fuel datagram).m_pAnswers ∧
        List.Forall₂ Echo Ns (decode fuel datagram).m_pNameServ ∧
        List.Forall₂ Echo Ar (decode fuel datagram).m_pExtraRec := by
  have tA : ∀ it ∈ An, Typed it := fun it h => (hA it h).1
  have tN : ∀ it ∈ Ns, Typed it := fun it h => (hN it h).1
  have tR : ∀ it ∈ Ar, Typed it := fun it h => (hR it h).1
  have img0 := (BuildAnswer_image An Ns Ar (List.replicate (12 + (answerRecords An Ns Ar).length) 0)
    0 tA tN tR (by simp)).1
  rw [img0] at hbuf
  simp only [] at hbuf
  have img := (BuildAnswer_image An Ns Ar buf 0 tA tN tR hbuf).2
  rw [hbuf, img]
  have hlen := answerHead_length An.length Ns.length Ar.length
  obtain ⟨F, hF⟩ := answer_decodes An Ns Ar (answerHead An.length Ns.length Ar.length) hlen
    hA hN hR hsmall
  refine ⟨_, F, rfl, fun fuel hf => ?_⟩
  obtain ⟨an, ns, ar, na, nn, nr, ea, en, er, xa, xn, xr⟩ := hF fuel hf
  obtain ⟨cq, ca, cn, cr⟩ := readHeader_answerHead An.length Ns.length Ar.length
    (by omega) (by omega) (by omega)
  have hh := readHeader_append (answerHead An.length Ns.length Ar.length)
    (answerRecords An Ns Ar) hlen
  have hdec := decode_ok fuel (answerHead An.length Ns.length Ar.length ++ answerRecords An Ns Ar)
    (by simp [hlen]) (by rw [hh, cq, ca, cn, cr]; omega) [] an ns ar 0 na nn nr
    (by rw [hh, cq]; simp [ExtractQuestion]) (by rw [hh, ca]; exact xa)
    (by rw [hh, cn]; exact xn) (by rw [hh, cr]; exact xr)
  rw [hdec]
  exact ⟨rfl, rfl, ea, en, er⟩

theorem dotted_length (l : List Nat) (ls : List (List Nat)) :
    (((l :: ls).map fun x => x.length + 1).sum) = (dotted (l :: ls)).length + 1 := by
  rw [dotted_cons]
  simp only [List.map_cons, List.sum_cons, List.length_append, List.length_flatten, List.map_map]
  have : (List.map (List.length ∘ fun l => 46 :: l) ls) = ls.map fun x => x.length + 1 := by
    apply List.map_congr_left; intro x _; simp
  rw [this]; omega

theorem tokens_sum (name : List Nat) (hw : WellFormedName name) :
    ((tokenize name).map fun x => x.length + 1).sum = name.length + 1 := by
  obtain ⟨labels, hwf, rfl⟩ := hw
  rw [tokenize_dotted labels hwf]
  cases labels with
  | nil => exact absurd rfl hwf.1
  | cons l ls => exact dotted_length l ls

theorem nameLen_le (T : OFFSETLIST) (k : Nat) (name : List Nat) (hw : WellFormedName name)
    (hl : labelsOf (tokensAt T k) = tokenize name) : nameLen T (k + 1) ≤ name.length + 3 := by
  have hb := labelsLen_le (tokensAt T k)
  rw [hl, tokens_sum name hw] at hb
  unfold nameLen
  simpa [tokensAt] using hb

/-- The record octets of one SRV record take at most the lengths of the two names and 22
octets. -/
theorem srv_size (it : ANSWERITEM) (s : SRVDATA) (hw : WellFormedItem it) (ht : it.usType = 33)
    (hs : it.rData = .svData s) :
    (answerRecords [it] [] []).length ≤ it.strLabel.2.length + s.strHost.2.length + 22 := by
  obtain ⟨X, hX, hXl, hok, hlink, hwj, -⟩ := internItem_ok [] it TableOK_nil hw
  have e : fnExtractLabels [] [it] = ((internItem [] it).1, [(internItem [] it).2]) := rfl
  rw [answerRecords_single, e]
  simp only []
  rw [recordsOctets_length _ _ _ (fun x hx => by
    simp only [List.mem_singleton] at hx; rw [hx]; exact hwj.1)]
  rw [← hX] at hlink
  have hj : (internItem [] it).2 = ⟨(1, it.strLabel.2),
      .svData ⟨s.Priority, s.Weight, s.Port, (2, s.strHost.2)⟩, 33, it.usClass, it.iTtl⟩ := by
    simp only [internItem, ht, hs, BuildLabelReferenc_fst]
    simp [BuildLabelReferenc]
  generalize (internItem [] it).1 = T at hlink ⊢
  rw [hj] at hlink ⊢
  have h1 : nameLen T 1 ≤ it.strLabel.2.length + 3 :=
    nameLen_le T 0 it.strLabel.2 hw.2.1 hlink.2.2.1
  have h2 : nameLen T 2 ≤ s.strHost.2.length + 3 :=
    nameLen_le T 1 s.strHost.2 (hw.2.2.2.1 s hs) (hlink.2.2.2.2 _ rfl).2
  simp only [List.map_cons, List.map_nil, List.sum_cons, List.sum_nil, recLen, payloadLen]
  omega

/-- C17: an SRV record with 16-bit priority, weight and port, a well-formed owner name and a
well-formed host name (wire forms of at most 255 octets) that `BuildAnswer` writes as the only
record is decoded to a record whose RDATA is priority, weight and port in unsigned decimal and
the host name, separated by single blanks. -/
theorem C17_srv_roundtrip (owner host : List Nat) (i0 i1 prio weight port cls : Nat) (ttl : Int)
    (buf : List Nat) (ho : WellFormedName owner) (hh : WellFormedName host)
    (lo : owner.length ≤ 253) (lh : host.length ≤ 253)
    (hp : prio < 65536) (hw : weight < 65536) (hpt : port < 65536)
    (hbuf : buf.length = (BuildAnswer
      [⟨(i0, owner), .svData ⟨prio, weight, port, (i1, host)⟩, 33, cls, ttl⟩] [] [] none 0).nBuflen) :
    ∃ datagram F, (BuildAnswer [⟨(i0, owner), .svData ⟨prio, weight, port, (i1, host)⟩, 33, cls, ttl⟩]
        [] [] (some buf) buf.length).szBuffer = some datagram ∧
      ∀ fuel, F ≤ fuel →
        (decode fuel datagram).outcome = .returned ∧
        (decode fuel datagram).m_strLastErrMsg = "" ∧
        ∃ r, (decode fuel datagram).m_pAnswers = [r] ∧ r.LABEL = owner ∧ r.TYPE = 33 ∧
          r.RDATA = decOctets prio ++ [32] ++ decOctets weight ++ [32] ++ decOctets port ++
            [32] ++ host := by
  have hwf : WellFormedItem ⟨(i0, owner), .svData ⟨prio, weight, port, (i1, host)⟩, 33, cls, ttl⟩ :=
    ⟨Or.inr (Or.inr (Or.inr (Or.inr ⟨rfl, _, rfl⟩))), ho, fun p hp => by simp at hp,
      fun s hs => by simp only [RDATA.svData.injEq] at hs; rw [← hs]; exact hh,
      fun ss hs => by simp at hs⟩
  have hsz := srv_size _ ⟨prio, weight, port, (i1, host)⟩ hwf rfl rfl
  simp only [] at hsz
  have hnil : ∀ it ∈ ([] : List ANSWERITEM), WellFormedItem it := fun it h => by simp at h
  obtain ⟨datagram, F, hd, hF⟩ := roundtrip_sections
    [⟨(i0, owner), .svData ⟨prio, weight, port, (i1, host)⟩, 33, cls, ttl⟩] [] [] buf
    (fun it h => by simp only [List.mem_singleton] at h; rw [h]; exact hwf) hnil hnil
    (by simp) (by omega) hbuf
  refine ⟨datagram, F, hd, fun fuel hf => ?_⟩
  obtain ⟨h1, h2, h3, -, -⟩ := hF fuel hf
  refine ⟨h1, h2, ?_⟩
  generalize (decode fuel datagram).m_pAnswers = an at h3
  cases h3 with
  | cons hecho hrest =>
    cases hrest
    rename_i r
    refine ⟨r, rfl, hecho.1, hecho.2.1, ?_⟩
    have := hecho.2.2.2 _ rfl
    rw [this]
    simp only [srvText, Nat.mod_eq_of_lt hp, Nat.mod_eq_of_lt hw, Nat.mod_eq_of_lt hpt]

/-! ## The suffix pointer of a new table entry -/

theorem rbegin_none (mF : List (Nat × Nat)) (h : rbegin mF = none) : mF = [] := by
  cases mF with
  | nil => rfl
  | cons x rest =>
    simp only [rbegin] at h
    split at h
    · simp at h
    · split at h <;> simp at h

theorem rbegin_max (mF : List (Nat × Nat)) (kv : Nat × Nat) (h : rbegin mF = some kv) :
    ∀ x ∈ mF, x.1 ≤ kv.1 := by
  induction mF generalizing kv with
  | nil => simp [rbegin] at h
  | cons y rest ih =>
    simp only [rbegin] at h
    cases hr : rbegin rest with
    | none =>
      simp only [hr, Option.some.injEq] at h
      have := rbegin_none rest hr
      subst this
      intro x hx
      simp only [List.mem_singleton] at hx
      rw [hx, h]
    | some b =>
      simp only [hr] at h
      have hb := ih b hr
      intro x hx
      simp only [List.mem_cons] at hx
      split at h
      · simp only [Option.some.injEq] at h
        subst h
        rcases hx with rfl | hx
        · omega
        · exact hb x hx
      · simp only [Option.some.injEq] at h
        subst h
        rcases hx with rfl | hx
        · exact Nat.le_refl _
        · have := hb x hx
          omega

theorem hit_iff (T : OFFSETLIST) (ls : List (List Nat)) (n i m : Nat) :
    Hit T (ls.map fun t => (0, t)) n i m ↔
      n < T.length ∧ i < ls.length ∧ m < (tokensAt T n).length ∧
        labelsOf ((tokensAt T n).drop m) = ls.drop i := by
  unfold Hit
  rw [tailsEqual_iff, labelsOf_drop ((ls.map fun t => ((0 : Nat), t))), labelsOf_zero,
    List.length_map]

theorem shared_iff (T : OFFSETLIST) (ls : List (List Nat)) (i : Nat) :
    SharedTail T ls i ↔ ∃ n m, Hit T (ls.map fun t => (0, t)) n i m := by
  unfold SharedTail
  constructor
  · rintro ⟨hi, n, m, hn, hm, he⟩
    exact ⟨n, m, (hit_iff T ls n i m).mpr ⟨hn, hi, hm, he⟩⟩
  · rintro ⟨n, m, h⟩
    obtain ⟨hn, hi, hm, he⟩ := (hit_iff T ls n i m).mp h
    exact ⟨hi, n, m, hn, hm, he⟩

/-- The tokens of the entry that `BuildLabelReferenc` appends: without a shared tail the
tokens of the name with no pointer; otherwise the pointer stands on the token at the least
index `i` from which the labels are a shared tail, and it names the first entry `n` of the
table that holds this tail, and the position `m` of the tail in it. -/
theorem BuildLabelReferenc_entry (name : List Nat) (T : OFFSETLIST) :
    ((∀ i, ¬ SharedTail T (tokenize name) i) ∧
      tokensAt (BuildLabelReferenc name T).2 T.length = (tokenize name).map fun t => (0, t)) ∨
    (∃ n i m, Hit T ((tokenize name).map fun t => (0, t)) n i m ∧
      (∀ i1, SharedTail T (tokenize name) i1 → i ≤ i1) ∧
      (∀ n1 m1, Hit T ((tokenize name).map fun t => (0, t)) n1 i m1 → n ≤ n1) ∧
      tokensAt (BuildLabelReferenc name T).2 T.length =
        setFirst ((tokenize name).map fun t => (0, t)) i (pack n m)) := by
  have hvl : ((tokenize name).map fun t => ((0 : Nat), t)).length = (tokenize name).length := by
    simp
  have hinv := searchSuffix_inv0 T ((tokenize name).map fun t => (0, t))
  cases hr : rbegin (searchSuffix T ((tokenize name).map fun t => (0, t))) with
  | none =>
    left
    have hnil := rbegin_none _ hr
    refine ⟨fun i hs => ?_, ?_⟩
    · obtain ⟨n, m, hH⟩ := (shared_iff T _ i).mp hs
      obtain ⟨v, hv⟩ := hinv.2 n i m ⟨hH.1, hH.2.1, hH.2.2.1⟩ hH
      rw [hnil] at hv
      simp at hv
    · have : (BuildLabelReferenc name T).2 = T ++ [(0, (tokenize name).map fun t => (0, t))] := by
        simp [BuildLabelReferenc, hr]
      rw [this, tokensAt_append_right]
  | some kv =>
    right
    obtain ⟨n, i, m, hH, hk1, hk2, hmin⟩ := searchSuffix_mem T _ kv (rbegin_mem _ _ hr)
    have hi := hH.2.1
    rw [hvl] at hi hk1
    have hidx : (tokenize name).length - kv.1 = i := by omega
    refine ⟨n, i, m, hH, fun i1 hs => ?_, hmin, ?_⟩
    · obtain ⟨n1, m1, hH1⟩ := (shared_iff T _ i1).mp hs
      obtain ⟨v, hv⟩ := hinv.2 n1 i1 m1 ⟨hH1.1, hH1.2.1, hH1.2.2.1⟩ hH1
      have := rbegin_max _ kv hr _ hv
      have hi1 := hH1.2.1
      rw [hvl] at hi1 this
      simp only [] at this
      omega
    · have : (BuildLabelReferenc name T).2 = T ++ [(0, setFirst ((tokenize name).map fun t => (0, t))
          i (pack n m))] := by
        simp only [BuildLabelReferenc, hr, hvl, hidx, hk2]
      rw [this, tokensAt_append_right]

theorem or_div_pow (a b k : Nat) : (a ||| b) / 2 ^ k = a / 2 ^ k ||| b / 2 ^ k := by
  induction k with
  | zero => simp
  | succ k ih =>
    rw [Nat.pow_succ, ← Nat.div_div_eq_div_mul, ← Nat.div_div_eq_div_mul, ← Nat.div_div_eq_div_mul,
      ih, Nat.or_div_two]

theorem pointer_mark (x : Nat) (hx : x < 65536) : 192 ≤ (0xc000 ||| x) / 256 % 256 := by
  have h1 := or_div_pow 0xc000 x 14
  have h2 : x / 2 ^ 14 < 4 := by norm_num; omega
  have h3 : ∀ q, q < 4 → 3 ||| q = 3 := by decide
  have h4 : (0xc000 : Nat) / 2 ^ 14 = 3 := by norm_num
  rw [h4, h3 _ h2] at h1
  have h5 : (0xc000 ||| x) < 2 ^ 16 := Nat.or_lt_two_pow (by norm_num) (by norm_num; exact hx)
  norm_num at h1 h5
  omega

theorem labelsOctets_setFirst (U : OFFSETLIST) (ls : List (List Nat)) (v : Nat) (hv : v ≠ 0) :
    ∀ i, i < ls.length → labelsOctets U (setFirst (ls.map fun t => (0, t)) i v) =
      literalOctets (ls.take i) ++ be16 (0xc000 ||| (targetOffset U v % 65536)) := by
  induction ls with
  | nil => intro i hi; simp at hi
  | cons l ls ih =>
    intro i hi
    cases i with
    | zero => simp [setFirst, labelsOctets, hv, literalOctets]
    | succ i =>
      have := ih i (by simpa using hi)
      simp only [List.map_cons, setFirst, labelsOctets, ne_eq, not_true_eq_false, if_false, this,
        List.take_succ_cons, literalOctets, List.flatten_cons, List.cons_append, List.append_assoc]

set_option maxRecDepth 100000 in
/-- C15: the name that `BuildLabels` writes for a new table entry.  When the labels of the name
from the index `j` on are the complete tail of a name of the table, and from no smaller index,
the octets are the first `j` labels written literally and two pointer octets, with no root
octet (two octets for `j = 0`); without a shared tail they are all labels and the root octet.
In the datagram of two PTR records with the owner `_http._tcp.local` and the targets
`A._http._tcp.local` and `B._http._tcp.local`, the owner is written in full at offset 12, the
targets are `01 41 C0 0C` and `01 42 C0 0C`, and the second owner is `C0 0C`. -/
theorem C15_suffix_compression :
    (∀ (name : List Nat) (T U : OFFSETLIST) (j : Nat), SharedTail T (tokenize name) j →
      (∀ i, i < j → ¬ SharedTail T (tokenize name) i) →
      ∃ hi lo, 192 ≤ hi ∧
        labelsOctets U (tokensAt (BuildLabelReferenc name T).2 T.length) =
          literalOctets ((tokenize name).take j) ++ [hi, lo]) ∧
    (∀ (name : List Nat) (T U : OFFSETLIST), (∀ i, ¬ SharedTail T (tokenize name) i) →
      labelsOctets U (tokensAt (BuildLabelReferenc name T).2 T.length) =
        literalOctets (tokenize name) ++ [0]) ∧
    BuildAnswer twoPtrRecords [] [] (some (List.replicate 60 0)) 60 =
      ⟨60, some ([0, 0, 1, 0, 0, 0, 0, 2, 0, 0, 0, 0] ++
        ([5] ++ str "_http" ++ [4] ++ str "_tcp" ++ [5] ++ str "local" ++ [0]) ++
        [0, 12, 0, 1, 0, 0, 0, 120, 0, 4] ++ [1, 65, 0xc0, 12] ++
        [0xc0, 12] ++ [0, 12, 0, 1, 0, 0, 0, 120, 0, 4] ++ [1, 66, 0xc0, 12]), 0⟩ := by
  refine ⟨?_, ?_, by decide⟩
  · intro name T U j hj hleast
    rcases BuildLabelReferenc_entry name T with ⟨hno, -⟩ | ⟨n, i, m, hH, hmin, -, htok⟩
    · exact absurd hj (hno j)
    · have hi : i < (tokenize name).length := by
        have := hH.2.1
        simpa using this
      have hij : i = j := by
        have h1 := hmin j hj
        have h2 : ¬ i < j := fun hlt =>
          hleast i hlt ((shared_iff T _ i).mpr ⟨n, m, hH⟩)
        omega
      subst hij
      rw [htok, labelsOctets_setFirst U _ _ (pack_ne_zero n m) i hi]
      exact ⟨_, _, pointer_mark _ (Nat.mod_lt _ (by norm_num)), rfl⟩
  · intro name T U hno
    rcases BuildLabelReferenc_entry name T with ⟨-, htok⟩ | ⟨n, i, m, hH, -, -, -⟩
    · rw [htok, labelsOctets_zero]
      generalize tokenize name = ls
      induction ls with
      | nil => rfl
      | cons l ls ih =>
        simp only [wireLabels, literalOctets, List.map_cons, List.flatten_cons, List.cons_append,
          List.append_assoc] at ih ⊢
        rw [ih]
    · exact absurd ((shared_iff T _ i).mpr ⟨n, m, hH⟩) (hno i)

/-- Witness of C17: priority 10, weight 20, port 80, host `host.local`, owner
`s._tcp.local`; the decoded RDATA is `10 20 80 host.local`. -/
theorem C17_srv_roundtrip_witness :
    ∃ datagram F, (BuildAnswer
        [⟨(0, str "s._tcp.local"), .svData ⟨10, 20, 80, (0, str "host.local")⟩, 33, 1, 120⟩]
        [] [] (some (List.replicate 49 0)) (List.replicate 49 0).length).szBuffer
          = some datagram ∧
      ∀ fuel, F ≤ fuel →
        (decode fuel datagram).outcome = .returned ∧
        (decode fuel datagram).m_strLastErrMsg = "" ∧
        ∃ r, (decode fuel datagram).m_pAnswers = [r] ∧ r.LABEL = str "s._tcp.local" ∧
          r.TYPE = 33 ∧ r.RDATA = str "10 20 80 host.local" :=
  C17_srv_roundtrip (str "s._tcp.local") (str "host.local") 0 0 10 20 80 1 120
    (List.replicate 49 0)
    ⟨[str "s", str "_tcp", str "local"], ⟨by decide, by decide⟩, by decide⟩
    ⟨[str "host", str "local"], ⟨by decide, by decide⟩, by decide⟩
    (by decide) (by decide) (by decide) (by decide) (by decide) (by decide)

/-- Witness of C18: the address `fe80::1` in a buffer of its 16 octets. -/
theorem C18_aaaa_text_witness :
    ∃ s, renderRData 0 [254, 128, 0, 0, 0, 0, 0, 0, 0, 0, 0, 0, 0, 0, 0, 1] 28 0 16 = .ok s () ∧
      s.length = 39 ∧
      s = [58].intercalate (hexGroups
        (([254, 128, 0, 0, 0, 0, 0, 0, 0, 0, 0, 0, 0, 0, 0, 1].drop 0).take 16)) ∧
      (∀ c ∈ s, c = 58 ∨ (48 ≤ c ∧ c ≤ 57) ∨ (97 ≤ c ∧ c ≤ 102)) ∧
      parseAAAA s = ([254, 128, 0, 0, 0, 0, 0, 0, 0, 0, 0, 0, 0, 0, 0, 1].drop 0).take 16 :=
  C18_aaaa_text 0 [254, 128, 0, 0, 0, 0, 0, 0, 0, 0, 0, 0, 0, 0, 0, 1] 0 (by decide) (by decide)

/-! ## Records of other types, and buffers with room to spare -/

theorem BuildRData_other (w : Writer) (ty : Nat) (rd : RDATA) (h1 : ty ≠ 1) (h12 : ty ≠ 12)
    (h16 : ty ≠ 16) (h28 : ty ≠ 28) (h33 : ty ≠ 33) : BuildRData w ty rd = w := by
  unfold BuildRData
  split <;> first | rfl | (exfalso; omega)

theorem payloadLen_other (T : OFFSETLIST) (ty : Nat) (rd : RDATA) (h1 : ty ≠ 1) (h12 : ty ≠ 12)
    (h16 : ty ≠ 16) (h28 : ty ≠ 28) (h33 : ty ≠ 33) : payloadLen T ty rd = 0 := by
  unfold payloadLen
  split <;> first | rfl | (exfalso; omega)

theorem payloadOctets_other (T : OFFSETLIST) (p ty : Nat) (rd : RDATA) (h1 : ty ≠ 1)
    (h12 : ty ≠ 12) (h16 : ty ≠ 16) (h28 : ty ≠ 28) (h33 : ty ≠ 33) :
    payloadOctets T p ty rd = (T, []) := by
  unfold payloadOctets
  split <;> first | rfl | (exfalso; omega)

theorem recordOctets_length_all (T : OFFSETLIST) (p : Nat) (it : ANSWERITEM)
    (h : Supported it) : (recordOctets T p it).2.length = recLen T it := by
  rcases h with h | ⟨h1, h12, h16, h28, h33⟩
  · exact recordOctets_length T p it h
  · simp only [recordOctets, List.length_append, recordHead_length, recLen,
      payloadOctets_other _ _ _ _ h1 h12 h16 h28 h33, payloadLen_other _ _ _ h1 h12 h16 h28 h33,
      be16, List.length_cons, List.length_nil]

theorem record_fit_all (w : Writer) (it : ANSWERITEM) (p : Nat) (hw : Writable it)
    (hp : w.pBufPointer = some p) (hb : p ≤ w.buf.length)
    (h : recLen w.OffListe it ≤ w.nBufLen) :
    BuildRData (BuildRRecord w it.strLabel.1 it.usType it.usClass it.iTtl) it.usType it.rData =
      { OffListe := (recordOctets w.OffListe p it).1
        buf := store w.buf p (recordOctets w.OffListe p it).2
        pBufPointer := some (p + recLen w.OffListe it)
        nBufLen := w.nBufLen - recLen w.OffListe it } := by
  rcases hw with ⟨ht, hi⟩ | ⟨⟨h1, h12, h16, h28, h33⟩, hi⟩
  · exact record_fit w it p ht hi hp hb h
  · have hpl := payloadLen_other w.OffListe it.usType it.rData h1 h12 h16 h28 h33
    unfold recLen at h ⊢
    rw [hpl] at h ⊢
    rw [BuildRData_other _ _ _ h1 h12 h16 h28 h33,
      BuildRRecord_fit w _ _ _ p _ hi hp (by omega) hb]
    simp only [recordOctets, payloadOctets_other _ _ _ _ h1 h12 h16 h28 h33, recordHead, be16,
      List.append_nil, Nat.add_zero, List.length_nil, Nat.zero_mod, Nat.zero_div,
      List.append_assoc]
    rw [Nat.add_assoc, Nat.sub_sub]

theorem recordsOctets_length_all (T : OFFSETLIST) (p : Nat) (items : List ANSWERITEM)
    (ht : ∀ it ∈ items, Supported it) :
    (recordsOctets T p items).2.length = (items.map (recLen T)).sum := by
  induction items generalizing T p with
  | nil => rfl
  | cons it rest ih =>
    simp only [recordsOctets, List.length_append, List.map_cons, List.sum_cons]
    rw [ih _ _ (fun x hx => ht x (by simp [hx])), recordOctets_length_all T p it (ht it (by simp))]
    congr 2
    apply List.map_congr_left
    intro x _
    exact recLen_tokens T _ (recordOctets_tokens T p it) x

theorem Writable.supported (it : ANSWERITEM) (h : Writable it) : Supported it := by
  rcases h with ⟨h, -⟩ | ⟨h, -⟩
  · exact Or.inl h
  · exact Or.inr h

theorem Writable.owner (it : ANSWERITEM) (h : Writable it) : it.strLabel.1 ≠ 0 := by
  rcases h with ⟨-, h⟩ | ⟨-, h⟩
  · exact h.1
  · exact h

theorem fnBuildRecords_all (w : Writer) (items : List ANSWERITEM) (p : Nat)
    (hw : ∀ it ∈ items, Writable it)
    (hp : w.pBufPointer = some p) (hb : p ≤ w.buf.length)
    (h : (items.map (recLen w.OffListe)).sum ≤ w.nBufLen) :
    fnBuildRecords w items =
      { OffListe := (recordsOctets w.OffListe p items).1
        buf := store w.buf p (recordsOctets w.OffListe p items).2
        pBufPointer := some (p + (items.map (recLen w.OffListe)).sum)
        nBufLen := w.nBufLen - (items.map (recLen w.OffListe)).sum } := by
  induction items generalizing w p with
  | nil =>
    simp only [fnBuildRecords, recordsOctets, List.map_nil, List.sum_nil, Nat.add_zero, Nat.sub_zero]
    have : store w.buf p [] = w.buf := by
      obtain ⟨a, b, hab, ha⟩ := split_at w.buf p hb
      rw [hab, store_eq a b [] p ha.symm]; simp
    rw [this, ← hp]
  | cons it rest ih =>
    have ht1 := Writable.supported it (hw it (by simp))
    simp only [List.map_cons, List.sum_cons] at h
    simp only [fnBuildRecords]
    rw [record_fit_all w it p (hw it (by simp)) hp hb (by omega)]
    have hsame : (rest.map (recLen (recordOctets w.OffListe p it).1)).sum
        = (rest.map (recLen w.OffListe)).sum := by
      congr 1
      apply List.map_congr_left
      intro x _
      exact recLen_tokens _ _ (recordOctets_tokens w.OffListe p it) x
    rw [ih _ (p + recLen w.OffListe it) (fun x hx => hw x (by simp [hx])) rfl
      (by
        have := store_length_ge w.buf p (recordOctets w.OffListe p it).2 hb
        rw [recordOctets_length_all w.OffListe p it ht1] at this
        exact this)
      (by simp only [hsame]; omega)]
    simp only [hsame, recordsOctets, List.map_cons, List.sum_cons]
    rw [← recordOctets_length_all w.OffListe p it ht1, store_store _ _ _ _ hb]
    rw [recordOctets_length_all w.OffListe p it ht1]
    rw [show p + recLen w.OffListe it + (rest.map (recLen w.OffListe)).sum
        = p + (recLen w.OffListe it + (rest.map (recLen w.OffListe)).sum) by omega,
      show w.nBufLen - recLen w.OffListe it - (rest.map (recLen w.OffListe)).sum
        = w.nBufLen - (recLen w.OffListe it + (rest.map (recLen w.OffListe)).sum) by omega]

theorem fnCalcBufferSize_all (T : OFFSETLIST) (items : List ANSWERITEM) (n : Nat)
    (hw : ∀ it ∈ items, Writable it) :
    fnCalcBufferSize T items n = (T, n + (items.map (recLen T)).sum) := by
  induction items generalizing n with
  | nil => simp [fnCalcBufferSize]
  | cons it rest ih =>
    have h1 := BuildRRecord_probe T it.strLabel.1 it.usType it.usClass it.iTtl
      (Writable.owner it (hw it (by simp)))
    have h2 : BuildRData ⟨T, [], none, 0⟩ it.usType it.rData
        = ⟨T, [], none, payloadLen T it.usType it.rData⟩ := by
      rcases hw it (by simp) with ⟨ht, hi⟩ | ⟨⟨h1, h12, h16, h28, h33⟩, -⟩
      · exact BuildRData_probe T it ht hi
      · rw [BuildRData_other _ _ _ h1 h12 h16 h28 h33, payloadLen_other _ _ _ h1 h12 h16 h28 h33]
    simp only [fnCalcBufferSize, h1, h2]
    rw [ih _ (fun x hx => hw x (by simp [hx]))]
    simp [recLen]; omega

theorem internItem_writable (T : OFFSETLIST) (it : ANSWERITEM) (h : Supported it) :
    Writable (internItem T it).2 := by
  rcases h with h | ⟨h1, h12, h16, h28, h33⟩
  · exact Or.inl (internItem_typed T it h)
  · have e : internItem T it = ((BuildLabelReferenc it.strLabel.2 T).2,
        { it with strLabel := ((BuildLabelReferenc it.strLabel.2 T).1, it.strLabel.2) }) := by
      unfold internItem
      simp only []
      split <;> first | rfl | (exfalso; omega)
    rw [e]
    exact Or.inr ⟨⟨h1, h12, h16, h28, h33⟩, by simp [BuildLabelReferenc_fst]⟩

theorem fnExtractLabels_writable (T : OFFSETLIST) (items : List ANSWERITEM)
    (hs : ∀ it ∈ items, Supported it) :
    (∀ it ∈ (fnExtractLabels T items).2, Writable it) ∧
    (fnExtractLabels T items).2.length = items.length := by
  induction items generalizing T with
  | nil => simp [fnExtractLabels]
  | cons it rest ih =>
    have h1 := internItem_writable T it (hs it (by simp))
    have ih1 := ih (internItem T it).1 (fun x hx => hs x (by simp [hx]))
    simp only [fnExtractLabels]
    refine ⟨?_, by simp [ih1.2]⟩
    intro x hx
    simp only [List.mem_cons] at hx
    rcases hx with rfl | hx
    · exact h1
    · exact ih1.1 x hx

/-- The datagram of `BuildAnswer` for records of the five types and of other types, in a
buffer with room to spare: the size reported for a null buffer, and what the buffer holds after
the call. -/
theorem BuildAnswer_write (An Ns Ar : List ANSWERITEM) (buf : List Nat) (n : Nat)
    (hA : ∀ it ∈ An, Supported it) (hN : ∀ it ∈ Ns, Supported it) (hR : ∀ it ∈ Ar, Supported it)
    (hn : 12 + (answerRecords An Ns Ar).length ≤ n)
    (hbuf : 12 + (answerRecords An Ns Ar).length ≤ buf.length) :
    (∀ n0, BuildAnswer An Ns Ar none n0 = ⟨0, none, 12 + (answerRecords An Ns Ar).length⟩) ∧
    BuildAnswer An Ns Ar (some buf) n =
      ⟨12 + (answerRecords An Ns Ar).length,
        some (answerHead An.length Ns.length Ar.length ++ answerRecords An Ns Ar ++
          buf.drop (12 + (answerRecords An Ns Ar).length)),
        n - (12 + (answerRecords An Ns Ar).length)⟩ := by
  have tA := fnExtractLabels_writable [] An hA
  have tN := fnExtractLabels_writable (fnExtractLabels [] An).1 Ns hN
  have tR := fnExtractLabels_writable (fnExtractLabels (fnExtractLabels [] An).1 Ns).1 Ar hR
  generalize hT : (fnExtractLabels (fnExtractLabels (fnExtractLabels [] An).1 Ns).1 Ar).1 = T
  generalize hiA : (fnExtractLabels [] An).2 = iA at tA
  generalize hiN : (fnExtractLabels (fnExtractLabels [] An).1 Ns).2 = iN at tN
  generalize hiR : (fnExtractLabels (fnExtractLabels (fnExtractLabels [] An).1 Ns).1 Ar).2 = iR at tR
  have sA : ∀ it ∈ iA, Supported it := fun it h => Writable.supported it (tA.1 it h)
  have sN : ∀ it ∈ iN, Supported it := fun it h => Writable.supported it (tN.1 it h)
  have sR : ∀ it ∈ iR, Supported it := fun it h => Writable.supported it (tR.1 it h)
  have cA := fnCalcBufferSize_all T iA 0 tA.1
  have cN := fnCalcBufferSize_all T iN (0 + (iA.map (recLen T)).sum) tN.1
  have cR := fnCalcBufferSize_all T iR (0 + (iA.map (recLen T)).sum + (iN.map (recLen T)).sum)
    tR.1
  have lA : ∀ p, (recordsOctets T p iA).2.length = (iA.map (recLen T)).sum :=
    fun p => recordsOctets_length_all T p iA sA
  have lN : ∀ p q, (recordsOctets (recordsOctets T p iA).1 q iN).2.length
      = (iN.map (recLen T)).sum := fun p q => by
    rw [recordsOctets_length_all _ q iN sN]
    congr 1; apply List.map_congr_left; intro x _
    exact recLen_tokens _ _ (recordsOctets_tokens T p iA) x
  have lR : ∀ p q r, (recordsOctets (recordsOctets (recordsOctets T p iA).1 q iN).1 r iR).2.length
      = (iR.map (recLen T)).sum := fun p q r => by
    rw [recordsOctets_length_all _ r iR sR]
    congr 1; apply List.map_congr_left; intro x _
    exact recLen_tokens _ _ (fun i => by rw [recordsOctets_tokens, recordsOctets_tokens]) x
  have hlen : (answerRecords An Ns Ar).length
      = (iA.map (recLen T)).sum + (iN.map (recLen T)).sum + (iR.map (recLen T)).sum := by
    simp only [answerRecords, hT, hiA, hiN, hiR, List.length_append, lA, lN, lR]
  have hneed : (fnCalcBufferSize (fnCalcBufferSize (fnCalcBufferSize T iA 0).1 iN
      (fnCalcBufferSize T iA 0).2).1 iR (fnCalcBufferSize (fnCalcBufferSize T iA 0).1 iN
      (fnCalcBufferSize T iA 0).2).2) = (T, (answerRecords An Ns Ar).length) := by
    rw [cA]; simp only []; rw [cN]; simp only []; rw [cR, hlen]; simp
  constructor
  · intro n0
    simp only [BuildAnswer, hT, hiA, hiN, hiR, hneed]
    congr 1; omega
  · obtain ⟨hd, rest, rfl, hhd⟩ := split_at buf 12 (by omega)
    have hrest : (answerRecords An Ns Ar).length ≤ rest.length := by
      simp only [List.length_append, hhd] at hbuf; omega
    have hb0 : store (hd ++ rest) 0 (List.replicate 12 0) = List.replicate 12 0 ++ rest := by
      simp [store, List.drop_append_eq_append_drop, hhd]
    set SA := (iA.map (recLen T)).sum with hSA
    set SN := (iN.map (recLen T)).sum with hSN
    set SR := (iR.map (recLen T)).sum with hSR
    have w1 := fnBuildRecords_all ⟨T, List.replicate 12 0 ++ rest, some 12,
      n - 12⟩ iA 12 tA.1 rfl (by simp)
      (by simp only [← hSA, hlen]; omega)
    simp only [← hSA] at w1
    have sN : (iN.map (recLen (recordsOctets T 12 iA).1)).sum = SN := by
      rw [hSN]; congr 1; apply List.map_congr_left; intro x _
      exact recLen_tokens _ _ (recordsOctets_tokens T 12 iA) x
    have g1 := store_length_ge (List.replicate 12 0 ++ rest) 12 (recordsOctets T 12 iA).2 (by simp)
    rw [lA] at g1
    have w2 := fnBuildRecords_all ⟨(recordsOctets T 12 iA).1,
      store (List.replicate 12 0 ++ rest) 12 (recordsOctets T 12 iA).2, some (12 + SA),
      n - 12 - SA⟩ iN (12 + SA) tN.1 rfl g1
      (by simp only [sN, hlen]; omega)
    simp only [sN] at w2
    have sR : (iR.map (recLen (recordsOctets (recordsOctets T 12 iA).1 (12 + SA) iN).1)).sum
        = SR := by
      rw [hSR]; congr 1; apply List.map_congr_left; intro x _
      exact recLen_tokens _ _ (fun i => by rw [recordsOctets_tokens, recordsOctets_tokens]) x
    have e12 : store (store (List.replicate 12 0 ++ rest) 12 (recordsOctets T 12 iA).2) (12 + SA)
        (recordsOctets (recordsOctets T 12 iA).1 (12 + SA) iN).2
        = store (List.replicate 12 0 ++ rest) 12 ((recordsOctets T 12 iA).2 ++
          (recordsOctets (recordsOctets T 12 iA).1 (12 + SA) iN).2) := by
      rw [← lA 12, store_store _ _ _ _ (by simp)]
    rw [e12] at w2
    have g2 := store_length_ge (List.replicate 12 0 ++ rest) 12 ((recordsOctets T 12 iA).2 ++
          (recordsOctets (recordsOctets T 12 iA).1 (12 + SA) iN).2) (by simp)
    rw [List.length_append, lA, lN] at g2
    have w3 := fnBuildRecords_all ⟨(recordsOctets (recordsOctets T 12 iA).1 (12 + SA) iN).1,
      store (List.replicate 12 0 ++ rest) 12 ((recordsOctets T 12 iA).2 ++
          (recordsOctets (recordsOctets T 12 iA).1 (12 + SA) iN).2), some (12 + SA + SN),
      n - 12 - SA - SN⟩ iR (12 + SA + SN) tR.1 rfl
      (by
        show 12 + SA + SN ≤ (store (List.replicate 12 0 ++ rest) 12 ((recordsOctets T 12 iA).2 ++
          (recordsOctets (recordsOctets T 12 iA).1 (12 + SA) iN).2)).length
        omega)
      (by simp only [sR, hlen]; omega)
    simp only [sR] at w3
    have e23 : store (store (List.replicate 12 0 ++ rest) 12 ((recordsOctets T 12 iA).2 ++
          (recordsOctets (recordsOctets T 12 iA).1 (12 + SA) iN).2)) (12 + SA + SN)
        (recordsOctets (recordsOctets (recordsOctets T 12 iA).1 (12 + SA) iN).1 (12 + SA + SN) iR).2
        = List.replicate 12 0 ++ answerRecords An Ns Ar ++
          rest.drop (answerRecords An Ns Ar).length := by
      have hl : 12 + SA + SN = 12 + ((recordsOctets T 12 iA).2 ++
          (recordsOctets (recordsOctets T 12 iA).1 (12 + SA) iN).2).length := by
        rw [List.length_append, lA, lN]; omega
      rw [hl, store_store _ _ _ _ (by simp), ← hl]
      have hrec : (recordsOctets T 12 iA).2 ++
          (recordsOctets (recordsOctets T 12 iA).1 (12 + SA) iN).2 ++
          (recordsOctets (recordsOctets (recordsOctets T 12 iA).1 (12 + SA) iN).1
            (12 + SA + SN) iR).2 = answerRecords An Ns Ar := by
        simp only [answerRecords, hT, hiA, hiN, hiR, lA, lN]
      rw [hrec, store_eq (List.replicate 12 0) rest _ 12 (by simp)]
    rw [e23] at w3
    simp only [BuildAnswer, hT, hiA, hiN, hiR, hneed, hb0]
    rw [if_neg (by omega), w1, w2, w3]
    simp only [Writer.offset, Option.getD]
    have hdrop : (hd ++ rest).drop (12 + (answerRecords An Ns Ar).length)
        = rest.drop (answerRecords An Ns Ar).length := by
      rw [← hhd, List.drop_append]
    rw [hdrop]
    congr 1
    · omega
    · simp [answerHeader, answerHead, store, be16]
    · omega


theorem endTry_header (d : Decoded) (h : Halt) : (endTry d h).m_DnsHeader = d.m_DnsHeader := by
  cases h <;> rfl

/-- The constructor leaves in `m_DnsHeader` what `readHeader` reads, however it ends. -/
theorem decode_header (fuel : Nat) (buf : List Nat) :
    (decode fuel buf).m_DnsHeader = readHeader buf := by
  unfold decode
  simp only []
  split
  · rfl
  · split
    · rw [endTry_header]
    · split
      · rw [endTry_header]
      · split
        · rw [endTry_header]
        · split
          · rw [endTry_header]
          · split
            · rw [endTry_header]
            · rfl

theorem readHeader_flags (a n r : Nat) (ha : a < 65536) (hn : n < 65536) (hr : r < 65536) :
    readHeader ([0, 0, 1, 0, 0, 0] ++ be16 a ++ be16 n ++ be16 r) =
      ⟨0, 1, 0, 0, 0, 0, 0, 0, 0, 0, a, n, r⟩ := by
  simp only [readHeader, be16]
  simp
  omega

/-- For three lists of records, each shorter than 65536, and a buffer of at least the
probed size N: `BuildAnswer` returns N; the buffer then holds the header `00 00 01 00 00 00`
followed by the lengths of the three lists as big-endian 16-bit values, then the record octets
of the answer list, of the authority list and of the additional list, each in the order of its
list (`answerRecords`), and the octets of the buffer from N on unchanged; the constructor reads
from the N octets, through the bit-fields of `DNSHEADER`, the header ID 0, QR 1, all other
flags 0, QDCOUNT 0 and the three lengths.  The records are of the types A, AAAA, PTR, TXT and
SRV or of any other type. -/
theorem answer_header_image (An Ns Ar : List ANSWERITEM) (buf : List Nat) (n : Nat)
    (hA : ∀ it ∈ An, Supported it) (hN : ∀ it ∈ Ns, Supported it) (hR : ∀ it ∈ Ar, Supported it)
    (lA : An.length < 65536) (lN : Ns.length < 65536) (lR : Ar.length < 65536)
    (hn : (BuildAnswer An Ns Ar none 0).nBuflen ≤ n) (hbuf : n ≤ buf.length) :
    (BuildAnswer An Ns Ar (some buf) n).ret = (BuildAnswer An Ns Ar none 0).nBuflen ∧
    (BuildAnswer An Ns Ar (some buf) n).szBuffer =
      some ([0, 0, 1, 0, 0, 0] ++ be16 An.length ++ be16 Ns.length ++ be16 Ar.length ++
        answerRecords An Ns Ar ++ buf.drop (BuildAnswer An Ns Ar none 0).nBuflen) ∧
    (BuildAnswer An Ns Ar none 0).nBuflen = 12 + (answerRecords An Ns Ar).length ∧
    ∀ fuel, (decode fuel ([0, 0, 1, 0, 0, 0] ++ be16 An.length ++ be16 Ns.length ++
        be16 Ar.length ++ answerRecords An Ns Ar)).m_DnsHeader =
      ⟨0, 1, 0, 0, 0, 0, 0, 0, 0, 0, An.length, Ns.length, Ar.length⟩ := by
  have hsz := (BuildAnswer_write An Ns Ar
    (List.replicate (12 + (answerRecords An Ns Ar).length) 0)
    (12 + (answerRecords An Ns Ar).length) hA hN hR (Nat.le_refl _) (by simp)).1 0
  have hsize : (BuildAnswer An Ns Ar none 0).nBuflen = 12 + (answerRecords An Ns Ar).length := by
    rw [hsz]
  rw [hsize] at hn ⊢
  have img := (BuildAnswer_write An Ns Ar buf n hA hN hR hn (by omega)).2
  have hhead : answerHead An.length Ns.length Ar.length
      = [0, 0, 1, 0, 0, 0] ++ be16 An.length ++ be16 Ns.length ++ be16 Ar.length := by
    simp only [answerHead, Nat.mod_eq_of_lt lA, Nat.mod_eq_of_lt lN, Nat.mod_eq_of_lt lR]
  rw [img, hhead]
  refine ⟨rfl, rfl, rfl, fun fuel => ?_⟩
  rw [decode_header, readHeader_append _ _ (by simp [be16]), readHeader_flags _ _ _ lA lN lR]

set_option maxRecDepth 100000 in
/-- The sample lists in a buffer of 140 octets with `nBuflen = 135`. -/
theorem answer_header_sample :
    (BuildAnswer sampleAn sampleNs sampleAr (some (List.replicate 140 7)) 135).ret
      = (BuildAnswer sampleAn sampleNs sampleAr none 0).nBuflen ∧
    (BuildAnswer sampleAn sampleNs sampleAr (some (List.replicate 140 7)) 135).szBuffer =
      some ([0, 0, 1, 0, 0, 0] ++ be16 sampleAn.length ++ be16 sampleNs.length ++
        be16 sampleAr.length ++ answerRecords sampleAn sampleNs sampleAr ++
        (List.replicate 140 7).drop (BuildAnswer sampleAn sampleNs sampleAr none 0).nBuflen) ∧
    (BuildAnswer sampleAn sampleNs sampleAr none 0).nBuflen
      = 12 + (answerRecords sampleAn sampleNs sampleAr).length ∧
    ∀ fuel, (decode fuel ([0, 0, 1, 0, 0, 0] ++ be16 sampleAn.length ++ be16 sampleNs.length ++
        be16 sampleAr.length ++ answerRecords sampleAn sampleNs sampleAr)).m_DnsHeader =
      ⟨0, 1, 0, 0, 0, 0, 0, 0, 0, 0, sampleAn.length, sampleNs.length, sampleAr.length⟩ :=
  answer_header_image sampleAn sampleNs sampleAr (List.replicate 140 7) 135
    (fun it h => Or.inl (sampleAn_typed it h)) (fun it h => Or.inl (sampleNs_typed it h))
    (fun it h => Or.inl (sampleAr_typed it h)) (by decide) (by decide) (by decide)
    (by decide) (by decide)

/-! ## Claims settled at a datagram -/

theorem endTry_message (d : Decoded) (h : Halt) (hd : d.m_strLastErrMsg = "") :
    (endTry d h).m_strLastErrMsg = "" ∨ (endTry d h).m_strLastErrMsg = lengthErrorWhat := by
  cases h
  · exact Or.inl hd
  · exact Or.inr rfl
  · exact Or.inl hd
  · exact Or.inl hd

/-- The message that the constructor leaves in `m_strLastErrMsg` is never the message of a
`DnsProtoException`: it is empty, or the message of the `std::length_error`. -/
theorem decode_message (fuel : Nat) (buf : List Nat) :
    (decode fuel buf).m_strLastErrMsg = "" ∨
      (decode fuel buf).m_strLastErrMsg = lengthErrorWhat := by
  unfold decode
  simp only []
  split
  · exact Or.inl rfl
  · split
    · exact endTry_message _ _ rfl
    · split
      · exact endTry_message _ _ rfl
      · split
        · exact endTry_message _ _ rfl
        · split
          · exact endTry_message _ _ rfl
          · split
            · exact endTry_message _ _ rfl
            · exact Or.inl rfl

/-- C11: on a datagram with one question and one answer record whose owner name has the
length octet 65, `ExtractLabels` throws `DnsProtoException` after the question is parsed;
the handler `catch (exception&)` does not catch it: the exception leaves the constructor
and `m_strLastErrMsg` stays empty.  On no datagram does `m_strLastErrMsg` receive the message
of a `DnsProtoException`: it stays empty or holds the message of a `std::length_error`. -/
theorem C11_exception_leaves :
    (∀ fuel, decode (fuel + 2) longLabelAfterQuestion =
      ⟨⟨0, 0, 0, 0, 0, 0, 0, 0, 0, 1, 1, 0, 0⟩, [⟨[97], 12, 1⟩], [⟨[], 0, 0, 0, 0, []⟩], [], [],
        "", none, .uncaught "Error extraction label"⟩) ∧
    (∀ fuel buf, (decode fuel buf).m_strLastErrMsg = "" ∨
      (decode fuel buf).m_strLastErrMsg = lengthErrorWhat) :=
  ⟨fun _ => rfl, decode_message⟩

set_option maxRecDepth 100000 in
/-- C13: `BuildSearch` of `example.com` into a buffer of the probed size, 29 octets, that
holds 255 in every octet returns 29 and writes ID, QDCOUNT and the question; the octets of the
flags and of ANCOUNT, NSCOUNT and ARCOUNT keep the 255 of the buffer. -/
theorem C13_header_not_cleared :
    (BuildSearch (str "example.com") none 0).nBuflen = 29 ∧
    BuildSearch (str "example.com") (some (List.replicate 29 255)) 29 =
      ⟨29, some ([0, 0, 255, 255, 0, 1, 255, 255, 255, 255, 255, 255] ++
        [7] ++ str "example" ++ [3] ++ str "com" ++ [0] ++ [0, 12, 0, 1]), 0⟩ := by
  decide

/-- C16: on a TXT record whose RDATA is an empty string followed by the string `a`
(`00 01 61`), the decoded RDATA is `,"a"`: the comma is written because `nTxtOff` is not 0,
although no string stands before it. -/
theorem C16_leading_empty_string (fuel : Nat) : decode (fuel + 1) txtLeadingEmpty =
    ⟨⟨0, 0, 0, 0, 0, 0, 0, 0, 0, 0, 1, 0, 0⟩, [], [⟨[], 16, 1, 0, 3, [44, 34, 97, 34]⟩], [], [],
      "", some 26, .returned⟩ := by
  rfl

/-- C19: on an OPT record with the RDATA `00 01 00 02 AA BB` the decoded RDATA is
`OptCode: 1, OptLen: 513 -> 0xaa 0xbb`: the option length is computed from the octets 0 and 1
(`ntohs(*(unsigned short*)pCurPointer + 2)`), not read from the octets 2 and 3, and every
payload octet carries the prefix `0x`. -/
theorem C19_opt_length (fuel : Nat) : decode (fuel + 1) optDatagram =
    ⟨⟨0, 0, 0, 0, 0, 0, 0, 0, 0, 0, 0, 0, 1⟩, [], [], [],
      [⟨[], 41, 1, 0, 6, str "OptCode: 1, OptLen: 513 -> 0xaa 0xbb"⟩],
      "", some 29, .returned⟩ := by
  rfl

/-! ## The entry that `BuildLabelReferenc` appends -/

theorem tokenize_labels (labels : List (List Nat)) (hne : labels ≠ [])
    (h : ∀ l ∈ labels, l ≠ [] ∧ 46 ∉ l) : tokenize (dotted labels) = labels := by
  have hs : (dotted labels).splitOn 46 = labels :=
    List.splitOn_intercalate labels 46 (fun l hl => (h l hl).2) hne
  unfold tokenize
  simp only [hs]
  rw [if_neg]
  rintro ⟨_, hl⟩
  exact (h [] (List.mem_of_getLast?_eq_some hl)).1 rfl

theorem BuildLabelReferenc_append (name : List Nat) (T : OFFSETLIST) :
    ∃ tokens, (BuildLabelReferenc name T).2 = T ++ [(0, tokens)] ∧
      labelsOf tokens = tokenize name := by
  cases hr : rbegin (searchSuffix T ((tokenize name).map fun t => (0, t))) with
  | none =>
    exact ⟨(tokenize name).map fun t => (0, t), by simp [BuildLabelReferenc, hr], labelsOf_zero _⟩
  | some kv =>
    refine ⟨setFirst ((tokenize name).map fun t => (0, t))
      (((tokenize name).map fun t => ((0 : Nat), t)).length - kv.1) kv.2, ?_, ?_⟩
    · simp only [BuildLabelReferenc, hr]
    · rw [labelsOf_setFirst, labelsOf_zero]

/-- C24: `BuildLabelReferenc` on a table of length k returns k + 1 and leaves a table of
length k + 1 whose first k entries are the entries of the table before; the new last entry has
the buffer offset 0 and its token strings are the tokens of the name: for a name of one or
more non-empty labels, joined by dots, these labels in order. -/
theorem C24_intern_appends (name : List Nat) (T : OFFSETLIST) :
    (BuildLabelReferenc name T).1 = T.length + 1 ∧
    (BuildLabelReferenc name T).2.length = T.length + 1 ∧
    (BuildLabelReferenc name T).2.take T.length = T ∧
    ((BuildLabelReferenc name T).2.getD T.length default).1 = 0 ∧
    labelsOf (tokensAt (BuildLabelReferenc name T).2 T.length) = tokenize name ∧
    ∀ labels : List (List Nat), labels ≠ [] → (∀ l ∈ labels, l ≠ [] ∧ 46 ∉ l) →
      name = dotted labels →
      labelsOf (tokensAt (BuildLabelReferenc name T).2 T.length) = labels := by
  obtain ⟨tokens, h1, h2⟩ := BuildLabelReferenc_append name T
  have h3 : labelsOf (tokensAt (BuildLabelReferenc name T).2 T.length) = tokenize name := by
    rw [h1, tokensAt_append_right]; exact h2
  refine ⟨rfl, by rw [h1]; simp, by rw [h1]; simp, by rw [h1]; simp, h3, ?_⟩
  intro labels hne hl hn
  rw [h3, hn]
  exact tokenize_labels labels hne hl

theorem getD_setFirst (tokens : LABELLIST) (i v j : Nat) :
    ((setFirst tokens i v).getD j default).1 =
      if j = i ∧ i < tokens.length then v else (tokens.getD j default).1 := by
  induction tokens generalizing i j with
  | nil => simp [setFirst]
  | cons t rest ih =>
    cases i with
    | zero =>
      cases j with
      | zero => simp [setFirst]
      | succ j => simp [setFirst]
    | succ i =>
      cases j with
      | zero => simp [setFirst]
      | succ j =>
        simp only [setFirst, List.getD_cons_succ, ih, List.length_cons, Nat.add_lt_add_iff_right,
          Nat.add_right_cancel_iff]

theorem getD_zero (ls : List (List Nat)) (j : Nat) :
    ((ls.map fun t => ((0 : Nat), t)).getD j default).1 = 0 := by
  induction ls generalizing j with
  | nil => rfl
  | cons l rest ih =>
    cases j with
    | zero => simp
    | succ j => simpa using ih j

/-- The codes of the entry that `BuildLabelReferenc` appends: all 0 without a shared tail;
otherwise `pack n m` on the token at the least index `i` from which the labels are a shared
tail (`n` the first entry with this tail), and 0 on every other token. -/
theorem BuildLabelReferenc_codes (name : List Nat) (T : OFFSETLIST) :
    ((∀ i, ¬ SharedTail T (tokenize name) i) ∧
      ∀ j, codeAt (BuildLabelReferenc name T).2 T.length j = 0) ∨
    (∃ n i m, Hit T ((tokenize name).map fun t => (0, t)) n i m ∧
      (∀ i1, SharedTail T (tokenize name) i1 → i ≤ i1) ∧
      (∀ n1 m1, Hit T ((tokenize name).map fun t => (0, t)) n1 i m1 → n ≤ n1) ∧
      ∀ j, codeAt (BuildLabelReferenc name T).2 T.length j = if j = i then pack n m else 0) := by
  rcases BuildLabelReferenc_entry name T with ⟨h1, h2⟩ | ⟨n, i, m, hH, h1, h2, h3⟩
  · left
    refine ⟨h1, fun j => ?_⟩
    unfold codeAt
    rw [h2, getD_zero]
  · right
    refine ⟨n, i, m, hH, h1, h2, fun j => ?_⟩
    unfold codeAt
    rw [h3, getD_setFirst, getD_zero]
    have hi := hH.2.1
    by_cases hj : j = i
    · rw [if_pos ⟨hj, hi⟩, if_pos hj]
    · rw [if_neg (fun h => hj h.1), if_neg hj]

/-- C21: the entry that `BuildLabelReferenc` appends carries a suffix pointer if and only if a
non-empty run of trailing tokens of the name is the complete tail, from some position on, of
an entry of the table; and then, with L the greatest length of such a run, the token at index
`len - L` is the only one that carries a pointer: every other token has the code 0. -/
theorem C21_pointer_iff_shared_tail (name : List Nat) (T : OFFSETLIST) :
    ((∃ j, j < (tokenize name).length ∧ codeAt (BuildLabelReferenc name T).2 T.length j ≠ 0) ↔
      ∃ i, SharedTail T (tokenize name) i) ∧
    ∀ L, 1 ≤ L → L ≤ (tokenize name).length →
      SharedTail T (tokenize name) ((tokenize name).length - L) →
      (∀ L1, 1 ≤ L1 → L1 ≤ (tokenize name).length →
        SharedTail T (tokenize name) ((tokenize name).length - L1) → L1 ≤ L) →
      ∀ j, j < (tokenize name).length →
        (codeAt (BuildLabelReferenc name T).2 T.length j ≠ 0 ↔ j = (tokenize name).length - L) := by
  have hvl : ((tokenize name).map fun t => ((0 : Nat), t)).length = (tokenize name).length := by
    simp
  rcases BuildLabelReferenc_codes name T with ⟨h1, h2⟩ | ⟨n, i, m, hH, h1, h2, h3⟩
  · refine ⟨⟨fun ⟨j, _, hj⟩ => absurd (h2 j) hj, fun ⟨i, hi⟩ => absurd hi (h1 i)⟩, ?_⟩
    intro L _ _ hs
    exact absurd hs (h1 _)
  · have hi : i < (tokenize name).length := by rw [← hvl]; exact hH.2.1
    have hsi : SharedTail T (tokenize name) i := (shared_iff T _ i).mpr ⟨n, m, hH⟩
    refine ⟨⟨fun _ => ⟨i, hsi⟩, fun _ => ⟨i, hi, ?_⟩⟩, ?_⟩
    · rw [h3, if_pos rfl]; exact pack_ne_zero n m
    · intro L hL1 hL2 hs hmax j hj
      have hle := h1 _ hs
      have hge := hmax ((tokenize name).length - i) (by omega) (by omega)
        (by rw [show (tokenize name).length - ((tokenize name).length - i) = i by omega]; exact hsi)
      have hiL : i = (tokenize name).length - L := by omega
      rw [h3, ← hiL]
      by_cases hji : j = i
      · rw [if_pos hji]; exact ⟨fun _ => hji, fun _ => pack_ne_zero n m⟩
      · rw [if_neg hji]; exact ⟨fun h => absurd rfl h, fun h => absurd h hji⟩

/-! ## Which match the suffix pointer names -/

theorem hit_position (T : OFFSETLIST) (vTok : LABELLIST) (n i m : Nat) (h : Hit T vTok n i m) :
    m + (vTok.length - i) = (tokensAt T n).length := by
  obtain ⟨-, hi, hm, he⟩ := h
  have := congrArg List.length ((tailsEqual_iff _ _ _ _).mp he)
  simp only [labelsOf, List.length_map, List.length_drop] at this
  omega

/-- C22 fails: in the table of `x.local` and `y.local` the name `z.local` matches the entry 0
and the entry 1, each at position 1 and with the suffix length 1, and no pair matches with the
suffix length 2.  The pair found last in the search order is the one of the entry 1, whose code
is 131073; the pointer that `BuildLabelReferenc` attaches is 65537, the pair of the entry 0. -/
theorem C22_first_match_kept :
    Hit twoLocal ((tokenize (str "z.local")).map fun t => (0, t)) 0 1 1 ∧
    Hit twoLocal ((tokenize (str "z.local")).map fun t => (0, t)) 1 1 1 ∧
    (∀ n, n < 2 → ∀ m, m < 2 →
      ¬ Hit twoLocal ((tokenize (str "z.local")).map fun t => (0, t)) n 0 m) ∧
    codeAt (BuildLabelReferenc (str "z.local") twoLocal).2 2 1 = pack 0 1 ∧
    pack 0 1 = 65537 ∧ pack 1 1 = 131073 := by
  unfold Hit
  decide

/-- C22 as amended: when the labels of the name from the index `i` on are the longest tail
that the name shares with the table, the suffix pointer names the pair found first in the
search order, the match in the earliest entry: no match of this length lies in an entry before
`n`, and the entry `n` has no other match of this length. -/
theorem C22_earliest_match (name : List Nat) (T : OFFSETLIST) (i : Nat)
    (hs : SharedTail T (tokenize name) i)
    (hmax : ∀ i1, SharedTail T (tokenize name) i1 → i ≤ i1) :
    ∃ n m, Hit T ((tokenize name).map fun t => (0, t)) n i m ∧
      codeAt (BuildLabelReferenc name T).2 T.length i = pack n m ∧
      ∀ n1 m1, Hit T ((tokenize name).map fun t => (0, t)) n1 i m1 →
        n < n1 ∨ (n1 = n ∧ m1 = m) := by
  rcases BuildLabelReferenc_codes name T with ⟨h1, -⟩ | ⟨n, i0, m, hH, h1, h2, h3⟩
  · exact absurd hs (h1 i)
  · have hsi : SharedTail T (tokenize name) i0 := (shared_iff T _ i0).mpr ⟨n, m, hH⟩
    have hi : i0 = i := Nat.le_antisymm (h1 i hs) (hmax i0 hsi)
    subst hi
    refine ⟨n, m, hH, by rw [h3, if_pos rfl], fun n1 m1 hH1 => ?_⟩
    have hle := h2 n1 m1 hH1
    rcases Nat.lt_or_ge n n1 with hlt | hge
    · exact Or.inl hlt
    · have hn : n1 = n := Nat.le_antisymm hge hle
      subst hn
      have p1 := hit_position _ _ _ _ _ hH
      have p2 := hit_position _ _ _ _ _ hH1
      exact Or.inr ⟨rfl, by omega⟩

/-- Witness of C22: the name `z.local` in the table of `x.local` and `y.local`. -/
theorem C22_earliest_match_witness :
    ∃ n m, Hit twoLocal ((tokenize (str "z.local")).map fun t => (0, t)) n 1 m ∧
      codeAt (BuildLabelReferenc (str "z.local") twoLocal).2 twoLocal.length 1 = pack n m ∧
      ∀ n1 m1, Hit twoLocal ((tokenize (str "z.local")).map fun t => (0, t)) n1 1 m1 →
        n < n1 ∨ (n1 = n ∧ m1 = m) :=
  C22_earliest_match (str "z.local") twoLocal 1
    ⟨by decide, 0, 1, by decide, by decide, by decide⟩
    (fun i1 h => by
      rcases Nat.eq_zero_or_pos i1 with h0 | hp
      · subst h0
        obtain ⟨-, n, m, hn, hm, he⟩ := h
        have hn2 : n < 2 := hn
        have hlen := congrArg List.length he
        simp only [labelsOf, List.length_map, List.length_drop] at hlen
        exfalso
        interval_cases n
        · have hm2 : m < 2 := hm
          interval_cases m
          · revert he; decide
          · revert hlen; decide
        · have hm2 : m < 2 := hm
          interval_cases m
          · revert he; decide
          · revert hlen; decide
      · exact hp)

/-! ## Tables built from the empty table -/

theorem litLen_le (tokens : LABELLIST) : litLen tokens ≤ tokens.length := by
  induction tokens with
  | nil => simp [litLen]
  | cons t rest ih =>
    by_cases h : t.1 ≠ 0
    · simp [litLen, h]
    · simp only [litLen, if_neg h, List.length_cons]; omega

theorem litLen_code (tokens : LABELLIST) (h : litLen tokens < tokens.length) :
    (tokens.getD (litLen tokens) default).1 ≠ 0 := by
  induction tokens with
  | nil => simp [litLen] at h
  | cons t rest ih =>
    by_cases ht : t.1 ≠ 0
    · simp [litLen, ht]
    · simp only [litLen, if_neg ht, List.length_cons, Nat.add_lt_add_iff_right] at h ⊢
      simpa using ih h

theorem internAll_snoc (names : List (List Nat)) (name : List Nat) :
    internAll (names ++ [name]) = (BuildLabelReferenc name (internAll names)).2 := by
  simp [internAll, List.foldl_append]

theorem internAll_length (names : List (List Nat)) : (internAll names).length = names.length := by
  induction names using List.reverseRecOn with
  | nil => rfl
  | append_singleton names name ih =>
    obtain ⟨tokens, h1, -⟩ := BuildLabelReferenc_append name (internAll names)
    rw [internAll_snoc, h1]
    simp [ih]

theorem SuffixSound_append (T : OFFSETLIST) (x : OFFSETLABELLIST) (e : Nat) (he : e < T.length)
    (h : SuffixSound T e) : SuffixSound (T ++ [x]) e := by
  unfold SuffixSound codeAt at h ⊢
  rw [tokensAt_append_left T x e he]
  intro i hi hc
  obtain ⟨h1, n, m, h2, h3, h4, h5⟩ := h i hi hc
  refine ⟨h1, n, m, h2, h3, ?_, ?_⟩
  · rwa [tokensAt_append_left T x n (by omega)]
  · rwa [tokensAt_append_left T x n (by omega)]

/-- `BuildLabelReferenc` keeps the soundness of the suffix pointers, and the pointer of the
entry that it appends is sound. -/
theorem BuildLabelReferenc_sound (name : List Nat) (T : OFFSETLIST)
    (hT : ∀ e, e < T.length → SuffixSound T e) :
    ∀ e, e < (BuildLabelReferenc name T).2.length → SuffixSound (BuildLabelReferenc name T).2 e := by
  have hvl : ((tokenize name).map fun t => ((0 : Nat), t)).length = (tokenize name).length := by
    simp
  obtain ⟨tokens, hB, -⟩ := BuildLabelReferenc_append name T
  intro e he
  by_cases heT : e < T.length
  · rw [hB]; exact SuffixSound_append T _ e heT (hT e heT)
  · have : e = T.length := by rw [hB] at he; simp at he; omega
    subst this
    rcases BuildLabelReferenc_codes name T with ⟨-, h2⟩ | ⟨n, i, m, hH, -, hmin, h3⟩
    · intro i _ hc
      exact absurd (h2 i) hc
    · rcases BuildLabelReferenc_entry name T with ⟨h1, -⟩ | ⟨n', i', m', hH', hl', -, hE⟩
      · exact absurd ((shared_iff T _ i).mpr ⟨n, m, hH⟩) (h1 i)
      · have hii : i' = i := by
          have a := hl' i ((shared_iff T _ i).mpr ⟨n, m, hH⟩)
          have c3 := h3 i'
          unfold codeAt at c3
          rw [hE, getD_setFirst, getD_zero, if_pos ⟨rfl, hH'.2.1⟩] at c3
          by_contra hne
          rw [if_neg hne] at c3
          exact pack_ne_zero _ _ c3
        subst hii
        obtain ⟨hn, hi, hm, hte⟩ := hH
        rw [hvl] at hi
        have hl := litLen_setFirst (tokenize name) i' (pack n' m') hi (pack_ne_zero n' m')
        intro j hj hc
        have hji : j = i' := by
          by_contra hne
          rw [h3 j, if_neg hne] at hc
          exact hc rfl
        subst hji
        rw [hE, hl.1]
        refine ⟨rfl, n, m, ?_, hn, ?_, ?_⟩
        · have := h3 j
          rw [if_pos rfl] at this
          exact this
        · rw [hB, tokensAt_append_left T _ n hn]
          by_contra hcon
          have hj2 : litLen (tokensAt T n) < (tokensAt T n).length := by omega
          obtain ⟨-, n1, m1, -, hn1, hm1, hlab⟩ := hT n hn _ hj2 (litLen_code _ hj2)
          have hm1' : m1 < (tokensAt T n1).length :=
            Nat.lt_of_lt_of_le hm1 (litLen_le _)
          have hte' := (tailsEqual_iff _ _ _ _).mp hte
          have hchain : labelsOf ((tokensAt T n1).drop (m1 + (m - litLen (tokensAt T n))))
              = labelsOf (((tokenize name).map fun t => ((0 : Nat), t)).drop j) := by
            rw [← hte']
            show labelsOf ((tokensAt T n1).drop (m1 + (m - litLen (tokensAt T n))))
              = labelsOf ((tokensAt T n).drop m)
            rw [labelsOf_drop, labelsOf_drop, ← List.drop_drop, ← labelsOf_drop, hlab,
              labelsOf_drop, List.drop_drop]
            congr 1; omega
          have hne : ((tokensAt T n1).drop (m1 + (m - litLen (tokensAt T n)))).length ≠ 0 := by
            have h1 := congrArg List.length hchain
            simp only [labelsOf, List.length_map, List.length_drop] at h1 ⊢
            omega
          have hlt1 : m1 + (m - litLen (tokensAt T n)) < (tokensAt T n1).length := by
            simp only [List.length_drop] at hne; omega
          have := hmin n1 _ ⟨by omega, by rw [hvl]; exact hi, hlt1,
            (tailsEqual_iff _ _ _ _).mpr hchain⟩
          omega
        · rw [hB, tokensAt_append_left T _ n hn]
          have e : labelsOf (List.drop j (setFirst ((tokenize name).map fun t => ((0 : Nat), t))
              j (pack n' m'))) = labelsOf (List.drop j ((tokenize name).map fun t => ((0 : Nat), t))) := by
            rw [labelsOf_drop, labelsOf_setFirst, ← labelsOf_drop]
          rw [e]
          exact (tailsEqual_iff _ _ _ _).mp hte

theorem internAll_sound (names : List (List Nat)) :
    ∀ e, e < (internAll names).length → SuffixSound (internAll names) e := by
  induction names using List.reverseRecOn with
  | nil => intro e he; simp [internAll] at he
  | append_singleton names name ih =>
    rw [internAll_snoc]
    exact BuildLabelReferenc_sound name _ ih

/-- C23: in a table built from the empty table by calls of `BuildLabelReferenc`, a suffix
pointer on the token `i` of the entry `e` is the code of a pair (n, m) with n < e, m a token
index of the entry n, and the token strings of `e` from `i` to the end are the token strings
of `n` from `m` to the end.  For fewer than 65536 entries and tokens, n and m are the two
16-bit fields that `BuildLabels` reads from the code. -/
theorem C23_suffix_pointers_sound (names : List (List Nat)) (e i : Nat)
    (he : e < (internAll names).length) (hi : i < (tokensAt (internAll names) e).length)
    (hc : codeAt (internAll names) e i ≠ 0) :
    ∃ n m, codeAt (internAll names) e i = pack n m ∧ n < e ∧
      m < (tokensAt (internAll names) n).length ∧
      labelsOf ((tokensAt (internAll names) e).drop i) =
        labelsOf ((tokensAt (internAll names) n).drop m) ∧
      (e < 65536 → (tokensAt (internAll names) n).length ≤ 65536 →
        ((codeAt (internAll names) e i >>> 16) &&& 0xffff) - 1 = n ∧
        codeAt (internAll names) e i &&& 0xffff = m) := by
  obtain ⟨-, n, m, h1, h2, h3, h4⟩ := internAll_sound names e he i hi hc
  have hm : m < (tokensAt (internAll names) n).length := Nat.lt_of_lt_of_le h3 (litLen_le _)
  refine ⟨n, m, h1, h2, hm, h4.symm, fun h5 h6 => ?_⟩
  rw [h1]
  exact unpack n m (by omega) (by omega)

/-- Witness of C23: the pointer on `local` of the entry `y.local` in the table of `x.local`
and `y.local`. -/
theorem C23_suffix_pointers_sound_witness :
    ∃ n m, codeAt (internAll [str "x.local", str "y.local"]) 1 1 = pack n m ∧ n < 1 ∧
      m < (tokensAt (internAll [str "x.local", str "y.local"]) n).length ∧
      labelsOf ((tokensAt (internAll [str "x.local", str "y.local"]) 1).drop 1) =
        labelsOf ((tokensAt (internAll [str "x.local", str "y.local"]) n).drop m) ∧
      (1 < 65536 → (tokensAt (internAll [str "x.local", str "y.local"]) n).length ≤ 65536 →
        ((codeAt (internAll [str "x.local", str "y.local"]) 1 1 >>> 16) &&& 0xffff) - 1 = n ∧
        codeAt (internAll [str "x.local", str "y.local"]) 1 1 &&& 0xffff = m) :=
  C23_suffix_pointers_sound [str "x.local", str "y.local"] 1 1 (by decide) (by decide) (by decide)

/-! ## The size probe of `BuildLabels` -/

theorem labelsLen_encodedSize (tokens : LABELLIST) :
    (labelsLen tokens).1 + (labelsLen tokens).2 = encodedSize tokens := by
  induction tokens with
  | nil => rfl
  | cons t rest ih =>
    by_cases h : t.1 ≠ 0
    · have h0 : ¬ t.1 = 0 := h
      simp [labelsLen, encodedSize, h0]
    · have h0 : t.1 = 0 := Decidable.not_not.mp h
      unfold encodedSize at ih ⊢
      simp only [labelsLen, List.takeWhile_cons, h0, decide_True, if_true, List.map_cons,
        List.sum_cons, List.any_cons, ne_eq, not_true_eq_false, decide_False, Bool.false_or,
        if_false] at ih ⊢
      omega

theorem nameLen_encodedSize (T : OFFSETLIST) (index : Nat) :
    nameLen T index = encodedSize (tokensAt T (index - 1)) :=
  labelsLen_encodedSize _

/-- C26: `BuildLabels` on an entry of the table (index from 1 on) whose encoded size S is
greater than `nBufLen` changes neither the buffer nor the table (the recorded offset stays)
nor the cursor, and sets `nBufLen` to S; with `nBufLen` at least S it takes S off `nBufLen`
and returns the cursor S octets further on. -/
theorem C26_size_probe (w : Writer) (index off : Nat) (h1 : 1 ≤ index)
    (_h2 : index ≤ w.OffListe.length) :
    (w.nBufLen < encodedSize (tokensAt w.OffListe (index - 1)) →
      BuildLabels w index off =
        ⟨w.OffListe, w.buf, w.pBufPointer, encodedSize (tokensAt w.OffListe (index - 1))⟩) ∧
    (encodedSize (tokensAt w.OffListe (index - 1)) ≤ w.nBufLen →
      (BuildLabels w index off).nBufLen + encodedSize (tokensAt w.OffListe (index - 1))
        = w.nBufLen ∧
      ∀ p, w.pBufPointer = some p → (BuildLabels w index off).pBufPointer
        = some (p + encodedSize (tokensAt w.OffListe (index - 1)))) := by
  have hi : index ≠ 0 := by omega
  rw [← nameLen_encodedSize]
  constructor
  · intro h
    rw [BuildLabels_short w index off hi h]
  · intro h
    have hn : ¬ (labelsLen (w.OffListe.getD (index - 1) default).2).1 +
        (labelsLen (w.OffListe.getD (index - 1) default).2).2 > w.nBufLen := by
      unfold nameLen at h; omega
    refine ⟨?_, fun p hp => ?_⟩
    · simp only [BuildLabels, if_neg hi, if_neg hn]
      unfold nameLen at h ⊢
      omega
    · rw [BuildLabels_fit w index off p hi hp h]

/-- Witness of C26: the entry `y.local` of the table of `x.local` and `y.local`, whose encoded
size is 4, with room for 3 octets; with room for 8 octets the four octets `01 79 C0 02` are
written and 4 octets of room are left. -/
theorem C26_size_probe_witness :
    ((3 < encodedSize (tokensAt twoLocal (2 - 1)) →
      BuildLabels ⟨twoLocal, List.replicate 20 0, some 12, 3⟩ 2 12 =
        ⟨twoLocal, List.replicate 20 0, some 12, encodedSize (tokensAt twoLocal (2 - 1))⟩) ∧
    (encodedSize (tokensAt twoLocal (2 - 1)) ≤ 3 →
      (BuildLabels ⟨twoLocal, List.replicate 20 0, some 12, 3⟩ 2 12).nBufLen +
        encodedSize (tokensAt twoLocal (2 - 1)) = 3 ∧
      ∀ p, some 12 = some p →
        (BuildLabels ⟨twoLocal, List.replicate 20 0, some 12, 3⟩ 2 12).pBufPointer
          = some (p + encodedSize (tokensAt twoLocal (2 - 1))))) ∧
    encodedSize (tokensAt twoLocal (2 - 1)) = 4 ∧
    BuildLabels ⟨twoLocal, List.replicate 20 0, some 12, 8⟩ 2 12 =
      ⟨setOffset twoLocal 1 12, List.replicate 12 0 ++ [1, 121, 192, 2] ++ List.replicate 4 0,
        some 16, 4⟩ :=
  ⟨C26_size_probe ⟨twoLocal, List.replicate 20 0, some 12, 3⟩ 2 12 (by decide) (by decide),
    by decide, by decide⟩

/-! ## The writers without room for the fixed fields -/

theorem and_c0_literal (n : Nat) (h : n < 192) : ¬ (n &&& 0xc0 = 0xc0) := by
  have := @Nat.and_le_left n 0xc0
  omega

theorem and_c0_ne_zero (n : Nat) (h : n &&& 0xc0 = 0xc0) : n ≠ 0 := by
  rintro rfl
  simp at h

theorem literalOctets_length (labels : List (List Nat)) :
    (literalOctets labels).length = (labels.map fun l => l.length + 1).sum := by
  induction labels with
  | nil => rfl
  | cons l ls ih =>
    simp only [literalOctets, List.map_cons, List.flatten_cons, List.length_append,
      List.length_cons, List.sum_cons] at ih ⊢
    omega

theorem literalOctets_cons (l : List Nat) (ls : List (List Nat)) :
    literalOctets (l :: ls) = (l.length % 256) :: l ++ literalOctets ls := by
  simp [literalOctets]

theorem appendName_dotted (labels : List (List Nat)) (h : ∀ l ∈ labels, l ≠ []) :
    appendName [] labels = dotted labels := by
  cases labels with
  | nil => rfl
  | cons l ls => exact appendName_nil _ h (by simp)

theorem LiteralAt_cons (buf : List Nat) (p : Nat) (l : List Nat) (ls : List (List Nat))
    (h : LiteralAt buf p (l :: ls)) :
    buf[p]? = some l.length ∧ l ≠ [] ∧ l.length < 192 ∧
      (buf.drop (p + 1)).take l.length = l ∧ LiteralAt buf (p + 1 + l.length) ls := by
  obtain ⟨h1, h2⟩ := h
  have hl := h2 l (by simp)
  have hmod : l.length % 256 = l.length := Nat.mod_eq_of_lt (by omega)
  rw [literalOctets_cons, hmod] at h1
  have hlen : (l.length :: l ++ literalOctets ls).length = 1 + l.length + (literalOctets ls).length := by
    simp; omega
  rw [hlen] at h1
  have e1 : buf.drop p = (l.length :: l ++ literalOctets ls) ++
      (buf.drop p).drop (1 + l.length + (literalOctets ls).length) := by
    conv_lhs => rw [← List.take_append_drop (1 + l.length + (literalOctets ls).length) (buf.drop p)]
    rw [h1]
  have e0 : buf = buf.take p ++ buf.drop p := (List.take_append_drop p buf).symm
  have hp : p ≤ buf.length := by
    by_contra hcon
    rw [List.drop_eq_nil_of_le (by omega)] at h1
    simp at h1
  have htl : (buf.take p).length = p := by simp; omega
  generalize hrest : (buf.drop p).drop (1 + l.length + (literalOctets ls).length) = rest at e1
  rw [e1] at e0
  refine ⟨?_, hl.1, hl.2, ?_, ?_, fun x hx => h2 x (by simp [hx])⟩
  · rw [e0, List.getElem?_append_right (by omega), htl]
    simp
  · rw [e0]
    have : p + 1 = (buf.take p ++ [l.length]).length := by simp [htl]
    rw [this, show List.take p buf ++ (l.length :: l ++ literalOctets ls ++ rest)
      = (buf.take p ++ [l.length]) ++ (l ++ (literalOctets ls ++ rest)) by simp,
      List.drop_left, List.take_left]
  · rw [e0]
    have : p + 1 + l.length = (buf.take p ++ l.length :: l).length := by simp [htl]; omega
    rw [this, show List.take p buf ++ (l.length :: l ++ literalOctets ls ++ rest)
      = (buf.take p ++ l.length :: l) ++ (literalOctets ls ++ rest) by simp,
      List.drop_left, List.take_left]

/-- The labels that the loop of `ExtractLabels` reads do not depend on the string that it
appends them to. -/
theorem walk_any (fuel : Nat) (buf : List Nat) :
    ∀ (p : Nat) (s s1 : List Nat) (e : Nat), ExtractLabels.walk fuel buf p s = .ok s1 e →
      ∃ labels : List (List Nat), s1 = appendName s labels ∧ (∀ l ∈ labels, l ≠ []) ∧
        ∀ s2, ExtractLabels.walk fuel buf p s2 = .ok (appendName s2 labels) e := by
  induction fuel with
  | zero => intro p s s1 e h; simp [ExtractLabels.walk] at h
  | succ n ih =>
    intro p s s1 e h
    rw [ExtractLabels.walk] at h
    split at h
    · simp at h
    · rename_i len hlen
      split at h
      · rename_i h0
        simp only [Res.ok.injEq] at h
        refine ⟨[], by rw [← h.1]; rfl, by simp, fun s2 => ?_⟩
        rw [ExtractLabels.walk]
        simp only [hlen, h0, if_true, appendName, h.2]
      · rename_i h0
        split at h
        · rename_i hptr
          split at h
          · simp at h
          · rename_i lo hlo
            simp only [] at h
            split at h
            · simp at h
            · rename_i hoff
              split at h
              · rename_i sx ex hw
                simp only [Res.ok.injEq] at h
                obtain ⟨labels, h1, h2, h3⟩ := ih _ _ _ _ hw
                refine ⟨labels, by rw [← h.1, h1], h2, fun s2 => ?_⟩
                rw [ExtractLabels.walk]
                simp only [hlen, h0, if_false, hptr, if_true, hlo, hoff, h3 s2, h.2]
              · simp at h
        · rename_i hptr
          split at h
          · simp at h
          · rename_i h128
            split at h
            · simp at h
            · rename_i h64
              split at h
              · simp at h
              · rename_i hfit
                simp only [] at h
                obtain ⟨labels, h1, h2, h3⟩ := ih _ _ _ _ h
                have hne : (buf.drop (p + 1)).take len ≠ [] := by
                  intro hcon
                  have := congrArg List.length hcon
                  simp only [List.length_take, List.length_drop, List.length_nil] at this
                  omega
                refine ⟨(buf.drop (p + 1)).take len :: labels, by rw [h1]; rfl, ?_, fun s2 => ?_⟩
                · intro l hl
                  simp only [List.mem_cons] at hl
                  rcases hl with rfl | hl
                  · exact hne
                  · exact h2 l hl
                · rw [ExtractLabels.walk]
                  simp only [hlen, h0, if_false, hptr, h128, h64, hfit, h3, appendName]

/-- The loop of `ExtractLabels`, when it returns, has gone over the literal labels at its
start one by one. -/
theorem walk_literal (buf : List Nat) (labels : List (List Nat)) :
    ∀ (fuel p : Nat) (s s1 : List Nat) (e : Nat), LiteralAt buf p labels →
      ExtractLabels.walk fuel buf p s = .ok s1 e →
      ∃ f, f + labels.length = fuel ∧
        ExtractLabels.walk f buf (p + (literalOctets labels).length) (appendName s labels)
          = .ok s1 e := by
  induction labels with
  | nil => intro fuel p s s1 e _ h; exact ⟨fuel, rfl, h⟩
  | cons l ls ih =>
    intro fuel p s s1 e hl h
    obtain ⟨h1, h2, h3, h4, h5⟩ := LiteralAt_cons buf p l ls hl
    have hpos : 0 < l.length := List.length_pos.mpr h2
    cases fuel with
    | zero => simp [ExtractLabels.walk] at h
    | succ n =>
      rw [ExtractLabels.walk] at h
      simp only [h1] at h
      rw [if_neg (by omega), if_neg (and_c0_literal _ h3)] at h
      split at h
      · simp at h
      · split at h
        · simp at h
        · split at h
          · simp at h
          · simp only [h4] at h
            obtain ⟨f, hf, hw⟩ := ih n _ _ _ _ h5 h
            refine ⟨f, by simp only [List.length_cons]; omega, ?_⟩
            rw [literalOctets_cons]
            simp only [appendName, List.length_cons, List.length_append]
            rw [show p + (l.length + 1 + (literalOctets ls).length)
              = p + 1 + l.length + (literalOctets ls).length by omega]
            exact hw

/-- C30: where `ExtractLabels` returns, it has consumed at the call site the literal labels
at the start position (length + 1 octets each) and one octet more when the root octet follows
them, two octets more when a compression pointer follows them, whatever is read at the target
of the pointer.  The string is the literal labels joined by dots and, after a pointer, the
labels of the name that `ExtractLabels` reads at the target joined to them. -/
theorem C30_bytes_consumed (fuel : Nat) (buf : List Nat) (p : Nat) (name : List Nat) (used : Nat)
    (labels : List (List Nat)) (h : ExtractLabels fuel buf p [] = .ok name used)
    (hl : LiteralAt buf p labels) :
    (buf[p + (literalOctets labels).length]? = some 0 →
      used = (labels.map fun l => l.length + 1).sum + 1 ∧ name = dotted labels) ∧
    (∀ hi lo, buf[p + (literalOctets labels).length]? = some hi → hi &&& 0xc0 = 0xc0 →
      buf[p + (literalOctets labels).length + 1]? = some lo →
      used = (labels.map fun l => l.length + 1).sum + 2 ∧
      ∃ tlabels f u, f < fuel ∧ (∀ l ∈ tlabels, l ≠ []) ∧
        ExtractLabels f buf ((hi * 256 + lo) &&& 0x3fff) [] = .ok (dotted tlabels) u ∧
        name = dotted (labels ++ tlabels)) := by
  have hne : ∀ l ∈ labels, l ≠ [] := fun l hm => (hl.2 l hm).1
  have hsum := literalOctets_length labels
  unfold ExtractLabels at h
  split at h
  · rename_i s e hw
    simp only [Res.ok.injEq] at h
    obtain ⟨hs, he⟩ := h
    subst hs
    obtain ⟨f, hf, hw2⟩ := walk_literal buf labels fuel p [] s e hl hw
    rw [appendName_dotted labels hne] at hw2
    constructor
    · intro h0
      cases f with
      | zero => simp [ExtractLabels.walk] at hw2
      | succ n =>
        rw [ExtractLabels.walk] at hw2
        simp only [h0, if_true, Res.ok.injEq] at hw2
        exact ⟨by omega, hw2.1.symm⟩
    · intro hi lo h0 hptr h1
      cases f with
      | zero => simp [ExtractLabels.walk] at hw2
      | succ n =>
        rw [ExtractLabels.walk] at hw2
        simp only [h0, h1] at hw2
        rw [if_neg (and_c0_ne_zero hi hptr), if_pos hptr] at hw2
        split at hw2
        · simp at hw2
        · split at hw2
          · rename_i sx ex hwt
            simp only [Res.ok.injEq] at hw2
            obtain ⟨tl, t1, t2, t3⟩ := walk_any n buf _ _ _ _ hwt
            refine ⟨by omega, tl, n, ex - ((hi * 256 + lo) &&& 0x3fff), by omega, t2, ?_, ?_⟩
            · unfold ExtractLabels
              rw [t3 [], appendName_dotted tl t2]
            · rw [← hw2.1, t1, ← appendName_dotted labels hne, ← appendName_append,
                appendName_dotted]
              intro l hm
              rcases List.mem_append.mp hm with hm | hm
              · exact hne l hm
              · exact t2 l hm
          · simp at hw2
  · simp at h

/-- Witness of C30: in `pointerName` the name at index 3 is the label `a` and a pointer to
index 0, where the name `b` stands: 4 octets are consumed and the string is `a.b`. -/
theorem C30_bytes_consumed_witness :
    (pointerName[3 + (literalOctets [str "a"]).length]? = some 0 →
      4 = ([str "a"].map fun l => l.length + 1).sum + 1 ∧ str "a.b" = dotted [str "a"]) ∧
    (∀ hi lo, pointerName[3 + (literalOctets [str "a"]).length]? = some hi → hi &&& 0xc0 = 0xc0 →
      pointerName[3 + (literalOctets [str "a"]).length + 1]? = some lo →
      4 = ([str "a"].map fun l => l.length + 1).sum + 2 ∧
      ∃ tlabels f u, f < 4 ∧ (∀ l ∈ tlabels, l ≠ []) ∧
        ExtractLabels f pointerName ((hi * 256 + lo) &&& 0x3fff) [] = .ok (dotted tlabels) u ∧
        str "a.b" = dotted ([str "a"] ++ tlabels)) :=
  C30_bytes_consumed 4 pointerName 3 (str "a.b") 4 [str "a"] (by decide)
    ⟨by decide, by decide⟩

/-! ## The octets of a name and the target of its pointer -/

theorem litLen_all (tokens : LABELLIST)
    (h : ∀ i, i < tokens.length → (tokens.getD i default).1 = 0) : litLen tokens = tokens.length := by
  rcases Nat.lt_or_ge (litLen tokens) tokens.length with hlt | hge
  · exact absurd (h _ hlt) (litLen_code tokens hlt)
  · exact Nat.le_antisymm (litLen_le tokens) hge

/-- The octets of `BuildLabels` for a token list: the tokens before the first suffix pointer
literally, then the pointer, or the root octet when there is no pointer. -/
theorem labelsOctets_shape (U : OFFSETLIST) (tokens : LABELLIST) :
    labelsOctets U tokens = literalOctets ((labelsOf tokens).take (litLen tokens)) ++
      (if litLen tokens < tokens.length then
        be16 (0xc000 ||| (targetOffset U (tokens.getD (litLen tokens) default).1 % 65536))
      else [0]) := by
  induction tokens with
  | nil => simp [labelsOctets, litLen, literalOctets, labelsOf]
  | cons t rest ih =>
    by_cases h : t.1 ≠ 0
    · simp [labelsOctets, litLen, h, literalOctets]
    · simp only [labelsOctets, litLen, if_neg h, ih, labelsOf, List.map_cons, List.take_succ_cons,
        literalOctets_cons, List.length_cons, Nat.add_lt_add_iff_right, List.getD_cons_succ,
        List.cons_append, List.append_assoc]

theorem encodedSize_preLen (tokens : LABELLIST) :
    encodedSize tokens = preLen tokens (litLen tokens) +
      (if litLen tokens < tokens.length then 2 else 1) := by
  rw [← labelsLen_encodedSize, ← labelsOctets_length [], labelsOctets_preLen]

theorem labelsOctets_size (U : OFFSETLIST) (tokens : LABELLIST) :
    (labelsOctets U tokens).length = encodedSize tokens := by
  rw [labelsOctets_length, labelsLen_encodedSize]

/-- The octets of a token that is written literally stand in the octets of the name after
the octets of the tokens before it. -/
theorem labelsOctets_slice (U : OFFSETLIST) (tokens : LABELLIST) (m : Nat)
    (hm : m < litLen tokens) :
    ((labelsOctets U tokens).drop (preLen tokens m)).take ((tokens.getD m default).2.length + 1) =
      ((tokens.getD m default).2.length % 256) :: (tokens.getD m default).2 := by
  induction tokens generalizing m with
  | nil => simp [litLen] at hm
  | cons t rest ih =>
    by_cases h : t.1 ≠ 0
    · simp [litLen, h] at hm
    · simp only [litLen, if_neg h] at hm
      simp only [labelsOctets, if_neg h]
      cases m with
      | zero =>
        simp only [preLen, List.take_zero, List.map_nil, List.sum_nil, List.drop_zero,
          List.getD_cons_zero, List.take_succ_cons, List.cons_append]
        rw [List.take_left]
      | succ m =>
        rw [preLen_cons, List.getD_cons_succ]
        have : (t.2.length % 256 :: t.2 ++ labelsOctets U rest).drop (t.2.length + 1 + preLen rest m)
            = (labelsOctets U rest).drop (preLen rest m) := by
          rw [show t.2.length % 256 :: t.2 ++ labelsOctets U rest
            = (t.2.length % 256 :: t.2) ++ labelsOctets U rest by simp, ← List.drop_drop,
            show t.2.length + 1 = (t.2.length % 256 :: t.2).length by simp, List.drop_left]
        rw [this]
        exact ih m (by omega)

theorem preLen_lit (tokens : LABELLIST) (m : Nat) (hm : m < litLen tokens) :
    preLen tokens m + ((tokens.getD m default).2.length + 1) < encodedSize tokens := by
  have h1 := preLen_succ tokens m (Nat.lt_of_lt_of_le hm (litLen_le tokens))
  have h2 := preLen_mono tokens (m + 1) (litLen tokens) hm
  have h3 := encodedSize_preLen tokens
  split at h3 <;> omega

theorem take_drop_take (l : List Nat) (s a b : Nat) (h : a + b ≤ s) :
    ((l.take s).drop a).take b = (l.drop a).take b := by
  rw [List.drop_take, List.take_take, Nat.min_eq_left (by omega)]

theorem store_before (buf : List Nat) (p : Nat) (x : List Nat) (t b : Nat) (h : t + b ≤ p)
    (hp : p ≤ buf.length) : ((store buf p x).drop t).take b = (buf.drop t).take b := by
  unfold store
  have hl : (buf.take p).length = p := by simp; omega
  rw [List.append_assoc, List.drop_append_of_le_length (by omega),
    List.take_append_of_le_length (by simp; omega), take_drop_take buf p t b h]

theorem labelsOf_head (tokens : LABELLIST) (k : Nat) (h : k < tokens.length) :
    labelsOf (tokens.drop k) = (tokens.getD k default).2 :: labelsOf (tokens.drop (k + 1)) := by
  induction tokens generalizing k with
  | nil => simp at h
  | cons t rest ih =>
    cases k with
    | zero => simp [labelsOf]
    | succ k => simpa using ih k (by simpa using h)

theorem tokensAt_of_map (T U : OFFSETLIST) (h : T.map Prod.snd = U.map Prod.snd) (k : Nat) :
    tokensAt T k = tokensAt U k := by
  induction T generalizing U k with
  | nil =>
    cases U with
    | nil => rfl
    | cons u us => simp at h
  | cons t ts ih =>
    cases U with
    | nil => simp at h
    | cons u us =>
      simp only [List.map_cons, List.cons.injEq] at h
      cases k with
      | zero => simpa [tokensAt] using h.1
      | succ k => simpa [tokensAt] using ih us h.2 k

theorem SuffixSound_tokens (T U : OFFSETLIST) (h : ∀ k, tokensAt U k = tokensAt T k) (e : Nat)
    (hs : SuffixSound T e) : SuffixSound U e := by
  unfold SuffixSound codeAt at hs ⊢
  simpa only [h] using hs

theorem BuiltFrom_sound (names : List (List Nat)) (T : OFFSETLIST) (h : BuiltFrom names T)
    (e : Nat) (he : e < T.length) : SuffixSound T e := by
  have hlen : T.length = (internAll names).length := by
    have := congrArg List.length h
    simpa using this
  exact SuffixSound_tokens (internAll names) T (fun k => tokensAt_of_map T _ h k) e
    (internAll_sound names e (by omega))

theorem written_offset (buf : List Nat) (T : OFFSETLIST) (e p : Nat) (h : WrittenBefore buf T e p) :
    ∀ n, n < e → n ≤ (T.getD n default).1 := by
  intro n
  induction n with
  | zero => intro _; omega
  | succ n ih =>
    intro hn
    have h1 := (h n (by omega)).2.1 hn
    have h2 := ih (by omega)
    have h3 := encodedSize_preLen (tokensAt T n)
    split at h3 <;> omega

/-- C25: in a table built by `BuildLabelReferenc` whose entries before `e` have been written
into the buffer in the order of the table, all before the cursor `p` below 16384, `BuildLabels`
with enough room writes for the entry `e`: the tokens before the suffix pointer literally
(length octet, label octets); then the octet 0 when no token carries a suffix pointer;
otherwise the two octets of `0xC000 | t` in network order and nothing after them, where `t` is
the recorded offset of the target entry plus the sum of (length + 1) of its tokens before the
target token, and at the index `t` the buffer holds the length octet and the octets of the
referred label. -/
theorem C25_name_octets (names : List (List Nat)) (T : OFFSETLIST) (buf : List Nat)
    (e p nBufLen : Nat) (hT : BuiltFrom names T) (he : e < T.length)
    (hW : WrittenBefore buf T e p) (hroom : encodedSize (tokensAt T e) ≤ nBufLen)
    (hbuf : p + nBufLen ≤ buf.length) (h16 : p < 16384) :
    ∃ octets, BuildLabels ⟨T, buf, some p, nBufLen⟩ (e + 1) p =
        ⟨setOffset T e p, store buf p octets, some (p + octets.length),
          nBufLen - octets.length⟩ ∧
      ((∀ i, i < (tokensAt T e).length → codeAt T e i = 0) →
        octets = literalOctets (labelsOf (tokensAt T e)) ++ [0]) ∧
      (∀ i, i < (tokensAt T e).length → codeAt T e i ≠ 0 →
        ∃ n m, codeAt T e i = pack n m ∧ n < e ∧ m < (tokensAt T n).length ∧
          ((tokensAt T n).getD m default).2 = ((tokensAt T e).getD i default).2 ∧
          octets = literalOctets ((labelsOf (tokensAt T e)).take i) ++
            be16 (0xc000 ||| ((T.getD n default).1 + preLen (tokensAt T n) m)) ∧
          (T.getD n default).1 + preLen (tokensAt T n) m < p ∧
          ((store buf p octets).drop ((T.getD n default).1 + preLen (tokensAt T n) m)).take
              (((tokensAt T n).getD m default).2.length + 1) =
            (((tokensAt T n).getD m default).2.length % 256) ::
              ((tokensAt T n).getD m default).2) := by
  have hsound := BuiltFrom_sound names T hT e he
  have hfit := BuildLabels_fit ⟨T, buf, some p, nBufLen⟩ (e + 1) p p (by omega) rfl
    (by rw [nameLen_encodedSize]; exact hroom)
  simp only [Nat.add_sub_cancel] at hfit
  have hsz := labelsOctets_size (setOffset T e p) (tokensAt T e)
  refine ⟨labelsOctets (setOffset T e p) (tokensAt T e), ?_, ?_, ?_⟩
  · rw [hfit, hsz, nameLen_encodedSize]
    rfl
  · intro hall
    have hl := litLen_all (tokensAt T e) hall
    rw [labelsOctets_shape, hl, if_neg (Nat.lt_irrefl _)]
    congr 2
    rw [List.take_of_length_le]
    simp [labelsOf]
  · intro i hi hc
    obtain ⟨hil, n, m, h1, h2, h3, h4⟩ := hsound i hi hc
    have hm : m < (tokensAt T n).length := Nat.lt_of_lt_of_le h3 (litLen_le _)
    obtain ⟨w1, -, w3⟩ := hW n h2
    have hoff := written_offset buf T e p hW n h2
    have hpl := preLen_lit (tokensAt T n) m h3
    have hmp := le_preLen (tokensAt T n) m (by omega)
    have hlab : ((tokensAt T n).getD m default).2 = ((tokensAt T e).getD i default).2 := by
      rw [labelsOf_head _ m hm, labelsOf_head _ i hi] at h4
      exact (List.cons.inj h4).1
    have hget : (setOffset T e p).getD n default = T.getD n default :=
      getD_setOffset_ne T e p n (by omega)
    have htarget : targetOffset (setOffset T e p) (pack n m)
        = (T.getD n default).1 + preLen (tokensAt T n) m := by
      rw [targetOffset_pack _ n m (by omega) (by omega)
        (by rw [tokensAt_setOffset]; omega), hget, tokensAt_setOffset]
    refine ⟨n, m, h1, h2, hm, hlab, ?_, by omega, ?_⟩
    · have hlt : litLen (tokensAt T e) < (tokensAt T e).length := by omega
      have hcode : ((tokensAt T e).getD (litLen (tokensAt T e)) default).1 = pack n m := by
        rw [← hil]; exact h1
      rw [labelsOctets_shape, if_pos hlt, hcode, htarget, Nat.mod_eq_of_lt (by omega), ← hil]
    · rw [store_before buf p _ _ _ (by omega) (by omega)]
      have hs := labelsOctets_slice T (tokensAt T n) m h3
      rw [← w1, take_drop_take _ _ _ _ (by omega), List.drop_drop] at hs
      exact hs

/-- Witness of C25: after `x.local` has been written at index 12, the entry `y.local` is
written at index 21 as the label `y` and a pointer to the index 14 of the label `local`:
the octets `01 79 C0 0E`. -/
theorem C25_name_octets_witness :
    (∃ octets, BuildLabels ⟨afterFirst.OffListe, afterFirst.buf, some 21, 19⟩ (1 + 1) 21 =
        ⟨setOffset afterFirst.OffListe 1 21, store afterFirst.buf 21 octets,
          some (21 + octets.length), 19 - octets.length⟩ ∧
      ((∀ i, i < (tokensAt afterFirst.OffListe 1).length → codeAt afterFirst.OffListe 1 i = 0) →
        octets = literalOctets (labelsOf (tokensAt afterFirst.OffListe 1)) ++ [0]) ∧
      (∀ i, i < (tokensAt afterFirst.OffListe 1).length → codeAt afterFirst.OffListe 1 i ≠ 0 →
        ∃ n m, codeAt afterFirst.OffListe 1 i = pack n m ∧ n < 1 ∧
          m < (tokensAt afterFirst.OffListe n).length ∧
          ((tokensAt afterFirst.OffListe n).getD m default).2
            = ((tokensAt afterFirst.OffListe 1).getD i default).2 ∧
          octets = literalOctets ((labelsOf (tokensAt afterFirst.OffListe 1)).take i) ++
            be16 (0xc000 ||| ((afterFirst.OffListe.getD n default).1 +
              preLen (tokensAt afterFirst.OffListe n) m)) ∧
          (afterFirst.OffListe.getD n default).1 + preLen (tokensAt afterFirst.OffListe n) m < 21 ∧
          ((store afterFirst.buf 21 octets).drop ((afterFirst.OffListe.getD n default).1 +
              preLen (tokensAt afterFirst.OffListe n) m)).take
              (((tokensAt afterFirst.OffListe n).getD m default).2.length + 1) =
            (((tokensAt afterFirst.OffListe n).getD m default).2.length % 256) ::
              ((tokensAt afterFirst.OffListe n).getD m default).2)) ∧
    (BuildLabels ⟨afterFirst.OffListe, afterFirst.buf, some 21, 19⟩ (1 + 1) 21).buf =
      List.replicate 12 0 ++ [1, 120, 5, 108, 111, 99, 97, 108, 0] ++ [1, 121, 192, 14] ++
        List.replicate 15 0 :=
  ⟨C25_name_octets [str "x.local", str "y.local"] afterFirst.OffListe afterFirst.buf 1 21 19
    (by unfold BuiltFrom; decide) (by decide) (by unfold WrittenBefore; decide) (by decide)
    (by decide) (by decide), by decide⟩

/-! ## A record and its RDLENGTH -/

theorem internAll_ok (names : List (List Nat)) : TableOK (internAll names) := by
  induction names using List.reverseRecOn with
  | nil => exact TableOK_nil
  | append_singleton names name ih =>
    obtain ⟨tokens, h1, -, h3⟩ := BuildLabelReferenc_ok name (internAll names) ih
    rw [internAll_snoc, h1]
    exact h3

/-- C29 (amended): a record of type A, AAAA, PTR, TXT or SRV with a payload of fewer than
65536 octets that `BuildRRecord` and `BuildRData` write with enough room is the owner name, TYPE, CLASS and TTL in network order (`recordHead`), the
two octets of RDLENGTH and the payload, and RDLENGTH is the number of payload octets: 4 for A,
16 for AAAA, the encoded size of the target for PTR, the sum of (length + 1) of the strings
for TXT, 6 plus the encoded size of the host for SRV.  Where the record is one with well-formed
names in a table with sound pointers whose earlier names are in the buffer, `ExtractRRecords`
reads it back and advances by the number of octets written. -/
theorem C29_record_octets (w : Writer) (it : ANSWERITEM) (p : Nat) (ht : Typed it)
    (hi : Interned it) (hp : w.pBufPointer = some p) (hb : p + w.nBufLen ≤ w.buf.length)
    (hroom : recLen w.OffListe it ≤ w.nBufLen)
    (h16 : payloadLen w.OffListe it.usType it.rData < 65536) :
    ∃ octets payload, octets = recordHead w.OffListe p it ++ be16 payload.length ++ payload ∧
      BuildRData (BuildRRecord w it.strLabel.1 it.usType it.usClass it.iTtl) it.usType it.rData =
        ⟨(recordOctets w.OffListe p it).1, store w.buf p octets, some (p + octets.length),
          w.nBufLen - octets.length⟩ ∧
      (recordHead w.OffListe p it).length
        = encodedSize (tokensAt w.OffListe (it.strLabel.1 - 1)) + 8 ∧
      (it.usType = 1 → payload.length = 4) ∧
      (it.usType = 28 → payload.length = 16) ∧
      (∀ q, it.rData = .ptrData q →
        payload.length = encodedSize (tokensAt w.OffListe (q.1 - 1))) ∧
      (∀ ss, it.rData = .txtData ss → payload.length = (ss.map fun s => s.length + 1).sum) ∧
      (∀ s, it.rData = .svData s →
        payload.length = 6 + encodedSize (tokensAt w.OffListe (s.strHost.1 - 1))) ∧
      ∀ pre post k, w.buf = pre ++ post → pre.length = p → TableOK w.OffListe →
        Placed pre w.OffListe k → Linked w.OffListe k it → WellFormedItem it →
        p + octets.length < 16384 →
        ∃ F, ∀ fuel, F ≤ fuel → ∃ r, Echo it r ∧
          ExtractRRecords fuel (store w.buf p octets) 1 p = .ok [r] octets.length := by
  have hfit := record_fit w it p ht hi hp (by omega) hroom
  have hlen := recordOctets_length w.OffListe p it ht
  have hpl := payloadOctets_length (setOffset w.OffListe (it.strLabel.1 - 1) p)
    (p + (recordHead w.OffListe p it).length + 2) it ht
  rw [payloadLen_setOffset] at hpl
  have hrec : (recordOctets w.OffListe p it).2 = recordHead w.OffListe p it ++
      be16 (payloadOctets (setOffset w.OffListe (it.strLabel.1 - 1) p)
        (p + (recordHead w.OffListe p it).length + 2) it.usType it.rData).2.length ++
      (payloadOctets (setOffset w.OffListe (it.strLabel.1 - 1) p)
        (p + (recordHead w.OffListe p it).length + 2) it.usType it.rData).2 := by
    simp only [recordOctets]
    rw [hpl, Nat.mod_eq_of_lt h16]
  refine ⟨(recordOctets w.OffListe p it).2, _, hrec, ?_, ?_, ?_, ?_, ?_, ?_, ?_, ?_⟩
  · rw [hfit, hlen]
  · rw [recordHead_length, nameLen_encodedSize]
  · intro h1
    rcases ht with ⟨-, o, h2, -⟩ | ⟨h, -⟩ | ⟨h, -⟩ | ⟨h, -⟩ | ⟨h, -⟩
    · rw [hpl, h1, h2]; rfl
    all_goals omega
  · intro h1
    rcases ht with ⟨h, -⟩ | ⟨-, o, h2, -⟩ | ⟨h, -⟩ | ⟨h, -⟩ | ⟨h, -⟩
    · omega
    · rw [hpl, h1, h2]; rfl
    all_goals omega
  · intro q hq
    rcases ht with ⟨-, o, h2, -⟩ | ⟨-, o, h2, -⟩ | ⟨h, -⟩ | ⟨-, ss, h2⟩ | ⟨-, s, h2⟩
    · rw [h2] at hq; cases hq
    · rw [h2] at hq; cases hq
    · rw [hpl, h, hq]; exact nameLen_encodedSize _ _
    · rw [h2] at hq; cases hq
    · rw [h2] at hq; cases hq
  · intro ss hq
    rcases ht with ⟨-, o, h2, -⟩ | ⟨-, o, h2, -⟩ | ⟨-, q, h2⟩ | ⟨h, -⟩ | ⟨-, s, h2⟩
    · rw [h2] at hq; cases hq
    · rw [h2] at hq; cases hq
    · rw [h2] at hq; cases hq
    · rw [hpl, h, hq]; rfl
    · rw [h2] at hq; cases hq
  · intro s hq
    rcases ht with ⟨-, o, h2, -⟩ | ⟨-, o, h2, -⟩ | ⟨-, q, h2⟩ | ⟨-, ss, h2⟩ | ⟨h, -⟩
    · rw [h2] at hq; cases hq
    · rw [h2] at hq; cases hq
    · rw [h2] at hq; cases hq
    · rw [h2] at hq; cases hq
    · rw [hpl, h, hq]
      show nameLen w.OffListe s.strHost.1 + 6 = _
      rw [nameLen_encodedSize]; omega
  · intro pre post k hbuf hpre hT hP hL hw hsz
    subst hpre
    obtain ⟨-, F, hF⟩ := record_decodes w.OffListe pre k it hT hP hL hw hsz
    refine ⟨F, fun fuel hf => ?_⟩
    obtain ⟨r, hecho, hr⟩ := hF fuel hf (post.drop (recordOctets w.OffListe pre.length it).2.length) 0
    refine ⟨r, hecho, ?_⟩
    rw [hbuf, store_append]
    have := hr [] 0 rfl
    simpa using this

/-- Witness of C29: the PTR record `ptrRecord` written at index 12 of a buffer of 60 octets
with room for 48; the record has 32 octets and `ExtractRRecords` advances by 32. -/
theorem C29_record_octets_witness :
    (∃ octets payload, octets = recordHead ptrTable 12 ptrRecord ++ be16 payload.length ++ payload ∧
      BuildRData (BuildRRecord ⟨ptrTable, List.replicate 60 0, some 12, 48⟩ ptrRecord.strLabel.1
          ptrRecord.usType ptrRecord.usClass ptrRecord.iTtl) ptrRecord.usType ptrRecord.rData =
        ⟨(recordOctets ptrTable 12 ptrRecord).1, store (List.replicate 60 0) 12 octets,
          some (12 + octets.length), 48 - octets.length⟩ ∧
      (recordHead ptrTable 12 ptrRecord).length
        = encodedSize (tokensAt ptrTable (ptrRecord.strLabel.1 - 1)) + 8 ∧
      (ptrRecord.usType = 1 → payload.length = 4) ∧
      (ptrRecord.usType = 28 → payload.length = 16) ∧
      (∀ q, ptrRecord.rData = .ptrData q →
        payload.length = encodedSize (tokensAt ptrTable (q.1 - 1))) ∧
      (∀ ss, ptrRecord.rData = .txtData ss → payload.length = (ss.map fun s => s.length + 1).sum) ∧
      (∀ s, ptrRecord.rData = .svData s →
        payload.length = 6 + encodedSize (tokensAt ptrTable (s.strHost.1 - 1))) ∧
      ∀ pre post k, List.replicate 60 0 = pre ++ post → pre.length = 12 → TableOK ptrTable →
        Placed pre ptrTable k → Linked ptrTable k ptrRecord → WellFormedItem ptrRecord →
        12 + octets.length < 16384 →
        ∃ F, ∀ fuel, F ≤ fuel → ∃ r, Echo ptrRecord r ∧
          ExtractRRecords fuel (store (List.replicate 60 0) 12 octets) 1 12
            = .ok [r] octets.length) ∧
    ∃ F, ∀ fuel, F ≤ fuel → ∃ r, Echo ptrRecord r ∧
      ExtractRRecords fuel (BuildRData (BuildRRecord ⟨ptrTable, List.replicate 60 0, some 12, 48⟩
        ptrRecord.strLabel.1 ptrRecord.usType ptrRecord.usClass ptrRecord.iTtl)
        ptrRecord.usType ptrRecord.rData).buf 1 12 = .ok [r] 32 := by
  have hty : Typed ptrRecord := Or.inr (Or.inr (Or.inl ⟨rfl, _, rfl⟩))
  have hin : Interned ptrRecord :=
    ⟨by decide, (fun p hp => by cases hp; decide), (fun s hs => by cases hs)⟩
  have h := C29_record_octets ⟨ptrTable, List.replicate 60 0, some 12, 48⟩ ptrRecord 12 hty hin rfl
    (by decide) (by decide) (by decide)
  refine ⟨h, ?_⟩
  obtain ⟨octets, payload, ho, hres, hhead, -, -, hptr, -, -, hdec⟩ := h
  have hpay := hptr _ rfl
  have hlen : octets.length = 32 := by
    rw [ho, List.length_append, List.length_append, hhead, hpay]
    decide
  have hwf : WellFormedItem ptrRecord :=
    ⟨hty, ⟨[str "_http", str "_tcp", str "local"], ⟨by decide, by decide⟩, by decide⟩,
      (fun p hp => by
        cases hp
        exact ⟨[str "A", str "_http", str "_tcp", str "local"], ⟨by decide, by decide⟩,
          by decide⟩),
      (fun s hs => by cases hs), (fun ss hs => by cases hs)⟩
  have hlk : Linked ptrTable 0 ptrRecord :=
    ⟨rfl, by decide, by decide, (fun p hp => by cases hp; exact ⟨rfl, by decide⟩),
      (fun s hs => by cases hs)⟩
  obtain ⟨F, hF⟩ := hdec (List.replicate 12 0) (List.replicate 48 0) 0 (by decide) (by decide)
    (internAll_ok _) ⟨Nat.zero_le _, fun n hn => absurd hn (Nat.not_lt_zero n)⟩ hlk hwf
    (by omega)
  refine ⟨F, fun fuel hf => ?_⟩
  obtain ⟨r, h1, h2⟩ := hF fuel hf
  exact ⟨r, h1, by rw [hres, ← hlen]; exact h2⟩

/-! ## The target of a suffix pointer -/

theorem litLen_before (tokens : LABELLIST) (j : Nat) (h : j < litLen tokens) :
    (tokens.getD j default).1 = 0 := by
  induction tokens generalizing j with
  | nil => simp [litLen] at h
  | cons t rest ih =>
    by_cases ht : t.1 ≠ 0
    · simp [litLen, ht] at h
    · simp only [litLen, if_neg ht] at h
      cases j with
      | zero => simpa using ht
      | succ j => simpa using ih j (by omega)

/-- C32: in a table built from the empty table by calls of `BuildLabelReferenc` (whatever
offsets have been recorded in it since), a suffix pointer on the token `i` of the entry `e`
is the code of a pair (n, m) such that the entry `n` carries no suffix pointer on a token of
index m or less.  So the sum of (length + 1) over the tokens before `m`, which `BuildLabels`
adds to the recorded offset of `n`, and the label `m` after it end before the end of the
octets that `BuildLabels` writes for the entry `n`, and these octets hold the length octet and
the octets of the label there. -/
theorem C32_target_written_literally (names : List (List Nat)) (U : OFFSETLIST) (e i : Nat)
    (hU : BuiltFrom names U) (he : e < U.length) (hi : i < (tokensAt U e).length)
    (hc : codeAt U e i ≠ 0) :
    ∃ n m, codeAt U e i = pack n m ∧ n < e ∧ m < (tokensAt U n).length ∧
      (∀ j, j ≤ m → codeAt U n j = 0) ∧
      preLen (tokensAt U n) m + (((tokensAt U n).getD m default).2.length + 1)
        < (labelsOctets U (tokensAt U n)).length ∧
      ((labelsOctets U (tokensAt U n)).drop (preLen (tokensAt U n) m)).take
          (((tokensAt U n).getD m default).2.length + 1) =
        (((tokensAt U n).getD m default).2.length % 256) :: ((tokensAt U n).getD m default).2 ∧
      (e < 65536 → (tokensAt U n).length ≤ 65536 →
        targetOffset U (codeAt U e i) = (U.getD n default).1 + preLen (tokensAt U n) m) := by
  obtain ⟨-, n, m, h1, h2, h3, -⟩ := BuiltFrom_sound names U hU e he i hi hc
  have hm : m < (tokensAt U n).length := Nat.lt_of_lt_of_le h3 (litLen_le _)
  refine ⟨n, m, h1, h2, hm, fun j hj => ?_, ?_, labelsOctets_slice U _ m h3, fun h5 h6 => ?_⟩
  · exact litLen_before _ j (by omega)
  · rw [labelsOctets_size]
    exact preLen_lit _ m h3
  · rw [h1]
    exact targetOffset_pack U n m (by omega) (by omega) (by omega)

/-- Witness of C32: the pointer on `local` of the entry `y.local` in the table of `x.local`
and `y.local`, after `x.local` has been written at offset 12. -/
theorem C32_target_written_literally_witness :
    ∃ n m, codeAt afterFirst.OffListe 1 1 = pack n m ∧ n < 1 ∧
      m < (tokensAt afterFirst.OffListe n).length ∧
      (∀ j, j ≤ m → codeAt afterFirst.OffListe n j = 0) ∧
      preLen (tokensAt afterFirst.OffListe n) m +
          (((tokensAt afterFirst.OffListe n).getD m default).2.length + 1)
        < (labelsOctets afterFirst.OffListe (tokensAt afterFirst.OffListe n)).length ∧
      ((labelsOctets afterFirst.OffListe (tokensAt afterFirst.OffListe n)).drop
          (preLen (tokensAt afterFirst.OffListe n) m)).take
          (((tokensAt afterFirst.OffListe n).getD m default).2.length + 1) =
        (((tokensAt afterFirst.OffListe n).getD m default).2.length % 256) ::
          ((tokensAt afterFirst.OffListe n).getD m default).2 ∧
      (1 < 65536 → (tokensAt afterFirst.OffListe n).length ≤ 65536 →
        targetOffset afterFirst.OffListe (codeAt afterFirst.OffListe 1 1) =
          (afterFirst.OffListe.getD n default).1 + preLen (tokensAt afterFirst.OffListe n) m) :=
  C32_target_written_literally [str "x.local", str "y.local"] afterFirst.OffListe 1 1
    (by unfold BuiltFrom; decide) (by decide) (by decide) (by decide)

/-! ## The octets of a compression pointer -/

theorem or_mod_pow (a b k : Nat) : (a ||| b) % 2 ^ k = a % 2 ^ k ||| b % 2 ^ k := by
  apply Nat.eq_of_testBit_eq
  intro i
  simp only [Nat.testBit_mod_two_pow, Nat.testBit_or]
  cases decide (i < k) <;> simp

theorem pointer_low16 (t : Nat) : (0xc000 ||| t) % 65536 = 0xc000 ||| (t % 65536) := by
  have := or_mod_pow 0xc000 t 16
  norm_num at this ⊢
  exact this

/-- The pointer branch of the loop of `ExtractLabels` on the two octets of a pointer to an
offset below 16384. -/
theorem walk_pointer (fuel : Nat) (buf : List Nat) (q t : Nat) (s : List Nat) (ht : t < 16384)
    (h0 : buf[q]? = some (0xC0 + t / 256)) (h1 : buf[q + 1]? = some (t % 256)) :
    ExtractLabels.walk (fuel + 1) buf q s =
      if t > q then .halt s (.dnsProto "Error extraction label")
      else match ExtractLabels.walk fuel buf t s with
        | .ok s1 _ => .ok s1 (q + 2)
        | .halt s1 h => .halt s1 h := by
  have hv : ((0xC0 + t / 256) * 256 + t % 256) &&& 0x3fff = t := by
    rw [show (0xC0 : Nat) = 192 by rfl, ptr_offset _ _ (by omega) (by omega)]; omega
  rw [ExtractLabels.walk]
  simp only [h0, h1]
  rw [if_neg (by omega), if_pos (by rw [show (0xC0 : Nat) = 192 by rfl]; exact and_c0_ptr _ (by omega))]
  simp only [hv]

/-- C33: where an entry has a suffix pointer, `BuildLabels` with enough room writes after the
literal tokens the two octets of the low 16 bits of `0xC000 | t`, for every value of the
offset `t` that it has reconstructed.  For t < 16384 these octets are 0xC0 + t div 256 and
t mod 256; the first passes the pointer test of `ExtractLabels`, the masked 16-bit value is t,
and the loop of `ExtractLabels` that meets them goes on at the index t. -/
theorem C33_pointer_octets (w : Writer) (index off p : Nat) (hi : index ≠ 0)
    (hp : w.pBufPointer = some p) (hroom : nameLen w.OffListe index ≤ w.nBufLen)
    (hptr : litLen (tokensAt w.OffListe (index - 1)) < (tokensAt w.OffListe (index - 1)).length) :
    ∃ t, t = targetOffset (setOffset w.OffListe (index - 1) off)
        ((tokensAt w.OffListe (index - 1)).getD (litLen (tokensAt w.OffListe (index - 1))) default).1 ∧
      (BuildLabels w index off).buf = store w.buf p
        (literalOctets ((labelsOf (tokensAt w.OffListe (index - 1))).take
          (litLen (tokensAt w.OffListe (index - 1)))) ++ be16 ((0xc000 ||| t) % 65536)) ∧
      (t < 16384 →
        be16 ((0xc000 ||| t) % 65536) = [0xC0 + t / 256, t % 256] ∧
        (0xC0 + t / 256) &&& 0xc0 = 0xc0 ∧
        ((0xC0 + t / 256) * 256 + t % 256) &&& 0x3fff = t ∧
        ∀ fuel buf q s, buf[q]? = some (0xC0 + t / 256) → buf[q + 1]? = some (t % 256) →
          ExtractLabels.walk (fuel + 1) buf q s =
            if t > q then .halt s (.dnsProto "Error extraction label")
            else match ExtractLabels.walk fuel buf t s with
              | .ok s1 _ => .ok s1 (q + 2)
              | .halt s1 h => .halt s1 h) := by
  refine ⟨_, rfl, ?_, fun ht => ⟨?_, ?_, ?_, ?_⟩⟩
  · rw [BuildLabels_fit w index off p hi hp hroom]
    simp only []
    rw [show (w.OffListe.getD (index - 1) default).2 = tokensAt w.OffListe (index - 1) from rfl,
      labelsOctets_shape, if_pos hptr, pointer_low16]
  · rw [pointer_low16, ptr_octets _ ht]
  · rw [show (0xC0 : Nat) = 192 by rfl]; exact and_c0_ptr _ (by omega)
  · rw [show (0xC0 : Nat) = 192 by rfl, ptr_offset _ _ (by omega) (by omega)]; omega
  · intro fuel buf q s h0 h1
    exact walk_pointer fuel buf q _ s ht h0 h1

/-- Witness of C33: the entry `y.local` written at index 21 after `x.local` at index 12; the
pointer to the offset 14 is written as `C0 0E`. -/
theorem C33_pointer_octets_witness :
    (∃ t, t = targetOffset (setOffset afterFirst.OffListe (2 - 1) 21)
        ((tokensAt afterFirst.OffListe (2 - 1)).getD
          (litLen (tokensAt afterFirst.OffListe (2 - 1))) default).1 ∧
      (BuildLabels ⟨afterFirst.OffListe, afterFirst.buf, some 21, 19⟩ 2 21).buf =
        store afterFirst.buf 21
          (literalOctets ((labelsOf (tokensAt afterFirst.OffListe (2 - 1))).take
            (litLen (tokensAt afterFirst.OffListe (2 - 1)))) ++ be16 ((0xc000 ||| t) % 65536)) ∧
      (t < 16384 →
        be16 ((0xc000 ||| t) % 65536) = [0xC0 + t / 256, t % 256] ∧
        (0xC0 + t / 256) &&& 0xc0 = 0xc0 ∧
        ((0xC0 + t / 256) * 256 + t % 256) &&& 0x3fff = t ∧
        ∀ fuel buf q s, buf[q]? = some (0xC0 + t / 256) → buf[q + 1]? = some (t % 256) →
          ExtractLabels.walk (fuel + 1) buf q s =
            if t > q then .halt s (.dnsProto "Error extraction label")
            else match ExtractLabels.walk fuel buf t s with
              | .ok s1 _ => .ok s1 (q + 2)
              | .halt s1 h => .halt s1 h)) ∧
    targetOffset (setOffset afterFirst.OffListe (2 - 1) 21)
      ((tokensAt afterFirst.OffListe (2 - 1)).getD
        (litLen (tokensAt afterFirst.OffListe (2 - 1))) default).1 = 14 ∧
    (BuildLabels ⟨afterFirst.OffListe, afterFirst.buf, some 21, 19⟩ 2 21).buf =
      List.replicate 12 0 ++ [1, 120, 5, 108, 111, 99, 97, 108, 0] ++ [1, 121, 0xC0, 14] ++
        List.replicate 15 0 :=
  ⟨C33_pointer_octets ⟨afterFirst.OffListe, afterFirst.buf, some 21, 19⟩ 2 21 21 (by decide) rfl
    (by decide) (by decide), by decide, by decide⟩

/-! ## Records of other types in the datagram of `BuildAnswer` -/

theorem internItem_other (T : OFFSETLIST) (it : ANSWERITEM) (h : Other it) :
    internItem T it = ((BuildLabelReferenc it.strLabel.2 T).2,
      { it with strLabel := ((BuildLabelReferenc it.strLabel.2 T).1, it.strLabel.2) }) := by
  obtain ⟨h1, h12, h16, h28, h33⟩ := h
  unfold internItem
  simp only []
  split <;> first | rfl | (exfalso; omega)

theorem internItem_grows (T : OFFSETLIST) (it : ANSWERITEM) :
    ∃ X, (internItem T it).1 = T ++ X := by
  obtain ⟨t0, h0, -⟩ := BuildLabelReferenc_append it.strLabel.2 T
  unfold internItem
  simp only []
  split
  · rename_i p _ _
    obtain ⟨t1, h1, -⟩ := BuildLabelReferenc_append p.2 (BuildLabelReferenc it.strLabel.2 T).2
    exact ⟨[(0, t0), (0, t1)], by simp only []; rw [h1, h0]; simp⟩
  · rename_i s _ _
    obtain ⟨t1, h1, -⟩ := BuildLabelReferenc_append s.strHost.2 (BuildLabelReferenc it.strLabel.2 T).2
    exact ⟨[(0, t0), (0, t1)], by simp only []; rw [h1, h0]; simp⟩
  · exact ⟨[(0, t0)], h0⟩

theorem fnExtractLabels_grows (T : OFFSETLIST) (items : List ANSWERITEM) :
    ∃ X, (fnExtractLabels T items).1 = T ++ X := by
  induction items generalizing T with
  | nil => exact ⟨[], by simp [fnExtractLabels]⟩
  | cons it rest ih =>
    obtain ⟨X, hX⟩ := internItem_grows T it
    obtain ⟨Y, hY⟩ := ih (internItem T it).1
    exact ⟨X ++ Y, by simp only [fnExtractLabels]; rw [hY, hX]; simp⟩

theorem fnExtractLabels_append (T : OFFSETLIST) (a b : List ANSWERITEM) :
    fnExtractLabels T (a ++ b) =
      ((fnExtractLabels (fnExtractLabels T a).1 b).1,
        (fnExtractLabels T a).2 ++ (fnExtractLabels (fnExtractLabels T a).1 b).2) := by
  induction a generalizing T with
  | nil => simp [fnExtractLabels]
  | cons it rest ih =>
    rw [List.cons_append, fnExtractLabels, fnExtractLabels, ih]
    rfl

theorem recordsOctets_append (T : OFFSETLIST) (p : Nat) (a b : List ANSWERITEM) :
    recordsOctets T p (a ++ b) =
      ((recordsOctets (recordsOctets T p a).1 (p + (recordsOctets T p a).2.length) b).1,
        (recordsOctets T p a).2 ++
          (recordsOctets (recordsOctets T p a).1 (p + (recordsOctets T p a).2.length) b).2) := by
  induction a generalizing T p with
  | nil => simp [recordsOctets]
  | cons it rest ih =>
    rw [List.cons_append, recordsOctets, recordsOctets, ih]
    simp only [List.length_append, List.append_assoc, Nat.add_assoc]

/-- The record octets of the datagram are the octets of the records of the three lists, taken
as one list. -/
theorem answerRecords_concat (An Ns Ar : List ANSWERITEM) :
    answerRecords An Ns Ar =
      (recordsOctets (fnExtractLabels [] (An ++ Ns ++ Ar)).1 12
        (fnExtractLabels [] (An ++ Ns ++ Ar)).2).2 := by
  simp only [answerRecords, fnExtractLabels_append, recordsOctets_append, List.append_assoc,
    Nat.add_assoc]

/-- C31 fails: for an A record with the owner `a` followed by a record of the type 99 with the
owner `b.a`, `BuildAnswer` writes ANCOUNT = 2 and, after the 17 octets of the A record, the 14
octets `01 62 C0 0C 00 63 00 01 00 00 00 78 00 00` of the second record (owner name, TYPE,
CLASS, TTL, RDLENGTH 0) and returns 43; for the A record alone it writes ANCOUNT = 1 and
returns 29. -/
theorem C31_other_type_emitted :
    BuildAnswer withType99 [] [] (some (List.replicate 50 255)) 50 =
      ⟨43, some ([0, 0, 1, 0, 0, 0, 0, 2, 0, 0, 0, 0] ++
        [1, 97, 0, 0, 1, 0, 1, 0, 0, 0, 120, 0, 4, 10, 0, 0, 1] ++
        [1, 98, 192, 12, 0, 99, 0, 1, 0, 0, 0, 120, 0, 0] ++ List.replicate 7 255), 7⟩ ∧
    BuildAnswer [⟨(0, str "a"), .pVoid [10, 0, 0, 1], 1, 1, 120⟩] [] []
        (some (List.replicate 50 255)) 50 =
      ⟨29, some ([0, 0, 1, 0, 0, 0, 0, 1, 0, 0, 0, 0] ++
        [1, 97, 0, 0, 1, 0, 1, 0, 0, 0, 120, 0, 4, 10, 0, 0, 1] ++ List.replicate 21 255), 21⟩ := by
  decide

/-- C31 as amended: for a record `it` of a type other than 1, 12, 16, 28 and 33 that stands
in one of the three lists, with the records `B1` before it in the order of writing,
`BuildAnswer` writes the three list lengths (the record counted) into the header and, after
the octets of the records before it, the owner name of the record (the octets of `BuildLabels`
for the tokens of the name), TYPE, CLASS and TTL in network order and the RDLENGTH octets
`00 00`, and no RDATA: the octets after them are those of the records after it. -/
theorem C31_other_type_written (An Ns Ar B1 B2 : List ANSWERITEM) (it : ANSWERITEM)
    (buf : List Nat) (n : Nat) (hpos : An ++ Ns ++ Ar = B1 ++ it :: B2) (hO : Other it)
    (hA : ∀ x ∈ An, Supported x) (hN : ∀ x ∈ Ns, Supported x) (hR : ∀ x ∈ Ar, Supported x)
    (lA : An.length < 65536) (lN : Ns.length < 65536) (lR : Ar.length < 65536)
    (hn : (BuildAnswer An Ns Ar none 0).nBuflen ≤ n) (hbuf : n ≤ buf.length) :
    ∃ U toks V,
      labelsOf toks = tokenize it.strLabel.2 ∧
      (BuildAnswer An Ns Ar (some buf) n).szBuffer =
        some ([0, 0, 1, 0, 0, 0] ++ be16 An.length ++ be16 Ns.length ++ be16 Ar.length ++
          (recordsOctets (fnExtractLabels [] (An ++ Ns ++ Ar)).1 12 (fnExtractLabels [] B1).2).2 ++
          (labelsOctets U toks ++ be16 it.usType ++ be16 it.usClass ++
            be32 (it.iTtl % 4294967296).toNat ++ [0, 0]) ++
          (recordsOctets V
            (12 + (recordsOctets (fnExtractLabels [] (An ++ Ns ++ Ar)).1 12
              (fnExtractLabels [] B1).2).2.length + (labelsOctets U toks).length + 10)
            (fnExtractLabels (internItem (fnExtractLabels [] B1).1 it).1 B2).2).2 ++
          buf.drop (BuildAnswer An Ns Ar none 0).nBuflen) := by
  have hsz := (BuildAnswer_write An Ns Ar
    (List.replicate (12 + (answerRecords An Ns Ar).length) 0)
    (12 + (answerRecords An Ns Ar).length) hA hN hR (Nat.le_refl _) (by simp)).1 0
  have hsize : (BuildAnswer An Ns Ar none 0).nBuflen = 12 + (answerRecords An Ns Ar).length := by
    rw [hsz]
  rw [hsize] at hn ⊢
  have img := (BuildAnswer_write An Ns Ar buf n hA hN hR hn (by omega)).2
  have hhead : answerHead An.length Ns.length Ar.length
      = [0, 0, 1, 0, 0, 0] ++ be16 An.length ++ be16 Ns.length ++ be16 Ar.length := by
    simp only [answerHead, Nat.mod_eq_of_lt lA, Nat.mod_eq_of_lt lN, Nat.mod_eq_of_lt lR]
  rw [img, hhead]
  simp only []
  have hrec := answerRecords_concat An Ns Ar
  generalize hT : (fnExtractLabels [] (An ++ Ns ++ Ar)).1 = T at hrec ⊢
  have hI : (fnExtractLabels [] (An ++ Ns ++ Ar)).2 = (fnExtractLabels [] B1).2 ++
      (internItem (fnExtractLabels [] B1).1 it).2 ::
        (fnExtractLabels (internItem (fnExtractLabels [] B1).1 it).1 B2).2 := by
    rw [hpos, fnExtractLabels_append]
    rfl
  have hTe : T = (fnExtractLabels (internItem (fnExtractLabels [] B1).1 it).1 B2).1 := by
    rw [← hT, hpos, fnExtractLabels_append]
    rfl
  generalize hT1 : (fnExtractLabels [] B1).1 = T1 at hI hTe ⊢
  generalize hI1 : (fnExtractLabels [] B1).2 = I1 at hI ⊢
  have hint := internItem_other T1 it hO
  obtain ⟨tokens, hB, hlab⟩ := BuildLabelReferenc_append it.strLabel.2 T1
  obtain ⟨X, hX⟩ := fnExtractLabels_grows (internItem T1 it).1 B2
  have hTX : T = T1 ++ [(0, tokens)] ++ X := by
    rw [hTe, hX, hint]
    simp only []
    rw [hB]
  rw [hI, recordsOctets_append] at hrec
  simp only [recordsOctets] at hrec
  generalize hTp : (recordsOctets T 12 I1).1 = Tp at hrec
  generalize hpre : (recordsOctets T 12 I1).2 = pre at hrec ⊢
  have hit : (internItem T1 it).2 =
      { it with strLabel := (T1.length + 1, it.strLabel.2) } := by
    rw [hint, BuildLabelReferenc_fst]
  have hidx : (internItem T1 it).2.strLabel.1 - 1 = T1.length := by rw [hit]; simp
  have hblock : (recordOctets Tp (12 + pre.length) (internItem T1 it).2).2 =
      labelsOctets (setOffset Tp T1.length (12 + pre.length)) tokens ++ be16 it.usType ++
        be16 it.usClass ++ be32 (it.iTtl % 4294967296).toNat ++ [0, 0] := by
    obtain ⟨h1, h12, h16, h28, h33⟩ := hO
    have htok : (Tp.getD T1.length default).2 = tokens := by
      rw [← hTp, recordsOctets_tokens, hTX, List.append_assoc,
        List.getD_append_right _ _ _ _ (le_refl _)]
      simp
    simp only [recordOctets, recordHead, hidx, htok]
    rw [hit]
    simp only []
    rw [payloadOctets_other _ _ _ _ h1 h12 h16 h28 h33]
    simp [be16]
  refine ⟨setOffset Tp T1.length (12 + pre.length), tokens,
    (recordOctets Tp (12 + pre.length) (internItem T1 it).2).1, hlab, ?_⟩
  rw [hrec, hblock]
  simp only [List.append_assoc, List.length_append, be16, be32, List.length_cons,
    List.length_nil, Nat.add_assoc]

/-- Witness of C31: the record of the type 99 with the owner `b.a` after an A record with the
owner `a`, in a buffer of 50 octets. -/
theorem C31_other_type_written_witness :
    ∃ U toks V,
      labelsOf toks = tokenize (str "b.a") ∧
      (BuildAnswer withType99 [] [] (some (List.replicate 50 255)) 50).szBuffer =
        some ([0, 0, 1, 0, 0, 0] ++ be16 withType99.length ++ be16 ([] : List ANSWERITEM).length ++
            be16 ([] : List ANSWERITEM).length ++
          (recordsOctets (fnExtractLabels [] (withType99 ++ [] ++ [])).1 12
            (fnExtractLabels [] [⟨(0, str "a"), .pVoid [10, 0, 0, 1], 1, 1, 120⟩]).2).2 ++
          (labelsOctets U toks ++ be16 99 ++ be16 1 ++ be32 ((120 : Int) % 4294967296).toNat ++
            [0, 0]) ++
          (recordsOctets V
            (12 + (recordsOctets (fnExtractLabels [] (withType99 ++ [] ++ [])).1 12
              (fnExtractLabels [] [⟨(0, str "a"), .pVoid [10, 0, 0, 1], 1, 1, 120⟩]).2).2.length +
              (labelsOctets U toks).length + 10)
            (fnExtractLabels (internItem
              (fnExtractLabels [] [⟨(0, str "a"), .pVoid [10, 0, 0, 1], 1, 1, 120⟩]).1
              ⟨(0, str "b.a"), .pVoid [], 99, 1, 120⟩).1 []).2).2 ++
          (List.replicate 50 255).drop (BuildAnswer withType99 [] [] none 0).nBuflen) :=
  C31_other_type_written withType99 [] [] [⟨(0, str "a"), .pVoid [10, 0, 0, 1], 1, 1, 120⟩] []
    ⟨(0, str "b.a"), .pVoid [], 99, 1, 120⟩ (List.replicate 50 255) 50 rfl
    (by unfold Other; decide)
    (fun x hx => by
      simp only [withType99, List.mem_cons, List.mem_singleton, List.not_mem_nil, or_false] at hx
      rcases hx with rfl | rfl
      · exact Or.inl (Or.inl ⟨rfl, _, rfl, rfl⟩)
      · exact Or.inr (by unfold Other; decide))
    (fun x hx => by simp at hx) (fun x hx => by simp at hx)
    (by decide) (by decide) (by decide) (by decide) (by decide)

/-! ## The flags of the header on the wire -/

theorem wireHeader_answerHead (a n r : Nat) (rest : List Nat) :
    (wireHeader (answerHead a n r ++ rest)).QR = 0 ∧
    (wireHeader (answerHead a n r ++ rest)).RD = 1 ∧
    (readHeader (answerHead a n r ++ rest)).QR = 1 ∧
    (readHeader (answerHead a n r ++ rest)).RD = 0 := by
  simp [wireHeader, readHeader, answerHead, be16]

/-- C14 fails: `BuildAnswer` sets the bit-field QR, which lies in the least significant bit
of octet 2, so the header that it writes has the octets `01 00` at offset 2, for all lists: in
the wire format, where QR is the most significant bit of octet 2, that is QR = 0 and RD = 1,
a query with recursion desired.  So for three empty lists and a buffer of 12 octets.  The
constructor reads the flags through the same bit-fields: it reads QR = 1 from this header and
QR = 0, Opcode = 2 from the octets `84 00` of an authoritative response. -/
theorem C14_qr_bit_misplaced :
    BuildAnswer [] [] [] (some (List.replicate 12 255)) 12 =
      ⟨12, some [0, 0, 1, 0, 0, 0, 0, 0, 0, 0, 0, 0], 0⟩ ∧
    wireHeader [0, 0, 1, 0, 0, 0, 0, 0, 0, 0, 0, 0] = ⟨0, 0, 0, 0, 0, 1, 0, 0, 0, 0, 0, 0, 0⟩ ∧
    (∀ (An Ns Ar : List ANSWERITEM) (buf : List Nat) (n : Nat),
      (∀ it ∈ An, Supported it) → (∀ it ∈ Ns, Supported it) → (∀ it ∈ Ar, Supported it) →
      (BuildAnswer An Ns Ar none 0).nBuflen ≤ n → n ≤ buf.length →
      ∃ datagram, (BuildAnswer An Ns Ar (some buf) n).szBuffer = some datagram ∧
        (wireHeader datagram).QR = 0 ∧ (wireHeader datagram).RD = 1 ∧
        (readHeader datagram).QR = 1 ∧ (readHeader datagram).RD = 0) ∧
    wireHeader [0, 0, 0x84, 0, 0, 0, 0, 1, 0, 0, 0, 0] = ⟨0, 1, 0, 1, 0, 0, 0, 0, 0, 0, 1, 0, 0⟩ ∧
    (∀ fuel, (decode fuel [0, 0, 0x84, 0, 0, 0, 0, 0, 0, 0, 0, 0]).m_DnsHeader =
      ⟨0, 0, 2, 0, 0, 1, 0, 0, 0, 0, 0, 0, 0⟩) := by
  refine ⟨by decide, by decide, ?_, by decide, fun fuel => ?_⟩
  · intro An Ns Ar buf n hA hN hR hn hbuf
    have hsz := (BuildAnswer_write An Ns Ar
      (List.replicate (12 + (answerRecords An Ns Ar).length) 0)
      (12 + (answerRecords An Ns Ar).length) hA hN hR (Nat.le_refl _) (by simp)).1 0
    have hsize : (BuildAnswer An Ns Ar none 0).nBuflen = 12 + (answerRecords An Ns Ar).length := by
      rw [hsz]
    rw [hsize] at hn
    have img := (BuildAnswer_write An Ns Ar buf n hA hN hR hn (by omega)).2
    rw [img]
    refine ⟨_, rfl, ?_⟩
    rw [List.append_assoc]
    exact wireHeader_answerHead _ _ _ _
  · rw [decode_header]
    decide

/-! ## The labels of a decoded name -/

theorem sum_replicate_succ (k n : Nat) :
    ((List.replicate k (List.replicate n 97)).map fun s => s.length + 1).sum = k * (n + 1) := by
  induction k with
  | zero => simp
  | succ k ih =>
    rw [List.replicate_succ, List.map_cons, List.sum_cons, ih, List.length_replicate]
    ring

/-- A TXT record with the owner `a`, written with enough room at index 12: the head, the
RDLENGTH (the number of payload octets modulo 65536) and the payload. -/
theorem txt_record (ss : List (List Nat)) (buf : List Nat) (n : Nat) (hb : 12 ≤ buf.length)
    (h : 13 + (ss.map fun s => s.length + 1).sum ≤ n) :
    ∃ payload, payload.length = (ss.map fun s => s.length + 1).sum ∧
      BuildRData (BuildRRecord ⟨tableA, buf, some 12, n⟩ 1 16 1 120) 16 (.txtData ss) =
        ⟨[(12, [(0, str "a")])],
          store buf 12 ([1, 97, 0, 0, 16, 0, 1, 0, 0, 0, 120] ++
            be16 ((ss.map fun s => s.length + 1).sum % 65536) ++ payload),
          some (12 + (13 + (ss.map fun s => s.length + 1).sum)),
          n - (13 + (ss.map fun s => s.length + 1).sum)⟩ := by
  have ht : Typed ⟨(1, str "a"), .txtData ss, 16, 1, 120⟩ :=
    Or.inr (Or.inr (Or.inr (Or.inl ⟨rfl, ss, rfl⟩)))
  have hi : Interned ⟨(1, str "a"), .txtData ss, 16, 1, 120⟩ :=
    ⟨(by simp only []; omega), (fun p hp => by cases hp), (fun s hs => by cases hs)⟩
  have hrec : recLen tableA ⟨(1, str "a"), .txtData ss, 16, 1, 120⟩
      = 13 + (ss.map fun s => s.length + 1).sum := by
    simp only [recLen, payloadLen]
    have : nameLen tableA 1 = 3 := by decide
    rw [this]
  have hfit := record_fit ⟨tableA, buf, some 12, n⟩ ⟨(1, str "a"), .txtData ss, 16, 1, 120⟩ 12
    ht hi rfl hb (by rw [hrec]; exact h)
  simp only [hrec] at hfit
  refine ⟨(ss.map fun s => (s.length % 256) :: s).flatten, txt_length ss, ?_⟩
  rw [hfit]
  have hhead : recordHead tableA 12 ⟨(1, str "a"), .txtData ss, 16, 1, 120⟩
      = [1, 97, 0, 0, 16, 0, 1, 0, 0, 0, 120] := by
    simp only [recordHead]
    decide
  have hT : setOffset tableA (1 - 1) 12 = [(12, [(0, str "a")])] := by decide
  simp only [recordOctets, payloadOctets, hhead, hT, txt_length]

/-- C29 (counterexample): the TXT record with the owner `a` and 256 strings of 255 octets,
written at index 12 with room for its 65549 octets: the payload has 65536 octets and the
RDLENGTH before it is `00 00`. -/
theorem C29_rdlength_wraps :
    bigTxt.usType = 16 ∧
    ∃ payload, payload.length = 65536 ∧
      BuildRData (BuildRRecord ⟨tableA, List.replicate 65600 0, some 12, 65588⟩ bigTxt.strLabel.1
          bigTxt.usType bigTxt.usClass bigTxt.iTtl) bigTxt.usType bigTxt.rData =
        ⟨[(12, [(0, str "a")])],
          store (List.replicate 65600 0) 12
            ([1, 97, 0, 0, 16, 0, 1, 0, 0, 0, 120] ++ [0, 0] ++ payload),
          some (12 + (13 + 65536)), 65588 - (13 + 65536)⟩ := by
  have hs := sum_replicate_succ 256 255
  have hs2 : ((List.replicate 256 (List.replicate 255 97)).map fun s => s.length + 1).sum
      = 65536 := by rw [hs]
  obtain ⟨payload, h1, h2⟩ := txt_record (List.replicate 256 (List.replicate 255 97))
    (List.replicate 65600 0) 65588 (by rw [List.length_replicate]; omega) (by rw [hs2]; omega)
  rw [hs2] at h1 h2
  exact ⟨rfl, payload, h1, h2⟩

/-! ## The constructor with the memory behind the datagram -/

theorem walk_mem (buf : List Nat) : ∀ fuel p s,
    ExtractLabelsMem.walk fuel buf buf.length p s = ExtractLabels.walk fuel buf p s := by
  intro fuel
  induction fuel with
  | zero => intro p s; rfl
  | succ fuel ih =>
    intro p s
    simp only [ExtractLabelsMem.walk, ExtractLabels.walk, ih]

theorem ExtractLabels_mem (fuel : Nat) (buf : List Nat) (p : Nat) (s : List Nat) :
    ExtractLabelsMem fuel buf buf.length p s = ExtractLabels fuel buf p s := by
  simp only [ExtractLabelsMem, ExtractLabels, walk_mem]

theorem ExtractQuestion_mem (fuel : Nat) (buf : List Nat) : ∀ k p,
    ExtractQuestionMem fuel buf buf.length k p = ExtractQuestion fuel buf k p := by
  intro k
  induction k with
  | zero => intro p; rfl
  | succ k ih =>
    intro p
    simp only [ExtractQuestionMem, ExtractQuestion, ExtractLabels_mem, ih]

theorem renderRData_mem (fuel : Nat) (buf : List Nat) (type cur rdlength : Nat) :
    renderRDataMem fuel buf buf.length type cur rdlength
      = renderRData fuel buf type cur rdlength := by
  unfold renderRDataMem renderRData
  simp only [ExtractLabels_mem]

theorem ExtractRRecords_mem (fuel : Nat) (buf : List Nat) : ∀ k p,
    ExtractRRecordsMem fuel buf buf.length k p = ExtractRRecords fuel buf k p := by
  intro k
  induction k with
  | zero => intro p; rfl
  | succ k ih =>
    intro p
    simp only [ExtractRRecordsMem, ExtractRRecords, ExtractLabels_mem, renderRData_mem, ih]

/-- Without octets behind the datagram, `decodeMem` is `decode`. -/
theorem decodeMem_nil (fuel : Nat) (buf : List Nat) : decodeMem fuel buf [] = decode fuel buf := by
  simp only [decodeMem, decode, List.append_nil, ExtractQuestion_mem, ExtractRRecords_mem]

/-- C12 fails: the constructor copies the twelve octets of the header from `szBuffer` whatever
`nBytInBuf` is and compares no index with `nBytInBuf` before the first name.  On the datagram
of five octets `00 00 00 00 00` with seven octets 0 behind it in the memory (the receive
buffer is allocated zero-filled for all the octets that the socket has, and `Read` hands over
one datagram of them) it reads a header with the four counts 0 and returns without an error
message and with `m_nBytesDecodet` = 12, which is more than the 5 octets of the input.  So for
every datagram of fewer than twelve octets whose header, read with the octets behind it, has
the four counts 0. -/
theorem C12_twelve_of_five_octets :
    (∀ fuel, decodeMem fuel shortDatagram (List.replicate 7 0) =
      ⟨⟨0, 0, 0, 0, 0, 0, 0, 0, 0, 0, 0, 0, 0⟩, [], [], [], [], "", some 12, .returned⟩) ∧
    shortDatagram.length = 5 ∧
    (∀ fuel buf behind, buf.length < 12 → 12 ≤ (buf ++ behind).length →
      (readHeader (buf ++ behind)).QDCOUNT = 0 → (readHeader (buf ++ behind)).ANCOUNT = 0 →
      (readHeader (buf ++ behind)).NSCOUNT = 0 → (readHeader (buf ++ behind)).ARCOUNT = 0 →
      (decodeMem fuel buf behind).outcome = .returned ∧
      (decodeMem fuel buf behind).m_strLastErrMsg = "" ∧
      (decodeMem fuel buf behind).m_nBytesDecodet = some 12 ∧ buf.length < 12) ∧
    (∀ fuel, (decode fuel shortDatagram).outcome = .outOfBounds 5) := by
  refine ⟨fun fuel => rfl, rfl, ?_, fun fuel => rfl⟩
  intro fuel buf behind h1 h2 hq ha hn hr
  simp only [decodeMem, hq, ha, hn, hr]
  rw [if_neg (by omega)]
  simp [h1]

/-! ## The objects of the caller -/

theorem assignFirst_length (heap : List IDxSTRING) (a v : Nat) :
    (assignFirst heap a v).length = heap.length := by
  simp [assignFirst]

theorem assignFirst_same (heap : List IDxSTRING) (a v : Nat) (h : a < heap.length) :
    (assignFirst heap a v).getD a default = (v, (heap.getD a default).2) := by
  simp [assignFirst, List.getD_eq_getElem?_getD, List.getElem?_set, h]

theorem assignFirst_other (heap : List IDxSTRING) (a b v : Nat) (h : b ≠ a) :
    (assignFirst heap a v).getD b default = heap.getD b default := by
  simp [assignFirst, List.getD_eq_getElem?_getD, List.getElem?_set, Ne.symm h]

theorem load_congr (h1 h2 : List IDxSTRING) (x : ITEMREF)
    (h : ∀ a ∈ x.cells, h1.getD a default = h2.getD a default) : x.load h1 = x.load h2 := by
  obtain ⟨l, rd, ty, cl, ttl⟩ := x
  cases rd <;> simp [ITEMREF.load, ITEMREF.cells] at h ⊢ <;> simp [h]

theorem map_load_congr (h1 h2 : List IDxSTRING) (L : List ITEMREF)
    (h : ∀ a ∈ L.flatMap ITEMREF.cells, h1.getD a default = h2.getD a default) :
    L.map (ITEMREF.load h1) = L.map (ITEMREF.load h2) := by
  apply List.map_congr_left
  intro x hx
  exact load_congr h1 h2 x (fun a ha => h a (List.mem_flatMap.mpr ⟨x, hx, ha⟩))

/-- On an item that shares no object, the loop body on the objects of the caller does what
`internItem` does on the item with its own copies. -/
theorem internItemRef_spec (off : OFFSETLIST) (heap : List IDxSTRING) (x : ITEMREF)
    (hn : x.cells.Nodup) (hv : ∀ a ∈ x.cells, a < heap.length) :
    (internItemRef off heap x).1 = (internItem off (x.load heap)).1 ∧
    x.load (internItemRef off heap x).2 = (internItem off (x.load heap)).2 ∧
    (∀ b, b ∉ x.cells → (internItemRef off heap x).2.getD b default = heap.getD b default) ∧
    (internItemRef off heap x).2.length = heap.length := by
  obtain ⟨l, rd, ty, cl, ttl⟩ := x
  have hl : l < heap.length := hv l (by simp [ITEMREF.cells])
  cases rd with
  | pVoid o =>
    have e1 : internItemRef off heap ⟨l, .pVoid o, ty, cl, ttl⟩
        = ((BuildLabelReferenc (heap.getD l default).2 off).2,
            assignFirst heap l (BuildLabelReferenc (heap.getD l default).2 off).1) := by
      simp only [internItemRef]
    have e2 : internItem off (ITEMREF.load heap ⟨l, .pVoid o, ty, cl, ttl⟩)
        = ((BuildLabelReferenc (heap.getD l default).2 off).2,
            ⟨((BuildLabelReferenc (heap.getD l default).2 off).1, (heap.getD l default).2),
              .pVoid o, ty, cl, ttl⟩) := by
      simp only [internItem, ITEMREF.load]
    rw [e1, e2]
    refine ⟨rfl, ?_, ?_, assignFirst_length _ _ _⟩
    · simp only [ITEMREF.load, assignFirst_same heap l _ hl]
    · intro b hb
      simp only [ITEMREF.cells, List.mem_cons, List.not_mem_nil, or_false] at hb
      exact assignFirst_other heap l b _ hb
  | txtData ss =>
    have e1 : internItemRef off heap ⟨l, .txtData ss, ty, cl, ttl⟩
        = ((BuildLabelReferenc (heap.getD l default).2 off).2,
            assignFirst heap l (BuildLabelReferenc (heap.getD l default).2 off).1) := by
      simp only [internItemRef]
    have e2 : internItem off (ITEMREF.load heap ⟨l, .txtData ss, ty, cl, ttl⟩)
        = ((BuildLabelReferenc (heap.getD l default).2 off).2,
            ⟨((BuildLabelReferenc (heap.getD l default).2 off).1, (heap.getD l default).2),
              .txtData ss, ty, cl, ttl⟩) := by
      simp only [internItem, ITEMREF.load]
    rw [e1, e2]
    refine ⟨rfl, ?_, ?_, assignFirst_length _ _ _⟩
    · simp only [ITEMREF.load, assignFirst_same heap l _ hl]
    · intro b hb
      simp only [ITEMREF.cells, List.mem_cons, List.not_mem_nil, or_false] at hb
      exact assignFirst_other heap l b _ hb
  | ptrData a =>
    have ha : a < heap.length := hv a (by simp [ITEMREF.cells])
    have hne : a ≠ l := by
      simp only [ITEMREF.cells, List.nodup_cons, List.mem_singleton] at hn
      exact fun h => hn.1 h.symm
    have g1 : ∀ v, (assignFirst heap l v).getD a default = heap.getD a default :=
      fun v => assignFirst_other heap l a v hne
    have g2 : ∀ v w, (assignFirst (assignFirst heap l v) a w).getD l default
        = (v, (heap.getD l default).2) := fun v w => by
      rw [assignFirst_other _ a l w (Ne.symm hne), assignFirst_same heap l v hl]
    have g3 : ∀ v w, (assignFirst (assignFirst heap l v) a w).getD a default
        = (w, (heap.getD a default).2) := fun v w => by
      rw [assignFirst_same _ a w (by rw [assignFirst_length]; exact ha), g1]
    by_cases hty : ty = 12
    · subst hty
      have e1 : internItemRef off heap ⟨l, .ptrData a, 12, cl, ttl⟩
          = ((BuildLabelReferenc (heap.getD a default).2
                (BuildLabelReferenc (heap.getD l default).2 off).2).2,
              assignFirst (assignFirst heap l (BuildLabelReferenc (heap.getD l default).2 off).1) a
                (BuildLabelReferenc (heap.getD a default).2
                  (BuildLabelReferenc (heap.getD l default).2 off).2).1) := by
        simp only [internItemRef, g1]
      have e2 : internItem off (ITEMREF.load heap ⟨l, .ptrData a, 12, cl, ttl⟩)
          = ((BuildLabelReferenc (heap.getD a default).2
                (BuildLabelReferenc (heap.getD l default).2 off).2).2,
              ⟨((BuildLabelReferenc (heap.getD l default).2 off).1, (heap.getD l default).2),
                .ptrData (((BuildLabelReferenc (heap.getD a default).2 (BuildLabelReferenc (heap.getD l default).2 off).2).1, (heap.getD a default).2)),
                12, cl, ttl⟩) := by
        simp only [internItem, ITEMREF.load]
      rw [e1, e2]
      refine ⟨rfl, ?_, ?_, by simp [assignFirst_length]⟩
      · simp only [ITEMREF.load, g2, g3]
      · intro b hb
        simp only [ITEMREF.cells, List.mem_cons, List.mem_singleton, List.not_mem_nil, or_false,
          not_or] at hb
        rw [assignFirst_other _ a b _ hb.2, assignFirst_other _ l b _ hb.1]
    · have e1 : internItemRef off heap ⟨l, .ptrData a, ty, cl, ttl⟩
          = ((BuildLabelReferenc (heap.getD l default).2 off).2,
              assignFirst heap l (BuildLabelReferenc (heap.getD l default).2 off).1) := by
        simp only [internItemRef]
        split <;> first | rfl | simp_all
      have e2 : internItem off (ITEMREF.load heap ⟨l, .ptrData a, ty, cl, ttl⟩)
          = ((BuildLabelReferenc (heap.getD l default).2 off).2,
              ⟨((BuildLabelReferenc (heap.getD l default).2 off).1, (heap.getD l default).2),
                .ptrData (heap.getD a default), ty, cl, ttl⟩) := by
        simp only [internItem, ITEMREF.load]
        split <;> first | rfl | simp_all
      rw [e1, e2]
      refine ⟨rfl, ?_, ?_, assignFirst_length _ _ _⟩
      · simp only [ITEMREF.load, assignFirst_same heap l _ hl, g1]
      · intro b hb
        simp only [ITEMREF.cells, List.mem_cons, List.mem_singleton, List.not_mem_nil, or_false,
          not_or] at hb
        exact assignFirst_other heap l b _ hb.1
  | svData p w q a =>
    have ha : a < heap.length := hv a (by simp [ITEMREF.cells])
    have hne : a ≠ l := by
      simp only [ITEMREF.cells, List.nodup_cons, List.mem_singleton] at hn
      exact fun h => hn.1 h.symm
    have g1 : ∀ v, (assignFirst heap l v).getD a default = heap.getD a default :=
      fun v => assignFirst_other heap l a v hne
    have g2 : ∀ v w, (assignFirst (assignFirst heap l v) a w).getD l default
        = (v, (heap.getD l default).2) := fun v w => by
      rw [assignFirst_other _ a l w (Ne.symm hne), assignFirst_same heap l v hl]
    have g3 : ∀ v w, (assignFirst (assignFirst heap l v) a w).getD a default
        = (w, (heap.getD a default).2) := fun v w => by
      rw [assignFirst_same _ a w (by rw [assignFirst_length]; exact ha), g1]
    by_cases hty : ty = 33
    · subst hty
      have e1 : internItemRef off heap ⟨l, .svData p w q a, 33, cl, ttl⟩
          = ((BuildLabelReferenc (heap.getD a default).2
                (BuildLabelReferenc (heap.getD l default).2 off).2).2,
              assignFirst (assignFirst heap l (BuildLabelReferenc (heap.getD l default).2 off).1) a
                (BuildLabelReferenc (heap.getD a default).2
                  (BuildLabelReferenc (heap.getD l default).2 off).2).1) := by
        simp only [internItemRef, g1]
      have e2 : internItem off (ITEMREF.load heap ⟨l, .svData p w q a, 33, cl, ttl⟩)
          = ((BuildLabelReferenc (heap.getD a default).2
                (BuildLabelReferenc (heap.getD l default).2 off).2).2,
              ⟨((BuildLabelReferenc (heap.getD l default).2 off).1, (heap.getD l default).2),
                .svData ⟨p, w, q, ((BuildLabelReferenc (heap.getD a default).2 (BuildLabelReferenc (heap.getD l default).2 off).2).1, (heap.getD a default).2)⟩,
                33, cl, ttl⟩) := by
        simp only [internItem, ITEMREF.load]
      rw [e1, e2]
      refine ⟨rfl, ?_, ?_, by simp [assignFirst_length]⟩
      · simp only [ITEMREF.load, g2, g3]
      · intro b hb
        simp only [ITEMREF.cells, List.mem_cons, List.mem_singleton, List.not_mem_nil, or_false,
          not_or] at hb
        rw [assignFirst_other _ a b _ hb.2, assignFirst_other _ l b _ hb.1]
    · have e1 : internItemRef off heap ⟨l, .svData p w q a, ty, cl, ttl⟩
          = ((BuildLabelReferenc (heap.getD l default).2 off).2,
              assignFirst heap l (BuildLabelReferenc (heap.getD l default).2 off).1) := by
        simp only [internItemRef]
        split <;> first | rfl | simp_all
      have e2 : internItem off (ITEMREF.load heap ⟨l, .svData p w q a, ty, cl, ttl⟩)
          = ((BuildLabelReferenc (heap.getD l default).2 off).2,
              ⟨((BuildLabelReferenc (heap.getD l default).2 off).1, (heap.getD l default).2),
                .svData ⟨p, w, q, heap.getD a default⟩, ty, cl, ttl⟩) := by
        simp only [internItem, ITEMREF.load]
        split <;> first | rfl | simp_all
      rw [e1, e2]
      refine ⟨rfl, ?_, ?_, assignFirst_length _ _ _⟩
      · simp only [ITEMREF.load, assignFirst_same heap l _ hl, g1]
      · intro b hb
        simp only [ITEMREF.cells, List.mem_cons, List.mem_singleton, List.not_mem_nil, or_false,
          not_or] at hb
        exact assignFirst_other heap l b _ hb.1

/-- On a list of items that share no object, the lambda `fnExtractLabels` on the objects of the
caller does what it does on items with their own copies, and leaves the other objects as they
are. -/
theorem fnExtractLabelsRef_spec (L : List ITEMREF) : ∀ (off : OFFSETLIST) (heap : List IDxSTRING),
    (L.flatMap ITEMREF.cells).Nodup → (∀ a ∈ L.flatMap ITEMREF.cells, a < heap.length) →
    (fnExtractLabelsRef off heap L).1 = (fnExtractLabels off (L.map (ITEMREF.load heap))).1 ∧
    L.map (ITEMREF.load (fnExtractLabelsRef off heap L).2)
      = (fnExtractLabels off (L.map (ITEMREF.load heap))).2 ∧
    (∀ b, b ∉ L.flatMap ITEMREF.cells →
      (fnExtractLabelsRef off heap L).2.getD b default = heap.getD b default) ∧
    (fnExtractLabelsRef off heap L).2.length = heap.length := by
  induction L with
  | nil => intro off heap _ _; exact ⟨rfl, rfl, fun _ _ => rfl, rfl⟩
  | cons x rest ih =>
    intro off heap hn hv
    rw [List.flatMap_cons] at hn hv
    rw [List.nodup_append] at hn
    obtain ⟨hnx, hnr, hdis⟩ := hn
    obtain ⟨s1, s2, s3, s4⟩ := internItemRef_spec off heap x hnx
      (fun a ha => hv a (List.mem_append_left _ ha))
    have hv1 : ∀ a ∈ rest.flatMap ITEMREF.cells, a < (internItemRef off heap x).2.length :=
      fun a ha => by rw [s4]; exact hv a (List.mem_append_right _ ha)
    obtain ⟨r1, r2, r3, r4⟩ := ih (internItemRef off heap x).1 (internItemRef off heap x).2 hnr hv1
    have hrest : rest.map (ITEMREF.load (internItemRef off heap x).2)
        = rest.map (ITEMREF.load heap) :=
      map_load_congr _ _ rest (fun a ha => s3 a (fun hx => hdis hx ha))
    have hx : x.load (fnExtractLabelsRef (internItemRef off heap x).1
        (internItemRef off heap x).2 rest).2 = x.load (internItemRef off heap x).2 :=
      load_congr _ _ x (fun a ha => r3 a (fun hr => hdis ha hr))
    rw [hrest] at r1 r2
    simp only [fnExtractLabelsRef, fnExtractLabels, List.map_cons]
    rw [← s1]
    refine ⟨r1, ?_, ?_, by rw [r4, s4]⟩
    · rw [hx, s2, r2]
    · intro b hb
      rw [List.flatMap_cons, List.mem_append, not_or] at hb
      rw [r3 b hb.2, s3 b hb.1]

/-- Where no object is shared, `BuildAnswer` on the objects of the caller is `BuildAnswer` on
the items with their own copies of the objects. -/
theorem BuildAnswerRef_unshared (heap : List IDxSTRING) (An Ns Ar : List ITEMREF)
    (szBuffer : Option (List Nat)) (nBuflen : Nat) (h : NoSharing heap An Ns Ar) :
    BuildAnswerRef heap An Ns Ar szBuffer nBuflen =
      BuildAnswer (An.map (ITEMREF.load heap)) (Ns.map (ITEMREF.load heap))
        (Ar.map (ITEMREF.load heap)) szBuffer nBuflen := by
  obtain ⟨hn, hv⟩ := h
  rw [List.flatMap_append, List.flatMap_append] at hn hv
  rw [List.nodup_append] at hn
  obtain ⟨hnAN, hnR, dR⟩ := hn
  rw [List.nodup_append] at hnAN
  obtain ⟨hnA, hnN, dAN⟩ := hnAN
  have vA : ∀ a ∈ An.flatMap ITEMREF.cells, a < heap.length :=
    fun a ha => hv a (List.mem_append_left _ (List.mem_append_left _ ha))
  have vN : ∀ a ∈ Ns.flatMap ITEMREF.cells, a < heap.length :=
    fun a ha => hv a (List.mem_append_left _ (List.mem_append_right _ ha))
  have vR : ∀ a ∈ Ar.flatMap ITEMREF.cells, a < heap.length :=
    fun a ha => hv a (List.mem_append_right _ ha)
  obtain ⟨a1, a2, a3, a4⟩ := fnExtractLabelsRef_spec An [] heap hnA vA
  generalize hE1 : fnExtractLabelsRef [] heap An = E1 at a1 a2 a3 a4
  obtain ⟨b1, b2, b3, b4⟩ := fnExtractLabelsRef_spec Ns E1.1 E1.2 hnN
    (fun a ha => by rw [a4]; exact vN a ha)
  generalize hE2 : fnExtractLabelsRef E1.1 E1.2 Ns = E2 at b1 b2 b3 b4
  obtain ⟨c1, c2, c3, c4⟩ := fnExtractLabelsRef_spec Ar E2.1 E2.2 hnR
    (fun a ha => by rw [b4, a4]; exact vR a ha)
  generalize hE3 : fnExtractLabelsRef E2.1 E2.2 Ar = E3 at c1 c2 c3 c4
  have lN : Ns.map (ITEMREF.load E1.2) = Ns.map (ITEMREF.load heap) :=
    map_load_congr _ _ Ns (fun a ha => a3 a (fun hA => dAN hA ha))
  have lR : Ar.map (ITEMREF.load E2.2) = Ar.map (ITEMREF.load heap) :=
    map_load_congr _ _ Ar (fun a ha => by
      rw [b3 a (fun hN => dR (List.mem_append_right _ hN) ha),
        a3 a (fun hA => dR (List.mem_append_left _ hA) ha)])
  have fA : An.map (ITEMREF.load E3.2) = An.map (ITEMREF.load E1.2) :=
    map_load_congr _ _ An (fun a ha => by
      rw [c3 a (fun hR => dR (List.mem_append_left _ ha) hR), b3 a (fun hN => dAN ha hN)])
  have fN : Ns.map (ITEMREF.load E3.2) = Ns.map (ITEMREF.load E2.2) :=
    map_load_congr _ _ Ns (fun a ha => c3 a (fun hR => dR (List.mem_append_right _ ha) hR))
  rw [lN, a1] at b1 b2
  rw [lR, b1] at c1 c2
  simp only [BuildAnswerRef, BuildAnswer, hE1, hE2, hE3, fA, fN, a2, b2, c2, c1, List.length_map]

/-- C2 (amended): for three lists of records of the types A, AAAA, PTR, TXT and SRV with
well-formed names and TXT strings of at most 255 octets, of at most 150 records together, in
which no two records share an object (every record has its own `strLabel`, its own PTR target
and its own SRV host, and stands in one list only), whose datagram is shorter than 16384
octets: the constructor on the datagram that `BuildAnswer` writes into a buffer of the probed
size returns without an error message, and its three sections repeat, record by record and in
order, the owner name of every item, the target of every PTR item and the numbers and the host
of every SRV item. -/
theorem C2_roundtrip_unshared (heap : List IDxSTRING) (An Ns Ar : List ITEMREF)
    (buf : List Nat) (hshare : NoSharing heap An Ns Ar)
    (hA : ∀ it ∈ An, WellFormedItem (it.load heap))
    (hN : ∀ it ∈ Ns, WellFormedItem (it.load heap))
    (hR : ∀ it ∈ Ar, WellFormedItem (it.load heap))
    (hcount : An.length + Ns.length + Ar.length ≤ 150)
    (hsmall : (BuildAnswerRef heap An Ns Ar none 0).nBuflen < 16384)
    (hbuf : buf.length = (BuildAnswerRef heap An Ns Ar none 0).nBuflen) :
    ∃ datagram F, (BuildAnswerRef heap An Ns Ar (some buf) buf.length).szBuffer = some datagram ∧
      ∀ fuel, F ≤ fuel →
        (decode fuel datagram).outcome = .returned ∧
        (decode fuel datagram).m_strLastErrMsg = "" ∧
        List.Forall₂ Echo (An.map (ITEMREF.load heap)) (decode fuel datagram).m_pAnswers ∧
        List.Forall₂ Echo (Ns.map (ITEMREF.load heap)) (decode fuel datagram).m_pNameServ ∧
        List.Forall₂ Echo (Ar.map (ITEMREF.load heap)) (decode fuel datagram).m_pExtraRec := by
  rw [BuildAnswerRef_unshared heap An Ns Ar _ _ hshare] at hsmall hbuf ⊢
  have wf : ∀ (L : List ITEMREF), (∀ it ∈ L, WellFormedItem (it.load heap)) →
      ∀ jt ∈ L.map (ITEMREF.load heap), WellFormedItem jt := by
    intro L hL jt hjt
    obtain ⟨it, hit, rfl⟩ := List.mem_map.mp hjt
    exact hL it hit
  exact answer_roundtrip_owned _ _ _ buf (wf An hA) (wf Ns hN) (wf Ar hR)
    (by simpa using hcount) hsmall hbuf

theorem sample_loads :
    sampleAnRef.map (ITEMREF.load sampleHeap) = sampleAn ∧
    sampleNsRef.map (ITEMREF.load sampleHeap) = sampleNs ∧
    sampleArRef.map (ITEMREF.load sampleHeap) = sampleAr := by decide

theorem sample_unshared : NoSharing sampleHeap sampleAnRef sampleNsRef sampleArRef := by
  unfold NoSharing
  decide

set_option maxRecDepth 100000 in
/-- Witness of C2: an answer list with a PTR and an SRV record, an authority list with a TXT
record and an additional list with an A and an AAAA record, every record with its own objects,
in a buffer of 133 octets. -/
theorem C2_roundtrip_unshared_witness :
    ∃ datagram F, (BuildAnswerRef sampleHeap sampleAnRef sampleNsRef sampleArRef
        (some (List.replicate 133 7)) (List.replicate 133 7).length).szBuffer = some datagram ∧
      ∀ fuel, F ≤ fuel →
        (decode fuel datagram).outcome = .returned ∧
        (decode fuel datagram).m_strLastErrMsg = "" ∧
        List.Forall₂ Echo (sampleAnRef.map (ITEMREF.load sampleHeap))
          (decode fuel datagram).m_pAnswers ∧
        List.Forall₂ Echo (sampleNsRef.map (ITEMREF.load sampleHeap))
          (decode fuel datagram).m_pNameServ ∧
        List.Forall₂ Echo (sampleArRef.map (ITEMREF.load sampleHeap))
          (decode fuel datagram).m_pExtraRec :=
  C2_roundtrip_unshared sampleHeap sampleAnRef sampleNsRef sampleArRef (List.replicate 133 7)
    sample_unshared
    (fun it h => sampleAn_wf _ (by rw [← sample_loads.1]; exact List.mem_map_of_mem _ h))
    (fun it h => sampleNs_wf _ (by rw [← sample_loads.2.1]; exact List.mem_map_of_mem _ h))
    (fun it h => sampleAr_wf _ (by rw [← sample_loads.2.2]; exact List.mem_map_of_mem _ h))
    (by decide) (by decide) (by decide)

theorem load_replicate (n : Nat) (c : IDxSTRING) (o : List Nat) (ty cl : Nat) (ttl : Int) :
    (List.range n).map (fun i => ITEMREF.load (List.replicate n c) ⟨i, .pVoid o, ty, cl, ttl⟩)
      = List.replicate n ⟨c, .pVoid o, ty, cl, ttl⟩ := by
  apply List.ext_getElem
  · simp
  · intro i h1 h2
    simp only [List.length_map, List.length_range] at h1
    simp [ITEMREF.load, List.getD_eq_getElem?_getD, List.getElem?_replicate, h1]

theorem manyRefs_loads : manyRefs.map (ITEMREF.load manyHeap) = manyRecords := by
  simp only [manyRefs, manyHeap, manyRecords, List.map_map]
  exact load_replicate 151 _ _ _ _ _

theorem manyRefs_unshared : NoSharing manyHeap manyRefs [] [] := by
  have hc : (manyRefs ++ [] ++ []).flatMap ITEMREF.cells = List.range 151 := by
    simp only [List.append_nil, manyRefs, List.flatMap_map]
    have : ∀ n, (List.range n).flatMap (fun i => [i]) = List.range n := by
      intro n
      induction n with
      | zero => rfl
      | succ n ih => rw [List.range_succ, List.flatMap_append, ih]; rfl
    exact this 151
  unfold NoSharing
  rw [hc]
  refine ⟨List.nodup_range 151, fun a ha => ?_⟩
  rw [List.mem_range] at ha
  simpa [manyHeap] using ha

/-- C2 (counterexample): two lists that meet the claim and are not read back.  Two PTR records
with the owners `a.local` and `b.local` whose pointers are the address of one object
`t.local`: the index of the object is written twice and both records are written with the
later one, the datagram has 49 octets, both targets are written as `C0 00`, and the
constructor returns without an error message and with the empty string as RDATA of both
records.  And 151 A records with the owner name `a`, every record with its own object: the
datagram is shorter than 16384 octets and the constructor throws on the sum of the header
counts, so no record is extracted. -/
theorem C2_shared_target_or_151_records :
    ((∀ it ∈ sharedTarget, WellFormedItem (it.load sharedHeap)) ∧
      sharedTarget.map (ITEMREF.load sharedHeap) =
        [⟨(0, str "a.local"), .ptrData (0, str "t.local"), 12, 1, 120⟩,
         ⟨(0, str "b.local"), .ptrData (0, str "t.local"), 12, 1, 120⟩] ∧
      BuildAnswerRef sharedHeap sharedTarget [] [] none 0 = ⟨0, none, 49⟩ ∧
      BuildAnswerRef sharedHeap sharedTarget [] [] (some (List.replicate 49 0)) 49 =
        ⟨49, some [0, 0, 1, 0, 0, 0, 0, 2, 0, 0, 0, 0,
          1, 97, 5, 108, 111, 99, 97, 108, 0, 0, 12, 0, 1, 0, 0, 0, 120, 0, 2, 192, 0,
          1, 98, 192, 14, 0, 12, 0, 1, 0, 0, 0, 120, 0, 2, 192, 0], 0⟩ ∧
      ∀ fuel, decode (fuel + 4) [0, 0, 1, 0, 0, 0, 0, 2, 0, 0, 0, 0,
          1, 97, 5, 108, 111, 99, 97, 108, 0, 0, 12, 0, 1, 0, 0, 0, 120, 0, 2, 192, 0,
          1, 98, 192, 14, 0, 12, 0, 1, 0, 0, 0, 120, 0, 2, 192, 0] =
        ⟨⟨0, 1, 0, 0, 0, 0, 0, 0, 0, 0, 2, 0, 0⟩, [],
          [⟨str "a.local", 12, 1, 120, 2, []⟩, ⟨str "b.local", 12, 1, 120, 2, []⟩], [], [], "",
          some 49, .returned⟩) ∧
    (NoSharing manyHeap manyRefs [] [] ∧
      (∀ it ∈ manyRefs, WellFormedItem (it.load manyHeap)) ∧
      (BuildAnswerRef manyHeap manyRefs [] [] none 0).nBuflen < 16384 ∧
      ∃ datagram, (BuildAnswerRef manyHeap manyRefs [] []
          (some (List.replicate (BuildAnswerRef manyHeap manyRefs [] [] none 0).nBuflen 0))
          (BuildAnswerRef manyHeap manyRefs [] [] none 0).nBuflen).szBuffer = some datagram ∧
        ∀ fuel, (decode fuel datagram).outcome = .uncaught "Invalid buffer content" ∧
          (decode fuel datagram).m_pAnswers = []) := by
  refine ⟨⟨?_, by decide, by decide, by decide, fun fuel => rfl⟩, manyRefs_unshared, ?_, ?_, ?_⟩
  · intro it hit
    have hl : (⟨(0, str "a.local"), .ptrData (0, str "t.local"), 12, 1, 120⟩ : ANSWERITEM)
        = ⟨(0, str "a.local"), .ptrData (0, str "t.local"), 12, 1, 120⟩ := rfl
    simp only [sharedTarget, List.mem_cons, List.mem_singleton, List.not_mem_nil, or_false] at hit
    rcases hit with rfl | rfl
    · refine ⟨Or.inr (Or.inr (Or.inl ⟨rfl, _, rfl⟩)),
        ⟨[str "a", str "local"], ⟨by decide, by decide⟩, by decide⟩, ?_, ?_, ?_⟩
      · intro p hp
        have : p = (0, str "t.local") := by
          have h2 : RDATA.ptrData (0, str "t.local") = RDATA.ptrData p := hp
          simp only [RDATA.ptrData.injEq] at h2
          exact h2.symm
        subst this
        exact ⟨[str "t", str "local"], ⟨by decide, by decide⟩, by decide⟩
      · intro s hs; cases hs
      · intro ss hs; cases hs
    · refine ⟨Or.inr (Or.inr (Or.inl ⟨rfl, _, rfl⟩)),
        ⟨[str "b", str "local"], ⟨by decide, by decide⟩, by decide⟩, ?_, ?_, ?_⟩
      · intro p hp
        have : p = (0, str "t.local") := by
          have h2 : RDATA.ptrData (0, str "t.local") = RDATA.ptrData p := hp
          simp only [RDATA.ptrData.injEq] at h2
          exact h2.symm
        subst this
        exact ⟨[str "t", str "local"], ⟨by decide, by decide⟩, by decide⟩
      · intro s hs; cases hs
      · intro ss hs; cases hs
  · intro it hit
    exact manyRecords_wf _ (by rw [← manyRefs_loads]; exact List.mem_map_of_mem _ hit)
  · rw [BuildAnswerRef_unshared manyHeap manyRefs [] [] _ _ manyRefs_unshared, manyRefs_loads]
    exact plain_small manyRecords manyRecords_wf manyRecords_plain
      (le_of_eq (List.length_replicate _ _))
  · rw [BuildAnswerRef_unshared manyHeap manyRefs [] [] _ _ manyRefs_unshared,
      BuildAnswerRef_unshared manyHeap manyRefs [] [] _ _ manyRefs_unshared, manyRefs_loads]
    exact too_many manyRecords manyRecords_wf
      (lt_of_lt_of_eq (by decide) (List.length_replicate _ _).symm)
      (lt_of_eq_of_lt (List.length_replicate _ _) (by decide))

end DnsProtokol
